import Mathlib

/-!
# DBow: inverted-file database, pairwise scorer and hierarchical vocabulary

A shallow embedding of `DBow/BowVector.cpp` (`Normalize`, `isInOrder`),
`DBow/VocParams.cpp`, `DBow/Vocabulary.cpp` (`Score`, `StopWords`,
`CreateStopList`, `Transform`, `GetWordWeightsAndCreateStopList`, the text and
binary headers, the branch of `Load`), `DBow/Database.cpp` (`_AddEntry`,
`_Query`, the six `doQuery*` routines) and `DBow/HVocabulary.cpp` (`Create`,
`HKMeansStep`, `RandomClustersPlusPlus`, `DescriptorSqDistance`, `CreateWords`,
`SetNodeWeights`, the descent `Transform(pfeature)`, `SaveText`, `SaveBinary`,
`LoadText`) and `DUtils/Random.h` (`RandomInt`, `RandomValue`).

Conventions of the embedding.

* `WordValue` (a C `double`) is an element of a linearly ordered field `K`;
  arithmetic is exact, so rounding, infinities and NaN are outside this first
  embedding. Instantiating `K` with `ℚ` makes every definition executable.
* The scorer and the queries are embedded a second time on `Double`, the
  binary64 format of IEEE 754 with its rounding to nearest, its infinities and
  its NaN (`Binary64.Score`, `Binary64._Query`): where a score of the program
  is NaN, or is off by the rounding of a square root, the statement is about
  this second embedding.
* `sqrt`, `log` and `std::sort` are library routines the repository calls but
  does not define; they are the fields of `StdLib`, and what a theorem needs
  to know about them is a hypothesis of that theorem.
* `WordId` and container sizes are natural numbers; the entry counter
  `m_nentries` is an `unsigned int` and wraps modulo `2^32`.
* `m_index[wid]` with `wid` outside the index is undefined in the source;
  the model reads an empty row and writes nothing there.
* A pointer into the arena `m_nodes` is the index of the node. The functions
  of the vocabulary that can fail an assertion, leave the arena, or loop in a
  malformed tree return an `Option`; a loop whose end depends on the tree gets
  one unit of fuel per node.
* `std::sort` as a template is the field of `StdAlgorithm`; its contract,
  `SortContract`, is a hypothesis where the order of the result matters.
* `DUtils::BinaryFile` is not among the sources: a `char` is written as one
  byte and an `int` as four bytes, lowest first, and the encodings of `float`
  and `double` are the fields of `BinaryFile`.
* `rand()` is the field of `RandomSource`: the value of every call, in the
  order of the calls. The two loops of the training whose end depends on the
  data or on the values drawn, `while(goon)` and the draw of `cut_d`, get one
  unit of a fuel per iteration; the theorems on `Create` show that enough fuel
  gives a result.
-/

set_option linter.unusedSectionVars false

namespace DBow

/-! ## VocParams -/

/-- The enumeration `VocParams::WeightingType`. -/
inductive WeightingType where
  | TF_IDF
  | TF
  | IDF
  | BINARY
  deriving DecidableEq, Repr

/-- The enumeration `VocParams::ScoringType`. -/
inductive ScoringType where
  | L1_NORM
  | L2_NORM
  | CHI_SQUARE
  | KL
  | BHATTACHARYYA
  | DOT_PRODUCT
  deriving DecidableEq, Repr

/-- The data members of `VocParams` (the vocabulary type tag has a single value). -/
structure VocParams where
  Weighting : WeightingType
  Scoring : ScoringType
  ScaleScore : Bool
  DescriptorLength : Int
  deriving DecidableEq, Repr

/-- The static `VocParams::MustNormalize(scoring, norm)`: `some norm` when the
function returns true and sets `norm`, `none` when it returns false. -/
def MustNormalize (scoring : ScoringType) : Option ScoringType :=
  match scoring with
  | .L2_NORM => some .L2_NORM
  | .L1_NORM => some .L1_NORM
  | .CHI_SQUARE => some .L1_NORM
  | .KL => some .L1_NORM
  | .BHATTACHARYYA => some .L1_NORM
  | .DOT_PRODUCT => none

/-! ## Library routines -/

/-- A query result: `struct Result` of `QueryResults.h`. -/
structure Result (K : Type) where
  Id : Nat
  Score : K
  deriving DecidableEq, Repr

/-- The routines of the C and C++ standard libraries used by the scorer and
the database: `sqrt`, `log` and `std::sort` on a vector of results with a
comparator. -/
structure StdLib (K : Type) where
  sqrt : K → K
  log : K → K
  sort : (Result K → Result K → Bool) → List (Result K) → List (Result K)

/-! ## BowVector -/

/-- The struct `BowVectorEntry`: a word id and its value. -/
structure BowVectorEntry (K : Type) where
  id : Nat
  value : K
  deriving DecidableEq, Repr

/-- The class `BowVector`, a `vector<BowVectorEntry>`. -/
abbrev BowVector (K : Type) := List (BowVectorEntry K)

section Defs

variable {K : Type} [LinearOrderedField K]

/-- `const WordValue EPSILON = DBL_EPSILON`, that is `2^-52`. -/
def EPSILON : K := 1 / 2 ^ 52

/-- `const WordValue LOG_EPS = log(EPSILON)`. -/
def LOG_EPS (L : StdLib K) : K := L.log EPSILON

/-- The magnitude computed by the first half of `BowVector::Normalize`:
the running sum of `fabs(value)` for `L1_NORM`, the square root of the running
sum of `value * value` for `L2_NORM`, and `0.0` in the `default` case. -/
def normOf (L : StdLib K) (norm_type : ScoringType) (v : BowVector K) : K :=
  match norm_type with
  | .L1_NORM => v.foldl (fun norm e => norm + |e.value|) 0
  | .L2_NORM => L.sqrt (v.foldl (fun norm e => norm + e.value * e.value) 0)
  | _ => 0

/-- `BowVector::Normalize(norm_type)`: every value is divided by the magnitude
when the magnitude is positive; otherwise the vector is left as it is. -/
def Normalize (L : StdLib K) (norm_type : ScoringType) (v : BowVector K) : BowVector K :=
  let norm := normOf L norm_type v
  if norm > 0 then v.map (fun e => { e with value := e.value / norm }) else v

/-- `BowVector::isInOrder` as documented: word ids strictly ascending. -/
def InOrder (v : BowVector K) : Prop :=
  v.Pairwise (fun x y => x.id < y.id)

instance (v : BowVector K) : Decidable (InOrder v) := by
  unfold InOrder
  infer_instance

/-- The normalisation step shared by `Vocabulary::Score`, `_AddEntry` and
`_Query`: `if (MustNormalize(scoring, norm)) v.Normalize(norm)`. -/
def normalizeFor (L : StdLib K) (scoring : ScoringType) (v : BowVector K) : BowVector K :=
  match MustNormalize scoring with
  | some norm => Normalize L norm v
  | none => v

/-! ## Vocabulary::Score -/

/-- The part of a `Vocabulary` object read by `Score` and by `Database`:
the creation flag, the parameters, and the value of the virtual
`GetNumberOfWords()`. -/
structure Vocabulary where
  m_created : Bool
  m_params : VocParams
  nwords : Nat
  deriving DecidableEq, Repr

/-- `Vocabulary::NumberOfWords`. -/
def Vocabulary.NumberOfWords (voc : Vocabulary) : Nat :=
  if voc.m_created then voc.nwords else 0

/-- `Vocabulary::Scoring`. -/
def Vocabulary.Scoring (voc : Vocabulary) : ScoringType := voc.m_params.Scoring

/-- The binary search inside the loop of `Vocabulary::Score`: looks for `id`
in `b[lo .. hi]` and returns its position, or `-1`. -/
def binarySearch (b : BowVector K) (id : Nat) (lo hi : Int) : Int :=
  if lo ≤ hi then
    let mid := (lo + hi) / 2
    match b[mid.toNat]? with
    | none => -1
    | some e =>
      if id = e.id then mid
      else if id < e.id then binarySearch b id lo (mid - 1)
      else binarySearch b id (mid + 1) hi
  else -1
termination_by (hi - lo + 1).toNat
decreasing_by
  all_goals simp_wf
  all_goals omega

/-- The value added to `score` for a common word, by scoring
(the first `switch` of `Vocabulary::Score`). -/
def pairValue (L : StdLib K) (scoring : ScoringType) (vi wi : K) : K :=
  match scoring with
  | .L1_NORM => |vi - wi| - |vi| - |wi|
  | .L2_NORM => vi * wi
  | .CHI_SQUARE => (vi - wi) * (vi - wi) / (vi + wi) - vi - wi
  | .KL => vi * L.log (vi / wi)
  | .BHATTACHARYYA => L.sqrt (vi * wi)
  | .DOT_PRODUCT => vi * wi

/-- One iteration of the main loop of `Vocabulary::Score`; the state is
`(score, first_index)`. -/
def scoreStep (L : StdLib K) (scoring : ScoringType) (b : BowVector K)
    (st : K × Nat) (ita : BowVectorEntry K) : K × Nat :=
  let pos := binarySearch b ita.id (st.2 : Int) ((b.length : Int) - 1)
  if 0 ≤ pos then
    match b[pos.toNat]? with
    | some e => (st.1 + pairValue L scoring ita.value e.value, pos.toNat + 1)
    | none => st
  else if scoring = .KL then
    (st.1 + ita.value * (L.log ita.value - LOG_EPS L), st.2)
  else st

/-- The main loop of `Vocabulary::Score` over `a`, searching in `b`. -/
def scoreLoop (L : StdLib K) (scoring : ScoringType) (a b : BowVector K) : K :=
  (a.foldl (scoreStep L scoring b) (0, 0)).1

/-- `accumulate(v.begin(), v.end(), 0.0)` with `operator+ (WordValue, BowVectorEntry)`. -/
def accumulateValues (v : BowVector K) : K :=
  v.foldl (fun w e => e.value + w) 0

/-- The final `switch` of `Vocabulary::Score`. -/
def finishScore (L : StdLib K) (p : VocParams) (a b : BowVector K) (score : K) : K :=
  match p.Scoring with
  | .L1_NORM => if p.ScaleScore then -score / 2 else 2 + score
  | .L2_NORM => if p.ScaleScore then 1 - L.sqrt (1 - score) else L.sqrt (2 - 2 * score)
  | .CHI_SQUARE =>
    let s := score + (accumulateValues a + accumulateValues b)
    if p.ScaleScore then 1 - s / 2 else s
  | _ => score

/-- `Vocabulary::Score(v, w)`. The two `assert(isInOrder())` calls are
preconditions and are hypotheses of the theorems. -/
def Vocabulary.Score (L : StdLib K) (voc : Vocabulary) (v w : BowVector K) : K :=
  let scoring := voc.m_params.Scoring
  let v2 := normalizeFor L scoring v
  let w2 := normalizeFor L scoring w
  let do_not_change_order := decide (scoring = .KL)
  let ab := if do_not_change_order || decide (v2.length < w2.length) then (v2, w2) else (w2, v2)
  finishScore L voc.m_params ab.1 ab.2 (scoreLoop L scoring ab.1 ab.2)

/-! ## Database -/

/-- The struct `Database::IFEntry`: an entry id and the value of the word in it. -/
structure IFEntry (K : Type) where
  id : Nat
  value : K
  deriving DecidableEq, Repr

/-- `Database::IFRow`, a `list<IFEntry>`. -/
abbrev IFRow (K : Type) := List (IFEntry K)

/-- The data members of `Database`: the vocabulary, the inverted file
(`m_index[wordid] = [<docid, value>, ...]`) and the number of entries. -/
structure Database (K : Type) where
  m_voc : Vocabulary
  m_index : List (IFRow K)
  m_nentries : Nat
  deriving Repr

/-- The constructor `Database::Database(const Vocabulary &voc)`. -/
def Database.create (K : Type) (voc : Vocabulary) : Database K :=
  { m_voc := voc, m_index := List.replicate voc.NumberOfWords [], m_nentries := 0 }

/-- `Database::NumberOfEntries`. -/
def Database.NumberOfEntries {K : Type} (db : Database K) : Nat := db.m_nentries

/-- `m_index[wid].push_back(e)`. -/
def pushBackAt {K : Type} (index : List (IFRow K)) (wid : Nat) (e : IFEntry K) :
    List (IFRow K) :=
  match index, wid with
  | [], _ => []
  | row :: rest, 0 => (row ++ [e]) :: rest
  | row :: rest, n + 1 => row :: pushBackAt rest n e

/-- `Database::_AddEntry`: returns the new entry id and the updated database.
The increment of the `unsigned int` counter wraps at `2^32`. -/
def Database._AddEntry (L : StdLib K) (db : Database K) (v : BowVector K) :
    Nat × Database K :=
  let v := normalizeFor L db.m_voc.Scoring v
  let eid := db.m_nentries
  let index := v.foldl (fun idx it => pushBackAt idx it.id ⟨eid, it.value⟩) db.m_index
  (eid, { db with m_index := index, m_nentries := (db.m_nentries + 1) % 4294967296 })

/-- `Database::AddEntry(const BowVector &v)`: works on a copy of `v`. -/
def Database.AddEntry (L : StdLib K) (db : Database K) (v : BowVector K) :
    Nat × Database K :=
  db._AddEntry L v

/-- `Database::Clear`. -/
def Database.Clear (db : Database K) : Database K :=
  { db with m_index := List.replicate db.m_voc.NumberOfWords [], m_nentries := 0 }

/-- The body of the inner loop shared by the six `doQuery*` routines:
`find(ret.begin(), ret.end(), eid)`, then `push_back(Result(eid, value))` when
the entry is not there and `qit->Score += value` when it is. -/
def addScore (ret : List (Result K)) (eid : Nat) (value : K) : List (Result K) :=
  match ret with
  | [] => [⟨eid, value⟩]
  | r :: rs =>
    if r.Id = eid then { r with Score := r.Score + value } :: rs
    else r :: addScore rs eid value

/-- The two nested loops shared by the six `doQuery*` routines: for each word
of `v`, for each entry of its row, add the scoring-dependent value `f qvalue dvalue`
to the result of that entry. -/
def accumulateRows (f : K → K → K) (index : List (IFRow K)) (v : BowVector K) :
    List (Result K) :=
  v.foldl (fun ret it =>
    (index.getD it.id []).foldl (fun ret rit => addScore ret rit.id (f it.value rit.value)) ret) []

/-- `Result::operator<`. -/
def Result.lt (a b : Result K) : Bool := decide (a.Score < b.Score)

/-- `Result::GreaterThan`. -/
def Result.GreaterThan (a b : Result K) : Bool := decide (a.Score > b.Score)

/-- The cut `if((int)ret.size() > max_results) ret.resize(max_results)`,
for `max_results ≥ 0` and fewer than `2^31` results. -/
def cut (ret : List (Result K)) (max_results : Nat) : List (Result K) :=
  if ret.length > max_results then ret.take max_results else ret

/-- The loops `for(qit ...) qit->Score = g(qit->Score)` that complete the scores. -/
def mapScore (g : K → K) (ret : List (Result K)) : List (Result K) :=
  ret.map (fun r => { r with Score := g r.Score })

/-- The accumulated, sorted and cut list of `doQueryL1`, before the scores
are completed. -/
def sortedL1 (L : StdLib K) (index : List (IFRow K)) (v : BowVector K) (max_results : Nat) :
    List (Result K) :=
  cut (L.sort Result.lt
    (accumulateRows (fun qvalue dvalue => |qvalue - dvalue| - |qvalue| - |dvalue|) index v))
    max_results

/-- `Database::doQueryL1`. -/
def doQueryL1 (L : StdLib K) (index : List (IFRow K)) (v : BowVector K) (max_results : Nat)
    (scale_score : Bool) : List (Result K) :=
  let ret := sortedL1 L index v max_results
  if scale_score then mapScore (fun s => -s / 2) ret else mapScore (fun s => 2 + s) ret

/-- The accumulated, sorted and cut list of `doQueryL2`, before the scores
are completed. -/
def sortedL2 (L : StdLib K) (index : List (IFRow K)) (v : BowVector K) (max_results : Nat) :
    List (Result K) :=
  cut (L.sort Result.lt (accumulateRows (fun qvalue dvalue => -(qvalue * dvalue)) index v))
    max_results

/-- `Database::doQueryL2`. -/
def doQueryL2 (L : StdLib K) (index : List (IFRow K)) (v : BowVector K) (max_results : Nat)
    (scale_score : Bool) : List (Result K) :=
  let ret := sortedL2 L index v max_results
  if scale_score then mapScore (fun s => 1 - L.sqrt (1 + s)) ret
  else mapScore (fun s => L.sqrt (2 + 2 * s)) ret

/-- The accumulated, sorted and cut list of `doQueryChiSquare`, before the
scores are completed. -/
def sortedChiSquare (L : StdLib K) (index : List (IFRow K)) (v : BowVector K)
    (max_results : Nat) : List (Result K) :=
  cut (L.sort Result.lt
    (accumulateRows (fun vi wi => (vi - wi) * (vi - wi) / (vi + wi) - vi - wi) index v))
    max_results

/-- `Database::doQueryChiSquare`. -/
def doQueryChiSquare (L : StdLib K) (index : List (IFRow K)) (v : BowVector K)
    (max_results : Nat) (scale_score : Bool) : List (Result K) :=
  let ret := sortedChiSquare L index v max_results
  if scale_score then mapScore (fun s => -s / 2) ret else mapScore (fun s => 2 + s) ret

/-- The second pass of `doQueryKL` for one result: the sum, over the words of
`v` whose row does not hold entry `eid`, of `vi * (log(vi) - LOG_EPS)`. -/
def klMissing (L : StdLib K) (index : List (IFRow K)) (v : BowVector K) (eid : Nat) : K :=
  v.foldl (fun value it =>
    if (index.getD it.id []).all (fun rit => decide (rit.id ≠ eid))
    then value + it.value * (L.log it.value - LOG_EPS L) else value) 0

/-- `Database::doQueryKL`. -/
def doQueryKL (L : StdLib K) (index : List (IFRow K)) (v : BowVector K) (max_results : Nat)
    (_scale_score : Bool) : List (Result K) :=
  let ret := accumulateRows (fun vi wi => vi * L.log (vi / wi)) index v
  let ret := ret.map (fun qit => { qit with Score := qit.Score + klMissing L index v qit.Id })
  cut (L.sort Result.lt ret) max_results

/-- `Database::doQueryBhattacharyya`. -/
def doQueryBhattacharyya (L : StdLib K) (index : List (IFRow K)) (v : BowVector K)
    (max_results : Nat) (_scale_score : Bool) : List (Result K) :=
  cut (L.sort Result.GreaterThan (accumulateRows (fun vi wi => L.sqrt (vi * wi)) index v))
    max_results

/-- `Database::doQueryDotProduct`. -/
def doQueryDotProduct (L : StdLib K) (index : List (IFRow K)) (v : BowVector K)
    (max_results : Nat) (_scale_score : Bool) : List (Result K) :=
  cut (L.sort Result.GreaterThan (accumulateRows (fun vi wi => vi * wi) index v)) max_results

/-- `Database::_Query`, for `max_results ≥ 0`: normalises the query when the
scoring asks for it, then dispatches on the scoring. -/
def Database._Query (L : StdLib K) (db : Database K) (v : BowVector K) (max_results : Nat) :
    List (Result K) :=
  let p := db.m_voc.m_params
  let v := normalizeFor L p.Scoring v
  match p.Scoring with
  | .L1_NORM => doQueryL1 L db.m_index v max_results p.ScaleScore
  | .L2_NORM => doQueryL2 L db.m_index v max_results p.ScaleScore
  | .CHI_SQUARE => doQueryChiSquare L db.m_index v max_results p.ScaleScore
  | .KL => doQueryKL L db.m_index v max_results p.ScaleScore
  | .BHATTACHARYYA => doQueryBhattacharyya L db.m_index v max_results p.ScaleScore
  | .DOT_PRODUCT => doQueryDotProduct L db.m_index v max_results p.ScaleScore

/-- `Database::Query(ret, const BowVector &v, max_results)`: works on a copy of `v`. -/
def Database.Query (L : StdLib K) (db : Database K) (v : BowVector K) (max_results : Nat) :
    List (Result K) :=
  db._Query L v max_results

/-- The database obtained from `db` by calling `AddEntry` on each vector of
`vs`, in order. -/
def Database.addAll (L : StdLib K) (db : Database K) (vs : List (BowVector K)) : Database K :=
  vs.foldl (fun d v => (d.AddEntry L v).2) db

/-- The entry ids returned by the successive `AddEntry` calls on `vs`. -/
def Database.addAllIds (L : StdLib K) (db : Database K) (vs : List (BowVector K)) : List Nat :=
  match vs with
  | [] => []
  | v :: rest => (db.AddEntry L v).1 :: Database.addAllIds L (db.AddEntry L v).2 rest

/-! ## Contracts of the library routines and notions used in the statements -/

/-- The contract of `std::sort` for the two comparators the database uses:
the output is a permutation of the input, and no element is ordered by the
comparator before an element that precedes it. -/
def SortSpec (L : StdLib K) : Prop :=
  ∀ (lt : Result K → Result K → Bool) (l : List (Result K)),
    (lt = Result.lt ∨ lt = Result.GreaterThan) →
    (L.sort lt l).Perm l ∧ (L.sort lt l).Pairwise (fun a b => lt b a = false)

/-- The contract of `sqrt` on its domain: a non-negative root. -/
def SqrtSpec (L : StdLib K) : Prop :=
  ∀ x : K, 0 ≤ x → 0 ≤ L.sqrt x ∧ L.sqrt x * L.sqrt x = x

/-- The scores of the list never decrease from one result to a later one. -/
def NonDecreasing (ret : List (Result K)) : Prop :=
  ret.Pairwise (fun a b => a.Score ≤ b.Score)

/-- The scores of the list never increase from one result to a later one. -/
def NonIncreasing (ret : List (Result K)) : Prop :=
  ret.Pairwise (fun a b => b.Score ≤ a.Score)

instance (ret : List (Result K)) : Decidable (NonDecreasing ret) := by
  unfold NonDecreasing
  infer_instance

instance (ret : List (Result K)) : Decidable (NonIncreasing ret) := by
  unfold NonIncreasing
  infer_instance

/-- The list a `doQuery*` routine holds right after its sort and cut, with the
accumulated scores the sort compared (for KL, Bhattacharyya and dot product
this is the returned list). -/
def Database.sortedResults (L : StdLib K) (db : Database K) (v : BowVector K)
    (max_results : Nat) : List (Result K) :=
  let p := db.m_voc.m_params
  let v := normalizeFor L p.Scoring v
  match p.Scoring with
  | .L1_NORM => sortedL1 L db.m_index v max_results
  | .L2_NORM => sortedL2 L db.m_index v max_results
  | .CHI_SQUARE => sortedChiSquare L db.m_index v max_results
  | .KL => doQueryKL L db.m_index v max_results p.ScaleScore
  | .BHATTACHARYYA => doQueryBhattacharyya L db.m_index v max_results p.ScaleScore
  | .DOT_PRODUCT => doQueryDotProduct L db.m_index v max_results p.ScaleScore

/-- The sum, over the entries `e` of `a` and `d` of `b` with the same word id,
of `f e.value d.value`: the quantity the merge scan of `Vocabulary::Score` and
the row scan of `Database::_Query` both compute. -/
def matchSum (f : K → K → K) (a b : BowVector K) : K :=
  (a.map (fun e => (b.map (fun d => if d.id = e.id then f e.value d.value else 0)).sum)).sum

/-- The sequence of `(eid, value)` pairs the two nested loops of a `doQuery*`
routine visit, in order: for each word of `v`, the entries of its row. -/
def events (f : K → K → K) (index : List (IFRow K)) : BowVector K → List (Nat × K)
  | [] => []
  | it :: rest =>
    (index.getD it.id []).map (fun rit => (rit.id, f it.value rit.value)) ++ events f index rest

/-- The inner loop body of `doQuery*` run over a sequence of `(eid, value)` pairs. -/
def addEvents (ret : List (Result K)) (evs : List (Nat × K)) : List (Result K) :=
  evs.foldl (fun ret ev => addScore ret ev.1 ev.2) ret

/-- The total score the results of `ret` with id `eid` carry. -/
def scoreOf (ret : List (Result K)) (eid : Nat) : K :=
  (ret.map (fun r => if r.Id = eid then r.Score else 0)).sum

/-- The row of word `w` written by adding the (already normalised) vectors
`us` as entries `m`, `m + 1`, ... to an empty inverted file. -/
def storedRow (m : Nat) : List (BowVector K) → Nat → IFRow K
  | [], _ => []
  | u :: rest, w =>
    (u.filter (fun e => e.id = w)).map (fun e => ⟨m, e.value⟩) ++ storedRow (m + 1) rest w

/-- Two vectors share a word id. -/
def Shares (v u : BowVector K) : Prop :=
  ∃ e ∈ v, ∃ d ∈ u, e.id = d.id

instance (v u : BowVector K) : Decidable (Shares v u) := by
  unfold Shares
  infer_instance

/-- The score of a vector against itself, by scoring: `1` for scaled L1, L2
and chi-square and for Bhattacharyya, `0` for unscaled L1, L2 and chi-square
and for KL, the sum of the squared values for the dot product. -/
def selfScore (p : VocParams) (v : BowVector K) : K :=
  match p.Scoring with
  | .L1_NORM => if p.ScaleScore then 1 else 0
  | .L2_NORM => if p.ScaleScore then 1 else 0
  | .CHI_SQUARE => if p.ScaleScore then 1 else 0
  | .KL => 0
  | .BHATTACHARYYA => 1
  | .DOT_PRODUCT => (v.map (fun e => e.value * e.value)).sum

/-! ## Reference library instances -/

/-- A sort for `StdLib.sort` that meets the contract of `std::sort`:
merge sort with `a` before `b` unless `lt b a`. -/
def mergeSortBy (lt : Result K → Result K → Bool) (l : List (Result K)) : List (Result K) :=
  l.mergeSort (fun a b => !lt b a)

/-- The vocabulary used in the worked examples: created, `nwords` words,
with the given scoring and scale flag. -/
def exampleVoc (nwords : Nat) (scoring : ScoringType) (scale : Bool) : Vocabulary :=
  { m_created := true
    m_params := { Weighting := .TF_IDF, Scoring := scoring, ScaleScore := scale,
                  DescriptorLength := 64 }
    nwords := nwords }

/-- The vector `[(0, 0.5), (1, 0.5)]` of the worked examples. -/
def exampleHalves (K : Type) [LinearOrderedField K] : BowVector K := [⟨0, 1 / 2⟩, ⟨1, 1 / 2⟩]

/-- The vector `[(0, 3), (1, 4)]`, of L2 norm 5. -/
def exampleThreeFour (K : Type) [LinearOrderedField K] : BowVector K := [⟨0, 3⟩, ⟨1, 4⟩]

/-- The three entries `[(0,0.5),(1,0.5)]`, `[(0,1.0)]`, `[(1,1.0)]` of the
database boundary scenario. -/
def exampleEntries (K : Type) [LinearOrderedField K] : List (BowVector K) :=
  [[⟨0, 1 / 2⟩, ⟨1, 1 / 2⟩], [⟨0, 1⟩], [⟨1, 1⟩]]

/-- A database state for the worked examples: two words, two entries, with
the given scoring and scale flag. -/
def exampleDatabase (K : Type) [LinearOrderedField K] (scoring : ScoringType) (scale : Bool) :
    Database K :=
  { m_voc := exampleVoc 2 scoring scale
    m_index := [[⟨0, 1⟩, ⟨1, 3 / 5⟩], [⟨1, 4 / 5⟩]]
    m_nentries := 2 }

end Defs

/-- An executable library over the rationals: the square root is exact on
squares of rationals, the logarithm is exact at `1`. -/
def ratLib : StdLib ℚ where
  sqrt := fun x => (Nat.sqrt x.num.toNat : ℚ) / (Nat.sqrt x.den : ℚ)
  log := fun x => x - 1
  sort := mergeSortBy

/-! ## HVocabulary: data model -/

/-- The class `HVocParams`: `VocParams` with the branching factor `k` and the
depth `L`. -/
structure HVocParams extends VocParams where
  k : Int
  L : Int
  deriving DecidableEq, Repr

/-- The constructor `HVocParams(k, L)` with its default arguments:
descriptor length 64, `TF_IDF`, `L1_NORM`, scaled scores. -/
def HVocParams.withDefaults (k L : Int) : HVocParams :=
  { Weighting := .TF_IDF, Scoring := .L1_NORM, ScaleScore := true, DescriptorLength := 64,
    k := k, L := L }

/-- The value of `WId(-1)` in the constructors of `Node`: `WordId` is an
`unsigned int`. -/
def NO_WORD : Nat := 4294967295

/-- The struct `HVocabulary::Node`. -/
structure Node (K : Type) where
  Id : Nat
  Children : List Nat
  Weight : K
  Descriptor : List K
  WId : Nat
  deriving DecidableEq, Repr

/-- The data members of an `HVocabulary` object: those of the base class
`Vocabulary` (its private `m_params` is `base_m_params` here), then those of
`HVocabulary` itself. The word pointers `m_words[w]` are indices into
`m_nodes`. -/
structure HVocabulary (K : Type) where
  m_created : Bool
  m_frequent_words_stopped : Int
  m_infrequent_words_stopped : Int
  m_word_frequency : List K
  base_m_params : VocParams
  m_word_stopped : List Bool
  m_stop_list : List Nat
  m_words_in_order : List Nat
  m_params : HVocParams
  m_nodes : List (Node K)
  m_words : List Nat
  deriving Repr

/-- The template `std::sort(first, last, comp)`, for any element type. -/
structure StdAlgorithm where
  sort : {α : Type} → (α → α → Bool) → List α → List α

/-- The comparator is a strict weak ordering, the requirement of `std::sort`. -/
def StrictWeak {α : Type} (lt : α → α → Bool) : Prop :=
  (∀ a, lt a a = false) ∧
  (∀ a b c, lt a b = true → lt b c = true → lt a c = true) ∧
  (∀ a b c, lt a b = false → lt b c = false → lt a c = false)

/-- The contract of `std::sort`: for a strict weak ordering the output is a
permutation of the input in which no element is ordered before an earlier one. -/
def SortContract (A : StdAlgorithm) : Prop :=
  ∀ (α : Type) (lt : α → α → Bool) (l : List α), StrictWeak lt →
    (A.sort lt l).Perm l ∧ (A.sort lt l).Pairwise (fun a b => lt b a = false)

/-- A sort that meets the contract: merge sort. -/
def mergeSortAlgorithm : StdAlgorithm where
  sort := fun lt l => l.mergeSort (fun a b => !lt b a)

section VocabularyDefs

variable {K : Type} [LinearOrderedField K]

/-- The constructor `Node(NodeId _id)`. -/
def Node.create (id : Nat) : Node K :=
  { Id := id, Children := [], Weight := 0, Descriptor := [], WId := NO_WORD }

/-- `Node::isLeaf`. -/
def Node.isLeaf (n : Node K) : Bool := n.Children.isEmpty

/-- The node `m_nodes[id]`; an index outside the arena is undefined in the
source and reads `Node()` here. -/
def HVocabulary.node (voc : HVocabulary K) (id : Nat) : Node K :=
  voc.m_nodes.getD id (Node.create 0)

/-- `Vocabulary::isEmpty`. -/
def HVocabulary.isEmpty (voc : HVocabulary K) : Bool := !voc.m_created

/-- `HVocabulary::GetNumberOfWords`. -/
def HVocabulary.GetNumberOfWords (voc : HVocabulary K) : Nat := voc.m_words.length

/-- `Vocabulary::NumberOfWords`. -/
def HVocabulary.NumberOfWords (voc : HVocabulary K) : Nat :=
  if voc.m_created then voc.GetNumberOfWords else 0

/-- The base-class view used by `Vocabulary::Score` and by `Database`. -/
def HVocabulary.toVocabulary (voc : HVocabulary K) : Vocabulary :=
  { m_created := voc.m_created, m_params := voc.base_m_params, nwords := voc.m_words.length }

/-- `Vocabulary::isWordStopped`. -/
def HVocabulary.isWordStopped (voc : HVocabulary K) (id : Nat) : Bool :=
  decide (id < voc.m_word_stopped.length) && voc.m_word_stopped.getD id false

/-- `HVocabulary::GetWordWeight`. -/
def HVocabulary.GetWordWeight (voc : HVocabulary K) (id : Nat) : K :=
  if voc.isEmpty then 0 else (voc.node (voc.m_words.getD id 0)).Weight

/-- `Vocabulary::GetWordFrequency`. -/
def HVocabulary.GetWordFrequency (voc : HVocabulary K) (id : Nat) : K :=
  if !voc.m_created then 0 else voc.m_word_frequency.getD id 0

/-! ## Stop list -/

/-- `Vocabulary::StopWords(int frequent_words, int infrequent_words)`. -/
def HVocabulary.StopWords (voc : HVocabulary K) (frequent_words infrequent_words : Int) :
    HVocabulary K :=
  if !voc.m_created then voc
  else
    let nwords : Int := voc.m_words_in_order.length
    let nfrequent := if frequent_words > nwords then nwords else frequent_words
    let ninfrequent := if infrequent_words > nwords then nwords else infrequent_words
    -- remove flags from already stopped words
    let flags := voc.m_stop_list.foldl (fun ws id => ws.set id false) voc.m_word_stopped
    -- get new stopped words
    let st := (List.range ninfrequent.toNat).foldl
      (fun (st : List Nat × List Bool) (i : Nat) =>
        let id := voc.m_words_in_order.getD i 0
        (st.1 ++ [id], st.2.set id true)) ([], flags)
    let st := (List.range nfrequent.toNat).foldl
      (fun (st : List Nat × List Bool) (i : Nat) =>
        let id := voc.m_words_in_order.getD (nwords - (i : Int) - 1).toNat 0
        (st.1 ++ [id], st.2.set id true)) st
    { voc with
      m_stop_list := st.1
      m_word_stopped := st.2
      m_frequent_words_stopped := nfrequent
      m_infrequent_words_stopped := ninfrequent }

/-- `operator<` of `pair<float, WordId>`. -/
def pairLt (a b : K × Nat) : Bool :=
  decide (a.1 < b.1) || (!decide (b.1 < a.1) && decide (a.2 < b.2))

/-- `Vocabulary::CreateStopList`: an empty stop list, and the words arranged
by ascending frequency. -/
def HVocabulary.CreateStopList (A : StdAlgorithm) (voc : HVocabulary K) : HVocabulary K :=
  let pairs := voc.m_word_frequency.zip (List.range voc.m_word_frequency.length)
  { voc with
    m_stop_list := []
    m_word_stopped := List.replicate voc.m_word_frequency.length false
    m_frequent_words_stopped := 0
    m_infrequent_words_stopped := 0
    m_words_in_order := (A.sort pairLt pairs).map (fun p => p.2) }

/-- The state of the stop list is consistent: one flag per word, the words in
order are the word ids `0 .. W-1` in some order, and the flagged words are
those of the stop list. `CreateStopList` establishes it and `StopWords` keeps it. -/
def HVocabulary.StopInv (voc : HVocabulary K) : Prop :=
  voc.m_word_stopped.length = voc.m_words_in_order.length ∧
  voc.m_words_in_order.Perm (List.range voc.m_words_in_order.length) ∧
  (∀ w, w < voc.m_words_in_order.length →
    (voc.m_word_stopped.getD w false = true ↔ w ∈ voc.m_stop_list)) ∧
  (∀ w ∈ voc.m_stop_list, w < voc.m_words_in_order.length)

/-- The words in order are arranged by ascending frequency. -/
def HVocabulary.FreqSorted (voc : HVocabulary K) : Prop :=
  voc.m_words_in_order.Pairwise
    (fun a b => voc.m_word_frequency.getD a 0 ≤ voc.m_word_frequency.getD b 0)

/-- The stop list `StopWords(frequent_words, infrequent_words)` builds: the
first `ninfrequent` words in order, then the last `nfrequent` ones from the end. -/
def HVocabulary.newStopList (voc : HVocabulary K) (frequent_words infrequent_words : Int) :
    List Nat :=
  let nwords : Int := voc.m_words_in_order.length
  let nfrequent := if frequent_words > nwords then nwords else frequent_words
  let ninfrequent := if infrequent_words > nwords then nwords else infrequent_words
  (List.range ninfrequent.toNat).map (fun i : Nat => voc.m_words_in_order.getD i 0) ++
    (List.range nfrequent.toNat).map
      (fun i : Nat => voc.m_words_in_order.getD (nwords - (i : Int) - 1).toNat 0)

/-! ## Vocabulary::Transform -/

/-- One summand of `DescriptorSqDistance`: the squared difference of the two
buffers at offset `i`. A read past the end of a buffer is undefined in the
source; the model reads `0` there. -/
def sqDiff (v w : List K) (i : Nat) : K :=
  (v.getD i 0 - w.getD i 0) * (v.getD i 0 - w.getD i 0)

/-- `HVocabulary::DescriptorSqDistance(v, w)` on buffers of `DescriptorLength`
values: blocks of four summands up to `DescriptorLength - rest`, then the
remaining `rest = DescriptorLength % 4` summands. Both loops are empty for a
non-positive length. -/
def DescriptorSqDistance (DescriptorLength : Int) (v w : List K) : K :=
  let D := DescriptorLength.toNat
  let rest := D % 4
  let sqd := (List.range ((D - rest) / 4)).foldl
    (fun (sqd : K) (j : Nat) =>
      sqd + sqDiff v w (4 * j) + sqDiff v w (4 * j + 1) + sqDiff v w (4 * j + 2)
        + sqDiff v w (4 * j + 3)) 0
  (List.range rest).foldl (fun (sqd : K) (j : Nat) => sqd + sqDiff v w (D - rest + j)) sqd

/-- The inner loop of `HVocabulary::Transform(pfeature)`: starting from the
first child, a later child replaces the current best only when its squared
distance is strictly smaller. -/
def nearestChild (m_nodes : List (Node K)) (DescriptorLength : Int) (pfeature : List K)
    (first : Nat) (rest : List Nat) : Nat :=
  (rest.foldl
    (fun (best : Nat × K) (id : Nat) =>
      let sqd := DescriptorSqDistance DescriptorLength pfeature
        (m_nodes.getD id (Node.create 0)).Descriptor
      if sqd < best.2 then (id, sqd) else best)
    (first, DescriptorSqDistance DescriptorLength pfeature
      (m_nodes.getD first (Node.create 0)).Descriptor)).1

/-- The `do ... while(!m_nodes[final_id].isLeaf())` loop of
`HVocabulary::Transform(pfeature)`, started at node `final_id`, with one unit
of fuel per iteration. The result is `none` when the fuel runs out, when the
current node has no child (`nodes[0]` on an empty vector) or when a node id is
outside the arena. -/
def descend (m_nodes : List (Node K)) (DescriptorLength : Int) (pfeature : List K) :
    Nat → Nat → Option Nat
  | 0, _ => none
  | fuel + 1, final_id =>
    match m_nodes[final_id]? with
    | none => none
    | some parent =>
      match parent.Children with
      | [] => none
      | first :: rest =>
        let next := nearestChild m_nodes DescriptorLength pfeature first rest
        match m_nodes[next]? with
        | none => none
        | some node =>
          if node.isLeaf then some node.WId
          else descend m_nodes DescriptorLength pfeature fuel next

/-- The overload `HVocabulary::Transform(pfeature)`: the word id reached by
the descriptor at `pfeature`, and `0` in an empty vocabulary. The descent gets
as much fuel as the arena has nodes. -/
def HVocabulary.TransformFeature (voc : HVocabulary K) (pfeature : List K) : Option Nat :=
  if voc.isEmpty then some 0
  else descend voc.m_nodes voc.m_params.DescriptorLength pfeature voc.m_nodes.length 0

/-- The positions visited by
`for(it = features.begin(); it < features.end(); it += D)` for `D > 0`, each
given as the part of `features` that starts there. -/
def featureSlots (features : List K) (D : Nat) : List (List K) :=
  (List.range ((features.length + D - 1) / D)).map (fun i : Nat => features.drop (i * D))

/-- The word ids of a list of descriptor positions, in order; `none` as soon
as one descent is undefined. -/
def wordIds (transform : List K → Option Nat) : List (List K) → Option (List Nat)
  | [] => some []
  | pfeature :: rest =>
    match transform pfeature with
    | none => none
    | some id =>
      match wordIds transform rest with
      | none => none
      | some ids => some (id :: ids)

/-- The statement `fit->value += w` on the entry returned by
`find(v.begin(), v.end(), id)`: the first entry with that id. -/
def bumpFirst (v : BowVector K) (id : Nat) (w : K) : BowVector K :=
  match v with
  | [] => []
  | e :: rest =>
    if e.id = id then { e with value := e.value + w } :: rest
    else e :: bumpFirst rest id w

/-- One iteration of the loop of `Vocabulary::Transform` for the weightings
`TF`, `IDF` and `TF_IDF`, on the state `(v, stopped, nd)`, for the descriptor
whose word is `id`. -/
def HVocabulary.weightedStep (voc : HVocabulary K) (st : BowVector K × List Nat × Nat)
    (id : Nat) : BowVector K × List Nat × Nat :=
  if voc.isWordStopped id then
    if id ∈ st.2.1 then st else (st.1, st.2.1 ++ [id], st.2.2 + 1)
  else if st.1.any (fun e => decide (e.id = id)) then
    if voc.base_m_params.Weighting ≠ .IDF then
      (bumpFirst st.1 id (voc.GetWordWeight id), st.2.1, st.2.2)
    else st
  else (st.1 ++ [{ id := id, value := voc.GetWordWeight id }], st.2.1, st.2.2 + 1)

/-- One iteration of the loop of `Vocabulary::Transform` for the weighting
`BINARY`. -/
def HVocabulary.binaryStep (voc : HVocabulary K) (v : BowVector K) (id : Nat) : BowVector K :=
  if !voc.isWordStopped id then
    if v.any (fun e => decide (e.id = id)) then v else v ++ [{ id := id, value := 1 }]
  else v

/-- The `switch` of `Vocabulary::Transform` run on the word ids of the
descriptors of the document: the loop, and for `TF` and `TF_IDF` the division
of every value by `nd` when `nd > 0`. -/
def HVocabulary.TransformIds (voc : HVocabulary K) (ids : List Nat) : BowVector K :=
  match voc.base_m_params.Weighting with
  | .BINARY => ids.foldl voc.binaryStep []
  | _ =>
    let st := ids.foldl voc.weightedStep ([], [], 0)
    if st.2.2 > 0 ∧ voc.base_m_params.Weighting ≠ .IDF then
      st.1.map (fun e => { e with value := e.value / (st.2.2 : K) })
    else st.1

/-- `BowVectorEntry::operator<`: comparison of the word ids. -/
def BowVectorEntry.lt (a b : BowVectorEntry K) : Bool := decide (a.id < b.id)

/-- `BowVector::PutInOrder`: `sort(begin(), end())`. -/
def PutInOrder (A : StdAlgorithm) (v : BowVector K) : BowVector K :=
  A.sort BowVectorEntry.lt v

/-- `Vocabulary::Transform(features, v, arrange)`, returning `v`. The slots
are cut with `Vocabulary::m_params->DescriptorLength`. The result is `none`
when the assertion on the length of `features` fails, when a descent is
undefined, and for a non-positive descriptor length, which the model does not
cover. -/
def HVocabulary.Transform (A : StdAlgorithm) (voc : HVocabulary K) (features : List K)
    (arrange : Bool) : Option (BowVector K) :=
  if 0 < voc.base_m_params.DescriptorLength ∧
      features.length % voc.base_m_params.DescriptorLength.toNat = 0 then
    match wordIds voc.TransformFeature
        (featureSlots features voc.base_m_params.DescriptorLength.toNat) with
    | none => none
    | some ids =>
      let v := voc.TransformIds ids
      some (if arrange then PutInOrder A v else v)
  else none

/-- The tree invariant left by `HVocabulary::HKMeansStep` on a non-empty
training set: the root has a child, and the children of every node are nodes
of the arena created after it. -/
def TreeOk (m_nodes : List (Node K)) : Prop :=
  (∃ root ∈ m_nodes[0]?, root.Children ≠ []) ∧
  ∀ (i : Nat) (node : Node K), m_nodes[i]? = some node →
    ∀ c ∈ node.Children, i < c ∧ c < m_nodes.length

/-- The state `(v, stopped, nd)` of the weighted loop of `Vocabulary::Transform`
after the descriptors with word ids `l`: no id occurs twice in `v` or in
`stopped`, `v` holds the non-stopped and `stopped` the stopped ids of `l`,
`nd` counts both, and every value of `v` is the weight of its word, taken once
under `IDF` and once per occurrence otherwise. -/
def WeightedInv (voc : HVocabulary K) (st : BowVector K × List Nat × Nat) (l : List Nat) :
    Prop :=
  (st.1.map (fun e => e.id)).Nodup ∧ st.2.1.Nodup ∧
  (∀ i, i ∈ st.1.map (fun e => e.id) ↔ (i ∈ l ∧ voc.isWordStopped i = false)) ∧
  (∀ i, i ∈ st.2.1 ↔ (i ∈ l ∧ voc.isWordStopped i = true)) ∧
  st.2.2 = st.1.length + st.2.1.length ∧
  (∀ e ∈ st.1, e.value =
    (if voc.base_m_params.Weighting = .IDF then 1 else (l.count e.id : K)) *
      voc.GetWordWeight e.id)

/-- The vector of the `BINARY` loop of `Vocabulary::Transform` after the
descriptors with word ids `l`. -/
def BinaryInv (voc : HVocabulary K) (v : BowVector K) (l : List Nat) : Prop :=
  (v.map (fun e => e.id)).Nodup ∧
  (∀ i, i ∈ v.map (fun e => e.id) ↔ (i ∈ l ∧ voc.isWordStopped i = false)) ∧
  (∀ e ∈ v, e.value = 1)

/-! ## HVocabulary::Create -/

/-- The loop of `HVocabulary::CreateWords` from the node at arena index `i`
on: a leaf gets the next word id, `m_words.size()`, and its index is appended
to `m_words`. The result is the rest of the arena and `m_words`. -/
def CreateWordsLoop : List (Node K) → Nat → List Nat → List (Node K) × List Nat
  | [], _, m_words => ([], m_words)
  | node :: rest, i, m_words =>
    if node.isLeaf then
      let r := CreateWordsLoop rest (i + 1) (m_words ++ [i])
      ({ node with WId := m_words.length } :: r.1, r.2)
    else
      let r := CreateWordsLoop rest (i + 1) m_words
      (node :: r.1, r.2)

/-- `HVocabulary::CreateWords`: the arena with the word ids set, and
`m_words`, a pointer to a node being its index in the arena. -/
def CreateWords (m_nodes : List (Node K)) : List (Node K) × List Nat :=
  CreateWordsLoop m_nodes 0 []

/-- The word ids of the descriptors of every training document, in order;
`none` as soon as one descent is undefined. -/
def trainingWordIds (transform : List K → Option Nat) (D : Nat) :
    List (List K) → Option (List (List Nat))
  | [] => some []
  | features :: rest =>
    match wordIds transform (featureSlots features D) with
    | none => none
    | some ids =>
      match trainingWordIds transform D rest with
      | none => none
      | some docs => some (ids :: docs)

/-- The statement `m_word_frequency[id] += 1.f`. -/
def bumpFrequency (m_word_frequency : List K) (id : Nat) : List K :=
  m_word_frequency.set id (m_word_frequency.getD id 0 + 1)

/-- One descriptor in the `IDF`/`TF_IDF` loop of
`GetWordWeightsAndCreateStopList`, on the state
`(m_word_frequency, Ni, counted)`. -/
def idfStep (st : List K × List Nat × List Bool) (id : Nat) : List K × List Nat × List Bool :=
  if !st.2.2.getD id false then
    (bumpFrequency st.1 id, st.2.1.set id (st.2.1.getD id 0 + 1), st.2.2.set id true)
  else (bumpFrequency st.1 id, st.2.1, st.2.2)

/-- One document in the `IDF`/`TF_IDF` loop: `counted` is cleared, then every
descriptor of the document is processed. -/
def idfDocument (NWords : Nat) (st : List K × List Nat) (ids : List Nat) : List K × List Nat :=
  let r := ids.foldl idfStep (st.1, st.2, List.replicate NWords false)
  (r.1, r.2.1)

/-- `Vocabulary::GetWordWeightsAndCreateStopList(training_features, weights)`:
the vocabulary with its word frequencies and a fresh stop list, and `weights`.
The result is `none` when the assertion `NWords > 0 && NDocs > 0` fails, when
a descent is undefined or gives an id that is not a word (the source then
writes outside `m_word_frequency`), and for a non-positive descriptor length. -/
def HVocabulary.GetWordWeightsAndCreateStopList (L : StdLib K) (A : StdAlgorithm)
    (voc : HVocabulary K) (training_features : List (List K)) :
    Option (HVocabulary K × List K) :=
  let NWords := voc.GetNumberOfWords
  let NDocs := training_features.length
  if ¬ (NWords > 0 ∧ NDocs > 0) then none
  else if voc.base_m_params.DescriptorLength ≤ 0 then none
  else
    match trainingWordIds voc.TransformFeature voc.base_m_params.DescriptorLength.toNat
        training_features with
    | none => none
    | some docs =>
      if docs.any (fun ids => ids.any (fun id => decide (NWords ≤ id))) then none
      else
        let zeros : List K := List.replicate NWords 0
        let counts : List K := docs.foldl (fun fr ids => ids.foldl bumpFrequency fr) zeros
        let r : List K × List K :=
          match voc.base_m_params.Weighting with
          | .IDF | .TF_IDF =>
            let st := docs.foldl (idfDocument NWords) (zeros, List.replicate NWords 0)
            (st.1, st.2.map (fun (Ni : Nat) =>
              if Ni > 0 then L.log ((NDocs : K) / (Ni : K)) else 0))
          | .TF => (counts, List.replicate NWords 1)
          | .BINARY => (counts, zeros)
        let total : K := r.1.foldl (fun s x => s + x) 0
        let frequency : List K := if total > 0 then r.1.map (fun x => x / total) else r.1
        some (HVocabulary.CreateStopList A { voc with m_word_frequency := frequency }, r.2)

/-- `HVocabulary::SetNodeWeights(training_features)`: the weights computed by
`GetWordWeightsAndCreateStopList` are stored in the nodes of the words. -/
def HVocabulary.SetNodeWeights (L : StdLib K) (A : StdAlgorithm) (voc : HVocabulary K)
    (training_features : List (List K)) : Option (HVocabulary K) :=
  match voc.GetWordWeightsAndCreateStopList L A training_features with
  | none => none
  | some (voc, weights) =>
    some { voc with
      m_nodes := (List.range voc.m_words.length).foldl
        (fun (nodes : List (Node K)) (i : Nat) =>
          nodes.set (voc.m_words.getD i 0)
            { nodes.getD (voc.m_words.getD i 0) (Node.create 0) with
              Weight := weights.getD i 0 })
        voc.m_nodes }

/-- `HVocabulary::Create(training_features)` with the clustering left out:
`tree` is the arena that `HKMeansStep(0, pfeatures, 1, buffer)` has built from
the arena holding the root alone (the first centres are drawn at random, so
the arena is not a function of the training set). The result is `none` when
an assertion of the source fails or a step is undefined. -/
def HVocabulary.CreateWith (L : StdLib K) (A : StdAlgorithm) (voc : HVocabulary K)
    (tree : List (Node K)) (training_features : List (List K)) : Option (HVocabulary K) :=
  if 0 < voc.m_params.DescriptorLength ∧
      training_features.all
        (fun features => decide (features.length % voc.m_params.DescriptorLength.toNat = 0))
  then
    HVocabulary.SetNodeWeights L A
      { voc with
        m_nodes := (CreateWords tree).1, m_words := (CreateWords tree).2, m_created := true }
      training_features
  else none

/-- What `HKMeansStep` leaves for a training set: nodes built by `Node(id)`
whose only change is the list of children, the children of every node being
nodes of the arena created after it, and a root with a child as soon as the
training set has a descriptor. -/
def ArenaOk (tree : List (Node K)) (training_features : List (List K)) : Prop :=
  tree ≠ [] ∧
  (∀ node ∈ tree, node.WId = NO_WORD) ∧
  (∀ (i : Nat) (node : Node K), tree[i]? = some node →
    ∀ c ∈ node.Children, i < c ∧ c < tree.length) ∧
  ((∃ features ∈ training_features, features ≠ []) →
    ∃ root ∈ tree[0]?, root.Children ≠ [])

/-- The members of a node other than its weight. -/
def Node.shape (n : Node K) : Nat × List Nat × List K × Nat :=
  (n.Id, n.Children, n.Descriptor, n.WId)

/-- The constructor `HVocabulary(params)`: an empty vocabulary. The two
counters of stopped words are left indeterminate by the source and are `0`
here. -/
def HVocabulary.init (params : HVocParams) : HVocabulary K :=
  { m_created := false
    m_frequent_words_stopped := 0
    m_infrequent_words_stopped := 0
    m_word_frequency := []
    base_m_params := params.toVocParams
    m_word_stopped := []
    m_stop_list := []
    m_words_in_order := []
    m_params := params
    m_nodes := []
    m_words := [] }

/-- An arena that `HKMeansStep` can leave for the one-dimensional training
descriptors `1`, `1`, `5` with `k = 2`: the root and two children with the
centres `1` and `5`. -/
def exampleArena : List (Node K) :=
  [ { Id := 0, Children := [1, 2], Weight := 0, Descriptor := [], WId := NO_WORD },
    { Id := 1, Children := [], Weight := 0, Descriptor := [1], WId := NO_WORD },
    { Id := 2, Children := [], Weight := 0, Descriptor := [5], WId := NO_WORD } ]

/-- The parameters `HVocParams(2, 1, 1, weighting)` of the small vocabulary. -/
def exampleParams (weighting : WeightingType) : HVocParams :=
  { Weighting := weighting, Scoring := .L1_NORM, ScaleScore := true, DescriptorLength := 1,
    k := 2, L := 1 }

/-! ## Text files -/

/-- The integer of a `WeightingType` enumerator. -/
def WeightingType.toInt : WeightingType → Int
  | .TF_IDF => 0
  | .TF => 1
  | .IDF => 2
  | .BINARY => 3

/-- The cast of an integer to `WeightingType`, defined on the enumerators. -/
def WeightingType.ofInt (n : Int) : Option WeightingType :=
  if n = 0 then some .TF_IDF else if n = 1 then some .TF else if n = 2 then some .IDF
  else if n = 3 then some .BINARY else none

/-- The integer of a `ScoringType` enumerator. -/
def ScoringType.toInt : ScoringType → Int
  | .L1_NORM => 0
  | .L2_NORM => 1
  | .CHI_SQUARE => 2
  | .KL => 3
  | .BHATTACHARYYA => 4
  | .DOT_PRODUCT => 5

/-- The cast of an integer to `ScoringType`, defined on the enumerators. -/
def ScoringType.ofInt (n : Int) : Option ScoringType :=
  if n = 0 then some .L1_NORM else if n = 1 then some .L2_NORM
  else if n = 2 then some .CHI_SQUARE else if n = 3 then some .KL
  else if n = 4 then some .BHATTACHARYYA else if n = 5 then some .DOT_PRODUCT else none

/-- A number of a text file: written from an integer or from a floating-point
value. The rounding of `f.precision(10)` is outside the model: a
floating-point value is read back as it was written. -/
inductive Token (K : Type) where
  | int (n : Int)
  | real (x : K)

/-- The extraction `f >> n` for an `int n`: `none` at the end of the file (the
stream fails and the variables of the caller keep indeterminate values), and
where the next number was written from a floating-point value. -/
def readInt : List (Token K) → Option (Int × List (Token K))
  | Token.int n :: rest => some (n, rest)
  | _ => none

/-- The extraction `f >> x` for a floating-point `x`; `none` at the end of the
file. -/
def readReal : List (Token K) → Option (K × List (Token K))
  | Token.int n :: rest => some ((n : K), rest)
  | Token.real x :: rest => some (x, rest)
  | [] => none

/-- The extraction of `n` floating-point values in a row. -/
def readReals : Nat → List (Token K) → Option (List K × List (Token K))
  | 0, f => some ([], f)
  | n + 1, f =>
    match readReal f with
    | none => none
    | some (x, f) =>
      match readReals n f with
      | none => none
      | some (xs, f) => some (x :: xs, f)

/-- `Vocabulary::SaveTextHeader`: `Vt Wt St Ss D W SfW SiW`. -/
def HVocabulary.SaveTextHeader (voc : HVocabulary K) : List (Token K) :=
  [ Token.int 0,
    Token.int voc.base_m_params.Weighting.toInt,
    Token.int voc.base_m_params.Scoring.toInt,
    Token.int (if voc.base_m_params.ScaleScore then 1 else 0),
    Token.int voc.base_m_params.DescriptorLength,
    Token.int voc.NumberOfWords,
    Token.int voc.m_frequent_words_stopped,
    Token.int voc.m_infrequent_words_stopped ]

/-- The `for` over the children of `pid` in `HVocabulary::SaveText`: the line
of every child, and the stack `parents` (top first) with the children that
are not leaves pushed. `none` where the source indexes outside a vector. -/
def saveChildren (m_nodes : List (Node K)) (DescriptorLength : Int) (pid : Nat) :
    List Nat → List Nat → Option (List (Token K) × List Nat)
  | [], parents => some ([], parents)
  | c :: rest, parents =>
    match m_nodes[c]? with
    | none => none
    | some child =>
      if child.Descriptor.length < DescriptorLength.toNat then none
      else
        match saveChildren m_nodes DescriptorLength pid rest
            (if child.isLeaf then parents else c :: parents) with
        | none => none
        | some (lines, parents) =>
          some ([Token.int child.Id, Token.int pid, Token.real child.Weight] ++
            (child.Descriptor.take DescriptorLength.toNat).map Token.real ++ lines, parents)

/-- The `while(!parents.empty())` loop of `HVocabulary::SaveText`, with one
unit of fuel per iteration. -/
def saveTree (m_nodes : List (Node K)) (DescriptorLength : Int) :
    Nat → List Nat → Option (List (Token K))
  | _, [] => some []
  | 0, _ :: _ => none
  | fuel + 1, pid :: parents =>
    match m_nodes[pid]? with
    | none => none
    | some parent =>
      match saveChildren m_nodes DescriptorLength pid parent.Children parents with
      | none => none
      | some (lines, parents) =>
        match saveTree m_nodes DescriptorLength fuel parents with
        | none => none
        | some more => some (lines ++ more)

/-- The last loop of `HVocabulary::SaveText`, from word `id` on: the line
`id frequency node-id` of every word. -/
def saveWords (voc : HVocabulary K) : Nat → List Nat → Option (List (Token K))
  | _, [] => some []
  | id, n :: rest =>
    match voc.m_nodes[n]? with
    | none => none
    | some node =>
      match saveWords voc (id + 1) rest with
      | none => none
      | some lines =>
        some ([Token.int id, Token.real (voc.GetWordFrequency id), Token.int node.Id] ++ lines)

/-- `HVocabulary::SaveText`: the numbers written to the file, in order. The
walk over the tree gets one unit of fuel per node and one more. -/
def HVocabulary.SaveText (voc : HVocabulary K) : Option (List (Token K)) :=
  match saveTree voc.m_nodes voc.m_params.DescriptorLength (voc.m_nodes.length + 1) [0] with
  | none => none
  | some tree =>
    match saveWords voc 0 voc.m_words with
    | none => none
    | some words =>
      some (voc.SaveTextHeader ++
        [Token.int voc.m_params.k, Token.int voc.m_params.L, Token.int voc.m_nodes.length] ++
        tree ++ words)

/-- `Vocabulary::LoadTextHeader`: the eight numbers of the header are read,
the parameters held by the base class and the two counters are set, and the
number of words is returned together with the rest of the file. -/
def HVocabulary.LoadTextHeader (voc : HVocabulary K) (f : List (Token K)) :
    Option (HVocabulary K × Int × List (Token K)) :=
  match readInt f with
  | none => none
  | some (_, f) =>
  match readInt f with
  | none => none
  | some (weighting, f) =>
  match readInt f with
  | none => none
  | some (scoring, f) =>
  match readInt f with
  | none => none
  | some (scalescore, f) =>
  match readInt f with
  | none => none
  | some (ndesc, f) =>
  match readInt f with
  | none => none
  | some (nwords, f) =>
  match readInt f with
  | none => none
  | some (nfreq, f) =>
  match readInt f with
  | none => none
  | some (ninfreq, f) =>
    match WeightingType.ofInt weighting, ScoringType.ofInt scoring with
    | some w, some s =>
      some ({ voc with
        m_frequent_words_stopped := nfreq
        m_infrequent_words_stopped := ninfreq
        base_m_params :=
          { Weighting := w, Scoring := s, ScaleScore := decide (scalescore ≠ 0),
            DescriptorLength := ndesc } }, nwords, f)
    | _, _ => none

/-- The first loop of `HVocabulary::_load`, with `n` nodes still to read: the
ids and the weight of a node, then as many descriptor values as the
`DescriptorLength` of `HVocabulary::m_params`. `none` where an extraction
fails or an id is outside the arena. -/
def loadNodes (DescriptorLength : Int) :
    Nat → List (Node K) → List (Token K) → Option (List (Node K) × List (Token K))
  | 0, m_nodes, f => some (m_nodes, f)
  | n + 1, m_nodes, f =>
    match readInt f with
    | none => none
    | some (nodeid, f) =>
    match readInt f with
    | none => none
    | some (parentid, f) =>
    match readReal f with
    | none => none
    | some (weight, f) =>
      if nodeid < 0 ∨ (m_nodes.length : Int) ≤ nodeid ∨ parentid < 0 ∨
          (m_nodes.length : Int) ≤ parentid then none
      else
        let m_nodes := m_nodes.set nodeid.toNat
          { m_nodes.getD nodeid.toNat (Node.create 0) with Id := nodeid.toNat, Weight := weight }
        let m_nodes := m_nodes.set parentid.toNat
          { m_nodes.getD parentid.toNat (Node.create 0) with
            Children := (m_nodes.getD parentid.toNat (Node.create 0)).Children ++ [nodeid.toNat] }
        match readReals DescriptorLength.toNat f with
        | none => none
        | some (descriptor, f) =>
          loadNodes DescriptorLength n
            (m_nodes.set nodeid.toNat
              { m_nodes.getD nodeid.toNat (Node.create 0) with Descriptor := descriptor }) f

/-- The second loop of `HVocabulary::_load`, with `n` words still to read, on
the arena, `m_words` (a null pointer is `none`) and `m_word_frequency`. -/
def loadWords :
    Nat → List (Node K) × List (Option Nat) × List K → List (Token K) →
      Option ((List (Node K) × List (Option Nat) × List K) × List (Token K))
  | 0, st, f => some (st, f)
  | n + 1, st, f =>
    match readInt f with
    | none => none
    | some (wordid, f) =>
    match readReal f with
    | none => none
    | some (frequency, f) =>
    match readInt f with
    | none => none
    | some (nodeid, f) =>
      if nodeid < 0 ∨ (st.1.length : Int) ≤ nodeid ∨ wordid < 0 ∨
          (st.2.1.length : Int) ≤ wordid then none
      else
        loadWords n
          (st.1.set nodeid.toNat
            { st.1.getD nodeid.toNat (Node.create 0) with WId := wordid.toNat },
           st.2.1.set wordid.toNat (some nodeid.toNat),
           st.2.2.set wordid.toNat frequency) f

/-- The pointers of `m_words` once every word has been read; `none` if a null
pointer is left. -/
def allWords : List (Option Nat) → Option (List Nat)
  | [] => some []
  | none :: _ => none
  | some n :: rest =>
    match allWords rest with
    | none => none
    | some words => some (n :: words)

/-- `HVocabulary::_load(f, nwords)` on a text file, after the header has been
read: `k`, `L` and the number of nodes, the nodes, the words, then
`CreateStopList()` and `StopWords(nfreq, ninfreq)`. The result holds the part
of the file that has not been read. -/
def HVocabulary._load (A : StdAlgorithm) (voc : HVocabulary K) (f : List (Token K))
    (nwords : Int) : Option (HVocabulary K × List (Token K)) :=
  let nfreq := voc.m_frequent_words_stopped
  let ninfreq := voc.m_infrequent_words_stopped
  match readInt f with
  | none => none
  | some (k, f) =>
  match readInt f with
  | none => none
  | some (L, f) =>
  match readInt f with
  | none => none
  | some (nnodes, f) =>
    if nnodes ≤ 0 ∨ nwords < 0 then none
    else
      match loadNodes voc.m_params.DescriptorLength (nnodes.toNat - 1)
          (List.replicate nnodes.toNat (Node.create 0)) f with
      | none => none
      | some (m_nodes, f) =>
        match loadWords nwords.toNat
            (m_nodes, List.replicate nwords.toNat none, List.replicate nwords.toNat 0) f with
        | none => none
        | some (st, f) =>
          match allWords st.2.1 with
          | none => none
          | some m_words =>
            some (HVocabulary.StopWords
              (HVocabulary.CreateStopList A
                { voc with
                  m_created := true
                  m_params := { voc.m_params with k := k, L := L }
                  m_nodes := st.1
                  m_words := m_words
                  m_word_frequency := st.2.2 })
              nfreq ninfreq, f)

/-- `HVocabulary::LoadText` on the numbers of a text file: the loaded
vocabulary and, for the position `f.tellg()` that the source returns, the part
of the file after it. -/
def HVocabulary.LoadText (A : StdAlgorithm) (voc : HVocabulary K) (f : List (Token K)) :
    Option (HVocabulary K × List (Token K)) :=
  match voc.LoadTextHeader f with
  | none => none
  | some (voc, nwords, f) => HVocabulary._load A voc f nwords

/-- The constructor `HVocabulary(filename)` for a text file: the object is
built with `HVocParams(0, 0)` and then loaded. -/
def HVocabulary.fromFile (A : StdAlgorithm) (f : List (Token K)) : Option (HVocabulary K) :=
  match HVocabulary.LoadText A (HVocabulary.init (HVocParams.withDefaults 0 0)) f with
  | none => none
  | some (voc, _) => some voc

/-! ## Sequences of database operations -/

/-- A call of `AddEntry(v)` or of `Clear()` on a database. -/
inductive DbOp (K : Type) where
  | AddEntry (v : BowVector K)
  | Clear

/-- The operations of `ops` run in order on `db`: the entry ids returned by the
`AddEntry` calls, in order, and the final database. -/
def Database.run (L : StdLib K) : Database K → List (DbOp K) → List Nat × Database K
  | db, [] => ([], db)
  | db, DbOp.AddEntry v :: ops =>
    ((db.AddEntry L v).1 :: (Database.run L (db.AddEntry L v).2 ops).1,
      (Database.run L (db.AddEntry L v).2 ops).2)
  | db, DbOp.Clear :: ops => Database.run L db.Clear ops

/-! ## Database: the vocabulary object and text files -/

/-- The copy constructor `HVocabulary(const HVocabulary &voc)`: the members are
copied and every pointer of `m_words` is set to the node of the copy whose
index is the `Id` of the node it pointed to. -/
def HVocabulary.copy (voc : HVocabulary K) : HVocabulary K :=
  { voc with m_words := voc.m_words.map (fun n => (voc.node n).Id) }

/-- The data members of `Database` with the whole object that `m_voc` points
to. -/
structure HDatabase (K : Type) where
  m_voc : HVocabulary K
  m_index : List (IFRow K)
  m_nentries : Nat

/-- The part of the database that `AddEntry` and `Query` read. -/
def HDatabase.toDatabase (db : HDatabase K) : Database K :=
  { m_voc := db.m_voc.toVocabulary, m_index := db.m_index, m_nentries := db.m_nentries }

/-- The constructor `Database::Database(const Vocabulary &voc)`: `initVoc`
copies the vocabulary. -/
def HDatabase.create (voc : HVocabulary K) : HDatabase K :=
  { m_voc := voc.copy, m_index := List.replicate voc.NumberOfWords [], m_nentries := 0 }

/-- `Database::Clear`. -/
def HDatabase.Clear (db : HDatabase K) : HDatabase K :=
  { db with m_index := List.replicate db.m_voc.NumberOfWords [], m_nentries := 0 }

/-- The conversion `(int)x` of a 32-bit unsigned value. -/
def castInt (x : Nat) : Int :=
  if x % 4294967296 < 2147483648 then (x % 4294967296 : Nat) else (x % 4294967296 : Nat) - 4294967296

/-- The conversion of an `int` to a 32-bit unsigned value. -/
def castUnsigned (i : Int) : Nat := (i % 4294967296).toNat

/-- The rows written by `Database::SaveText`, from the row of word `wordid`
on: for every row that is not empty the word id, the number of entries, and
the entries. -/
def saveRows : Nat → List (IFRow K) → List (Token K)
  | _, [] => []
  | wordid, row :: rest =>
    (if row.isEmpty then []
     else [Token.int wordid, Token.int row.length] ++
       row.flatMap (fun rit => [Token.int (castInt rit.id), Token.real rit.value])) ++
    saveRows (wordid + 1) rest

/-- `Database::SaveText`: the numbers of the vocabulary, then `N`, `W'` and
the rows. The values are written with the default precision of the stream;
the rounding is outside the model. -/
def HDatabase.SaveText (db : HDatabase K) : Option (List (Token K)) :=
  match db.m_voc.SaveText with
  | none => none
  | some voc =>
    some (voc ++
      [Token.int (castInt db.m_nentries),
        Token.int (db.m_index.countP (fun row => !row.isEmpty))] ++
      saveRows 0 db.m_index)

/-- The inner loop of `Database::_load` with `k` entries of the row of
`wordid` still to read. `none` where an extraction fails or `wordid` is
outside the inverted file. -/
def loadRow (wordid : Int) :
    Nat → List (IFRow K) → List (Token K) → Option (List (IFRow K) × List (Token K))
  | 0, index, f => some (index, f)
  | k + 1, index, f =>
    match readInt f with
    | none => none
    | some (eid, f) =>
    match readReal f with
    | none => none
    | some (value, f) =>
      if wordid < 0 ∨ (index.length : Int) ≤ wordid then none
      else loadRow wordid k
        (pushBackAt index wordid.toNat { id := castUnsigned eid, value := value }) f

/-- The outer loop of `Database::_load` with `W` rows still to read. -/
def loadRows : Nat → List (IFRow K) → List (Token K) → Option (List (IFRow K))
  | 0, index, _ => some index
  | W + 1, index, f =>
    match readInt f with
    | none => none
    | some (wordid, f) =>
    match readInt f with
    | none => none
    | some (k, f) =>
      match loadRow wordid k.toNat index f with
      | none => none
      | some (index, f) => loadRows W index f

/-- `Database::_load` on the part of a text file that follows the vocabulary. -/
def HDatabase._load (voc : HVocabulary K) (f : List (Token K)) : Option (HDatabase K) :=
  match readInt f with
  | none => none
  | some (N, f) =>
  match readInt f with
  | none => none
  | some (W, f) =>
    match loadRows W.toNat (List.replicate voc.NumberOfWords []) f with
    | none => none
    | some index => some { m_voc := voc, m_index := index, m_nentries := castUnsigned N }

/-- `Database::LoadText`: the type of the vocabulary is read, `initVoc` builds
`HVocabulary(HVocParams(2, 1))` for the only type there is, the vocabulary is
loaded into it and the database is read from the position where the
vocabulary ends. -/
def HDatabase.LoadText (A : StdAlgorithm) (f : List (Token K)) : Option (HDatabase K) :=
  match readInt f with
  | none => none
  | some (voctype, _) =>
    if voctype ≠ 0 then none
    else
      match HVocabulary.LoadText A (HVocabulary.init (HVocParams.withDefaults 2 1)) f with
      | none => none
      | some (voc, f) => HDatabase._load voc f


/-! ## The descent as the specification words it -/

/-- Child `c` of the list `children` is the one the specification picks for
the descriptor `pfeature`: its descriptor has minimal squared distance among
the children, and every child before it in the list is strictly farther
(ties go to the lowest child index). -/
def IsNearestChild (m_nodes : List (Node K)) (DescriptorLength : Int) (pfeature : List K)
    (children : List Nat) (c : Nat) : Prop :=
  ∃ j : Nat, children[j]? = some c ∧
    (∀ (i : Nat) (x : Nat), children[i]? = some x →
      DescriptorSqDistance DescriptorLength pfeature (m_nodes.getD c (Node.create 0)).Descriptor ≤
      DescriptorSqDistance DescriptorLength pfeature (m_nodes.getD x (Node.create 0)).Descriptor) ∧
    (∀ (i : Nat) (x : Nat), i < j → children[i]? = some x →
      DescriptorSqDistance DescriptorLength pfeature (m_nodes.getD c (Node.create 0)).Descriptor <
      DescriptorSqDistance DescriptorLength pfeature (m_nodes.getD x (Node.create 0)).Descriptor)

/-- The descent of the specification from node `id`: at each node the nearest
child is taken, until a leaf is reached; the result is the `WId` of that
leaf. -/
inductive SpecDescent (m_nodes : List (Node K)) (DescriptorLength : Int) (pfeature : List K) :
    Nat → Nat → Prop where
  | leaf (id : Nat) (parent : Node K) (c : Nat) (node : Node K) :
      m_nodes[id]? = some parent →
      IsNearestChild m_nodes DescriptorLength pfeature parent.Children c →
      m_nodes[c]? = some node → node.isLeaf = true →
      SpecDescent m_nodes DescriptorLength pfeature id node.WId
  | step (id : Nat) (parent : Node K) (c : Nat) (node : Node K) (w : Nat) :
      m_nodes[id]? = some parent →
      IsNearestChild m_nodes DescriptorLength pfeature parent.Children c →
      m_nodes[c]? = some node → node.isLeaf = false →
      SpecDescent m_nodes DescriptorLength pfeature c w →
      SpecDescent m_nodes DescriptorLength pfeature id w

/-! ## HVocabulary::HKMeansStep -/

/-- The generator behind `rand()`: `RAND_MAX`, and the value returned by each
call of `rand()`, the calls being numbered in the order they are made. -/
structure RandomSource where
  RAND_MAX : Nat
  rand : Nat → Nat

/-- `Random::RandomInt(min, max)` at call `n` of `rand()`, for `min ≤ max`:
`int((double)rand() / ((double)RAND_MAX + 1.0) * d) + min` with
`d = max - min + 1`. The truncation of the non-negative product is the integer
quotient of `rand() * d` by `RAND_MAX + 1`. -/
def RandomSource.RandomInt (rnd : RandomSource) (n : Nat) (min max : Nat) : Nat :=
  rnd.rand n * (max - min + 1) / (rnd.RAND_MAX + 1) + min

/-- `Random::RandomValue<double>(min, max)` at call `n` of `rand()`:
`(double)rand() / (double)RAND_MAX * (max - min) + min`. -/
def RandomSource.RandomValue (rnd : RandomSource) (n : Nat) (min max : K) : K :=
  (rnd.rand n : K) / (rnd.RAND_MAX : K) * (max - min) + min

/-- The loop `do cut_d = RandomValue<double>(0, sqd_sum); while(cut_d == 0.0)`
of `RandomClustersPlusPlus` from call `n` of `rand()` on, with one unit of
fuel per draw: the value drawn and the number of the next call. -/
def drawCut (rnd : RandomSource) (sqd_sum : K) : Nat → Nat → Option (K × Nat)
  | 0, _ => none
  | fuel + 1, n =>
    let cut_d : K := rnd.RandomValue n 0 sqd_sum
    if cut_d = 0 then drawCut rnd sqd_sum fuel (n + 1) else some (cut_d, n + 1)

/-- The squared distance of the feature `f` to the nearest of the centres
chosen so far in `RandomClustersPlusPlus`: `min_sqd` starts at the distance to
the first centre and a later centre replaces it when strictly nearer. -/
def minSqDistance (DescriptorLength : Int) (clusters : List (List K)) (f : List K) : K :=
  match clusters with
  | [] => 0
  | c :: rest =>
    rest.foldl
      (fun (min_sqd : K) (c : List K) =>
        let sqd := DescriptorSqDistance DescriptorLength f c
        if sqd < min_sqd then sqd else min_sqd)
      (DescriptorSqDistance DescriptorLength f c)

/-- The scan `for(dit = sqdistances.begin(); ...)` of `RandomClustersPlusPlus`
from position `i` with the running sum `d_up_now`: the first position at which
the running sum reaches `cut_d`, and the last position of the vector when
there is none. -/
def cutPosition (cut_d : K) : List K → K → Nat → Nat
  | [], _, i => i - 1
  | d :: rest, d_up_now, i =>
    if d_up_now + d ≥ cut_d then i else cutPosition cut_d rest (d_up_now + d) (i + 1)

/-- The loop `while(used_clusters < m_params.k)` of `RandomClustersPlusPlus`,
on the state `(clusters, feature_used, n)` with `n` the number of the next call
of `rand()`; the first argument is `k - used_clusters`. The buffer `clusters`
is kept as the list of its slices of `DescriptorLength` values. -/
def plusPlusLoop (rnd : RandomSource) (fuel : Nat) (DescriptorLength : Int)
    (pfeatures : List (List K)) :
    Nat → List (List K) × List Bool × Nat → Option (List (List K) × Nat)
  | 0, st => some (st.1, st.2.2)
  | remaining + 1, st =>
    let ifeatures := (List.range pfeatures.length).filter (fun i : Nat => !st.2.1.getD i false)
    let sqdistances := ifeatures.map
      (fun i : Nat => minSqDistance DescriptorLength st.1 (pfeatures.getD i []))
    let sqd_sum : K := sqdistances.foldl (fun s x => s + x) 0
    if sqd_sum > 0 then
      match drawCut rnd sqd_sum fuel st.2.2 with
      | none => none
      | some (cut_d, n) =>
        let ifeature := ifeatures.getD (cutPosition cut_d sqdistances 0 0) 0
        plusPlusLoop rnd fuel DescriptorLength pfeatures remaining
          (st.1 ++ [(pfeatures.getD ifeature []).take DescriptorLength.toNat],
            st.2.1.set ifeature true, n)
    else some (st.1, st.2.2)

/-- `HVocabulary::RandomClustersPlusPlus(clusters, pfeatures)` from call `n`
of `rand()` on, returning `clusters` as the list of the centres and the number
of the next call. The result is `none` when the draw of `cut_d` runs out of
fuel, and for `k < 1`, where the source resizes `clusters` to a negative
size. -/
def RandomClustersPlusPlus (rnd : RandomSource) (fuel : Nat) (params : HVocParams)
    (pfeatures : List (List K)) (n : Nat) : Option (List (List K) × Nat) :=
  if params.k < 1 then none
  else
    let ifeature := rnd.RandomInt n 0 (pfeatures.length - 1)
    plusPlusLoop rnd fuel params.DescriptorLength pfeatures (params.k - 1).toNat
      ([(pfeatures.getD ifeature []).take params.DescriptorLength.toNat],
        (List.replicate pfeatures.length false).set ifeature true, n + 1)

/-- The association of one feature in `HKMeansStep`: `icluster` starts at
cluster 0 and a later cluster replaces it when strictly nearer. The state of
the loop is `(icluster, best_sqd, i)`. -/
def nearestCluster (DescriptorLength : Int) (clusters : List (List K)) (f : List K) : Nat :=
  match clusters with
  | [] => 0
  | c :: rest =>
    (rest.foldl
      (fun (st : Nat × K × Nat) (c : List K) =>
        let sqd := DescriptorSqDistance DescriptorLength f c
        if sqd < st.2.1 then (st.2.2, sqd, st.2.2 + 1) else (st.1, st.2.1, st.2.2 + 1))
      (0, DescriptorSqDistance DescriptorLength f c, 1)).1

/-- The vector `groups` after the association loop of `HKMeansStep`:
`groups[i]` holds the indices of the features associated with cluster `i`, in
ascending order. -/
def groupsOf (nclusters : Nat) (association : List Nat) : List (List Nat) :=
  (List.range nclusters).map (fun i : Nat =>
    (List.range association.length).filter (fun j : Nat => association.getD j 0 = i))

/-- The centre of a group in `HKMeansStep`: every coordinate is the sum of
that coordinate over the features of the group, from `0`, divided by
`groups[i].size()`. For an empty group the source computes `0/0`; the model
has the quotient of the field there, which is `0`. -/
def clusterCentre (D : Nat) (pfeatures : List (List K)) (group : List Nat) : List K :=
  (List.range D).map (fun c : Nat =>
    group.foldl (fun (s : K) (j : Nat) => s + (pfeatures.getD j []).getD c 0) 0 /
      (group.length : K))

/-- The iterations of `while(goon)` in `HKMeansStep` after the first one, with
one unit of fuel per iteration: the centres are computed from the groups of
`last_association`, the features are associated again, and the loop ends when
the association has not changed. The result is `clusters` and `groups`. -/
def kmeansLoop (DescriptorLength : Int) (pfeatures : List (List K)) (nclusters : Nat) :
    Nat → List Nat → Option (List (List K) × List (List Nat))
  | 0, _ => none
  | fuel + 1, last_association =>
    let clusters := (groupsOf nclusters last_association).map
      (clusterCentre DescriptorLength.toNat pfeatures)
    let current_association := pfeatures.map (nearestCluster DescriptorLength clusters)
    if current_association = last_association then
      some (clusters, groupsOf nclusters current_association)
    else kmeansLoop DescriptorLength pfeatures nclusters fuel current_association

/-- The clustering of `HKMeansStep` for a non-empty `pfeatures`: `clusters`,
`groups` and the number of the next call of `rand()`. With at most `k`
features every feature is a cluster; otherwise the centres of
`RandomClustersPlusPlus` are refined by `while(goon)`. -/
def clusterFeatures (rnd : RandomSource) (fuel : Nat) (params : HVocParams)
    (pfeatures : List (List K)) (n : Nat) : Option (List (List K) × List (List Nat) × Nat) :=
  if (pfeatures.length : Int) ≤ params.k then
    some (pfeatures.map (fun f => f.take params.DescriptorLength.toNat),
      (List.range pfeatures.length).map (fun i : Nat => [i]), n)
  else
    match RandomClustersPlusPlus rnd fuel params pfeatures n with
    | none => none
    | some (clusters, n) =>
      match kmeansLoop params.DescriptorLength pfeatures clusters.length fuel
          (pfeatures.map (nearestCluster params.DescriptorLength clusters)) with
      | none => none
      | some (clusters, groups) => some (clusters, groups, n)

/-- The loop `create child nodes` of `HKMeansStep`: for every cluster a node
`Node(m_nodes.size())` with the centre as descriptor is pushed and its id is
appended to the children of `parentId`. -/
def createChildNodes (m_nodes : List (Node K)) (parentId : Nat) (clusters : List (List K)) :
    List (Node K) :=
  clusters.foldl
    (fun (m_nodes : List (Node K)) (c : List K) =>
      let id := m_nodes.length
      let pushed := m_nodes ++ [{ (Node.create id : Node K) with Descriptor := c }]
      pushed.set parentId
        { pushed.getD parentId (Node.create 0) with
          Children := (pushed.getD parentId (Node.create 0)).Children ++ [id] })
    m_nodes

/-- `HVocabulary::HKMeansStep(parentId, pfeatures, level, clusters)` on the
state `(m_nodes, n)`, `n` being the number of the next call of `rand()`. The
first argument is `L - level`, the number of levels that may still be added
below the children. A feature is the part of its training vector that starts
at it. The result is `none` when a loop of the clustering runs out of fuel. -/
def HKMeansStep (rnd : RandomSource) (fuel : Nat) (params : HVocParams) :
    Nat → List (Node K) × Nat → Nat → List (List K) → Option (List (Node K) × Nat)
  | 0, st, parentId, pfeatures =>
    if pfeatures.isEmpty then some st
    else
      match clusterFeatures rnd fuel params pfeatures st.2 with
      | none => none
      | some (clusters, _, n) => some (createChildNodes st.1 parentId clusters, n)
  | levels + 1, st, parentId, pfeatures =>
    if pfeatures.isEmpty then some st
    else
      match clusterFeatures rnd fuel params pfeatures st.2 with
      | none => none
      | some (clusters, groups, n) =>
        (List.range clusters.length).foldl
          (fun (st : Option (List (Node K) × Nat)) (i : Nat) =>
            match st with
            | none => none
            | some st =>
              let id := (st.1.getD ((st.1.getD parentId (Node.create 0)).Children.getD i 0)
                (Node.create 0)).Id
              let child_features := (groups.getD i []).map (fun j : Nat => pfeatures.getD j [])
              if child_features.length > 1 then
                HKMeansStep rnd fuel params levels st id child_features
              else some st)
          (some (createChildNodes st.1 parentId clusters, n))

/-- `HVocabulary::Create(training_features)`: the arena is reset to the root,
`HKMeansStep(0, pfeatures, 1, buffer)` builds the tree from the features of all
training vectors, and the words, weights and stop list are set as in
`CreateWith`. -/
def HVocabulary.Create (rnd : RandomSource) (fuel : Nat) (L : StdLib K) (A : StdAlgorithm)
    (voc : HVocabulary K) (training_features : List (List K)) : Option (HVocabulary K) :=
  if 0 < voc.m_params.DescriptorLength ∧
      training_features.all
        (fun features => decide (features.length % voc.m_params.DescriptorLength.toNat = 0))
  then
    match HKMeansStep rnd fuel voc.m_params (voc.m_params.L - 1).toNat ([Node.create 0], 0) 0
        (training_features.flatMap
          (fun features => featureSlots features voc.m_params.DescriptorLength.toNat)) with
    | none => none
    | some (tree, _) => voc.CreateWith L A tree training_features
  else none

/-! ## The iteration of k-means -/

/-- The centres that an iteration of `while(goon)` computes from the
association of the iteration before. -/
def centresOf (DescriptorLength : Int) (pfeatures : List (List K)) (nclusters : Nat)
    (association : List Nat) : List (List K) :=
  (groupsOf nclusters association).map (clusterCentre DescriptorLength.toNat pfeatures)

/-- The association that an iteration of `while(goon)` computes from the
association of the iteration before. -/
def nextAssociation (DescriptorLength : Int) (pfeatures : List (List K)) (nclusters : Nat)
    (association : List Nat) : List Nat :=
  pfeatures.map
    (nearestCluster DescriptorLength (centresOf DescriptorLength pfeatures nclusters association))

/-- The sum over the features of the squared distance to the centre of the
cluster that `association` gives them. -/
def associationCost (DescriptorLength : Int) (pfeatures : List (List K))
    (clusters : List (List K)) (association : List Nat) : K :=
  ∑ j in Finset.range pfeatures.length,
    DescriptorSqDistance DescriptorLength (pfeatures.getD j [])
      (clusters.getD (association.getD j 0) [])

/-- The association `b` is better than `a`: the cost under its own centres is
smaller, or it is the same and the sum of the cluster indices is smaller. -/
def Improves (DescriptorLength : Int) (pfeatures : List (List K)) (nclusters : Nat)
    (b a : List Nat) : Prop :=
  associationCost DescriptorLength pfeatures
      (centresOf DescriptorLength pfeatures nclusters b) b <
    associationCost DescriptorLength pfeatures
      (centresOf DescriptorLength pfeatures nclusters a) a ∨
  (associationCost DescriptorLength pfeatures
      (centresOf DescriptorLength pfeatures nclusters b) b =
    associationCost DescriptorLength pfeatures
      (centresOf DescriptorLength pfeatures nclusters a) a ∧
    ∑ j in Finset.range pfeatures.length, b.getD j 0 <
      ∑ j in Finset.range pfeatures.length, a.getD j 0)

/-- An association of `n` features with `nclusters` clusters. -/
def IsAssociation (n nclusters : Nat) (association : List Nat) : Prop :=
  association.length = n ∧ ∀ j : Nat, j < n → association.getD j 0 < nclusters

/-- All associations of `n` features with `nclusters` clusters. -/
def associations (n nclusters : Nat) : Finset (List Nat) :=
  Finset.image (fun f : Fin n → Fin nclusters => List.ofFn (fun j => (f j : Nat))) Finset.univ

/-! ## Assumptions and invariants of the tree construction -/

/-- The generator lets `RandomClustersPlusPlus` return: `RAND_MAX` is positive
and `rand()` does not return `0` for ever, so the loop that draws `cut_d`
ends. -/
def RandomSource.NeverStuck (rnd : RandomSource) : Prop :=
  0 < rnd.RAND_MAX ∧ ∀ n : Nat, ∃ m : Nat, n ≤ m ∧ rnd.rand m ≠ 0

/-- The invariant of the arena during `HKMeansStep` for the branching factor
`k` and the depth `Lmax`, `lev` giving the level of every node: a node has its
index as id, no word id, at most `k` children and a level of at most `Lmax`,
and its children are later nodes of the arena, one level below it. -/
def ArenaInv (k Lmax : Nat) (nodes : List (Node K)) (lev : Nat → Nat) : Prop :=
  ∀ (i : Nat) (node : Node K), nodes[i]? = some node →
    node.Id = i ∧ node.WId = NO_WORD ∧ node.Children.length ≤ k ∧ lev i ≤ Lmax ∧
    ∀ c ∈ node.Children, i < c ∧ c < nodes.length ∧ lev c = lev i + 1

/-- The number of nodes below a node with `h` further levels under its
children and `k` children per node: `k + k^2 + ... + k^(h+1)`. -/
def levelSum (k : Nat) : Nat → Nat
  | 0 => k
  | h + 1 => k + k * levelSum k h

/-- What a call of `HKMeansStep` on the leaf `parent` of the arena `nodes`
leaves, with `h` further levels allowed under the children: the invariant
holds, the levels and the other nodes of `nodes` are unchanged, `parent` has
children, at most `levelSum k h` nodes are pushed and the number of leaves
grows by less than `k^(h+1)`. -/
def StepOk (k Lmax h : Nat) (nodes : List (Node K)) (lev : Nat → Nat) (parent : Nat)
    (nodes' : List (Node K)) (lev' : Nat → Nat) : Prop :=
  ArenaInv k Lmax nodes' lev' ∧
  (∀ i : Nat, i < nodes.length → lev' i = lev i) ∧
  (∀ i : Nat, i < nodes.length → i ≠ parent → nodes'[i]? = nodes[i]?) ∧
  (∃ p' : Node K, nodes'[parent]? = some p' ∧ p'.Children ≠ []) ∧
  nodes.length ≤ nodes'.length ∧
  nodes'.length ≤ nodes.length + levelSum k h ∧
  nodes'.countP (fun n => n.isLeaf) + 1 ≤ nodes.countP (fun n => n.isLeaf) + k ^ (h + 1)

/-- The function `F`, a call of `HKMeansStep` with `h` further levels, returns
with enough fuel on every leaf of an arena with the invariant, for a non-empty
list of features, and leaves an arena as in `StepOk`. -/
def StepTotal
    (F : Nat → List (Node K) × Nat → Nat → List (List K) → Option (List (Node K) × Nat))
    (k Lmax h : Nat) : Prop :=
  ∀ (nodes : List (Node K)) (n parent : Nat) (pf : List (List K)) (p : Node K)
    (lev : Nat → Nat),
    ArenaInv k Lmax nodes lev → nodes[parent]? = some p → p.Children = [] →
    lev parent + h + 1 ≤ Lmax → pf ≠ [] →
    ∃ (N : Nat) (nodes' : List (Node K)) (n' : Nat) (lev' : Nat → Nat),
      (∀ fuel : Nat, N ≤ fuel → F fuel (nodes, n) parent pf = some (nodes', n')) ∧
      StepOk k Lmax h nodes lev parent nodes' lev'

/-- Every result of the function `F`, a call of `HKMeansStep` with `h` further
levels, on a leaf of an arena with the invariant and a non-empty list of
features, is an arena as in `StepOk`. -/
def StepSafe
    (F : Nat → List (Node K) × Nat → Nat → List (List K) → Option (List (Node K) × Nat))
    (k Lmax h : Nat) : Prop :=
  ∀ (fuel : Nat) (nodes : List (Node K)) (n parent : Nat) (pf : List (List K)) (p : Node K)
    (lev : Nat → Nat) (nodes' : List (Node K)) (n' : Nat),
    ArenaInv k Lmax nodes lev → nodes[parent]? = some p → p.Children = [] →
    lev parent + h + 1 ≤ Lmax → pf ≠ [] →
    F fuel (nodes, n) parent pf = some (nodes', n') →
    ∃ lev' : Nat → Nat, StepOk k Lmax h nodes lev parent nodes' lev'

/-- `ChildPath m_nodes i d j`: node `j` is reached from node `i` by `d` links
from a node to one of its children. -/
inductive ChildPath (m_nodes : List (Node K)) : Nat → Nat → Nat → Prop where
  | here (i : Nat) : ChildPath m_nodes i 0 i
  | down (i c d j : Nat) (node : Node K) :
      m_nodes[i]? = some node → c ∈ node.Children → ChildPath m_nodes c d j →
      ChildPath m_nodes i (d + 1) j

/-- The bounds of a tree with the branching factor `k` and the depth `Lmax`:
the arena invariant holds with the root at level 0, the arena has at most
`1 + k + ... + k^Lmax` nodes, and at most `k^Lmax` of them are leaves. -/
def TreeBounds (k Lmax : Nat) (tree : List (Node K)) : Prop :=
  (∃ lev : Nat → Nat, lev 0 = 0 ∧ ArenaInv k Lmax tree lev) ∧ tree ≠ [] ∧
  tree.length ≤ 1 + levelSum k (Lmax - 1) ∧ tree.countP (fun n => n.isLeaf) ≤ k ^ Lmax

/-! ## The word weights as the specification words them -/

/-- The weight of word `w` after training, in the words of the specification:
`docs` holds for every training group the words of its descriptors. Under
`TF_IDF` and `IDF` the weight is `ln(N / N_w)`, `N` being the number of groups
and `N_w` the number of groups with a descriptor that descends to `w`, and `0`
when `N_w = 0`; under `TF` it is `1`. Under `BINARY`, of which the
specification says nothing, the source leaves `0`. -/
def specWordWeight (L : StdLib K) (weighting : WeightingType) (docs : List (List Nat))
    (w : Nat) : K :=
  match weighting with
  | .TF_IDF | .IDF =>
    if 0 < docs.countP (fun ids => decide (w ∈ ids)) then
      L.log ((docs.length : K) / (docs.countP (fun ids => decide (w ∈ ids)) : K))
    else 0
  | .TF => 1
  | .BINARY => 0

/-! ## The loops of `DescriptorSqDistance` and of `isInOrder` -/

/-- The offsets `i`, `i + 1`, `i + 2`, `i + 3` and then `i` at which the two
loops of `HVocabulary::DescriptorSqDistance` read `*(v + i)` and `*(w + i)`, in
the order of the reads. -/
def sqDistanceOffsets (DescriptorLength : Int) : List Nat :=
  let D := DescriptorLength.toNat
  let rest := D % 4
  (List.range ((D - rest) / 4)).flatMap
      (fun j : Nat => [4 * j, 4 * j + 1, 4 * j + 2, 4 * j + 3]) ++
    (List.range rest).map (fun j : Nat => D - rest + j)

/-- The naive loop `for(i = 0; i < D; i++) sqd += (v[i] - w[i]) * (v[i] - w[i])`
the specification compares `DescriptorSqDistance` with. -/
def naiveSqDistance (DescriptorLength : Int) (v w : List K) : K :=
  (List.range DescriptorLength.toNat).foldl (fun (sqd : K) (i : Nat) => sqd + sqDiff v w i) 0

/-- The loop `for(unsigned int i = 0; i < n-1; i++)` of `BowVector::isInOrder`
from `i` on, the first argument being the number `n-1 - i` of iterations
left: `some false` at the first `i` with `(*this)[i].id >= (*this)[i+1].id`,
`some true` when the bound is reached, and `none` when `i` or `i + 1` is not an
index of the vector. -/
def isInOrderLoop (v : BowVector K) : Nat → Nat → Option Bool
  | 0, _ => some true
  | left + 1, i =>
    match v[i]?, v[i + 1]? with
    | some a, some b => if a.id ≥ b.id then some false else isInOrderLoop v left (i + 1)
    | _, _ => none

/-- `BowVector::isInOrder`: `n` is the size as an `unsigned int`, and the
bound `n-1` of the loop is computed on 32 bits without a sign, so that it is
`4294967295` for `n = 0`. -/
def isInOrder (v : BowVector K) : Option Bool :=
  let n := v.length % 4294967296
  isInOrderLoop v ((n + 4294967295) % 4294967296) 0

/-! ## The scan of `Vocabulary::Score` under KL, as the specification words it -/

/-- What the scan adds for the entry `e` of the iterated vector under KL:
`v_i * ln(v_i / w_i)` when `b` holds the word of `e`, with value `w_i`, and
`v_i * (ln v_i - ln EPS)` when `b` does not hold it. -/
def klTerm (L : StdLib K) (b : BowVector K) (e : BowVectorEntry K) : K :=
  match b.find? (fun d => decide (d.id = e.id)) with
  | some d => e.value * L.log (e.value / d.value)
  | none => e.value * (L.log e.value - LOG_EPS L)

/-- The sum of the KL terms over the entries of the first vector. -/
def klSum (L : StdLib K) (a b : BowVector K) : K :=
  (a.map (klTerm L b)).sum

/-! ## Distances over all word ids, as the specification words them -/

/-- The value of word `i` in a vector, an absent word counting as `0`. -/
def valueOf (v : BowVector K) (i : Nat) : K :=
  match v.find? (fun e => decide (e.id = i)) with
  | some e => e.value
  | none => 0

/-- The L1 distance of two vectors over the word ids below `N`: the sum of
`|v_i - w_i|`. -/
def l1Distance (N : Nat) (v w : BowVector K) : K :=
  ∑ i in Finset.range N, |valueOf v i - valueOf w i|

/-- The chi-square distance of two vectors over the word ids below `N`: the
sum of `(v_i - w_i)^2 / (v_i + w_i)`, a word absent from both adding nothing. -/
def chiSquareDistance (N : Nat) (v w : BowVector K) : K :=
  ∑ i in Finset.range N,
    (valueOf v i - valueOf w i) * (valueOf v i - valueOf w i) / (valueOf v i + valueOf w i)

/-! ## Binary files and `Vocabulary::Load` -/

/-- Modelled from the spec: `DUtils::BinaryFile` is not among the sources.
The binary variant is little-endian with fixed widths; the encodings of a
`float` (four bytes) and of a `double` (eight bytes) are the two fields. -/
structure BinaryFile (K : Type) where
  float32 : K → List Nat
  double64 : K → List Nat

/-- Modelled from the spec: `f << c` on a `BinaryFile` for a `char` writes
that one byte. -/
def BinaryFile.putChar (c : Nat) : List Nat := [c % 256]

/-- Modelled from the spec: `f << n` on a `BinaryFile` for an `int` writes the
four bytes of the 32-bit two's complement value, lowest byte first. -/
def BinaryFile.putInt (n : Int) : List Nat :=
  let u := (n % 4294967296).toNat
  [u % 256, u / 256 % 256, u / 65536 % 256, u / 16777216 % 256]

/-- `Vocabulary::SaveBinaryHeader`: the magic byte `0`, then
`Vt Wt St Ss D W SfW SiW` as `int`s. -/
def HVocabulary.SaveBinaryHeader (voc : HVocabulary K) : List Nat :=
  BinaryFile.putChar 0 ++
  BinaryFile.putInt 0 ++
  BinaryFile.putInt voc.base_m_params.Weighting.toInt ++
  BinaryFile.putInt voc.base_m_params.Scoring.toInt ++
  BinaryFile.putInt (if voc.base_m_params.ScaleScore then 1 else 0) ++
  BinaryFile.putInt voc.base_m_params.DescriptorLength ++
  BinaryFile.putInt voc.NumberOfWords ++
  BinaryFile.putInt voc.m_frequent_words_stopped ++
  BinaryFile.putInt voc.m_infrequent_words_stopped

/-- The `for` over the children of `pid` in `HVocabulary::SaveBinary`: the
bytes of every child, and the stack `parents` (top first) with the children
that are not leaves pushed. `none` where the source indexes outside a
vector. -/
def saveChildrenBinary (B : BinaryFile K) (m_nodes : List (Node K)) (DescriptorLength : Int)
    (pid : Nat) : List Nat → List Nat → Option (List Nat × List Nat)
  | [], parents => some ([], parents)
  | c :: rest, parents =>
    match m_nodes[c]? with
    | none => none
    | some child =>
      if child.Descriptor.length < DescriptorLength.toNat then none
      else
        match saveChildrenBinary B m_nodes DescriptorLength pid rest
            (if child.isLeaf then parents else c :: parents) with
        | none => none
        | some (bytes, parents) =>
          some (BinaryFile.putInt child.Id ++ BinaryFile.putInt pid ++
            B.double64 child.Weight ++
            (child.Descriptor.take DescriptorLength.toNat).flatMap B.float32 ++ bytes, parents)

/-- The `while(!parents.empty())` loop of `HVocabulary::SaveBinary`, with one
unit of fuel per iteration. -/
def saveTreeBinary (B : BinaryFile K) (m_nodes : List (Node K)) (DescriptorLength : Int) :
    Nat → List Nat → Option (List Nat)
  | _, [] => some []
  | 0, _ :: _ => none
  | fuel + 1, pid :: parents =>
    match m_nodes[pid]? with
    | none => none
    | some parent =>
      match saveChildrenBinary B m_nodes DescriptorLength pid parent.Children parents with
      | none => none
      | some (bytes, parents) =>
        match saveTreeBinary B m_nodes DescriptorLength fuel parents with
        | none => none
        | some more => some (bytes ++ more)

/-- The last loop of `HVocabulary::SaveBinary`, from word `id` on: the bytes
of `id frequency node-id` for every word. -/
def saveWordsBinary (B : BinaryFile K) (voc : HVocabulary K) : Nat → List Nat → Option (List Nat)
  | _, [] => some []
  | id, n :: rest =>
    match voc.m_nodes[n]? with
    | none => none
    | some node =>
      match saveWordsBinary B voc (id + 1) rest with
      | none => none
      | some bytes =>
        some (BinaryFile.putInt id ++ B.float32 (voc.GetWordFrequency id) ++
          BinaryFile.putInt node.Id ++ bytes)

/-- `HVocabulary::SaveBinary`: the bytes written to the file, in order. The
walk over the tree gets one unit of fuel per node and one more. -/
def HVocabulary.SaveBinary (B : BinaryFile K) (voc : HVocabulary K) : Option (List Nat) :=
  match saveTreeBinary B voc.m_nodes voc.m_params.DescriptorLength (voc.m_nodes.length + 1)
      [0] with
  | none => none
  | some tree =>
    match saveWordsBinary B voc 0 voc.m_words with
    | none => none
    | some words =>
      some (voc.SaveBinaryHeader ++
        BinaryFile.putInt voc.m_params.k ++ BinaryFile.putInt voc.m_params.L ++
        BinaryFile.putInt voc.m_nodes.length ++ tree ++ words)

/-- The characters `operator<<` of a text stream writes for an `int`: a minus
sign before a negative number, then the decimal digits. -/
def showInt (n : Int) : List Nat :=
  if n < 0 then 45 :: (Nat.toDigits 10 n.natAbs).map Char.toNat
  else (Nat.toDigits 10 n.toNat).map Char.toNat

/-- The first byte of the text file that holds the numbers `f`: the first
character of the first number, since `SaveText` writes nothing before the
header. `showReal` is the formatting of a floating-point value by the
library. -/
def firstByteOfText (showReal : K → List Nat) : List (Token K) → Option Nat
  | [] => none
  | Token.int n :: _ => (showInt n).head?
  | Token.real x :: _ => (showReal x).head?

/-- The two loaders `Vocabulary::Load` chooses between. -/
inductive Loader where
  | LoadText
  | LoadBinary
  deriving DecidableEq, Repr

/-- The value of the `char c` that `f.get(c)` sets from a byte; whether a
plain `char` has a sign is left to the platform. -/
def charOfByte (signedChar : Bool) (b : Nat) : Int :=
  if signedChar && decide (128 ≤ b) then (b : Int) - 256 else (b : Int)

/-- The branch of `Vocabulary::Load(filename)` on the first byte of the file:
`LoadText` if `c >= 32`, else `LoadBinary`. For an empty file `c` is not set
and the choice is undefined. -/
def Vocabulary.loaderFor (signedChar : Bool) (first : Option Nat) : Option Loader :=
  match first with
  | none => none
  | some b => if charOfByte signedChar b ≥ 32 then some .LoadText else some .LoadBinary

/-! ## A small vocabulary -/

/-- The tree of a vocabulary over the one-dimensional training descriptors
`1`, `1`, `5` with `k = 2`, `L = 1`: the root and two leaves with centres `1`
and `5`, carrying the word weights `w0` and `w1`. -/
def exampleNodes (w0 w1 : K) : List (Node K) :=
  [ { Id := 0, Children := [1, 2], Weight := 0, Descriptor := [], WId := NO_WORD },
    { Id := 1, Children := [], Weight := w0, Descriptor := [1], WId := 0 },
    { Id := 2, Children := [], Weight := w1, Descriptor := [5], WId := 1 } ]

/-- The vocabulary over `exampleNodes`: word 0 (centre `1`) has frequency
`2/3`, word 1 (centre `5`) has frequency `1/3`, and no word is stopped. -/
def exampleHVocabulary (weighting : WeightingType) (w0 w1 : K) : HVocabulary K :=
  { m_created := true
    m_frequent_words_stopped := 0
    m_infrequent_words_stopped := 0
    m_word_frequency := [2 / 3, 1 / 3]
    base_m_params :=
      { Weighting := weighting, Scoring := .L1_NORM, ScaleScore := true, DescriptorLength := 1 }
    m_word_stopped := [false, false]
    m_stop_list := []
    m_words_in_order := [1, 0]
    m_params :=
      { Weighting := weighting, Scoring := .L1_NORM, ScaleScore := true, DescriptorLength := 1,
        k := 2, L := 1 }
    m_nodes := exampleNodes w0 w1
    m_words := [1, 2] }

/-- A database over the small vocabulary with one entry, the vector
`[(0, 1)]`. -/
def exampleHDatabase (weighting : WeightingType) (w0 w1 : K) : HDatabase K :=
  { m_voc := exampleHVocabulary weighting w0 w1
    m_index := [[{ id := 0, value := 1 }], []]
    m_nentries := 1 }

/-- The parameters `HVocParams(2, 1, 2)`: `k = 2`, `L = 1` and descriptors of
two values. -/
def examplePlaneParams : HVocParams :=
  { Weighting := .TF_IDF, Scoring := .L1_NORM, ScaleScore := true, DescriptorLength := 2,
    k := 2, L := 1 }

/-- The tree of the training vector `(0,0,10,10)` under `examplePlaneParams`,
with the words created: the root and the leaves `(0,0)` and `(10,10)`. -/
def examplePlaneNodes : List (Node K) :=
  [ { Id := 0, Children := [1, 2], Weight := 0, Descriptor := [], WId := NO_WORD },
    { Id := 1, Children := [], Weight := 0, Descriptor := [0, 0], WId := 0 },
    { Id := 2, Children := [], Weight := 0, Descriptor := [10, 10], WId := 1 } ]

/-- The other arena that `HKMeansStep` can leave for the training descriptors
`1`, `1`, `5` with `k = 2`: the first centre drawn is `5`, so the child with
the centre `5` comes first. -/
def exampleArenaSwapped : List (Node K) :=
  [ { Id := 0, Children := [1, 2], Weight := 0, Descriptor := [], WId := NO_WORD },
    { Id := 1, Children := [], Weight := 0, Descriptor := [5], WId := NO_WORD },
    { Id := 2, Children := [], Weight := 0, Descriptor := [1], WId := NO_WORD } ]

/-- The arena `exampleArenaSwapped` with the words created, and the weights
`w0`, `w1` of word 0 (centre `5`) and word 1 (centre `1`). -/
def exampleNodesSwapped (w0 w1 : K) : List (Node K) :=
  [ { Id := 0, Children := [1, 2], Weight := 0, Descriptor := [], WId := NO_WORD },
    { Id := 1, Children := [], Weight := w0, Descriptor := [5], WId := 0 },
    { Id := 2, Children := [], Weight := w1, Descriptor := [1], WId := 1 } ]

/-- The tree of the vocabulary over the one-dimensional training descriptors
`1`, `1` with `k = 2`, `L = 1`: the root and two leaves with the same centre
`1`, words 0 and 1, before the weights are set. -/
def exampleTwinNodes : List (Node K) :=
  [ { Id := 0, Children := [1, 2], Weight := 0, Descriptor := [], WId := NO_WORD },
    { Id := 1, Children := [], Weight := 0, Descriptor := [1], WId := 0 },
    { Id := 2, Children := [], Weight := 0, Descriptor := [1], WId := 1 } ]

/-- The parameters `HVocParams(3, 1, 1)`. -/
def exampleThreeParams : HVocParams :=
  { Weighting := .TF_IDF, Scoring := .L1_NORM, ScaleScore := true, DescriptorLength := 1,
    k := 3, L := 1 }

/-- The one-dimensional training descriptors `0`, `1`, `1`, `5`, `6`, `9`,
one per training group. -/
def exampleSixFeatures : List (List K) := [[0], [1], [1], [5], [6], [9]]

/-- A generator with `RAND_MAX = 32767` whose first two calls return `100`
and whose later calls return `32767`. -/
def exampleSource : RandomSource :=
  { RAND_MAX := 32767, rand := fun n => if n ≤ 1 then 100 else 32767 }

end VocabularyDefs

/-! ## Double precision

The type `double` of the target, IEEE 754 binary64, with the rounding of each
operation: what the exact arithmetic of the field `K` leaves out. -/

/-- A value of type `double`: a NaN, an infinity, or the finite number
`± m * 2^e`. A zero is `finite neg 0 0` and keeps its sign; a non-zero value
is stored with `m` odd, so that equal numbers are equal terms. -/
inductive Double where
  | nan
  | inf (neg : Bool)
  | finite (neg : Bool) (m : Nat) (e : Int)
  deriving DecidableEq, Repr

/-- The loop of `bitLength`: one halving per unit of `fuel`. -/
def bitLengthLoop : Nat → Nat → Nat
  | 0, _ => 0
  | fuel + 1, n => if n = 0 then 0 else bitLengthLoop fuel (n / 2) + 1

/-- The number of binary digits of `n`. -/
def bitLength (n : Nat) : Nat := bitLengthLoop n n

/-- The double of magnitude `m * 2^e`, which is representable or too large:
an infinity from `2^1024` on, else the number with its trailing zero digits
moved into the exponent. -/
def Double.normal (neg : Bool) (m : Nat) (e : Int) : Double :=
  if m = 0 then .finite neg 0 0
  else if 1024 < (bitLength m : Int) + e then .inf neg
  else
    let t := bitLength (Nat.gcd m (2 ^ bitLength m)) - 1
    .finite neg (m / 2 ^ t) (e + t)

/-- Rounding to nearest, ties to even: the double nearest to
`± (m + d) * 2^e`, where `0 ≤ d < 1` and `sticky` tells whether `d` is not
zero. The result keeps 53 digits, fewer below `2^-1022` where the last place is
`2^-1074`. With `sticky` set, `m` has more than 53 digits. -/
def Double.round (neg : Bool) (m : Nat) (sticky : Bool) (e : Int) : Double :=
  let s := max (bitLength m - 53) (-1074 - e).toNat
  if s = 0 then Double.normal neg m e
  else
    let q := m / 2 ^ s
    let r := m % 2 ^ s
    let half := 2 ^ (s - 1)
    let up := decide (half < r) || (decide (r = half) && (sticky || decide (q % 2 = 1)))
    Double.normal neg (if up then q + 1 else q) (e + s)

/-- The conversion of a non-negative integer to `double`. -/
def Double.ofNat (n : Nat) : Double := Double.round false n false 0

/-- Unary minus. -/
def Double.neg : Double → Double
  | .nan => .nan
  | .inf s => .inf (!s)
  | .finite s m e => .finite (!s) m e

/-- The function `fabs`. -/
def Double.fabs : Double → Double
  | .nan => .nan
  | .inf _ => .inf false
  | .finite _ m e => .finite false m e

/-- Addition: the exact sum, rounded. -/
def Double.add : Double → Double → Double
  | .nan, _ => .nan
  | _, .nan => .nan
  | .inf s, .inf t => if s = t then .inf s else .nan
  | .inf s, .finite _ _ _ => .inf s
  | .finite _ _ _, .inf t => .inf t
  | .finite s1 m1 e1, .finite s2 m2 e2 =>
    let e := min e1 e2
    let a := m1 * 2 ^ (e1 - e).toNat
    let b := m2 * 2 ^ (e2 - e).toNat
    if s1 = s2 then Double.round s1 (a + b) false e
    else if a = b then .finite false 0 0
    else if b < a then Double.round s1 (a - b) false e
    else Double.round s2 (b - a) false e

/-- Subtraction. -/
def Double.sub (x y : Double) : Double := Double.add x (Double.neg y)

/-- Multiplication: the exact product, rounded. -/
def Double.mul : Double → Double → Double
  | .nan, _ => .nan
  | _, .nan => .nan
  | .inf s, .inf t => .inf (s != t)
  | .inf s, .finite t m _ => if m = 0 then .nan else .inf (s != t)
  | .finite s m _, .inf t => if m = 0 then .nan else .inf (s != t)
  | .finite s1 m1 e1, .finite s2 m2 e2 => Double.round (s1 != s2) (m1 * m2) false (e1 + e2)

/-- Division: `0/0` and `∞/∞` are NaN, a non-zero number over zero is an
infinity, and the other quotients are rounded; the quotient is computed to
more than 64 digits and the remainder is the sticky digit. -/
def Double.div : Double → Double → Double
  | .nan, _ => .nan
  | _, .nan => .nan
  | .inf _, .inf _ => .nan
  | .inf s, .finite t _ _ => .inf (s != t)
  | .finite s _ _, .inf t => .finite (s != t) 0 0
  | .finite s1 m1 e1, .finite s2 m2 e2 =>
    if m2 = 0 then (if m1 = 0 then .nan else .inf (s1 != s2))
    else
      let k := bitLength m2 + 64
      Double.round (s1 != s2) (m1 * 2 ^ k / m2) (decide (m1 * 2 ^ k % m2 ≠ 0)) (e1 - e2 - k)

/-- The loop of `isqrt`: the digits of the root from place `i - 1` down. -/
def isqrtLoop (n : Nat) : Nat → Nat → Nat
  | 0, r => r
  | i + 1, r =>
    if (r + 2 ^ i) * (r + 2 ^ i) ≤ n then isqrtLoop n i (r + 2 ^ i) else isqrtLoop n i r

/-- The integer square root: the largest `r` with `r * r ≤ n`. -/
def isqrt (n : Nat) : Nat := isqrtLoop n (bitLength n / 2 + 1) 0

/-- The function `sqrt`, correctly rounded as IEEE 754 requires: NaN below
zero, the root of a zero is that zero. -/
def Double.sqrt : Double → Double
  | .nan => .nan
  | .inf s => if s then .nan else .inf false
  | .finite s m e =>
    if m = 0 then .finite s 0 0
    else if s then .nan
    else
      let k : Nat := if (e - 128) % 2 = 0 then 128 else 129
      let r := isqrt (m * 2 ^ k)
      Double.round false r (decide (r * r ≠ m * 2 ^ k)) ((e - k) / 2)

/-- The comparison `x < y`: false when an operand is NaN. -/
def Double.lt : Double → Double → Bool
  | .nan, _ => false
  | _, .nan => false
  | .inf s, .inf t => s && !t
  | .inf s, .finite _ _ _ => s
  | .finite _ _ _, .inf t => !t
  | .finite s1 m1 e1, .finite s2 m2 e2 =>
    let e := min e1 e2
    let a : Int := m1 * 2 ^ (e1 - e).toNat
    let b : Int := m2 * 2 ^ (e2 - e).toNat
    decide ((if s1 then -a else a) < (if s2 then -b else b))

/-- The comparison `x <= y`: false when an operand is NaN. -/
def Double.le : Double → Double → Bool
  | .nan, _ => false
  | _, .nan => false
  | x, y => !Double.lt y x

instance : Add Double := ⟨Double.add⟩

instance : Sub Double := ⟨Double.sub⟩

instance : Mul Double := ⟨Double.mul⟩

instance : Div Double := ⟨Double.div⟩

instance : Neg Double := ⟨Double.neg⟩

instance (n : Nat) : OfNat Double n := ⟨Double.ofNat n⟩

/-! ## The scorer and the database in double precision

The routines of `BowVector.cpp`, `Vocabulary.cpp` and `Database.cpp` once
more, statement by statement, on values of type `Double`; every operation is
rounded on its own. `sqrt` is `Double.sqrt`; `log` and `std::sort`, which
IEEE 754 does not fix, are parameters. -/

/-- The magnitude computed by the first half of `BowVector::Normalize`. -/
def Binary64.normOf (norm_type : ScoringType) (v : BowVector Double) : Double :=
  match norm_type with
  | .L1_NORM => v.foldl (fun norm e => norm + Double.fabs e.value) 0
  | .L2_NORM => Double.sqrt (v.foldl (fun norm e => norm + e.value * e.value) 0)
  | _ => 0

/-- `BowVector::Normalize(norm_type)`: `if(norm > 0.0)` every value is divided
by `norm`. -/
def Binary64.Normalize (norm_type : ScoringType) (v : BowVector Double) : BowVector Double :=
  let norm := Binary64.normOf norm_type v
  if Double.lt 0 norm then v.map (fun e => { e with value := e.value / norm }) else v

/-- The step `if (MustNormalize(scoring, norm)) v.Normalize(norm)`. -/
def Binary64.normalizeFor (scoring : ScoringType) (v : BowVector Double) : BowVector Double :=
  match MustNormalize scoring with
  | some norm => Binary64.Normalize norm v
  | none => v

/-- The binary search inside the loop of `Vocabulary::Score`, one unit of
`fuel` per iteration of `while (lo <= hi)`: the position of `id` in
`b[lo .. hi]`, or `-1`. -/
def Binary64.binarySearch (b : BowVector Double) (id : Nat) : Nat → Int → Int → Int
  | 0, _, _ => -1
  | fuel + 1, lo, hi =>
    if lo ≤ hi then
      let mid := (lo + hi) / 2
      match b[mid.toNat]? with
      | none => -1
      | some e =>
        if id = e.id then mid
        else if id < e.id then Binary64.binarySearch b id fuel lo (mid - 1)
        else Binary64.binarySearch b id fuel (mid + 1) hi
    else -1

/-- The value added to `score` for a common word (the first `switch` of
`Vocabulary::Score`). -/
def Binary64.pairValue (log : Double → Double) (scoring : ScoringType) (vi wi : Double) :
    Double :=
  match scoring with
  | .L1_NORM => Double.fabs (vi - wi) - Double.fabs vi - Double.fabs wi
  | .L2_NORM => vi * wi
  | .CHI_SQUARE => (vi - wi) * (vi - wi) / (vi + wi) - vi - wi
  | .KL => vi * log (vi / wi)
  | .BHATTACHARYYA => Double.sqrt (vi * wi)
  | .DOT_PRODUCT => vi * wi

/-- `const WordValue LOG_EPS = log(EPSILON)` with `EPSILON = DBL_EPSILON = 2^-52`. -/
def Binary64.LOG_EPS (log : Double → Double) : Double := log (.finite false 1 (-52))

/-- One iteration of the main loop of `Vocabulary::Score`; the state is
`(score, first_index)`. The fuel of the search is one more than the number of
entries of `b`. -/
def Binary64.scoreStep (log : Double → Double) (scoring : ScoringType) (b : BowVector Double)
    (st : Double × Nat) (ita : BowVectorEntry Double) : Double × Nat :=
  let pos := Binary64.binarySearch b ita.id (b.length + 1) (st.2 : Int) ((b.length : Int) - 1)
  if 0 ≤ pos then
    match b[pos.toNat]? with
    | some e => (st.1 + Binary64.pairValue log scoring ita.value e.value, pos.toNat + 1)
    | none => st
  else if scoring = .KL then
    (st.1 + ita.value * (log ita.value - Binary64.LOG_EPS log), st.2)
  else st

/-- The main loop of `Vocabulary::Score` over `a`, searching in `b`. -/
def Binary64.scoreLoop (log : Double → Double) (scoring : ScoringType) (a b : BowVector Double) :
    Double :=
  (a.foldl (Binary64.scoreStep log scoring b) (0, 0)).1

/-- `accumulate(v.begin(), v.end(), 0.0)` with `operator+ (WordValue, BowVectorEntry)`. -/
def Binary64.accumulateValues (v : BowVector Double) : Double :=
  v.foldl (fun w e => e.value + w) 0

/-- The final `switch` of `Vocabulary::Score`. -/
def Binary64.finishScore (p : VocParams) (a b : BowVector Double) (score : Double) : Double :=
  match p.Scoring with
  | .L1_NORM => if p.ScaleScore then -score / 2 else 2 + score
  | .L2_NORM => if p.ScaleScore then 1 - Double.sqrt (1 - score) else Double.sqrt (2 - 2 * score)
  | .CHI_SQUARE =>
    let s := score + (Binary64.accumulateValues a + Binary64.accumulateValues b)
    if p.ScaleScore then 1 - s / 2 else s
  | _ => score

/-- `Vocabulary::Score(v, w)`. -/
def Binary64.Score (log : Double → Double) (voc : Vocabulary) (v w : BowVector Double) :
    Double :=
  let scoring := voc.m_params.Scoring
  let v2 := Binary64.normalizeFor scoring v
  let w2 := Binary64.normalizeFor scoring w
  let do_not_change_order := decide (scoring = .KL)
  let ab := if do_not_change_order || decide (v2.length < w2.length) then (v2, w2) else (w2, v2)
  Binary64.finishScore voc.m_params ab.1 ab.2 (Binary64.scoreLoop log scoring ab.1 ab.2)

/-- `Database::_AddEntry`. -/
def Binary64._AddEntry (db : Database Double) (v : BowVector Double) : Nat × Database Double :=
  let v := Binary64.normalizeFor db.m_voc.Scoring v
  let eid := db.m_nentries
  let index := v.foldl (fun idx it => pushBackAt idx it.id ⟨eid, it.value⟩) db.m_index
  (eid, { db with m_index := index, m_nentries := (db.m_nentries + 1) % 4294967296 })

/-- The database obtained from the empty one by `AddEntry` on each vector of
`vs`, in order. -/
def Binary64.filled (voc : Vocabulary) (vs : List (BowVector Double)) : Database Double :=
  vs.foldl (fun d v => (Binary64._AddEntry d v).2) (Database.create Double voc)

/-- The body of the inner loop of the `doQuery*` routines: `find`, then
`push_back(Result(eid, value))` or `qit->Score += value`. -/
def Binary64.addScore (ret : List (Result Double)) (eid : Nat) (value : Double) :
    List (Result Double) :=
  match ret with
  | [] => [⟨eid, value⟩]
  | r :: rs =>
    if r.Id = eid then { r with Score := r.Score + value } :: rs
    else r :: Binary64.addScore rs eid value

/-- The two nested loops of the `doQuery*` routines. -/
def Binary64.accumulateRows (f : Double → Double → Double) (index : List (IFRow Double))
    (v : BowVector Double) : List (Result Double) :=
  v.foldl (fun ret it =>
    (index.getD it.id []).foldl
      (fun ret rit => Binary64.addScore ret rit.id (f it.value rit.value)) ret) []

/-- `Result::operator<`. -/
def Binary64.lt (a b : Result Double) : Bool := Double.lt a.Score b.Score

/-- `Result::GreaterThan`. -/
def Binary64.GreaterThan (a b : Result Double) : Bool := Double.lt b.Score a.Score

/-- The cut `if((int)ret.size() > max_results) ret.resize(max_results)`. -/
def Binary64.cut (ret : List (Result Double)) (max_results : Nat) : List (Result Double) :=
  if ret.length > max_results then ret.take max_results else ret

/-- The loops `for(qit ...) qit->Score = g(qit->Score)`. -/
def Binary64.mapScore (g : Double → Double) (ret : List (Result Double)) :
    List (Result Double) :=
  ret.map (fun r => { r with Score := g r.Score })

/-- The type of `std::sort` on a vector of results with a comparator. -/
abbrev Binary64.Sort : Type :=
  (Result Double → Result Double → Bool) → List (Result Double) → List (Result Double)

/-- `Database::doQueryL1`. -/
def Binary64.doQueryL1 (sort : Binary64.Sort) (index : List (IFRow Double))
    (v : BowVector Double) (max_results : Nat) (scale_score : Bool) : List (Result Double) :=
  let ret := Binary64.cut (sort Binary64.lt (Binary64.accumulateRows
    (fun qvalue dvalue => Double.fabs (qvalue - dvalue) - Double.fabs qvalue - Double.fabs dvalue)
    index v)) max_results
  if scale_score then Binary64.mapScore (fun s => -s / 2) ret
  else Binary64.mapScore (fun s => 2 + s) ret

/-- `Database::doQueryL2`. -/
def Binary64.doQueryL2 (sort : Binary64.Sort) (index : List (IFRow Double))
    (v : BowVector Double) (max_results : Nat) (scale_score : Bool) : List (Result Double) :=
  let ret := Binary64.cut (sort Binary64.lt (Binary64.accumulateRows
    (fun qvalue dvalue => -(qvalue * dvalue)) index v)) max_results
  if scale_score then Binary64.mapScore (fun s => 1 - Double.sqrt (1 + s)) ret
  else Binary64.mapScore (fun s => Double.sqrt (2 + 2 * s)) ret

/-- `Database::doQueryChiSquare`. -/
def Binary64.doQueryChiSquare (sort : Binary64.Sort) (index : List (IFRow Double))
    (v : BowVector Double) (max_results : Nat) (scale_score : Bool) : List (Result Double) :=
  let ret := Binary64.cut (sort Binary64.lt (Binary64.accumulateRows
    (fun vi wi => (vi - wi) * (vi - wi) / (vi + wi) - vi - wi) index v)) max_results
  if scale_score then Binary64.mapScore (fun s => -s / 2) ret
  else Binary64.mapScore (fun s => 2 + s) ret

/-- The second pass of `doQueryKL` for one result. -/
def Binary64.klMissing (log : Double → Double) (index : List (IFRow Double))
    (v : BowVector Double) (eid : Nat) : Double :=
  v.foldl (fun value it =>
    if (index.getD it.id []).all (fun rit => decide (rit.id ≠ eid))
    then value + it.value * (log it.value - Binary64.LOG_EPS log) else value) 0

/-- `Database::doQueryKL`. -/
def Binary64.doQueryKL (log : Double → Double) (sort : Binary64.Sort)
    (index : List (IFRow Double)) (v : BowVector Double) (max_results : Nat)
    (_scale_score : Bool) : List (Result Double) :=
  let ret := Binary64.accumulateRows (fun vi wi => vi * log (vi / wi)) index v
  let ret := ret.map (fun qit =>
    { qit with Score := qit.Score + Binary64.klMissing log index v qit.Id })
  Binary64.cut (sort Binary64.lt ret) max_results

/-- `Database::doQueryBhattacharyya`. -/
def Binary64.doQueryBhattacharyya (sort : Binary64.Sort) (index : List (IFRow Double))
    (v : BowVector Double) (max_results : Nat) (_scale_score : Bool) : List (Result Double) :=
  Binary64.cut (sort Binary64.GreaterThan
    (Binary64.accumulateRows (fun vi wi => Double.sqrt (vi * wi)) index v)) max_results

/-- `Database::doQueryDotProduct`. -/
def Binary64.doQueryDotProduct (sort : Binary64.Sort) (index : List (IFRow Double))
    (v : BowVector Double) (max_results : Nat) (_scale_score : Bool) : List (Result Double) :=
  Binary64.cut (sort Binary64.GreaterThan
    (Binary64.accumulateRows (fun vi wi => vi * wi) index v)) max_results

/-- `Database::_Query`, for `max_results ≥ 0`. -/
def Binary64._Query (log : Double → Double) (sort : Binary64.Sort) (db : Database Double)
    (v : BowVector Double) (max_results : Nat) : List (Result Double) :=
  let p := db.m_voc.m_params
  let v := Binary64.normalizeFor p.Scoring v
  match p.Scoring with
  | .L1_NORM => Binary64.doQueryL1 sort db.m_index v max_results p.ScaleScore
  | .L2_NORM => Binary64.doQueryL2 sort db.m_index v max_results p.ScaleScore
  | .CHI_SQUARE => Binary64.doQueryChiSquare sort db.m_index v max_results p.ScaleScore
  | .KL => Binary64.doQueryKL log sort db.m_index v max_results p.ScaleScore
  | .BHATTACHARYYA => Binary64.doQueryBhattacharyya sort db.m_index v max_results p.ScaleScore
  | .DOT_PRODUCT => Binary64.doQueryDotProduct sort db.m_index v max_results p.ScaleScore

/-- The scores never decrease along the list, by the comparison `<=` of the
doubles. -/
def Binary64.NonDecreasing (ret : List (Result Double)) : Prop :=
  ret.Pairwise (fun a b => Double.le a.Score b.Score = true)

/-- The scores never increase along the list, by the comparison `<=` of the
doubles. -/
def Binary64.NonIncreasing (ret : List (Result Double)) : Prop :=
  ret.Pairwise (fun a b => Double.le b.Score a.Score = true)

/-- The vector `[(0, 0.1), (1, 1.0)]`. -/
def exampleTenthOne : BowVector Double := [⟨0, 1 / 10⟩, ⟨1, 1⟩]

/-- The vector `[(0, 0.5), (1, 0.5)]`. -/
def exampleHalfHalf : BowVector Double := [⟨0, 1 / 2⟩, ⟨1, 1 / 2⟩]

/-- The vector `[(0, 0.0), (1, 1.0)]`: a word of weight zero and a word of
weight one. -/
def exampleZeroOne : BowVector Double := [⟨0, 0⟩, ⟨1, 1⟩]

/-- The vector `[(0, -1.0), (1, 2.0)]`. -/
def exampleMinusOneTwo : BowVector Double := [⟨0, -1⟩, ⟨1, 2⟩]

/-- The vector `[(1, 1.0)]`. -/
def exampleSecondWord : BowVector Double := [⟨1, 1⟩]
/-- What is kept of the contract of `std::sort` when scores may be NaN, where
`operator<` is no strict weak order: the result is a rearrangement of the
input. -/
def Binary64.Rearranges (sort : Binary64.Sort) : Prop :=
  ∀ (lt : Result Double → Result Double → Bool) (l : List (Result Double)), (sort lt l).Perm l

/-! # Theorems -/

section Basics

variable {K : Type} [LinearOrderedField K]

theorem length_cut_le (ret : List (Result K)) (m : Nat) : (cut ret m).length ≤ m := by
  unfold cut
  split
  · simp [List.length_take]
  · omega

theorem cut_eq_take (ret : List (Result K)) (m : Nat) : cut ret m = ret.take m := by
  unfold cut
  split
  · rfl
  · rw [List.take_of_length_le (by omega)]

theorem length_mapScore (g : K → K) (ret : List (Result K)) :
    (mapScore g ret).length = ret.length := by
  simp [mapScore]

theorem mergeSortBy_sortSpec (sq lg : K → K) : SortSpec (StdLib.mk sq lg mergeSortBy) := by
  intro lt l hlt
  refine ⟨List.mergeSort_perm _ _, ?_⟩
  have key : (l.mergeSort (fun a b => !lt b a)).Pairwise (fun a b => (!lt b a) = true) := by
    apply List.sorted_mergeSort
    · intro a b c hab hbc
      rcases hlt with rfl | rfl
      · simp only [Result.lt, Bool.not_eq_true', decide_eq_false_iff_not, not_lt] at *
        exact le_trans hab hbc
      · simp only [Result.GreaterThan, Bool.not_eq_true', decide_eq_false_iff_not, not_lt,
          gt_iff_lt] at *
        exact le_trans hbc hab
    · intro a b
      rcases hlt with rfl | rfl
      · simp only [Result.lt, Bool.or_eq_true, Bool.not_eq_true', decide_eq_false_iff_not, not_lt]
        exact le_total _ _
      · simp only [Result.GreaterThan, Bool.or_eq_true, Bool.not_eq_true',
          decide_eq_false_iff_not, not_lt, gt_iff_lt]
        exact le_total _ _
  exact key.imp (fun h => by simpa using h)

theorem nonDecreasing_sort_lt (L : StdLib K) (hsort : SortSpec L) (l : List (Result K)) :
    NonDecreasing (L.sort Result.lt l) := by
  refine ((hsort Result.lt l (Or.inl rfl)).2).imp ?_
  intro a b h
  simpa [Result.lt] using h

theorem nonIncreasing_sort_gt (L : StdLib K) (hsort : SortSpec L) (l : List (Result K)) :
    NonIncreasing (L.sort Result.GreaterThan l) := by
  refine ((hsort Result.GreaterThan l (Or.inr rfl)).2).imp ?_
  intro a b h
  simpa [Result.GreaterThan] using h

theorem nonDecreasing_cut {ret : List (Result K)} (h : NonDecreasing ret) (m : Nat) :
    NonDecreasing (cut ret m) := by
  rw [cut_eq_take]
  exact List.Pairwise.sublist (List.take_sublist _ _) h

theorem nonIncreasing_cut {ret : List (Result K)} (h : NonIncreasing ret) (m : Nat) :
    NonIncreasing (cut ret m) := by
  rw [cut_eq_take]
  exact List.Pairwise.sublist (List.take_sublist _ _) h

theorem nonDecreasing_mapScore_mono {g : K → K} (hg : Monotone g) {ret : List (Result K)}
    (h : NonDecreasing ret) : NonDecreasing (mapScore g ret) := by
  unfold NonDecreasing mapScore
  rw [List.pairwise_map]
  exact h.imp (fun hab => hg hab)

theorem nonIncreasing_mapScore_anti {g : K → K} (hg : Antitone g) {ret : List (Result K)}
    (h : NonDecreasing ret) : NonIncreasing (mapScore g ret) := by
  unfold NonIncreasing mapScore
  rw [List.pairwise_map]
  exact h.imp (fun hab => hg hab)

end Basics

/-! ## Length and order of the query results, entry ids -/

section QueryShape

variable {K : Type} [LinearOrderedField K]

theorem addEntry_fst (L : StdLib K) (db : Database K) (v : BowVector K) :
    (db.AddEntry L v).1 = db.m_nentries := rfl

theorem addEntry_nentries (L : StdLib K) (db : Database K) (v : BowVector K) :
    (db.AddEntry L v).2.m_nentries = (db.m_nentries + 1) % 4294967296 := rfl

theorem addEntry_voc (L : StdLib K) (db : Database K) (v : BowVector K) :
    (db.AddEntry L v).2.m_voc = db.m_voc := rfl

theorem addAll_cons (L : StdLib K) (db : Database K) (v : BowVector K)
    (vs : List (BowVector K)) :
    db.addAll L (v :: vs) = (db.AddEntry L v).2.addAll L vs := rfl

theorem addAll_voc (L : StdLib K) (db : Database K) (vs : List (BowVector K)) :
    (db.addAll L vs).m_voc = db.m_voc := by
  induction vs generalizing db with
  | nil => rfl
  | cons v vs ih => rw [addAll_cons, ih, addEntry_voc]

theorem addAllIds_eq_range (L : StdLib K) (db : Database K) (vs : List (BowVector K))
    (h : db.m_nentries + vs.length ≤ 4294967296) :
    db.addAllIds L vs = List.range' db.m_nentries vs.length := by
  induction vs generalizing db with
  | nil => rfl
  | cons v vs ih =>
    cases vs with
    | nil => simp [Database.addAllIds, addEntry_fst, List.range']
    | cons w ws =>
      have hlt : db.m_nentries + 1 < 4294967296 := by
        simp only [List.length_cons] at h; omega
      have hn : (db.AddEntry L v).2.m_nentries = db.m_nentries + 1 := by
        rw [addEntry_nentries, Nat.mod_eq_of_lt hlt]
      have := ih (db.AddEntry L v).2 (by rw [hn]; simp only [List.length_cons] at h ⊢; omega)
      rw [Database.addAllIds, this, hn, addEntry_fst]
      simp [List.range']

theorem addAll_nentries (L : StdLib K) (db : Database K) (vs : List (BowVector K))
    (h : db.m_nentries + vs.length < 4294967296) :
    (db.addAll L vs).m_nentries = db.m_nentries + vs.length := by
  induction vs generalizing db with
  | nil => rfl
  | cons v vs ih =>
    simp only [List.length_cons] at h
    have hn : (db.AddEntry L v).2.m_nentries = db.m_nentries + 1 := by
      rw [addEntry_nentries, Nat.mod_eq_of_lt (by omega)]
    rw [addAll_cons, ih _ (by rw [hn]; omega), hn, List.length_cons]
    omega

/-- C1: under each of the six scorings, for every database state, every query
vector and every `max_results ≥ 0`, the list returned by `Database::Query`
has at most `max_results` elements. -/
theorem query_length_le_max_results (L : StdLib K) (db : Database K) (v : BowVector K)
    (max_results : Nat) : (db.Query L v max_results).length ≤ max_results := by
  unfold Database.Query Database._Query
  cases hS : db.m_voc.m_params.Scoring <;>
    simp only [hS, doQueryL1, doQueryL2, doQueryChiSquare, doQueryKL, doQueryBhattacharyya,
      doQueryDotProduct, sortedL1, sortedL2, sortedChiSquare] <;>
    first
      | exact length_cut_le _ _
      | (split <;> (rw [length_mapScore]; exact length_cut_le _ _))

theorem nonDecreasing_mapScore_of_mem {g : K → K} {ret : List (Result K)}
    (hg : ∀ a ∈ ret, ∀ b ∈ ret, a.Score ≤ b.Score → g a.Score ≤ g b.Score)
    (h : NonDecreasing ret) : NonDecreasing (mapScore g ret) := by
  unfold NonDecreasing mapScore
  rw [List.pairwise_map]
  exact h.imp_of_mem (fun ha hb hab => hg _ ha _ hb hab)

theorem nonIncreasing_mapScore_of_mem {g : K → K} {ret : List (Result K)}
    (hg : ∀ a ∈ ret, ∀ b ∈ ret, a.Score ≤ b.Score → g b.Score ≤ g a.Score)
    (h : NonDecreasing ret) : NonIncreasing (mapScore g ret) := by
  unfold NonIncreasing mapScore
  rw [List.pairwise_map]
  exact h.imp_of_mem (fun ha hb hab => hg _ ha _ hb hab)

/-- C3: on a freshly constructed database, the successive calls to `AddEntry`
return the entry ids `0, 1, 2, ...` in the order of the calls, whatever
vectors are added, and after `n` calls `NumberOfEntries()` is `n`; `n` ranges
over the values of the 32-bit type `EntryId`. -/
theorem addEntry_returns_sequential_ids (L : StdLib K) (voc : Vocabulary)
    (vs : List (BowVector K)) (h : vs.length ≤ 4294967296) :
    (Database.create K voc).addAllIds L vs = List.range vs.length ∧
    (vs.length < 4294967296 →
      ((Database.create K voc).addAll L vs).NumberOfEntries = vs.length) := by
  constructor
  · rw [addAllIds_eq_range L _ vs (by simpa [Database.create] using h), List.range_eq_range']
    rfl
  · intro hlt
    have := addAll_nentries L (Database.create K voc) vs (by simpa [Database.create] using hlt)
    simpa [Database.NumberOfEntries, Database.create] using this

end QueryShape

/-! ## The merge scan of `Vocabulary::Score` -/

section ScoreScan

variable {K : Type} [LinearOrderedField K]

theorem inOrder_getElem_lt {b : BowVector K} (hb : InOrder b) {i j : Nat} {d e : BowVectorEntry K}
    (hi : b[i]? = some d) (hj : b[j]? = some e) (hij : i < j) : d.id < e.id := by
  obtain ⟨hi', rfl⟩ := List.getElem?_eq_some.mp hi
  obtain ⟨hj', rfl⟩ := List.getElem?_eq_some.mp hj
  exact (List.pairwise_iff_getElem.mp hb) i j hi' hj' hij

theorem binarySearch_spec (b : BowVector K) (hb : InOrder b) (id : Nat) :
    ∀ (n : Nat) (lo hi : Int), (hi - lo + 1).toNat = n → 0 ≤ lo → hi < b.length →
      (0 ≤ binarySearch b id lo hi →
        lo ≤ binarySearch b id lo hi ∧ binarySearch b id lo hi ≤ hi ∧
        ∃ e, b[(binarySearch b id lo hi).toNat]? = some e ∧ e.id = id) ∧
      (¬ 0 ≤ binarySearch b id lo hi →
        ∀ i : Nat, lo ≤ (i : Int) → (i : Int) ≤ hi → ∀ e, b[i]? = some e → e.id ≠ id) := by
  intro n
  induction n using Nat.strong_induction_on with
  | _ n ih =>
    intro lo hi hn hlo hhi
    rw [binarySearch]
    by_cases hle : lo ≤ hi
    · simp only [hle, if_true]
      have hmid0 : 0 ≤ (lo + hi) / 2 := by omega
      have hmidlt : ((lo + hi) / 2).toNat < b.length := by omega
      rw [List.getElem?_eq_getElem hmidlt]
      simp only []
      by_cases heq : id = (b[((lo + hi) / 2).toNat]).id
      · simp only [heq, if_true]
        refine ⟨fun _ => ⟨by omega, by omega, ?_⟩, fun h => absurd hmid0 h⟩
        exact ⟨_, List.getElem?_eq_getElem hmidlt, rfl⟩
      · simp only [heq, if_false]
        by_cases hlt : id < (b[((lo + hi) / 2).toNat]).id
        · simp only [hlt, if_true]
          have := ih ((lo + hi) / 2 - 1 - lo + 1).toNat (by omega) lo ((lo + hi) / 2 - 1) rfl hlo
            (by omega)
          refine ⟨fun h => ?_, fun h i hi1 hi2 e he => ?_⟩
          · obtain ⟨h1, h2, h3⟩ := this.1 h
            exact ⟨h1, by omega, h3⟩
          · by_cases him : (i : Int) ≤ (lo + hi) / 2 - 1
            · exact this.2 h i hi1 him e he
            · by_cases him2 : i = ((lo + hi) / 2).toNat
              · subst him2
                rw [List.getElem?_eq_getElem hmidlt] at he
                cases he
                exact fun h' => heq h'.symm
              · have := inOrder_getElem_lt hb (List.getElem?_eq_getElem hmidlt) he (by omega)
                omega
        · simp only [hlt, if_false]
          have := ih (hi - ((lo + hi) / 2 + 1) + 1).toNat (by omega) ((lo + hi) / 2 + 1) hi rfl
            (by omega) hhi
          refine ⟨fun h => ?_, fun h i hi1 hi2 e he => ?_⟩
          · obtain ⟨h1, h2, h3⟩ := this.1 h
            exact ⟨by omega, h2, h3⟩
          · by_cases him : (lo + hi) / 2 + 1 ≤ (i : Int)
            · exact this.2 h i him hi2 e he
            · by_cases him2 : i = ((lo + hi) / 2).toNat
              · subst him2
                rw [List.getElem?_eq_getElem hmidlt] at he
                cases he
                exact fun h' => heq h'.symm
              · have := inOrder_getElem_lt hb he (List.getElem?_eq_getElem hmidlt) (by omega)
                omega
    · simp only [hle, if_false]
      refine ⟨fun h => absurd h (by decide), fun _ i hi1 hi2 => ?_⟩
      omega

theorem sum_ite_id_of_forall_ne (g : K → K) (x : Nat) (b : BowVector K)
    (h : ∀ d ∈ b, d.id ≠ x) :
    (b.map (fun d => if d.id = x then g d.value else 0)).sum = 0 := by
  induction b with
  | nil => rfl
  | cons d rest ih =>
    simp only [List.map_cons, List.sum_cons]
    rw [if_neg (h d (List.mem_cons_self _ _)), ih (fun d' hd' => h d' (List.mem_cons_of_mem _ hd'))]
    simp

theorem sum_ite_id_of_getElem (g : K → K) (x : Nat) (b : BowVector K) (hb : InOrder b)
    (p : Nat) (e : BowVectorEntry K) (hp : b[p]? = some e) (hx : e.id = x) :
    (b.map (fun d => if d.id = x then g d.value else 0)).sum = g e.value := by
  induction b generalizing p with
  | nil => simp at hp
  | cons d rest ih =>
    have hb' : InOrder rest := (List.pairwise_cons.mp hb).2
    have hhead := (List.pairwise_cons.mp hb).1
    simp only [List.map_cons, List.sum_cons]
    cases p with
    | zero =>
      simp only [List.getElem?_cons_zero, Option.some.injEq] at hp
      subst hp
      rw [if_pos hx, sum_ite_id_of_forall_ne g x rest (fun d' hd' => by
        have := hhead d' hd'
        omega)]
      simp
    | succ q =>
      simp only [List.getElem?_cons_succ] at hp
      have hlt : d.id < e.id := hhead e (List.getElem?_mem hp)
      rw [if_neg (by omega), ih hb' q hp]
      simp

end ScoreScan

section ScoreLoop

variable {K : Type} [LinearOrderedField K]

theorem scoreStep_spec (L : StdLib K) (scoring : ScoringType) (hS : scoring ≠ .KL)
    (b : BowVector K) (hb : InOrder b) (s : K) (fi : Nat) (e : BowVectorEntry K)
    (hfi : ∀ j < fi, ∀ d, b[j]? = some d → d.id < e.id) :
    (scoreStep L scoring b (s, fi) e).1 =
        s + (b.map (fun d => if d.id = e.id then pairValue L scoring e.value d.value else 0)).sum ∧
    ∀ x, e.id < x → (∀ j < fi, ∀ d, b[j]? = some d → d.id < x) →
      ∀ j < (scoreStep L scoring b (s, fi) e).2, ∀ d, b[j]? = some d → d.id < x := by
  have hspec := binarySearch_spec b hb e.id _ (fi : Int) ((b.length : Int) - 1) rfl
    (by omega) (by omega)
  unfold scoreStep
  simp only []
  by_cases hpos : 0 ≤ binarySearch b e.id (fi : Int) ((b.length : Int) - 1)
  · obtain ⟨h1, h2, d0, hd0, hid⟩ := hspec.1 hpos
    simp only [hpos, if_true, hd0]
    refine ⟨?_, fun x hx _ j hj d hd => ?_⟩
    · rw [sum_ite_id_of_getElem (fun w => pairValue L scoring e.value w) e.id b hb _ d0 hd0 hid]
    · by_cases hjp : j = (binarySearch b e.id (fi : Int) ((b.length : Int) - 1)).toNat
      · subst hjp
        rw [hd0] at hd
        cases hd
        omega
      · have := inOrder_getElem_lt hb hd hd0 (by omega)
        omega
  · simp only [hpos, if_false, hS]
    refine ⟨?_, fun x _ hx => hx⟩
    rw [sum_ite_id_of_forall_ne]
    · simp
    · intro d hd
      obtain ⟨j, hj⟩ := List.mem_iff_getElem?.mp hd
      by_cases hjfi : j < fi
      · have := hfi j hjfi d hj
        omega
      · have hjlen : j < b.length := (List.getElem?_eq_some.mp hj).1
        exact hspec.2 hpos j (by omega) (by omega) d hj

theorem foldl_scoreStep_eq (L : StdLib K) (scoring : ScoringType) (hS : scoring ≠ .KL)
    (b : BowVector K) (hb : InOrder b) (a : BowVector K) (ha : InOrder a) (s : K) (fi : Nat)
    (hfi : ∀ e ∈ a, ∀ j < fi, ∀ d, b[j]? = some d → d.id < e.id) :
    (a.foldl (scoreStep L scoring b) (s, fi)).1 = s + matchSum (pairValue L scoring) a b := by
  induction a generalizing s fi with
  | nil => simp [matchSum]
  | cons e rest ih =>
    have hstep := scoreStep_spec L scoring hS b hb s fi e (hfi e (List.mem_cons_self _ _))
    have hrest : InOrder rest := (List.pairwise_cons.mp ha).2
    have hhead := (List.pairwise_cons.mp ha).1
    rw [List.foldl_cons]
    have hst : scoreStep L scoring b (s, fi) e =
        ((scoreStep L scoring b (s, fi) e).1, (scoreStep L scoring b (s, fi) e).2) := rfl
    rw [hst, ih hrest _ _ (fun e' he' j hj d hd =>
      hstep.2 e'.id (hhead e' he') (hfi e' (List.mem_cons_of_mem _ he')) j hj d hd), hstep.1]
    simp only [matchSum, List.map_cons, List.sum_cons]
    ring

theorem scoreLoop_eq_matchSum (L : StdLib K) (scoring : ScoringType) (hS : scoring ≠ .KL)
    (a b : BowVector K) (ha : InOrder a) (hb : InOrder b) :
    scoreLoop L scoring a b = matchSum (pairValue L scoring) a b := by
  unfold scoreLoop
  rw [foldl_scoreStep_eq L scoring hS b hb a ha 0 0 (fun _ _ j hj => absurd hj (by omega))]
  simp

/-! ### Sums over lists -/

theorem sum_map_sum_comm {α β : Type} (a : List α) (b : List β) (F : α → β → K) :
    (a.map (fun x => (b.map (fun y => F x y)).sum)).sum =
      (b.map (fun y => (a.map (fun x => F x y)).sum)).sum := by
  induction a with
  | nil => simp
  | cons x rest ih =>
    simp only [List.map_cons, List.sum_cons, ih, List.sum_map_add]

theorem matchSum_comm (f : K → K → K) (a b : BowVector K) :
    matchSum f a b = matchSum (fun x y => f y x) b a := by
  unfold matchSum
  rw [sum_map_sum_comm]
  congr 1
  apply List.map_congr_left
  intro d _
  congr 1
  apply List.map_congr_left
  intro e _
  by_cases h : d.id = e.id
  · rw [if_pos h, if_pos h.symm]
  · rw [if_neg h, if_neg (fun h' => h h'.symm)]

theorem sum_map_le_sum_map {α : Type} (l : List α) (f g : α → K) (h : ∀ x ∈ l, f x ≤ g x) :
    (l.map f).sum ≤ (l.map g).sum := by
  induction l with
  | nil => simp
  | cons x rest ih =>
    simp only [List.map_cons, List.sum_cons]
    exact add_le_add (h x (List.mem_cons_self _ _))
      (ih (fun y hy => h y (List.mem_cons_of_mem _ hy)))

theorem sum_ite_id_le (c : K) (hc : 0 ≤ c) (x : Nat) (b : BowVector K) (hb : InOrder b) :
    (b.map (fun d => if d.id = x then c else 0)).sum ≤ c := by
  by_cases h : ∀ d ∈ b, d.id ≠ x
  · rw [sum_ite_id_of_forall_ne (fun _ => c) x b h]
    exact hc
  · push_neg at h
    obtain ⟨d, hd, hx⟩ := h
    obtain ⟨p, hp⟩ := List.mem_iff_getElem?.mp hd
    rw [sum_ite_id_of_getElem (fun _ => c) x b hb p d hp hx]

end ScoreLoop

/-! ## Normalisation -/

section Normalisation

variable {K : Type} [LinearOrderedField K]

theorem foldl_add_eq_sum {α : Type} (g : α → K) (l : List α) (s : K) :
    l.foldl (fun acc e => acc + g e) s = s + (l.map g).sum := by
  induction l generalizing s with
  | nil => simp
  | cons x rest ih => simp only [List.foldl_cons, ih, List.map_cons, List.sum_cons]; ring

theorem normOf_L1 (L : StdLib K) (v : BowVector K) :
    normOf L .L1_NORM v = (v.map (fun e => |e.value|)).sum := by
  simp only [normOf]
  rw [foldl_add_eq_sum (fun e : BowVectorEntry K => |e.value|)]
  simp

theorem normOf_L2 (L : StdLib K) (v : BowVector K) :
    normOf L .L2_NORM v = L.sqrt ((v.map (fun e => e.value * e.value)).sum) := by
  simp only [normOf]
  rw [foldl_add_eq_sum (fun e : BowVectorEntry K => e.value * e.value)]
  simp

theorem sum_abs_nonneg (v : BowVector K) : 0 ≤ (v.map (fun e => |e.value|)).sum := by
  apply List.sum_nonneg
  intro x hx
  obtain ⟨e, _, rfl⟩ := List.mem_map.mp hx
  exact abs_nonneg _

theorem sum_sq_nonneg (v : BowVector K) : 0 ≤ (v.map (fun e => e.value * e.value)).sum := by
  apply List.sum_nonneg
  intro x hx
  obtain ⟨e, _, rfl⟩ := List.mem_map.mp hx
  exact mul_self_nonneg _

theorem map_id_Normalize (L : StdLib K) (n : ScoringType) (v : BowVector K) :
    (Normalize L n v).map (fun e => e.id) = v.map (fun e => e.id) := by
  unfold Normalize
  simp only []
  split
  · simp [List.map_map, Function.comp_def]
  · rfl

theorem map_id_normalizeFor (L : StdLib K) (S : ScoringType) (v : BowVector K) :
    (normalizeFor L S v).map (fun e => e.id) = v.map (fun e => e.id) := by
  unfold normalizeFor
  split
  · exact map_id_Normalize L _ v
  · rfl

theorem length_normalizeFor (L : StdLib K) (S : ScoringType) (v : BowVector K) :
    (normalizeFor L S v).length = v.length := by
  have := congrArg List.length (map_id_normalizeFor L S v)
  simpa using this

theorem inOrder_iff_map (v : BowVector K) :
    InOrder v ↔ (v.map (fun e => e.id)).Pairwise (fun x y => x < y) := by
  unfold InOrder
  rw [List.pairwise_map]

theorem inOrder_normalizeFor (L : StdLib K) (S : ScoringType) {v : BowVector K}
    (h : InOrder v) : InOrder (normalizeFor L S v) := by
  rw [inOrder_iff_map, map_id_normalizeFor]
  exact (inOrder_iff_map v).mp h

theorem inOrder_Normalize (L : StdLib K) (n : ScoringType) {v : BowVector K}
    (h : InOrder v) : InOrder (Normalize L n v) := by
  rw [inOrder_iff_map, map_id_Normalize]
  exact (inOrder_iff_map v).mp h

theorem nodup_ids_of_inOrder {v : BowVector K} (h : InOrder v) :
    (v.map (fun e => e.id)).Nodup := by
  have := (inOrder_iff_map v).mp h
  exact this.imp (fun hxy => Nat.ne_of_lt hxy)

theorem sum_map_div {α : Type} (l : List α) (g : α → K) (c : K) :
    (l.map (fun x => g x / c)).sum = (l.map g).sum / c := by
  induction l with
  | nil => simp
  | cons x rest ih => simp only [List.map_cons, List.sum_cons, ih]; ring

theorem sum_abs_Normalize_L1_le (L : StdLib K) (v : BowVector K) :
    ((Normalize L .L1_NORM v).map (fun e => |e.value|)).sum ≤ 1 := by
  unfold Normalize
  simp only []
  by_cases h : normOf L .L1_NORM v > 0
  · rw [if_pos h, List.map_map]
    have : ((fun e : BowVectorEntry K => |e.value|) ∘
        fun e : BowVectorEntry K => { e with value := e.value / normOf L .L1_NORM v }) =
        fun e => |e.value| / normOf L .L1_NORM v := by
      funext e
      simp [abs_div, abs_of_pos h]
    rw [this, sum_map_div, ← normOf_L1 L v, div_self (ne_of_gt h)]
  · rw [if_neg h, ← normOf_L1 L v]
    exact le_trans (not_lt.mp h) zero_le_one

theorem sum_abs_Normalize_L1_eq (L : StdLib K) (v : BowVector K)
    (h : 0 < normOf L .L1_NORM v) :
    ((Normalize L .L1_NORM v).map (fun e => |e.value|)).sum = 1 := by
  unfold Normalize
  simp only []
  rw [if_pos h, List.map_map]
  have : ((fun e : BowVectorEntry K => |e.value|) ∘
      fun e : BowVectorEntry K => { e with value := e.value / normOf L .L1_NORM v }) =
      fun e => |e.value| / normOf L .L1_NORM v := by
    funext e
    simp [abs_div, abs_of_pos h]
  rw [this, sum_map_div, ← normOf_L1 L v, div_self (ne_of_gt h)]

theorem sqrt_zero_of_spec (L : StdLib K) (h : SqrtSpec L) : L.sqrt 0 = 0 := by
  have := (h 0 le_rfl).2
  exact mul_self_eq_zero.mp this

theorem sqrt_mul_self_of_spec (L : StdLib K) (h : SqrtSpec L) (x : K) (hx : 0 ≤ x) :
    L.sqrt (x * x) = x := by
  obtain ⟨h1, h2⟩ := h (x * x) (mul_self_nonneg x)
  exact (mul_self_inj h1 hx).mp h2

theorem sum_sq_Normalize_L2_eq (L : StdLib K) (hsq : SqrtSpec L) (v : BowVector K)
    (h : 0 < normOf L .L2_NORM v) :
    ((Normalize L .L2_NORM v).map (fun e => e.value * e.value)).sum = 1 := by
  unfold Normalize
  simp only []
  rw [if_pos h, List.map_map]
  have : ((fun e : BowVectorEntry K => e.value * e.value) ∘
      fun e : BowVectorEntry K => { e with value := e.value / normOf L .L2_NORM v }) =
      fun e => e.value * e.value / (normOf L .L2_NORM v * normOf L .L2_NORM v) := by
    funext e
    simp only [Function.comp]
    field_simp
  rw [this, sum_map_div]
  have hn : normOf L .L2_NORM v * normOf L .L2_NORM v =
      (v.map (fun e => e.value * e.value)).sum := by
    rw [normOf_L2]
    exact (hsq _ (sum_sq_nonneg v)).2
  rw [hn, div_self]
  rw [← hn]
  exact ne_of_gt (mul_pos h h)

end Normalisation

/-! ## Sums over the common words of two vectors -/

section MatchSums

variable {K : Type} [LinearOrderedField K]

theorem sum_ite_id_of_mem (g : K → K) (x : Nat) (b : BowVector K)
    (hb : (b.map (fun e => e.id)).Nodup) (e : BowVectorEntry K) (he : e ∈ b) (hx : e.id = x) :
    (b.map (fun d => if d.id = x then g d.value else 0)).sum = g e.value := by
  induction b with
  | nil => simp at he
  | cons d rest ih =>
    simp only [List.map_cons, List.nodup_cons, List.mem_map, not_exists, not_and] at hb
    simp only [List.map_cons, List.sum_cons]
    rcases List.mem_cons.mp he with rfl | hmem
    · rw [if_pos hx, sum_ite_id_of_forall_ne g x rest (fun d' hd' h' => hb.1 d' hd' (by omega))]
      simp
    · rw [if_neg (fun h' => hb.1 e hmem (by omega)), ih hb.2 hmem]
      simp

theorem sum_ite_id_le_of_nodup (c : K) (hc : 0 ≤ c) (x : Nat) (b : BowVector K)
    (hb : (b.map (fun e => e.id)).Nodup) :
    (b.map (fun d => if d.id = x then c else 0)).sum ≤ c := by
  by_cases h : ∀ d ∈ b, d.id ≠ x
  · rw [sum_ite_id_of_forall_ne (fun _ => c) x b h]
    exact hc
  · push_neg at h
    obtain ⟨d, hd, hx⟩ := h
    rw [sum_ite_id_of_mem (fun _ => c) x b hb d hd hx]

theorem matchSum_self (f : K → K → K) (a : BowVector K) (ha : (a.map (fun e => e.id)).Nodup) :
    matchSum f a a = (a.map (fun e => f e.value e.value)).sum := by
  unfold matchSum
  congr 1
  apply List.map_congr_left
  intro e he
  exact sum_ite_id_of_mem (fun w => f e.value w) e.id a ha e he rfl

theorem matchSum_mono (f g : K → K → K) (a b : BowVector K) (h : ∀ x y, f x y ≤ g x y) :
    matchSum f a b ≤ matchSum g a b := by
  unfold matchSum
  apply sum_map_le_sum_map
  intro e _
  apply sum_map_le_sum_map
  intro d _
  split
  · exact h _ _
  · exact le_rfl

theorem matchSum_linear (c : K) (f g : K → K → K) (a b : BowVector K) :
    matchSum (fun x y => c * f x y + g x y) a b = c * matchSum f a b + matchSum g a b := by
  unfold matchSum
  have inner : ∀ e : BowVectorEntry K,
      (b.map (fun d => if d.id = e.id then c * f e.value d.value + g e.value d.value else 0)).sum =
        c * (b.map (fun d => if d.id = e.id then f e.value d.value else 0)).sum +
          (b.map (fun d => if d.id = e.id then g e.value d.value else 0)).sum := by
    intro e
    induction b with
    | nil => simp
    | cons d rest ih =>
      simp only [List.map_cons, List.sum_cons, ih]
      split <;> ring
  simp only [inner]
  induction a with
  | nil => simp
  | cons e rest ih =>
    simp only [List.map_cons, List.sum_cons, ih]
    ring

theorem matchSum_fst_abs_le (a b : BowVector K) (hb : (b.map (fun e => e.id)).Nodup) :
    matchSum (fun x _ => |x|) a b ≤ (a.map (fun e => |e.value|)).sum := by
  unfold matchSum
  apply sum_map_le_sum_map
  intro e _
  exact sum_ite_id_le_of_nodup |e.value| (abs_nonneg _) e.id b hb

theorem matchSum_snd_abs_le (a b : BowVector K) (ha : (a.map (fun e => e.id)).Nodup) :
    matchSum (fun _ y => |y|) a b ≤ (b.map (fun e => |e.value|)).sum := by
  rw [matchSum_comm]
  exact matchSum_fst_abs_le b a ha

theorem matchSum_const_zero (a b : BowVector K) : matchSum (fun _ _ => (0 : K)) a b = 0 := by
  unfold matchSum
  simp

/-- The L1 pair value is never positive. -/
theorem pairValue_L1_nonpos (L : StdLib K) (x y : K) : pairValue L .L1_NORM x y ≤ 0 := by
  simp only [pairValue]
  have := abs_sub x y
  linarith

theorem pairValue_L1_ge (L : StdLib K) (x y : K) :
    -1 * |x| + -1 * |y| ≤ pairValue L .L1_NORM x y := by
  simp only [pairValue]
  have := abs_nonneg (x - y)
  linarith

theorem pairValue_L1_ge_snd (L : StdLib K) (x y : K) :
    -2 * |y| + 0 ≤ pairValue L .L1_NORM x y := by
  simp only [pairValue]
  have h : |x| = |(x - y) + y| := by congr 1; ring
  have := abs_add (x - y) y
  linarith

theorem pairValue_L1_self (L : StdLib K) (x : K) : pairValue L .L1_NORM x x = -2 * |x| := by
  simp only [pairValue, sub_self, abs_zero]
  ring

theorem pairValue_L1_comm (L : StdLib K) (x y : K) :
    pairValue L .L1_NORM x y = pairValue L .L1_NORM y x := by
  simp only [pairValue, abs_sub_comm x y]
  ring

theorem matchSum_L1_nonpos (L : StdLib K) (a b : BowVector K) :
    matchSum (pairValue L .L1_NORM) a b ≤ 0 := by
  have := matchSum_mono (pairValue L .L1_NORM) (fun _ _ => (0 : K)) a b
    (fun x y => pairValue_L1_nonpos L x y)
  rwa [matchSum_const_zero] at this

theorem matchSum_L1_ge (L : StdLib K) (a b : BowVector K)
    (ha : (a.map (fun e => e.id)).Nodup) (hb : (b.map (fun e => e.id)).Nodup) :
    -((a.map (fun e => |e.value|)).sum + (b.map (fun e => |e.value|)).sum) ≤
      matchSum (pairValue L .L1_NORM) a b := by
  have h1 := matchSum_mono (fun x y => -1 * |x| + -1 * |y|) (pairValue L .L1_NORM) a b
    (fun x y => pairValue_L1_ge L x y)
  have h2 := matchSum_linear (-1) (fun x _ => |x|) (fun _ y => -1 * |y|) a b
  have h3 := matchSum_linear (-1) (fun _ y => |y|) (fun _ _ => (0 : K)) a b
  simp only [add_zero] at h3
  rw [matchSum_const_zero] at h3
  have h4 := matchSum_fst_abs_le a b hb
  have h5 := matchSum_snd_abs_le a b ha
  rw [h2, h3] at h1
  linarith

theorem matchSum_L1_ge_snd (L : StdLib K) (a b : BowVector K)
    (ha : (a.map (fun e => e.id)).Nodup) :
    -2 * (b.map (fun e => |e.value|)).sum ≤ matchSum (pairValue L .L1_NORM) a b := by
  have h1 := matchSum_mono (fun x y => -2 * |y| + 0) (pairValue L .L1_NORM) a b
    (fun x y => pairValue_L1_ge_snd L x y)
  have h3 := matchSum_linear (-2) (fun _ y => |y|) (fun _ _ => (0 : K)) a b
  rw [matchSum_const_zero] at h3
  have h5 := matchSum_snd_abs_le a b ha
  rw [h3] at h1
  linarith

end MatchSums

/-! ## Pairwise scores under L1 and L2 -/

section PairScores

variable {K : Type} [LinearOrderedField K]

theorem matchSum_L1_symm (L : StdLib K) (a b : BowVector K) :
    matchSum (pairValue L .L1_NORM) a b = matchSum (pairValue L .L1_NORM) b a := by
  rw [matchSum_comm]
  congr 1
  funext x y
  exact pairValue_L1_comm L y x

theorem matchSum_L2_symm (L : StdLib K) (a b : BowVector K) :
    matchSum (pairValue L .L2_NORM) a b = matchSum (pairValue L .L2_NORM) b a := by
  rw [matchSum_comm]
  congr 1
  funext x y
  simp only [pairValue]
  ring

theorem score_L1_eq (L : StdLib K) (voc : Vocabulary) (hS : voc.m_params.Scoring = .L1_NORM)
    (v w : BowVector K) (hv : InOrder v) (hw : InOrder w) :
    voc.Score L v w =
      if voc.m_params.ScaleScore
      then -(matchSum (pairValue L .L1_NORM) (Normalize L .L1_NORM v) (Normalize L .L1_NORM w)) / 2
      else 2 + matchSum (pairValue L .L1_NORM) (Normalize L .L1_NORM v) (Normalize L .L1_NORM w) := by
  have hv' : InOrder (Normalize L .L1_NORM v) := inOrder_Normalize L .L1_NORM hv
  have hw' : InOrder (Normalize L .L1_NORM w) := inOrder_Normalize L .L1_NORM hw
  unfold Vocabulary.Score
  simp only [hS, normalizeFor, MustNormalize, finishScore]
  by_cases hlen : (Normalize L .L1_NORM v).length < (Normalize L .L1_NORM w).length
  · simp only [hlen, reduceCtorEq, decide_False, decide_True, Bool.false_or, if_true]
    rw [scoreLoop_eq_matchSum L .L1_NORM (by decide) _ _ hv' hw']
  · simp only [hlen, reduceCtorEq, decide_False, Bool.false_or, Bool.false_eq_true, if_false]
    rw [scoreLoop_eq_matchSum L .L1_NORM (by decide) _ _ hw' hv', matchSum_L1_symm]

theorem score_L2_eq (L : StdLib K) (voc : Vocabulary) (hS : voc.m_params.Scoring = .L2_NORM)
    (v w : BowVector K) (hv : InOrder v) (hw : InOrder w) :
    voc.Score L v w =
      if voc.m_params.ScaleScore
      then 1 - L.sqrt
        (1 - matchSum (pairValue L .L2_NORM) (Normalize L .L2_NORM v) (Normalize L .L2_NORM w))
      else L.sqrt
        (2 - 2 * matchSum (pairValue L .L2_NORM) (Normalize L .L2_NORM v) (Normalize L .L2_NORM w)) := by
  have hv' : InOrder (Normalize L .L2_NORM v) := inOrder_Normalize L .L2_NORM hv
  have hw' : InOrder (Normalize L .L2_NORM w) := inOrder_Normalize L .L2_NORM hw
  unfold Vocabulary.Score
  simp only [hS, normalizeFor, MustNormalize, finishScore]
  by_cases hlen : (Normalize L .L2_NORM v).length < (Normalize L .L2_NORM w).length
  · simp only [hlen, reduceCtorEq, decide_False, decide_True, Bool.false_or, if_true]
    rw [scoreLoop_eq_matchSum L .L2_NORM (by decide) _ _ hv' hw']
  · simp only [hlen, reduceCtorEq, decide_False, Bool.false_or, Bool.false_eq_true, if_false]
    rw [scoreLoop_eq_matchSum L .L2_NORM (by decide) _ _ hw' hv', matchSum_L2_symm]

/-- C4: under L1 scoring with `ScaleScore` on, `Vocabulary::Score(a, b)` lies
in `[0, 1]` for all in-order vectors `a` and `b`. -/
theorem score_L1_scaled_in_unit_interval (L : StdLib K) (voc : Vocabulary)
    (hS : voc.m_params.Scoring = .L1_NORM) (hscale : voc.m_params.ScaleScore = true)
    (a b : BowVector K) (ha : InOrder a) (hb : InOrder b) :
    0 ≤ voc.Score L a b ∧ voc.Score L a b ≤ 1 := by
  rw [score_L1_eq L voc hS a b ha hb, hscale, if_pos rfl]
  have hup := matchSum_L1_nonpos L (Normalize L .L1_NORM a) (Normalize L .L1_NORM b)
  have hlow := matchSum_L1_ge L (Normalize L .L1_NORM a) (Normalize L .L1_NORM b)
    (nodup_ids_of_inOrder (inOrder_Normalize L .L1_NORM ha))
    (nodup_ids_of_inOrder (inOrder_Normalize L .L1_NORM hb))
  have h1 := sum_abs_Normalize_L1_le L a
  have h2 := sum_abs_Normalize_L1_le L b
  constructor
  · linarith
  · linarith

/-- C5: under L1 scoring with `ScaleScore` on, `Vocabulary::Score(a, a)` is `1`
for every in-order vector `a` of positive L1 norm. -/
theorem score_L1_scaled_self (L : StdLib K) (voc : Vocabulary)
    (hS : voc.m_params.Scoring = .L1_NORM) (hscale : voc.m_params.ScaleScore = true)
    (a : BowVector K) (ha : InOrder a) (hnorm : 0 < normOf L .L1_NORM a) :
    voc.Score L a a = 1 := by
  rw [score_L1_eq L voc hS a a ha ha, hscale, if_pos rfl,
    matchSum_self _ _ (nodup_ids_of_inOrder (inOrder_Normalize L .L1_NORM ha))]
  have h1 := sum_abs_Normalize_L1_eq L a hnorm
  have h2 : ((Normalize L .L1_NORM a).map
      (fun e => pairValue L .L1_NORM e.value e.value)).sum =
      -2 * ((Normalize L .L1_NORM a).map (fun e => |e.value|)).sum := by
    simp only [pairValue_L1_self]
    rw [← List.sum_map_mul_left]
  rw [h2, h1]
  norm_num

/-- In exact arithmetic, under L2 scoring, for every in-order vector `a` of
positive L2 norm, `Vocabulary::Score(a, a)` is `1` when `ScaleScore` is on and
`0` when it is off; `sqrt` returns the non-negative root of a non-negative
number. With the rounding of double precision this fails, see the section on
double precision. -/
theorem score_L2_self (L : StdLib K) (hsqrt : SqrtSpec L) (voc : Vocabulary)
    (hS : voc.m_params.Scoring = .L2_NORM)
    (a : BowVector K) (ha : InOrder a) (hnorm : 0 < normOf L .L2_NORM a) :
    voc.Score L a a = if voc.m_params.ScaleScore then 1 else 0 := by
  rw [score_L2_eq L voc hS a a ha ha,
    matchSum_self _ _ (nodup_ids_of_inOrder (inOrder_Normalize L .L2_NORM ha))]
  have h1 := sum_sq_Normalize_L2_eq L hsqrt a hnorm
  have h2 : ((Normalize L .L2_NORM a).map
      (fun e => pairValue L .L2_NORM e.value e.value)).sum = 1 := by
    simpa only [pairValue] using h1
  rw [h2]
  have h0 := sqrt_zero_of_spec L hsqrt
  split
  · rw [sub_self, h0, sub_zero]
  · rw [show (2 : K) - 2 * 1 = 0 by ring, h0]

end PairScores

/-! ## The accumulation loop of the queries -/

section Accumulation

variable {K : Type} [LinearOrderedField K]

theorem map_Id_addScore (ret : List (Result K)) (e : Nat) (x : K) :
    (addScore ret e x).map (fun r => r.Id) =
      if e ∈ ret.map (fun r => r.Id) then ret.map (fun r => r.Id)
      else ret.map (fun r => r.Id) ++ [e] := by
  induction ret with
  | nil => simp [addScore]
  | cons r rs ih =>
    simp only [addScore]
    by_cases h : r.Id = e
    · simp [h]
    · rw [if_neg h, List.map_cons, ih]
      have hne : ¬ e = r.Id := fun h' => h h'.symm
      by_cases hm : e ∈ rs.map (fun r => r.Id)
      · simp [hm]
      · simp [hm, hne]

theorem scoreOf_addScore (ret : List (Result K)) (e : Nat) (x : K) (eid : Nat) :
    scoreOf (addScore ret e x) eid = scoreOf ret eid + (if e = eid then x else 0) := by
  induction ret with
  | nil => simp [addScore, scoreOf]
  | cons r rs ih =>
    simp only [addScore]
    by_cases h : r.Id = e
    · rw [if_pos h]
      simp only [scoreOf, List.map_cons, List.sum_cons]
      by_cases h2 : e = eid
      · simp only [h, h2, if_true]; ring
      · have : ¬ r.Id = eid := fun h' => h2 (h ▸ h')
        simp only [this, h2, if_false]; ring
    · rw [if_neg h]
      simp only [scoreOf, List.map_cons, List.sum_cons] at ih ⊢
      rw [ih]; ring

theorem nodup_addScore (ret : List (Result K)) (e : Nat) (x : K)
    (h : (ret.map (fun r => r.Id)).Nodup) : ((addScore ret e x).map (fun r => r.Id)).Nodup := by
  rw [map_Id_addScore]
  split
  · exact h
  · rename_i hm
    rw [List.nodup_append]
    refine ⟨h, List.nodup_singleton _, ?_⟩
    intro a ha hb
    rw [List.mem_singleton] at hb
    exact hm (hb ▸ ha)

theorem nodup_addEvents (ret : List (Result K)) (evs : List (Nat × K))
    (h : (ret.map (fun r => r.Id)).Nodup) : ((addEvents ret evs).map (fun r => r.Id)).Nodup := by
  induction evs generalizing ret with
  | nil => exact h
  | cons ev rest ih => exact ih _ (nodup_addScore ret ev.1 ev.2 h)

theorem mem_addEvents (ret : List (Result K)) (evs : List (Nat × K)) (eid : Nat) :
    eid ∈ (addEvents ret evs).map (fun r => r.Id) ↔
      eid ∈ ret.map (fun r => r.Id) ∨ eid ∈ evs.map (fun ev => ev.1) := by
  induction evs generalizing ret with
  | nil => simp [addEvents]
  | cons ev rest ih =>
    have := ih (addScore ret ev.1 ev.2)
    simp only [addEvents, List.foldl_cons] at this ⊢
    rw [this, map_Id_addScore]
    by_cases hm : ev.1 ∈ ret.map (fun r => r.Id)
    · rw [if_pos hm]
      simp only [List.map_cons, List.mem_cons]
      constructor
      · rintro (h | h)
        · exact Or.inl h
        · exact Or.inr (Or.inr h)
      · rintro (h | h | h)
        · exact Or.inl h
        · exact Or.inl (h ▸ hm)
        · exact Or.inr h
    · rw [if_neg hm]
      simp only [List.map_cons, List.mem_cons, List.mem_append, List.mem_singleton]
      tauto

theorem scoreOf_addEvents (ret : List (Result K)) (evs : List (Nat × K)) (eid : Nat) :
    scoreOf (addEvents ret evs) eid =
      scoreOf ret eid + (evs.map (fun ev => if ev.1 = eid then ev.2 else 0)).sum := by
  induction evs generalizing ret with
  | nil => simp [addEvents]
  | cons ev rest ih =>
    have := ih (addScore ret ev.1 ev.2)
    simp only [addEvents, List.foldl_cons] at this ⊢
    rw [this, scoreOf_addScore]
    simp only [List.map_cons, List.sum_cons]
    ring

theorem addEvents_append (ret : List (Result K)) (e1 e2 : List (Nat × K)) :
    addEvents ret (e1 ++ e2) = addEvents (addEvents ret e1) e2 := by
  simp [addEvents, List.foldl_append]

theorem foldl_rows_eq_addEvents (f : K → K → K) (index : List (IFRow K)) (v : BowVector K)
    (ret : List (Result K)) :
    v.foldl (fun ret it =>
      (index.getD it.id []).foldl (fun ret rit => addScore ret rit.id (f it.value rit.value)) ret)
      ret = addEvents ret (events f index v) := by
  induction v generalizing ret with
  | nil => rfl
  | cons it rest ih =>
    rw [List.foldl_cons, ih, events, addEvents_append]
    congr 1
    simp [addEvents, List.foldl_map]

theorem accumulateRows_eq_addEvents (f : K → K → K) (index : List (IFRow K)) (v : BowVector K) :
    accumulateRows f index v = addEvents [] (events f index v) :=
  foldl_rows_eq_addEvents f index v []

theorem scoreOf_of_mem (ret : List (Result K)) (h : (ret.map (fun r => r.Id)).Nodup)
    (r : Result K) (hr : r ∈ ret) : scoreOf ret r.Id = r.Score := by
  induction ret with
  | nil => simp at hr
  | cons d rest ih =>
    simp only [List.map_cons, List.nodup_cons, List.mem_map, not_exists, not_and] at h
    simp only [scoreOf, List.map_cons, List.sum_cons] at ih ⊢
    have zero_of : ∀ (l : List (Result K)) (x : Nat), (∀ r' ∈ l, r'.Id ≠ x) →
        (l.map (fun r' => if r'.Id = x then r'.Score else 0)).sum = 0 := by
      intro l x hl
      induction l with
      | nil => rfl
      | cons a l iha =>
        simp only [List.map_cons, List.sum_cons]
        rw [if_neg (hl a (List.mem_cons_self _ _)),
          iha (fun r' hr' => hl r' (List.mem_cons_of_mem _ hr'))]
        simp
    rcases List.mem_cons.mp hr with rfl | hmem
    · rw [if_pos rfl, zero_of rest r.Id (fun r' hr' h' => h.1 r' hr' h')]
      simp
    · rw [if_neg (fun h' => h.1 r hmem h'.symm), ih h.2 hmem]
      simp

theorem sum_events (f : K → K → K) (index : List (IFRow K)) (v : BowVector K) (eid : Nat) :
    ((events f index v).map (fun ev => if ev.1 = eid then ev.2 else 0)).sum =
      (v.map (fun it => ((index.getD it.id []).map
        (fun rit => if rit.id = eid then f it.value rit.value else 0)).sum)).sum := by
  induction v with
  | nil => rfl
  | cons it rest ih =>
    simp only [events, List.map_append, List.sum_append, ih, List.map_cons, List.sum_cons,
      List.map_map, Function.comp_def]

theorem mem_events_fst (f : K → K → K) (index : List (IFRow K)) (v : BowVector K) (eid : Nat) :
    eid ∈ (events f index v).map (fun ev => ev.1) ↔
      ∃ it ∈ v, ∃ rit ∈ index.getD it.id [], rit.id = eid := by
  induction v with
  | nil => simp [events]
  | cons it rest ih =>
    simp only [events, List.map_append, List.mem_append, ih, List.map_map, List.mem_map,
      Function.comp_def, List.mem_cons, exists_eq_or_imp]

/-- The results of the accumulation loop carry pairwise distinct entry ids. -/
theorem nodup_accumulateRows (f : K → K → K) (index : List (IFRow K)) (v : BowVector K) :
    ((accumulateRows f index v).map (fun r => r.Id)).Nodup := by
  rw [accumulateRows_eq_addEvents]
  exact nodup_addEvents [] _ List.nodup_nil

theorem mem_accumulateRows (f : K → K → K) (index : List (IFRow K)) (v : BowVector K)
    (eid : Nat) :
    eid ∈ (accumulateRows f index v).map (fun r => r.Id) ↔
      ∃ it ∈ v, ∃ rit ∈ index.getD it.id [], rit.id = eid := by
  rw [accumulateRows_eq_addEvents, mem_addEvents, mem_events_fst]
  simp

theorem score_accumulateRows (f : K → K → K) (index : List (IFRow K)) (v : BowVector K)
    (r : Result K) (hr : r ∈ accumulateRows f index v) :
    r.Score = (v.map (fun it => ((index.getD it.id []).map
        (fun rit => if rit.id = r.Id then f it.value rit.value else 0)).sum)).sum := by
  rw [← scoreOf_of_mem _ (nodup_accumulateRows f index v) r hr, accumulateRows_eq_addEvents,
    scoreOf_addEvents, sum_events]
  simp [scoreOf]

end Accumulation

/-! ## The inverted file written by `AddEntry` -/

section InvertedFile

variable {K : Type} [LinearOrderedField K]

theorem length_pushBackAt (index : List (IFRow K)) (k : Nat) (e : IFEntry K) :
    (pushBackAt index k e).length = index.length := by
  induction index generalizing k with
  | nil => rfl
  | cons row rest ih =>
    cases k with
    | zero => rfl
    | succ n => simp [pushBackAt, ih]

theorem getD_pushBackAt (index : List (IFRow K)) (k : Nat) (e : IFEntry K) (w : Nat) :
    (pushBackAt index k e).getD w [] =
      if w = k ∧ k < index.length then index.getD w [] ++ [e] else index.getD w [] := by
  induction index generalizing k w with
  | nil => simp [pushBackAt]
  | cons row rest ih =>
    cases k with
    | zero =>
      cases w with
      | zero => simp [pushBackAt]
      | succ m => simp [pushBackAt]
    | succ n =>
      cases w with
      | zero => simp [pushBackAt]
      | succ m =>
        simp only [pushBackAt, List.getD_cons_succ, ih, List.length_cons]
        by_cases h : m = n ∧ n < rest.length
        · rw [if_pos h, if_pos ⟨by omega, by omega⟩]
        · rw [if_neg h, if_neg (fun h' => h ⟨by omega, by omega⟩)]

theorem length_foldl_pushBackAt (eid : Nat) (v : BowVector K) (index : List (IFRow K)) :
    (v.foldl (fun idx it => pushBackAt idx it.id ⟨eid, it.value⟩) index).length =
      index.length := by
  induction v generalizing index with
  | nil => rfl
  | cons it rest ih => rw [List.foldl_cons, ih, length_pushBackAt]

theorem getD_foldl_pushBackAt (eid : Nat) (v : BowVector K) (index : List (IFRow K)) (w : Nat) :
    (v.foldl (fun idx it => pushBackAt idx it.id ⟨eid, it.value⟩) index).getD w [] =
      index.getD w [] ++
        (if w < index.length
         then (v.filter (fun e => e.id = w)).map (fun e => ⟨eid, e.value⟩) else []) := by
  induction v generalizing index with
  | nil => simp
  | cons it rest ih =>
    rw [List.foldl_cons, ih, getD_pushBackAt, length_pushBackAt]
    by_cases hw : w < index.length
    · by_cases hit : it.id = w
      · rw [if_pos ⟨hit.symm, by omega⟩, if_pos hw, if_pos hw]
        simp [List.filter_cons, hit]
      · rw [if_neg (fun h => hit h.1.symm), if_pos hw, if_pos hw]
        simp [List.filter_cons, hit]
    · rw [if_neg (fun h => hw (by omega)), if_neg hw, if_neg hw]

theorem length_index_addEntry (L : StdLib K) (db : Database K) (v : BowVector K) :
    (db.AddEntry L v).2.m_index.length = db.m_index.length := by
  simp only [Database.AddEntry, Database._AddEntry]
  exact length_foldl_pushBackAt _ _ _

theorem getD_index_addEntry (L : StdLib K) (db : Database K) (v : BowVector K) (w : Nat) :
    (db.AddEntry L v).2.m_index.getD w [] =
      db.m_index.getD w [] ++
        (if w < db.m_index.length
         then ((normalizeFor L db.m_voc.Scoring v).filter (fun e => e.id = w)).map
           (fun e => ⟨db.m_nentries, e.value⟩) else []) := by
  simp only [Database.AddEntry, Database._AddEntry]
  exact getD_foldl_pushBackAt _ _ _ _

theorem getD_index_addAll (L : StdLib K) (db : Database K) (vs : List (BowVector K)) (w : Nat)
    (h : db.m_nentries + vs.length ≤ 4294967296) :
    (db.addAll L vs).m_index.getD w [] =
      db.m_index.getD w [] ++
        (if w < db.m_index.length
         then storedRow db.m_nentries (vs.map (normalizeFor L db.m_voc.Scoring)) w else []) := by
  induction vs generalizing db with
  | nil => simp [Database.addAll, storedRow]
  | cons v rest ih =>
    rw [addAll_cons]
    cases rest with
    | nil =>
      simp only [Database.addAll, List.foldl_nil, getD_index_addEntry, List.map_cons, List.map_nil,
        storedRow, List.append_nil]
    | cons v2 rest2 =>
      simp only [List.length_cons] at h
      have hn : (db.AddEntry L v).2.m_nentries = db.m_nentries + 1 := by
        rw [addEntry_nentries, Nat.mod_eq_of_lt (by omega)]
      rw [ih (db.AddEntry L v).2 (by rw [hn]; simp only [List.length_cons]; omega),
        getD_index_addEntry, length_index_addEntry, hn, addEntry_voc]
      by_cases hw : w < db.m_index.length
      · simp only [hw, if_true, List.map_cons, storedRow, List.append_assoc]
      · simp only [hw, if_false, List.append_nil]

theorem getD_index_create (voc : Vocabulary) (w : Nat) :
    (Database.create K voc).m_index.getD w [] = [] := by
  simp only [Database.create, List.getD_eq_getElem?_getD]
  by_cases h : w < voc.NumberOfWords
  · rw [List.getElem?_eq_getElem (by simpa using h)]
    simp
  · rw [List.getElem?_eq_none (by simpa using h)]
    rfl

/-- The row of word `w` after adding `vs` to a fresh database. -/
theorem getD_index_fresh (L : StdLib K) (voc : Vocabulary) (vs : List (BowVector K)) (w : Nat)
    (h : vs.length ≤ 4294967296) :
    ((Database.create K voc).addAll L vs).m_index.getD w [] =
      if w < voc.NumberOfWords
      then storedRow 0 (vs.map (normalizeFor L voc.m_params.Scoring)) w else [] := by
  rw [getD_index_addAll L _ vs w (by simpa [Database.create] using h), getD_index_create]
  simp [Database.create, Vocabulary.Scoring]

theorem storedRow_id_ge (m : Nat) (us : List (BowVector K)) (w : Nat) (rit : IFEntry K)
    (h : rit ∈ storedRow m us w) : m ≤ rit.id := by
  induction us generalizing m with
  | nil => simp [storedRow] at h
  | cons u rest ih =>
    simp only [storedRow, List.mem_append, List.mem_map] at h
    rcases h with ⟨e, _, rfl⟩ | h
    · exact le_rfl
    · exact le_trans (Nat.le_succ m) (ih (m + 1) h)

theorem mem_storedRow (m : Nat) (us : List (BowVector K)) (w : Nat) (rit : IFEntry K) :
    rit ∈ storedRow m us w ↔
      ∃ k u, us[k]? = some u ∧ rit.id = m + k ∧ ∃ e ∈ u, e.id = w ∧ rit.value = e.value := by
  induction us generalizing m with
  | nil => simp [storedRow]
  | cons u rest ih =>
    simp only [storedRow, List.mem_append, List.mem_map, List.mem_filter, decide_eq_true_eq, ih]
    constructor
    · rintro (⟨e, ⟨he, hw⟩, rfl⟩ | ⟨k, u', hk, hid, e, he, hw, hv⟩)
      · exact ⟨0, u, by simp, rfl, e, he, hw, rfl⟩
      · exact ⟨k + 1, u', by simpa using hk, by omega, e, he, hw, hv⟩
    · rintro ⟨k, u', hk, hid, e, he, hw, hv⟩
      cases k with
      | zero =>
        simp only [List.getElem?_cons_zero, Option.some.injEq] at hk
        subst hk
        left
        refine ⟨e, ⟨he, hw⟩, ?_⟩
        cases rit
        simp only [add_zero] at hid hv
        simp [hid, hv]
      | succ k' =>
        right
        exact ⟨k', u', by simpa using hk, by omega, e, he, hw, hv⟩

theorem sum_map_filter_id (u : BowVector K) (w : Nat) (h : BowVectorEntry K → K) :
    ((u.filter (fun e => e.id = w)).map h).sum =
      (u.map (fun e => if e.id = w then h e else 0)).sum := by
  induction u with
  | nil => rfl
  | cons e rest ih =>
    by_cases hw : e.id = w
    · simp [List.filter_cons, hw, ih]
    · simp [List.filter_cons, hw, ih]

theorem sum_storedRow (m : Nat) (us : List (BowVector K)) (w k : Nat) (g : K → K) :
    ((storedRow m us w).map (fun rit => if rit.id = m + k then g rit.value else 0)).sum =
      ((us.getD k []).map (fun e => if e.id = w then g e.value else 0)).sum := by
  induction us generalizing m k with
  | nil => simp [storedRow]
  | cons u rest ih =>
    simp only [storedRow, List.map_append, List.sum_append, List.map_map, Function.comp_def]
    cases k with
    | zero =>
      have hz : ((storedRow (m + 1) rest w).map
          (fun rit => if rit.id = m + 0 then g rit.value else 0)).sum = 0 := by
        apply List.sum_eq_zero
        intro x hx
        obtain ⟨rit, hrit, rfl⟩ := List.mem_map.mp hx
        have := storedRow_id_ge (m + 1) rest w rit hrit
        rw [if_neg (by omega)]
      rw [hz]
      simp only [add_zero, if_true, List.getD_cons_zero]
      exact sum_map_filter_id u w (fun e => g e.value)
    | succ k' =>
      have hz : ((u.filter (fun e => e.id = w)).map
          (fun e : BowVectorEntry K => if m = m + (k' + 1) then g e.value else 0)).sum = 0 := by
        apply List.sum_eq_zero
        intro x hx
        obtain ⟨e, _, rfl⟩ := List.mem_map.mp hx
        rw [if_neg (by omega)]
      rw [hz, zero_add, List.getD_cons_succ, ← ih (m + 1) k']
      congr 1
      apply List.map_congr_left
      intro rit _
      rw [show m + 1 + k' = m + (k' + 1) by omega]

end InvertedFile

/-! ## Queries on a database filled by `AddEntry` -/

section FreshDatabase

variable {K : Type} [LinearOrderedField K]

theorem shares_iff_ids (v u : BowVector K) :
    Shares v u ↔ ∃ x ∈ v.map (fun e => e.id), x ∈ u.map (fun e => e.id) := by
  unfold Shares
  simp only [List.mem_map]
  constructor
  · rintro ⟨e, he, d, hd, h⟩
    exact ⟨e.id, ⟨e, he, rfl⟩, ⟨d, hd, h.symm⟩⟩
  · rintro ⟨x, ⟨e, he, rfl⟩, ⟨d, hd, h⟩⟩
    exact ⟨e, he, d, hd, h.symm⟩

theorem shares_normalizeFor (L : StdLib K) (S : ScoringType) (v u : BowVector K) :
    Shares (normalizeFor L S v) (normalizeFor L S u) ↔ Shares v u := by
  rw [shares_iff_ids, shares_iff_ids, map_id_normalizeFor, map_id_normalizeFor]

theorem ids_lt_normalizeFor (L : StdLib K) (S : ScoringType) (u : BowVector K) (W : Nat)
    (h : ∀ e ∈ u, e.id < W) : ∀ e ∈ normalizeFor L S u, e.id < W := by
  intro e he
  have : e.id ∈ (normalizeFor L S u).map (fun e => e.id) := List.mem_map.mpr ⟨e, he, rfl⟩
  rw [map_id_normalizeFor] at this
  obtain ⟨e', he', h'⟩ := List.mem_map.mp this
  rw [← h']
  exact h e' he'

theorem ids_lt_getD_map (L : StdLib K) (S : ScoringType) (vs : List (BowVector K)) (W : Nat)
    (hW : ∀ u ∈ vs, ∀ e ∈ u, e.id < W) (k : Nat) :
    ∀ e ∈ (vs.map (normalizeFor L S)).getD k [], e.id < W := by
  intro e he
  rw [List.getD_eq_getElem?_getD] at he
  cases hk : (vs.map (normalizeFor L S))[k]? with
  | none => rw [hk] at he; simp at he
  | some u' =>
    rw [hk] at he
    simp only [Option.getD_some] at he
    rw [List.getElem?_map] at hk
    cases hk2 : vs[k]? with
    | none => rw [hk2] at hk; simp at hk
    | some u =>
      rw [hk2] at hk
      simp only [Option.map_some', Option.some.injEq] at hk
      subst hk
      exact ids_lt_normalizeFor L S u W (hW u (List.getElem?_mem hk2)) e he

/-- The score accumulated for entry `r.Id` is the sum, over the words common
to the query and to the stored vector of that entry, of the pair values. -/
theorem score_accumulateRows_fresh (L : StdLib K) (voc : Vocabulary) (vs : List (BowVector K))
    (hlen : vs.length ≤ 4294967296) (hW : ∀ u ∈ vs, ∀ e ∈ u, e.id < voc.NumberOfWords)
    (f : K → K → K) (q : BowVector K) (r : Result K)
    (hr : r ∈ accumulateRows f ((Database.create K voc).addAll L vs).m_index q) :
    r.Score = matchSum f q ((vs.map (normalizeFor L voc.m_params.Scoring)).getD r.Id []) := by
  rw [score_accumulateRows f _ q r hr]
  unfold matchSum
  congr 1
  apply List.map_congr_left
  intro it _
  rw [getD_index_fresh L voc vs it.id hlen]
  by_cases hw : it.id < voc.NumberOfWords
  · rw [if_pos hw]
    have := sum_storedRow 0 (vs.map (normalizeFor L voc.m_params.Scoring)) it.id r.Id
      (fun x => f it.value x)
    simp only [zero_add] at this
    exact this
  · rw [if_neg hw]
    symm
    simp only [List.map_nil, List.sum_nil]
    apply List.sum_eq_zero
    intro x hx
    obtain ⟨e, he, rfl⟩ := List.mem_map.mp hx
    have := ids_lt_getD_map L voc.m_params.Scoring vs _ hW r.Id e he
    rw [if_neg (by omega)]

/-- An entry has a result exactly when its stored vector shares a word with the query. -/
theorem mem_accumulateRows_fresh (L : StdLib K) (voc : Vocabulary) (vs : List (BowVector K))
    (hlen : vs.length ≤ 4294967296) (hW : ∀ u ∈ vs, ∀ e ∈ u, e.id < voc.NumberOfWords)
    (f : K → K → K) (q : BowVector K) (eid : Nat) :
    eid ∈ (accumulateRows f ((Database.create K voc).addAll L vs).m_index q).map (fun r => r.Id) ↔
      ∃ u, vs[eid]? = some u ∧ Shares q (normalizeFor L voc.m_params.Scoring u) := by
  rw [mem_accumulateRows]
  constructor
  · rintro ⟨it, hit, rit, hrit, hid⟩
    rw [getD_index_fresh L voc vs it.id hlen] at hrit
    by_cases hw : it.id < voc.NumberOfWords
    · rw [if_pos hw, mem_storedRow] at hrit
      obtain ⟨k, u', hk, hidk, e, he, hew, _⟩ := hrit
      rw [List.getElem?_map] at hk
      cases hk2 : vs[k]? with
      | none => rw [hk2] at hk; simp at hk
      | some u =>
        rw [hk2] at hk
        simp only [Option.map_some', Option.some.injEq] at hk
        subst hk
        have hke : k = eid := by omega
        subst hke
        exact ⟨u, hk2, it, hit, e, he, hew.symm⟩
    · rw [if_neg hw] at hrit
      simp at hrit
  · rintro ⟨u, hu, it, hit, d, hd, hid⟩
    have hdW : d.id < voc.NumberOfWords :=
      ids_lt_normalizeFor L _ u _ (hW u (List.getElem?_mem hu)) d hd
    refine ⟨it, hit, ⟨eid, d.value⟩, ?_, rfl⟩
    rw [getD_index_fresh L voc vs it.id hlen, if_pos (by omega), mem_storedRow]
    refine ⟨eid, normalizeFor L voc.m_params.Scoring u, ?_, by simp, d, hd, hid.symm, rfl⟩
    rw [List.getElem?_map, hu]
    rfl

theorem length_accumulateRows_fresh_le (L : StdLib K) (voc : Vocabulary)
    (vs : List (BowVector K)) (hlen : vs.length ≤ 4294967296)
    (hW : ∀ u ∈ vs, ∀ e ∈ u, e.id < voc.NumberOfWords) (f : K → K → K) (q : BowVector K) :
    (accumulateRows f ((Database.create K voc).addAll L vs).m_index q).length ≤ vs.length := by
  have hnd := nodup_accumulateRows f ((Database.create K voc).addAll L vs).m_index q
  have hsub : (accumulateRows f ((Database.create K voc).addAll L vs).m_index q).map
      (fun r => r.Id) ⊆ List.range vs.length := by
    intro eid heid
    obtain ⟨u, hu, _⟩ := (mem_accumulateRows_fresh L voc vs hlen hW f q eid).mp heid
    exact List.mem_range.mpr (List.getElem?_eq_some.mp hu).1
  have := (List.subperm_of_subset hnd hsub).length_le
  simpa using this

theorem sort_perm (L : StdLib K) (hsort : SortSpec L) (l : List (Result K)) :
    (L.sort Result.lt l).Perm l := (hsort Result.lt l (Or.inl rfl)).1

theorem sort_gt_perm (L : StdLib K) (hsort : SortSpec L) (l : List (Result K)) :
    (L.sort Result.GreaterThan l).Perm l := (hsort Result.GreaterThan l (Or.inr rfl)).1

theorem cut_of_length_le (ret : List (Result K)) (m : Nat) (h : ret.length ≤ m) :
    cut ret m = ret := by
  rw [cut_eq_take, List.take_of_length_le h]

theorem mem_of_mem_cut {ret : List (Result K)} {m : Nat} {r : Result K} (h : r ∈ cut ret m) :
    r ∈ ret := by
  rw [cut_eq_take] at h
  exact List.mem_of_mem_take h

end FreshDatabase

/-! ## Agreement of the database scores with `Vocabulary::Score` -/

section Agreement

variable {K : Type} [LinearOrderedField K]

theorem getD_map_normalizeFor (L : StdLib K) (S : ScoringType) (vs : List (BowVector K))
    (k : Nat) (u : BowVector K) (hk : vs[k]? = some u) :
    (vs.map (normalizeFor L S)).getD k [] = normalizeFor L S u := by
  rw [List.getD_eq_getElem?_getD, List.getElem?_map, hk]
  rfl

/-- C9: under L1 scoring, on a database filled from in-order vectors `vs`,
a query with an in-order vector `v` and `max_results` at least the number of
entries returns exactly one result for each entry that shares a word id with
`v`, no result for any other entry, and the score of each result equals
`Vocabulary::Score(v, entry)` under the same `ScaleScore` setting. -/
theorem query_L1_agrees_with_score (L : StdLib K) (hsort : SortSpec L) (voc : Vocabulary)
    (hS : voc.m_params.Scoring = .L1_NORM) (vs : List (BowVector K))
    (hlen : vs.length ≤ 4294967296) (hord : ∀ u ∈ vs, InOrder u)
    (hW : ∀ u ∈ vs, ∀ e ∈ u, e.id < voc.NumberOfWords)
    (v : BowVector K) (hv : InOrder v) (max_results : Nat) (hmax : vs.length ≤ max_results) :
    ((((Database.create K voc).addAll L vs).Query L v max_results).map (fun r => r.Id)).Nodup ∧
    (∀ eid, eid ∈ (((Database.create K voc).addAll L vs).Query L v max_results).map
        (fun r => r.Id) ↔ ∃ u, vs[eid]? = some u ∧ Shares v u) ∧
    (∀ r ∈ ((Database.create K voc).addAll L vs).Query L v max_results,
        ∃ u, vs[r.Id]? = some u ∧ r.Score = voc.Score L v u) := by
  have hvoc : ((Database.create K voc).addAll L vs).m_voc = voc := by
    rw [addAll_voc]; rfl
  -- the accumulated list and its sorted, uncut form
  have hcut : ∀ f : K → K → K, ∀ q : BowVector K,
      cut (L.sort Result.lt (accumulateRows f ((Database.create K voc).addAll L vs).m_index q))
        max_results =
      L.sort Result.lt (accumulateRows f ((Database.create K voc).addAll L vs).m_index q) := by
    intro f q
    apply cut_of_length_le
    rw [(sort_perm L hsort _).length_eq]
    exact le_trans (length_accumulateRows_fresh_le L voc vs hlen hW f q) hmax
  have hQ : ((Database.create K voc).addAll L vs).Query L v max_results =
      mapScore (if voc.m_params.ScaleScore then (fun s => -s / 2) else (fun s => 2 + s))
        (L.sort Result.lt (accumulateRows (pairValue L .L1_NORM)
          ((Database.create K voc).addAll L vs).m_index (normalizeFor L .L1_NORM v))) := by
    unfold Database.Query Database._Query
    simp only [hvoc, hS, doQueryL1, sortedL1]
    rw [show (fun qvalue dvalue : K => |qvalue - dvalue| - |qvalue| - |dvalue|) =
      pairValue L .L1_NORM from rfl, hcut]
    split <;> rfl
  have hids : (((Database.create K voc).addAll L vs).Query L v max_results).map (fun r => r.Id) =
      (L.sort Result.lt (accumulateRows (pairValue L .L1_NORM)
          ((Database.create K voc).addAll L vs).m_index (normalizeFor L .L1_NORM v))).map
        (fun r => r.Id) := by
    rw [hQ]
    simp [mapScore, List.map_map, Function.comp_def]
  have hperm := sort_perm L hsort (accumulateRows (pairValue L .L1_NORM)
          ((Database.create K voc).addAll L vs).m_index (normalizeFor L .L1_NORM v))
  refine ⟨?_, ?_, ?_⟩
  · rw [hids]
    exact (hperm.map _).nodup_iff.mpr (nodup_accumulateRows _ _ _)
  · intro eid
    rw [hids, (hperm.map _).mem_iff, mem_accumulateRows_fresh L voc vs hlen hW, hS]
    constructor
    · rintro ⟨u, hu, hsh⟩
      exact ⟨u, hu, (shares_normalizeFor L .L1_NORM v u).mp hsh⟩
    · rintro ⟨u, hu, hsh⟩
      exact ⟨u, hu, (shares_normalizeFor L .L1_NORM v u).mpr hsh⟩
  · intro r hr
    rw [hQ] at hr
    obtain ⟨r0, hr0, rfl⟩ := List.mem_map.mp hr
    have hr0acc := hperm.mem_iff.mp hr0
    have hid : r0.Id ∈ (accumulateRows (pairValue L .L1_NORM)
          ((Database.create K voc).addAll L vs).m_index (normalizeFor L .L1_NORM v)).map
          (fun r => r.Id) := List.mem_map.mpr ⟨r0, hr0acc, rfl⟩
    obtain ⟨u, hu, _⟩ := (mem_accumulateRows_fresh L voc vs hlen hW _ _ _).mp hid
    have hsc := score_accumulateRows_fresh L voc vs hlen hW _ _ r0 hr0acc
    rw [hS, getD_map_normalizeFor L .L1_NORM vs r0.Id u hu] at hsc
    refine ⟨u, hu, ?_⟩
    rw [score_L1_eq L voc hS v u hv (hord u (List.getElem?_mem hu))]
    simp only [hsc, normalizeFor, MustNormalize]
    split <;> rfl

theorem matchSum_neg_mul (a b : BowVector K) (L : StdLib K) :
    matchSum (fun x y => -(x * y)) a b = -matchSum (pairValue L .L2_NORM) a b := by
  have h := matchSum_linear (-1) (pairValue L .L2_NORM) (fun _ _ => (0 : K)) a b
  rw [matchSum_const_zero] at h
  have hf : (fun x y : K => -(x * y)) = fun x y => -1 * pairValue L .L2_NORM x y + 0 := by
    funext x y
    simp only [pairValue]
    ring
  rw [hf, h]
  ring

/-- C10: under L2 scoring, for an in-order query `v` and a stored entry `k`
added from an in-order vector `w` that shares a word with `v`, the score
`Database::Query` reports for entry `k` (from the negated accumulator) equals
`Vocabulary::Score(v, w)` (from the positive accumulator); and the entry is
reported when `max_results` is at least the number of entries. -/
theorem query_L2_agrees_with_score (L : StdLib K) (hsort : SortSpec L) (voc : Vocabulary)
    (hS : voc.m_params.Scoring = .L2_NORM) (vs : List (BowVector K))
    (hlen : vs.length ≤ 4294967296) (hW : ∀ u ∈ vs, ∀ e ∈ u, e.id < voc.NumberOfWords)
    (v : BowVector K) (hv : InOrder v) (k : Nat) (w : BowVector K) (hk : vs[k]? = some w)
    (hw : InOrder w) (hshare : Shares v w) (max_results : Nat) :
    (∀ r ∈ ((Database.create K voc).addAll L vs).Query L v max_results,
        r.Id = k → r.Score = voc.Score L v w) ∧
    (vs.length ≤ max_results →
        ∃ r ∈ ((Database.create K voc).addAll L vs).Query L v max_results, r.Id = k) := by
  have hvoc : ((Database.create K voc).addAll L vs).m_voc = voc := by
    rw [addAll_voc]; rfl
  have hQ : ((Database.create K voc).addAll L vs).Query L v max_results =
      mapScore (if voc.m_params.ScaleScore then (fun s => 1 - L.sqrt (1 + s))
          else (fun s => L.sqrt (2 + 2 * s)))
        (cut (L.sort Result.lt (accumulateRows (fun x y => -(x * y))
          ((Database.create K voc).addAll L vs).m_index (normalizeFor L .L2_NORM v)))
          max_results) := by
    unfold Database.Query Database._Query
    simp only [hvoc, hS, doQueryL2, sortedL2]
    split <;> rfl
  have hperm := sort_perm L hsort (accumulateRows (fun x y => -(x * y))
          ((Database.create K voc).addAll L vs).m_index (normalizeFor L .L2_NORM v))
  constructor
  · intro r hr hrk
    rw [hQ] at hr
    obtain ⟨r0, hr0, rfl⟩ := List.mem_map.mp hr
    have hr0acc := hperm.mem_iff.mp (mem_of_mem_cut hr0)
    have hsc := score_accumulateRows_fresh L voc vs hlen hW _ _ r0 hr0acc
    have hrk' : r0.Id = k := hrk
    rw [hS, hrk', getD_map_normalizeFor L .L2_NORM vs k w hk, matchSum_neg_mul _ _ L] at hsc
    rw [score_L2_eq L voc hS v w hv hw]
    simp only [hsc, normalizeFor, MustNormalize]
    have e1 : ∀ m : K, 1 + -m = 1 - m := fun m => by ring
    have e2 : ∀ m : K, 2 + 2 * -m = 2 - 2 * m := fun m => by ring
    split
    · show 1 - L.sqrt (1 + -_) = _
      rw [e1]
    · show L.sqrt (2 + 2 * -_) = _
      rw [e2]
  · intro hmax
    have hmem : k ∈ (accumulateRows (fun x y => -(x * y))
          ((Database.create K voc).addAll L vs).m_index (normalizeFor L .L2_NORM v)).map
          (fun r => r.Id) := by
      rw [mem_accumulateRows_fresh L voc vs hlen hW, hS]
      exact ⟨w, hk, (shares_normalizeFor L .L2_NORM v w).mpr hshare⟩
    obtain ⟨r0, hr0, hid⟩ := List.mem_map.mp hmem
    have hcut : cut (L.sort Result.lt (accumulateRows (fun x y => -(x * y))
          ((Database.create K voc).addAll L vs).m_index (normalizeFor L .L2_NORM v)))
          max_results = L.sort Result.lt (accumulateRows (fun x y => -(x * y))
          ((Database.create K voc).addAll L vs).m_index (normalizeFor L .L2_NORM v)) := by
      apply cut_of_length_le
      rw [hperm.length_eq]
      exact le_trans (length_accumulateRows_fresh_le L voc vs hlen hW _ _) hmax
    rw [hQ, hcut]
    refine ⟨_, List.mem_map.mpr ⟨r0, hperm.mem_iff.mpr hr0, rfl⟩, hid⟩

end Agreement

/-! ## The stored copy of the query ranks first -/

section SelfQuery

variable {K : Type} [LinearOrderedField K]

theorem ne_nil_of_normOf_L1_pos (L : StdLib K) (v : BowVector K)
    (h : 0 < normOf L .L1_NORM v) : v ≠ [] := by
  rintro rfl
  simp [normOf] at h

theorem sum_abs_getD_map_le (L : StdLib K) (vs : List (BowVector K)) (j : Nat) :
    (((vs.map (normalizeFor L .L1_NORM)).getD j []).map (fun e => |e.value|)).sum ≤ 1 := by
  rw [List.getD_eq_getElem?_getD, List.getElem?_map]
  cases vs[j]? with
  | none => simp
  | some u => exact sum_abs_Normalize_L1_le L u

theorem matchSum_L1_self_normalized (L : StdLib K) (v : BowVector K)
    (hnodup : (v.map (fun e => e.id)).Nodup) (hnorm : 0 < normOf L .L1_NORM v) :
    matchSum (pairValue L .L1_NORM) (Normalize L .L1_NORM v) (Normalize L .L1_NORM v) = -2 := by
  rw [matchSum_self _ _ (by rw [map_id_Normalize]; exact hnodup)]
  have h2 : ((Normalize L .L1_NORM v).map
      (fun e => pairValue L .L1_NORM e.value e.value)).sum =
      -2 * ((Normalize L .L1_NORM v).map (fun e => |e.value|)).sum := by
    simp only [pairValue_L1_self]
    rw [← List.sum_map_mul_left]
  rw [h2, sum_abs_Normalize_L1_eq L v hnorm]
  norm_num

theorem head?_cut (ret : List (Result K)) (m : Nat) (hm : 1 ≤ m) :
    (cut ret m).head? = ret.head? := by
  rw [cut_eq_take]
  cases ret with
  | nil => simp
  | cons r rs =>
    obtain ⟨m', rfl⟩ : ∃ m', m = m' + 1 := ⟨m - 1, by omega⟩
    simp

theorem head?_mapScore (g : K → K) (ret : List (Result K)) :
    (mapScore g ret).head? = ret.head?.map (fun r => { r with Score := g r.Score }) := by
  cases ret <;> simp [mapScore]

/-- C8: under L1 scoring, on a database filled by `AddEntry` with any
vectors `vs`, a query with a stored vector `v` (distinct word ids, positive L1
norm) and `max_results ≥ 1` returns a first result whose accumulated score is
`-2`, the least accumulated score of all results; its reported score is `1`
when scaled and `0` when unscaled. -/
theorem query_L1_stored_copy_ranks_first (L : StdLib K) (hsort : SortSpec L) (voc : Vocabulary)
    (hS : voc.m_params.Scoring = .L1_NORM) (vs : List (BowVector K))
    (hlen : vs.length ≤ 4294967296) (hW : ∀ u ∈ vs, ∀ e ∈ u, e.id < voc.NumberOfWords)
    (k : Nat) (v : BowVector K) (hk : vs[k]? = some v)
    (hnodup : (v.map (fun e => e.id)).Nodup) (hnorm : 0 < normOf L .L1_NORM v)
    (max_results : Nat) (hmax : 1 ≤ max_results) :
    (∃ r, (((Database.create K voc).addAll L vs).sortedResults L v max_results).head? = some r ∧
        r.Score = -2 ∧
        ∀ r' ∈ ((Database.create K voc).addAll L vs).sortedResults L v max_results,
          -2 ≤ r'.Score) ∧
    (∃ r, (((Database.create K voc).addAll L vs).Query L v max_results).head? = some r ∧
        r.Score = if voc.m_params.ScaleScore then 1 else 0) := by
  have hvoc : ((Database.create K voc).addAll L vs).m_voc = voc := by
    rw [addAll_voc]; rfl
  have hqnodup : ((Normalize L .L1_NORM v).map (fun e => e.id)).Nodup := by
    rw [map_id_Normalize]; exact hnodup
  have hperm := sort_perm L hsort (accumulateRows (pairValue L .L1_NORM)
      ((Database.create K voc).addAll L vs).m_index (Normalize L .L1_NORM v))
  have hsorted := nonDecreasing_sort_lt L hsort (accumulateRows (pairValue L .L1_NORM)
      ((Database.create K voc).addAll L vs).m_index (Normalize L .L1_NORM v))
  -- every accumulated score is at least -2
  have hge : ∀ r ∈ accumulateRows (pairValue L .L1_NORM)
      ((Database.create K voc).addAll L vs).m_index (Normalize L .L1_NORM v), -2 ≤ r.Score := by
    intro r hr
    rw [score_accumulateRows_fresh L voc vs hlen hW _ _ r hr, hS]
    have h1 := matchSum_L1_ge_snd L (Normalize L .L1_NORM v)
      ((vs.map (normalizeFor L .L1_NORM)).getD r.Id []) hqnodup
    have h2 := sum_abs_getD_map_le L vs r.Id
    linarith
  -- the stored copy has a result with accumulated score -2
  have hkmem : k ∈ (accumulateRows (pairValue L .L1_NORM)
      ((Database.create K voc).addAll L vs).m_index (Normalize L .L1_NORM v)).map
      (fun r => r.Id) := by
    rw [mem_accumulateRows_fresh L voc vs hlen hW, hS]
    refine ⟨v, hk, ?_⟩
    have hne : Normalize L .L1_NORM v ≠ [] := by
      intro h
      have := congrArg List.length (map_id_Normalize L .L1_NORM v)
      rw [h] at this
      simp only [List.map_nil, List.length_nil, List.length_map] at this
      exact ne_nil_of_normOf_L1_pos L v hnorm (List.length_eq_zero.mp this.symm)
    obtain ⟨e, he⟩ := List.exists_mem_of_ne_nil _ hne
    exact ⟨e, he, e, he, rfl⟩
  obtain ⟨rk, hrk, hrkid⟩ := List.mem_map.mp hkmem
  have hrkscore : rk.Score = -2 := by
    rw [score_accumulateRows_fresh L voc vs hlen hW _ _ rk hrk, hS, hrkid,
      getD_map_normalizeFor L .L1_NORM vs k v hk]
    exact matchSum_L1_self_normalized L v hnodup hnorm
  -- the head of the sorted list
  have hhead : ∃ h, (L.sort Result.lt (accumulateRows (pairValue L .L1_NORM)
      ((Database.create K voc).addAll L vs).m_index (Normalize L .L1_NORM v))).head? = some h ∧
      h.Score = -2 := by
    have hrks := hperm.mem_iff.mpr hrk
    cases hl : L.sort Result.lt (accumulateRows (pairValue L .L1_NORM)
      ((Database.create K voc).addAll L vs).m_index (Normalize L .L1_NORM v)) with
    | nil => rw [hl] at hrks; simp at hrks
    | cons h t =>
      refine ⟨h, rfl, ?_⟩
      rw [hl] at hrks hsorted
      have hh : -2 ≤ h.Score := hge h (hperm.mem_iff.mp (by rw [hl]; exact List.mem_cons_self _ _))
      rcases List.mem_cons.mp hrks with heq | hmem
      · rw [← heq]; exact hrkscore
      · have := (List.pairwise_cons.mp hsorted).1 rk hmem
        rw [hrkscore] at this
        exact le_antisymm this hh
  obtain ⟨h, hh1, hh2⟩ := hhead
  have hSR : ((Database.create K voc).addAll L vs).sortedResults L v max_results =
      cut (L.sort Result.lt (accumulateRows (pairValue L .L1_NORM)
        ((Database.create K voc).addAll L vs).m_index (Normalize L .L1_NORM v))) max_results := by
    unfold Database.sortedResults
    simp only [hvoc, hS, sortedL1, normalizeFor, MustNormalize]
    rfl
  have hQ : ((Database.create K voc).addAll L vs).Query L v max_results =
      mapScore (if voc.m_params.ScaleScore then (fun s => -s / 2) else (fun s => 2 + s))
        (cut (L.sort Result.lt (accumulateRows (pairValue L .L1_NORM)
          ((Database.create K voc).addAll L vs).m_index (Normalize L .L1_NORM v)))
          max_results) := by
    unfold Database.Query Database._Query
    simp only [hvoc, hS, doQueryL1, sortedL1, normalizeFor, MustNormalize]
    rw [show (fun qvalue dvalue : K => |qvalue - dvalue| - |qvalue| - |dvalue|) =
      pairValue L .L1_NORM from rfl]
    split <;> rfl
  constructor
  · refine ⟨h, ?_, hh2, ?_⟩
    · rw [hSR, head?_cut _ _ hmax, hh1]
    · intro r' hr'
      rw [hSR] at hr'
      exact hge r' (hperm.mem_iff.mp (mem_of_mem_cut hr'))
  · refine ⟨{ h with Score :=
      (if voc.m_params.ScaleScore then (fun s : K => -s / 2) else (fun s => 2 + s)) h.Score },
      ?_, ?_⟩
    · rw [hQ, head?_mapScore, head?_cut _ _ hmax, hh1]
      rfl
    · simp only [hh2]
      split
      · norm_num
      · norm_num

end SelfQuery

/-! ## A database holding a single entry -/

section SingleEntry

variable {K : Type} [LinearOrderedField K]

theorem eq_singleton_zero_of_nodup (l : List Nat) (hnd : l.Nodup) (h : ∀ x, x ∈ l ↔ x = 0) :
    l = [0] := by
  cases l with
  | nil => exact absurd ((h 0).mpr rfl) (by simp)
  | cons a t =>
    have ha : a = 0 := (h a).mp (List.mem_cons_self _ _)
    subst ha
    cases t with
    | nil => rfl
    | cons b t' =>
      have hb : b = 0 := (h b).mp (List.mem_cons_of_mem _ (List.mem_cons_self _ _))
      subst hb
      simp at hnd

/-- On a database holding the single entry `v`, the accumulation loop run on
the stored form of `v` yields one result, for entry `0`. -/
theorem accumulateRows_single (L : StdLib K) (voc : Vocabulary) (v : BowVector K)
    (hne : v ≠ []) (hnodup : (v.map (fun e => e.id)).Nodup)
    (hW : ∀ e ∈ v, e.id < voc.NumberOfWords) (f : K → K → K) :
    accumulateRows f ((Database.create K voc).addAll L [v]).m_index
        (normalizeFor L voc.m_params.Scoring v) =
      [⟨0, ((normalizeFor L voc.m_params.Scoring v).map (fun e => f e.value e.value)).sum⟩] := by
  have hlen : [v].length ≤ 4294967296 := by simp
  have hW' : ∀ u ∈ [v], ∀ e ∈ u, e.id < voc.NumberOfWords := by
    intro u hu
    rw [List.mem_singleton] at hu
    subst hu
    exact hW
  have hqne : normalizeFor L voc.m_params.Scoring v ≠ [] := by
    intro h
    have := length_normalizeFor L voc.m_params.Scoring v
    rw [h] at this
    exact hne (List.length_eq_zero.mp this.symm)
  have hqnodup : ((normalizeFor L voc.m_params.Scoring v).map (fun e => e.id)).Nodup := by
    rw [map_id_normalizeFor]; exact hnodup
  have hids : (accumulateRows f ((Database.create K voc).addAll L [v]).m_index
        (normalizeFor L voc.m_params.Scoring v)).map (fun r => r.Id) = [0] := by
    apply eq_singleton_zero_of_nodup _ (nodup_accumulateRows _ _ _)
    intro x
    rw [mem_accumulateRows_fresh L voc [v] hlen hW']
    constructor
    · rintro ⟨u, hu, _⟩
      have := (List.getElem?_eq_some.mp hu).1
      simp only [List.length_singleton] at this
      omega
    · rintro rfl
      obtain ⟨e, he⟩ := List.exists_mem_of_ne_nil _ hqne
      exact ⟨v, rfl, e, he, e, he, rfl⟩
  cases hacc : accumulateRows f ((Database.create K voc).addAll L [v]).m_index
        (normalizeFor L voc.m_params.Scoring v) with
  | nil => rw [hacc] at hids; simp at hids
  | cons r t =>
    rw [hacc] at hids
    simp only [List.map_cons, List.cons.injEq, List.map_eq_nil_iff] at hids
    obtain ⟨hrid, ht⟩ := hids
    subst ht
    have hr : r ∈ accumulateRows f ((Database.create K voc).addAll L [v]).m_index
        (normalizeFor L voc.m_params.Scoring v) := by rw [hacc]; exact List.mem_singleton.mpr rfl
    have hsc := score_accumulateRows_fresh L voc [v] hlen hW' f _ r hr
    rw [hrid] at hsc
    simp only [List.map_cons, List.map_nil, List.getD_cons_zero] at hsc
    rw [matchSum_self f _ hqnodup] at hsc
    cases r
    simp only at hrid hsc
    rw [hrid, hsc]

theorem sort_singleton (L : StdLib K) (hsort : SortSpec L) (r : Result K) :
    L.sort Result.lt [r] = [r] ∧ L.sort Result.GreaterThan [r] = [r] :=
  ⟨List.perm_singleton.mp (sort_perm L hsort [r]),
    List.perm_singleton.mp (sort_gt_perm L hsort [r])⟩

theorem cut_singleton (r : Result K) (m : Nat) (hm : 1 ≤ m) : cut [r] m = [r] :=
  cut_of_length_le [r] m (by simpa using hm)

theorem klMissing_eq_zero (L : StdLib K) (index : List (IFRow K)) (q : BowVector K) (eid : Nat)
    (h : ∀ it ∈ q, ∃ rit ∈ index.getD it.id [], rit.id = eid) :
    klMissing L index q eid = 0 := by
  unfold klMissing
  have gen : ∀ (l : BowVector K) (s : K), (∀ it ∈ l, it ∈ q) →
      l.foldl (fun value it =>
        if (index.getD it.id []).all (fun rit => decide (rit.id ≠ eid))
        then value + it.value * (L.log it.value - LOG_EPS L) else value) s = s := by
    intro l
    induction l with
    | nil => intro s _; rfl
    | cons it rest ih =>
      intro s hl
      rw [List.foldl_cons]
      have hfalse : ((index.getD it.id []).all (fun rit => decide (rit.id ≠ eid))) = false := by
        rw [Bool.eq_false_iff]
        intro hall
        rw [List.all_eq_true] at hall
        obtain ⟨rit, hrit, hid⟩ := h it (hl it (List.mem_cons_self _ _))
        have := hall rit hrit
        simp only [ne_eq, decide_not, Bool.not_eq_true', decide_eq_false_iff_not] at this
        exact this hid
      rw [hfalse]
      simp only [Bool.false_eq_true, if_false]
      exact ih s (fun it' hit' => hl it' (List.mem_cons_of_mem _ hit'))
  exact gen q 0 (fun _ h => h)

theorem sum_pos_of_pos (v : BowVector K) (hne : v ≠ []) (hpos : ∀ e ∈ v, 0 < e.value)
    (g : K → K) (hg : ∀ x, 0 < x → 0 < g x) : 0 < (v.map (fun e => g e.value)).sum := by
  induction v with
  | nil => exact absurd rfl hne
  | cons e rest ih =>
    simp only [List.map_cons, List.sum_cons]
    have he := hg e.value (hpos e (List.mem_cons_self _ _))
    cases rest with
    | nil => simpa using he
    | cons e2 rest2 =>
      have := ih (by simp) (fun e' he' => hpos e' (List.mem_cons_of_mem _ he'))
      linarith

theorem normOf_L1_pos (L : StdLib K) (v : BowVector K) (hne : v ≠ [])
    (hpos : ∀ e ∈ v, 0 < e.value) : 0 < normOf L .L1_NORM v := by
  rw [normOf_L1]
  exact sum_pos_of_pos v hne hpos (fun x => |x|) (fun x hx => abs_pos.mpr (ne_of_gt hx))

theorem normOf_L2_pos (L : StdLib K) (hsqrt : SqrtSpec L) (v : BowVector K) (hne : v ≠ [])
    (hpos : ∀ e ∈ v, 0 < e.value) : 0 < normOf L .L2_NORM v := by
  rw [normOf_L2]
  have hs := sum_pos_of_pos v hne hpos (fun x => x * x) (fun x hx => mul_pos hx hx)
  obtain ⟨h1, h2⟩ := hsqrt _ (le_of_lt hs)
  rcases lt_or_eq_of_le h1 with h | h
  · exact h
  · rw [← h, mul_zero] at h2
    exact absurd h2 (ne_of_lt hs)

theorem pos_Normalize_L1 (L : StdLib K) (v : BowVector K) (hne : v ≠ [])
    (hpos : ∀ e ∈ v, 0 < e.value) : ∀ e ∈ Normalize L .L1_NORM v, 0 < e.value := by
  have hn := normOf_L1_pos L v hne hpos
  intro e he
  unfold Normalize at he
  simp only [] at he
  rw [if_pos hn] at he
  obtain ⟨e0, he0, rfl⟩ := List.mem_map.mp he
  exact div_pos (hpos e0 he0) hn

theorem sum_Normalize_L1_eq_one (L : StdLib K) (v : BowVector K) (hne : v ≠ [])
    (hpos : ∀ e ∈ v, 0 < e.value) : ((Normalize L .L1_NORM v).map (fun e => e.value)).sum = 1 := by
  rw [← sum_abs_Normalize_L1_eq L v (normOf_L1_pos L v hne hpos)]
  congr 1
  apply List.map_congr_left
  intro e he
  exact (abs_of_pos (pos_Normalize_L1 L v hne hpos e he)).symm

end SingleEntry

section SingleEntryQuery

variable {K : Type} [LinearOrderedField K]

theorem sum_self_L1 (L : StdLib K) (v : BowVector K) (hne : v ≠ [])
    (hpos : ∀ e ∈ v, 0 < e.value) :
    ((Normalize L .L1_NORM v).map
      (fun e => |e.value - e.value| - |e.value| - |e.value|)).sum = -2 := by
  have h : ∀ e : BowVectorEntry K,
      |e.value - e.value| - |e.value| - |e.value| = -2 * |e.value| := by
    intro e
    rw [sub_self, abs_zero]; ring
  simp only [h]
  rw [List.sum_map_mul_left, sum_abs_Normalize_L1_eq L v (normOf_L1_pos L v hne hpos)]
  norm_num

theorem sum_self_L2 (L : StdLib K) (hsqrt : SqrtSpec L) (v : BowVector K) (hne : v ≠ [])
    (hpos : ∀ e ∈ v, 0 < e.value) :
    ((Normalize L .L2_NORM v).map (fun e => -(e.value * e.value))).sum = -1 := by
  have h : ∀ e : BowVectorEntry K, -(e.value * e.value) = -1 * (e.value * e.value) := by
    intro e; ring
  simp only [h]
  rw [List.sum_map_mul_left, sum_sq_Normalize_L2_eq L hsqrt v (normOf_L2_pos L hsqrt v hne hpos)]
  norm_num

theorem sum_self_ChiSquare (L : StdLib K) (v : BowVector K) (hne : v ≠ [])
    (hpos : ∀ e ∈ v, 0 < e.value) :
    ((Normalize L .L1_NORM v).map
      (fun e => (e.value - e.value) * (e.value - e.value) / (e.value + e.value)
        - e.value - e.value)).sum = -2 := by
  have h : ∀ e : BowVectorEntry K,
      (e.value - e.value) * (e.value - e.value) / (e.value + e.value) - e.value - e.value =
        -2 * e.value := by
    intro e
    rw [sub_self, zero_mul, zero_div]; ring
  simp only [h]
  rw [List.sum_map_mul_left, sum_Normalize_L1_eq_one L v hne hpos]
  norm_num

theorem sum_self_KL (L : StdLib K) (hlog : L.log 1 = 0) (v : BowVector K) (hne : v ≠ [])
    (hpos : ∀ e ∈ v, 0 < e.value) :
    ((Normalize L .L1_NORM v).map (fun e => e.value * L.log (e.value / e.value))).sum = 0 := by
  apply List.sum_eq_zero
  intro x hx
  obtain ⟨e, he, rfl⟩ := List.mem_map.mp hx
  rw [div_self (ne_of_gt (pos_Normalize_L1 L v hne hpos e he)), hlog, mul_zero]

theorem sum_self_Bhattacharyya (L : StdLib K) (hsqrt : SqrtSpec L) (v : BowVector K)
    (hne : v ≠ []) (hpos : ∀ e ∈ v, 0 < e.value) :
    ((Normalize L .L1_NORM v).map (fun e => L.sqrt (e.value * e.value))).sum = 1 := by
  rw [← sum_Normalize_L1_eq_one L v hne hpos]
  congr 1
  apply List.map_congr_left
  intro e he
  exact sqrt_mul_self_of_spec L hsqrt _ (le_of_lt (pos_Normalize_L1 L v hne hpos e he))

theorem row_single_has_zero (L : StdLib K) (voc : Vocabulary) (v : BowVector K)
    (hW : ∀ e ∈ v, e.id < voc.NumberOfWords) :
    ∀ it ∈ normalizeFor L voc.m_params.Scoring v,
      ∃ rit ∈ ((Database.create K voc).addAll L [v]).m_index.getD it.id [], rit.id = 0 := by
  intro it hit
  have hitW := ids_lt_normalizeFor L voc.m_params.Scoring v _ hW it hit
  refine ⟨⟨0, it.value⟩, ?_, rfl⟩
  rw [getD_index_fresh L voc [v] it.id (by simp), if_pos hitW, mem_storedRow]
  exact ⟨0, normalizeFor L voc.m_params.Scoring v, by simp, rfl, it, hit, rfl, rfl⟩

/-- In exact arithmetic, for every scoring and every non-empty vector `v` with
distinct word ids below the number of words and positive values, the database
that holds only the entry added from `v` answers `Query(v, max_results ≥ 1)`
with exactly one result, of id `0` and of score the self-score of the scoring:
`1` for scaled L1, L2, chi-square and for Bhattacharyya, `0` for unscaled L1,
L2, chi-square and for KL, the sum of the squared values for the dot product.
With the rounding of double precision the L2 case fails, see the section on
double precision. -/
theorem query_single_entry_self_score (L : StdLib K) (hsort : SortSpec L) (hsqrt : SqrtSpec L)
    (hlog : L.log 1 = 0) (voc : Vocabulary) (v : BowVector K) (hne : v ≠ [])
    (hnodup : (v.map (fun e => e.id)).Nodup) (hW : ∀ e ∈ v, e.id < voc.NumberOfWords)
    (hpos : ∀ e ∈ v, 0 < e.value) (max_results : Nat) (hmax : 1 ≤ max_results) :
    ((Database.create K voc).AddEntry L v).2.Query L v max_results =
      [⟨0, selfScore voc.m_params v⟩] := by
  change ((Database.create K voc).addAll L [v]).Query L v max_results = _
  have hvoc : ((Database.create K voc).addAll L [v]).m_voc = voc := by
    rw [addAll_voc]; rfl
  have hacc := fun f => accumulateRows_single L voc v hne hnodup hW f
  have hrow := row_single_has_zero L voc v hW
  have h0 := sqrt_zero_of_spec L hsqrt
  unfold Database.Query Database._Query selfScore
  simp only [hvoc]
  cases hS : voc.m_params.Scoring <;> rw [hS] at hacc hrow <;>
    simp only [doQueryL1, doQueryL2, doQueryChiSquare, doQueryKL, doQueryBhattacharyya,
      doQueryDotProduct, sortedL1, sortedL2, sortedChiSquare, hacc,
      (sort_singleton L hsort _).1, (sort_singleton L hsort _).2, cut_singleton _ _ hmax,
      List.map_cons, List.map_nil]
  · -- L1
    have hs := sum_self_L1 L v hne hpos
    simp only [normalizeFor, MustNormalize] at hs ⊢
    rw [hs]
    split <;> simp [mapScore]
  · -- L2
    have hs := sum_self_L2 L hsqrt v hne hpos
    simp only [normalizeFor, MustNormalize] at hs ⊢
    rw [hs]
    split
    · simp [mapScore, h0]
    · have : (2 : K) + 2 * -1 = 0 := by norm_num
      simp [mapScore, this, h0]
  · -- chi-square
    have hs := sum_self_ChiSquare L v hne hpos
    simp only [normalizeFor, MustNormalize] at hs ⊢
    rw [hs]
    split <;> simp [mapScore]
  · -- KL
    have hs := sum_self_KL L hlog v hne hpos
    have hk := klMissing_eq_zero L _ _ 0 hrow
    simp only [normalizeFor, MustNormalize] at hs hk ⊢
    rw [hs, hk, add_zero]
  · -- Bhattacharyya
    have hs := sum_self_Bhattacharyya L hsqrt v hne hpos
    simp only [normalizeFor, MustNormalize] at hs ⊢
    rw [hs]
  · -- dot product
    simp only [normalizeFor, MustNormalize]

end SingleEntryQuery

/-! ## Worked examples -/

section Examples

theorem ratLib_sortSpec : SortSpec ratLib := mergeSortBy_sortSpec _ _

theorem real_sortSpec : SortSpec (StdLib.mk Real.sqrt Real.log mergeSortBy) :=
  mergeSortBy_sortSpec _ _

theorem real_sqrtSpec : SqrtSpec (StdLib.mk Real.sqrt Real.log mergeSortBy) :=
  fun x hx => ⟨Real.sqrt_nonneg x, Real.mul_self_sqrt hx⟩

theorem real_sqrt_monotone : Monotone (StdLib.mk Real.sqrt Real.log mergeSortBy).sqrt :=
  fun _ _ h => Real.sqrt_le_sqrt h

theorem inOrder_exampleHalves (K : Type) [LinearOrderedField K] : InOrder (exampleHalves K) := by
  simp [InOrder, exampleHalves]

theorem inOrder_exampleThreeFour (K : Type) [LinearOrderedField K] :
    InOrder (exampleThreeFour K) := by
  simp [InOrder, exampleThreeFour]

theorem inOrder_singleton {K : Type} [LinearOrderedField K] (e : BowVectorEntry K) :
    InOrder [e] := by
  simp [InOrder]

theorem inOrder_exampleEntries (K : Type) [LinearOrderedField K] :
    ∀ u ∈ exampleEntries K, InOrder u := by
  simp [InOrder, exampleEntries]

theorem ids_lt_exampleEntries (K : Type) [LinearOrderedField K] :
    ∀ u ∈ exampleEntries K, ∀ e ∈ u, e.id < (exampleVoc 2 .L1_NORM true).NumberOfWords := by
  simp [exampleEntries, exampleVoc, Vocabulary.NumberOfWords]

theorem real_sqrt_monotoneOn :
    MonotoneOn (StdLib.mk Real.sqrt Real.log mergeSortBy).sqrt (Set.Ici 0) :=
  fun _ _ _ _ h => Real.sqrt_le_sqrt h

theorem example_L2_sorted_scores :
    ∀ r ∈ (exampleDatabase ℝ .L2_NORM true).sortedResults
      (StdLib.mk Real.sqrt Real.log mergeSortBy) [⟨0, 1⟩] 2, -1 ≤ r.Score := by
  intro r hr
  have hq : normalizeFor (StdLib.mk Real.sqrt Real.log mergeSortBy) .L2_NORM
      ([⟨0, 1⟩] : BowVector ℝ) = [⟨0, 1⟩] := by
    simp [normalizeFor, MustNormalize, Normalize, normOf]
  have hacc : accumulateRows (fun qvalue dvalue : ℝ => -(qvalue * dvalue))
      (exampleDatabase ℝ .L2_NORM true).m_index [⟨0, 1⟩] = [⟨0, -1⟩, ⟨1, -(3 / 5)⟩] := by
    simp [accumulateRows, exampleDatabase, addScore]
  have hr2 : r ∈ cut (mergeSortBy Result.lt
      (accumulateRows (fun qvalue dvalue : ℝ => -(qvalue * dvalue))
        (exampleDatabase ℝ .L2_NORM true).m_index
        (normalizeFor (StdLib.mk Real.sqrt Real.log mergeSortBy) .L2_NORM [⟨0, 1⟩]))) 2 := hr
  rw [hq, hacc, cut_eq_take] at hr2
  have hr3 := (real_sortSpec Result.lt _ (Or.inl rfl)).1.mem_iff.mp (List.mem_of_mem_take hr2)
  simp only [List.mem_cons, List.mem_singleton, List.not_mem_nil, or_false] at hr3
  rcases hr3 with rfl | rfl <;> norm_num

/-- Witness for C3: three entries, one of them empty. -/
theorem addEntry_returns_sequential_ids_witness :
    ([[⟨0, 1 / 2⟩, ⟨1, 1 / 2⟩], [], [⟨1, 1⟩]] : List (BowVector ℚ)).length ≤ 4294967296 ∧
    (Database.create ℚ (exampleVoc 2 .L1_NORM true)).addAllIds ratLib
      [[⟨0, 1 / 2⟩, ⟨1, 1 / 2⟩], [], [⟨1, 1⟩]] = [0, 1, 2] ∧
    ((Database.create ℚ (exampleVoc 2 .L1_NORM true)).addAll ratLib
      [[⟨0, 1 / 2⟩, ⟨1, 1 / 2⟩], [], [⟨1, 1⟩]]).NumberOfEntries = 3 :=
  ⟨by decide,
    (addEntry_returns_sequential_ids ratLib (exampleVoc 2 .L1_NORM true)
      [[⟨0, 1 / 2⟩, ⟨1, 1 / 2⟩], [], [⟨1, 1⟩]] (by decide)).1,
    (addEntry_returns_sequential_ids ratLib (exampleVoc 2 .L1_NORM true)
      [[⟨0, 1 / 2⟩, ⟨1, 1 / 2⟩], [], [⟨1, 1⟩]] (by decide)).2 (by decide)⟩

/-- Witness for C4: `Score([(0,0.5),(1,0.5)], [(0,1)])` under scaled L1. -/
theorem score_L1_scaled_in_unit_interval_witness :
    InOrder (exampleHalves ℚ) ∧ InOrder ([⟨0, 1⟩] : BowVector ℚ) ∧
    0 ≤ (exampleVoc 2 .L1_NORM true).Score ratLib (exampleHalves ℚ) [⟨0, 1⟩] ∧
    (exampleVoc 2 .L1_NORM true).Score ratLib (exampleHalves ℚ) [⟨0, 1⟩] ≤ 1 :=
  ⟨inOrder_exampleHalves ℚ, inOrder_singleton _,
    score_L1_scaled_in_unit_interval ratLib (exampleVoc 2 .L1_NORM true) rfl rfl
      (exampleHalves ℚ) [⟨0, 1⟩] (inOrder_exampleHalves ℚ) (inOrder_singleton _)⟩

/-- Witness for C5: the boundary scenario `v = [(0,0.5),(1,0.5)]`, `Score(v,v) = 1`. -/
theorem score_L1_scaled_self_witness :
    InOrder (exampleHalves ℚ) ∧ 0 < normOf ratLib .L1_NORM (exampleHalves ℚ) ∧
    (exampleVoc 2 .L1_NORM true).Score ratLib (exampleHalves ℚ) (exampleHalves ℚ) = 1 :=
  ⟨inOrder_exampleHalves ℚ,
    normOf_L1_pos ratLib _ (by simp [exampleHalves]) (by simp [exampleHalves]),
    score_L1_scaled_self ratLib (exampleVoc 2 .L1_NORM true) rfl rfl (exampleHalves ℚ)
      (inOrder_exampleHalves ℚ)
      (normOf_L1_pos ratLib _ (by simp [exampleHalves]) (by simp [exampleHalves]))⟩

/-- The vector `[(0,3),(1,4)]` over the reals, scaled and unscaled: an instance
of `score_L2_self`. -/
theorem score_L2_self_witness :
    SqrtSpec (StdLib.mk Real.sqrt Real.log mergeSortBy) ∧ InOrder (exampleThreeFour ℝ) ∧
    0 < normOf (StdLib.mk Real.sqrt Real.log mergeSortBy) .L2_NORM (exampleThreeFour ℝ) ∧
    (exampleVoc 2 .L2_NORM true).Score (StdLib.mk Real.sqrt Real.log mergeSortBy)
      (exampleThreeFour ℝ) (exampleThreeFour ℝ) = 1 ∧
    (exampleVoc 2 .L2_NORM false).Score (StdLib.mk Real.sqrt Real.log mergeSortBy)
      (exampleThreeFour ℝ) (exampleThreeFour ℝ) = 0 :=
  have hn : 0 < normOf (StdLib.mk Real.sqrt Real.log mergeSortBy) .L2_NORM (exampleThreeFour ℝ) :=
    normOf_L2_pos _ real_sqrtSpec _ (by simp [exampleThreeFour]) (by simp [exampleThreeFour])
  ⟨real_sqrtSpec, inOrder_exampleThreeFour ℝ, hn,
    score_L2_self _ real_sqrtSpec (exampleVoc 2 .L2_NORM true) rfl (exampleThreeFour ℝ)
      (inOrder_exampleThreeFour ℝ) hn,
    score_L2_self _ real_sqrtSpec (exampleVoc 2 .L2_NORM false) rfl (exampleThreeFour ℝ)
      (inOrder_exampleThreeFour ℝ) hn⟩

end Examples

section Examples2

/-- The entry `[(0,3),(1,4)]` alone in an L2-scaled database over the reals is
returned with score `1`: an instance of `query_single_entry_self_score`. -/
theorem query_single_entry_self_score_witness :
    SortSpec (StdLib.mk Real.sqrt Real.log mergeSortBy) ∧
    SqrtSpec (StdLib.mk Real.sqrt Real.log mergeSortBy) ∧
    (StdLib.mk Real.sqrt Real.log mergeSortBy).log 1 = 0 ∧
    exampleThreeFour ℝ ≠ [] ∧
    ((exampleThreeFour ℝ).map (fun e => e.id)).Nodup ∧
    (∀ e ∈ exampleThreeFour ℝ, e.id < (exampleVoc 2 .L2_NORM true).NumberOfWords) ∧
    (∀ e ∈ exampleThreeFour ℝ, 0 < e.value) ∧
    ((Database.create ℝ (exampleVoc 2 .L2_NORM true)).AddEntry
        (StdLib.mk Real.sqrt Real.log mergeSortBy) (exampleThreeFour ℝ)).2.Query
        (StdLib.mk Real.sqrt Real.log mergeSortBy) (exampleThreeFour ℝ) 1 = [⟨0, 1⟩] :=
  have h1 : exampleThreeFour ℝ ≠ [] := by simp [exampleThreeFour]
  have h2 : ((exampleThreeFour ℝ).map (fun e => e.id)).Nodup := by simp [exampleThreeFour]
  have h3 : ∀ e ∈ exampleThreeFour ℝ, e.id < (exampleVoc 2 .L2_NORM true).NumberOfWords := by
    simp [exampleThreeFour, exampleVoc, Vocabulary.NumberOfWords]
  have h4 : ∀ e ∈ exampleThreeFour ℝ, 0 < e.value := by simp [exampleThreeFour]
  ⟨real_sortSpec, real_sqrtSpec, Real.log_one, h1, h2, h3, h4,
    query_single_entry_self_score (StdLib.mk Real.sqrt Real.log mergeSortBy) real_sortSpec
      real_sqrtSpec Real.log_one (exampleVoc 2 .L2_NORM true) (exampleThreeFour ℝ) h1 h2 h3 h4 1
      (le_refl 1)⟩

/-- Witness for C8: in the three-entry scenario the stored vector `[(0,1)]`
(entry 1) ranks first when used as the query. -/
theorem query_L1_stored_copy_ranks_first_witness :
    SortSpec ratLib ∧ (exampleEntries ℚ).length ≤ 4294967296 ∧
    (exampleEntries ℚ)[1]? = some [⟨0, 1⟩] ∧
    0 < normOf ratLib .L1_NORM ([⟨0, 1⟩] : BowVector ℚ) ∧
    (∃ r, (((Database.create ℚ (exampleVoc 2 .L1_NORM true)).addAll ratLib
        (exampleEntries ℚ)).sortedResults ratLib [⟨0, 1⟩] 1).head? = some r ∧ r.Score = -2 ∧
        ∀ r' ∈ ((Database.create ℚ (exampleVoc 2 .L1_NORM true)).addAll ratLib
          (exampleEntries ℚ)).sortedResults ratLib [⟨0, 1⟩] 1, -2 ≤ r'.Score) ∧
    (∃ r, (((Database.create ℚ (exampleVoc 2 .L1_NORM true)).addAll ratLib
        (exampleEntries ℚ)).Query ratLib [⟨0, 1⟩] 1).head? = some r ∧
        r.Score = if (exampleVoc 2 .L1_NORM true).m_params.ScaleScore then 1 else 0) :=
  have hn : 0 < normOf ratLib .L1_NORM ([⟨0, 1⟩] : BowVector ℚ) :=
    normOf_L1_pos ratLib _ (by simp) (by simp)
  have hl : (exampleEntries ℚ).length ≤ 4294967296 := by simp [exampleEntries]
  ⟨ratLib_sortSpec, hl, rfl, hn,
    query_L1_stored_copy_ranks_first ratLib ratLib_sortSpec (exampleVoc 2 .L1_NORM true) rfl
      (exampleEntries ℚ) hl (ids_lt_exampleEntries ℚ) 1 [⟨0, 1⟩] rfl (by simp) hn 1 (le_refl 1)⟩

/-- Witness for C9: the database boundary scenario, entries
`[(0,0.5),(1,0.5)]`, `[(0,1.0)]`, `[(1,1.0)]` under scaled L1, query `[(0,1.0)]`. -/
theorem query_L1_agrees_with_score_witness :
    SortSpec ratLib ∧ (exampleEntries ℚ).length ≤ 4294967296 ∧
    (∀ u ∈ exampleEntries ℚ, InOrder u) ∧ InOrder ([⟨0, 1⟩] : BowVector ℚ) ∧
    ((((Database.create ℚ (exampleVoc 2 .L1_NORM true)).addAll ratLib
        (exampleEntries ℚ)).Query ratLib [⟨0, 1⟩] 3).map (fun r => r.Id)).Nodup ∧
    (∀ eid, eid ∈ (((Database.create ℚ (exampleVoc 2 .L1_NORM true)).addAll ratLib
        (exampleEntries ℚ)).Query ratLib [⟨0, 1⟩] 3).map (fun r => r.Id) ↔
        ∃ u, (exampleEntries ℚ)[eid]? = some u ∧ Shares [⟨0, 1⟩] u) ∧
    (∀ r ∈ ((Database.create ℚ (exampleVoc 2 .L1_NORM true)).addAll ratLib
        (exampleEntries ℚ)).Query ratLib [⟨0, 1⟩] 3,
        ∃ u, (exampleEntries ℚ)[r.Id]? = some u ∧
          r.Score = (exampleVoc 2 .L1_NORM true).Score ratLib [⟨0, 1⟩] u) :=
  have hl : (exampleEntries ℚ).length ≤ 4294967296 := by simp [exampleEntries]
  ⟨ratLib_sortSpec, hl, inOrder_exampleEntries ℚ, inOrder_singleton _,
    query_L1_agrees_with_score ratLib ratLib_sortSpec (exampleVoc 2 .L1_NORM true) rfl
      (exampleEntries ℚ) hl (inOrder_exampleEntries ℚ) (ids_lt_exampleEntries ℚ) [⟨0, 1⟩]
      (inOrder_singleton _) 3 (by simp [exampleEntries])⟩

/-- The database boundary scenario evaluated: entry 1 first with score `1`,
then entry 0 with score `0.5`; entry 2 is absent. -/
theorem query_boundary_scenario :
    ((Database.create ℚ (exampleVoc 2 .L1_NORM true)).addAll ratLib (exampleEntries ℚ)).Query
      ratLib [⟨0, 1⟩] 3 = [⟨1, 1⟩, ⟨0, 1 / 2⟩] := by
  norm_num [Database.create, exampleVoc, exampleEntries, Database.addAll, Database.AddEntry,
    Database._AddEntry, normalizeFor, MustNormalize, Normalize, normOf, pushBackAt,
    Vocabulary.Scoring, Vocabulary.NumberOfWords, List.replicate, Database.Query,
    Database._Query, doQueryL1, sortedL1, accumulateRows, addScore, cut, mapScore, ratLib,
    mergeSortBy, Result.lt, List.mergeSort, List.merge, List.splitInTwo, abs_div]

/-- Witness for C10: entries `[(0,3),(1,4)]` and `[(0,1)]` under scaled L2
over the reals, query `[(0,1)]`, entry 0. -/
theorem query_L2_agrees_with_score_witness :
    SortSpec (StdLib.mk Real.sqrt Real.log mergeSortBy) ∧
    InOrder ([⟨0, 1⟩] : BowVector ℝ) ∧ InOrder (exampleThreeFour ℝ) ∧
    Shares ([⟨0, 1⟩] : BowVector ℝ) (exampleThreeFour ℝ) ∧
    (∀ r ∈ ((Database.create ℝ (exampleVoc 2 .L2_NORM true)).addAll
        (StdLib.mk Real.sqrt Real.log mergeSortBy) [exampleThreeFour ℝ, [⟨0, 1⟩]]).Query
        (StdLib.mk Real.sqrt Real.log mergeSortBy) [⟨0, 1⟩] 2,
        r.Id = 0 → r.Score = (exampleVoc 2 .L2_NORM true).Score
          (StdLib.mk Real.sqrt Real.log mergeSortBy) [⟨0, 1⟩] (exampleThreeFour ℝ)) ∧
    (∃ r ∈ ((Database.create ℝ (exampleVoc 2 .L2_NORM true)).addAll
        (StdLib.mk Real.sqrt Real.log mergeSortBy) [exampleThreeFour ℝ, [⟨0, 1⟩]]).Query
        (StdLib.mk Real.sqrt Real.log mergeSortBy) [⟨0, 1⟩] 2, r.Id = 0) :=
  have hsh : Shares ([⟨0, 1⟩] : BowVector ℝ) (exampleThreeFour ℝ) :=
    ⟨⟨0, 1⟩, by simp, ⟨0, 3⟩, by simp [exampleThreeFour], rfl⟩
  have hW : ∀ u ∈ [exampleThreeFour ℝ, [⟨0, 1⟩]], ∀ e ∈ u,
      e.id < (exampleVoc 2 .L2_NORM true).NumberOfWords := by
    simp [exampleThreeFour, exampleVoc, Vocabulary.NumberOfWords]
  have h := query_L2_agrees_with_score (StdLib.mk Real.sqrt Real.log mergeSortBy) real_sortSpec
    (exampleVoc 2 .L2_NORM true) rfl [exampleThreeFour ℝ, [⟨0, 1⟩]] (by simp) hW [⟨0, 1⟩]
    (inOrder_singleton _) 0 (exampleThreeFour ℝ) rfl (inOrder_exampleThreeFour ℝ) hsh 2
  ⟨real_sortSpec, inOrder_singleton _, inOrder_exampleThreeFour ℝ, hsh, h.1, h.2 (by simp)⟩

end Examples2

/-! ## The stop list -/

section StopList

variable {K : Type} [LinearOrderedField K]

theorem mergeSortAlgorithm_contract : SortContract mergeSortAlgorithm := by
  intro α lt l hlt
  obtain ⟨hirr, htr, hneg⟩ := hlt
  refine ⟨List.mergeSort_perm _ _, ?_⟩
  have key : (l.mergeSort (fun a b => !lt b a)).Pairwise (fun a b => (!lt b a) = true) := by
    apply List.sorted_mergeSort
    · intro a b c hab hbc
      simp only [Bool.not_eq_true'] at hab hbc ⊢
      exact hneg c b a hbc hab
    · intro a b
      simp only [Bool.or_eq_true, Bool.not_eq_true']
      by_cases h : lt b a = true
      · right
        by_contra h2
        have h3 : lt a b = true := by simpa using h2
        have := htr a b a h3 h
        rw [hirr a] at this
        exact Bool.false_ne_true this
      · left
        simpa using h
  exact key.imp (fun h => by simpa using h)

theorem pairLt_iff (a b : K × Nat) :
    pairLt a b = true ↔ a.1 < b.1 ∨ (a.1 = b.1 ∧ a.2 < b.2) := by
  simp only [pairLt, Bool.or_eq_true, decide_eq_true_eq, Bool.and_eq_true, Bool.not_eq_true',
    decide_eq_false_iff_not, not_lt]
  constructor
  · rintro (h | ⟨h1, h2⟩)
    · exact Or.inl h
    · rcases lt_or_eq_of_le h1 with h | h
      · exact Or.inl h
      · exact Or.inr ⟨h, h2⟩
  · rintro (h | ⟨h1, h2⟩)
    · exact Or.inl h
    · exact Or.inr ⟨le_of_eq h1, h2⟩

theorem pairLt_eq_false_iff (a b : K × Nat) :
    pairLt a b = false ↔ b.1 < a.1 ∨ (a.1 = b.1 ∧ b.2 ≤ a.2) := by
  rw [← Bool.not_eq_true, pairLt_iff]
  constructor
  · intro h
    push_neg at h
    rcases lt_trichotomy a.1 b.1 with h1 | h1 | h1
    · exact absurd h1 (not_lt.mpr h.1)
    · exact Or.inr ⟨h1, h.2 h1⟩
    · exact Or.inl h1
  · rintro (h | ⟨h1, h2⟩) (h3 | ⟨h3, h4⟩)
    · exact lt_asymm h h3
    · rw [h3] at h; exact lt_irrefl _ h
    · rw [h1] at h3; exact lt_irrefl _ h3
    · omega

theorem strictWeak_pairLt : StrictWeak (pairLt : K × Nat → K × Nat → Bool) := by
  refine ⟨fun a => ?_, fun a b c hab hbc => ?_, fun a b c hab hbc => ?_⟩
  · rw [pairLt_eq_false_iff]
    exact Or.inr ⟨rfl, le_rfl⟩
  · rw [pairLt_iff] at *
    rcases hab with h | ⟨h1, h2⟩ <;> rcases hbc with h' | ⟨h1', h2'⟩
    · exact Or.inl (lt_trans h h')
    · exact Or.inl (h1' ▸ h)
    · exact Or.inl (h1 ▸ h')
    · exact Or.inr ⟨h1.trans h1', by omega⟩
  · rw [pairLt_eq_false_iff] at *
    rcases hab with h | ⟨h1, h2⟩ <;> rcases hbc with h' | ⟨h1', h2'⟩
    · exact Or.inl (lt_trans h' h)
    · exact Or.inl (h1' ▸ h)
    · exact Or.inl (h1 ▸ h')
    · exact Or.inr ⟨h1.trans h1', by omega⟩

theorem length_foldl_set (b : Bool) (ids : List Nat) (flags : List Bool) :
    (ids.foldl (fun ws id => ws.set id b) flags).length = flags.length := by
  induction ids generalizing flags with
  | nil => rfl
  | cons id rest ih => rw [List.foldl_cons, ih, List.length_set]

theorem getD_foldl_set (b : Bool) (ids : List Nat) (flags : List Bool) (w : Nat) :
    (ids.foldl (fun ws id => ws.set id b) flags).getD w false =
      if w ∈ ids ∧ w < flags.length then b else flags.getD w false := by
  induction ids generalizing flags with
  | nil => simp
  | cons id rest ih =>
    rw [List.foldl_cons, ih, List.length_set]
    simp only [List.getD_eq_getElem?_getD, List.getElem?_set, List.mem_cons]
    by_cases hw : w < flags.length
    · by_cases hid : id = w
      · subst hid
        by_cases hr : id ∈ rest
        · simp [hr, hw]
        · simp [hr, hw]
      · have hne : ¬ w = id := fun h => hid h.symm
        by_cases hr : w ∈ rest
        · simp [hr, hw, hid, hne]
        · simp [hr, hw, hid, hne]
    · have hnone : flags[w]? = none := List.getElem?_eq_none (by omega)
      by_cases hid : id = w
      · subst hid
        simp [hw, hnone]
      · simp [hw, hnone, hid]

theorem foldl_stop_pairs (f : Nat → Nat) (is : List Nat) (st : List Nat × List Bool) :
    is.foldl (fun (st : List Nat × List Bool) (i : Nat) =>
        (st.1 ++ [f i], st.2.set (f i) true)) st =
      (st.1 ++ is.map f, (is.map f).foldl (fun ws id => ws.set id true) st.2) := by
  induction is generalizing st with
  | nil => simp
  | cons i rest ih =>
    rw [List.foldl_cons, ih]
    simp

theorem mem_map_range_getD (wio : List Nat) (n : Nat) (hn : n ≤ wio.length) (x : Nat) :
    x ∈ (List.range n).map (fun i => wio.getD i 0) ↔ x ∈ wio.take n := by
  rw [List.mem_take_iff_getElem]
  simp only [List.mem_map, List.mem_range, List.getD_eq_getElem?_getD]
  constructor
  · rintro ⟨i, hi, rfl⟩
    refine ⟨i, by omega, ?_⟩
    rw [List.getElem?_eq_getElem (by omega)]
    rfl
  · rintro ⟨i, hi, rfl⟩
    refine ⟨i, by omega, ?_⟩
    rw [List.getElem?_eq_getElem (by omega)]
    rfl

theorem mem_map_range_getD_rev (wio : List Nat) (n : Nat) (hn : n ≤ wio.length) (x : Nat) :
    x ∈ (List.range n).map
        (fun i : Nat => wio.getD (((wio.length : Nat) : Int) - (i : Int) - 1).toNat 0) ↔
      x ∈ wio.drop (wio.length - n) := by
  rw [List.mem_drop_iff_getElem, List.mem_map]
  constructor
  · rintro ⟨i, hi, rfl⟩
    rw [List.mem_range] at hi
    have h1 : (((wio.length : Nat) : Int) - (i : Int) - 1).toNat =
        wio.length - n + (n - 1 - i) := by omega
    refine ⟨n - 1 - i, by omega, ?_⟩
    have h2 : wio.getD (((wio.length : Nat) : Int) - (i : Int) - 1).toNat 0 =
        wio.getD (wio.length - n + (n - 1 - i)) 0 := by rw [h1]
    show _ = wio.getD _ 0
    rw [h2, List.getD_eq_getElem?_getD, List.getElem?_eq_getElem (by omega)]
    rfl
  · rintro ⟨i, hi, rfl⟩
    refine ⟨n - 1 - i, List.mem_range.mpr (by omega), ?_⟩
    have h1 : (((wio.length : Nat) : Int) - ((n - 1 - i : Nat) : Int) - 1).toNat =
        wio.length - n + i := by omega
    have h2 : wio.getD (((wio.length : Nat) : Int) - ((n - 1 - i : Nat) : Int) - 1).toNat 0 =
        wio.getD (wio.length - n + i) 0 := by rw [h1]
    show wio.getD _ 0 = _
    rw [h2, List.getD_eq_getElem?_getD, List.getElem?_eq_getElem (by omega)]
    rfl

end StopList

section StopWordsProofs

variable {K : Type} [LinearOrderedField K]

theorem getD_replicate_false (n w : Nat) : (List.replicate n false).getD w false = false := by
  rw [List.getD_eq_getElem?_getD, List.getElem?_replicate]
  split <;> rfl

theorem stopWords_eq (voc : HVocabulary K) (hc : voc.m_created = true) (nf ni : Int) :
    voc.StopWords nf ni =
      { voc with
        m_stop_list := voc.newStopList nf ni
        m_word_stopped := (voc.newStopList nf ni).foldl (fun ws id => ws.set id true)
          (voc.m_stop_list.foldl (fun ws id => ws.set id false) voc.m_word_stopped)
        m_frequent_words_stopped :=
          if nf > (voc.m_words_in_order.length : Int) then (voc.m_words_in_order.length : Int)
          else nf
        m_infrequent_words_stopped :=
          if ni > (voc.m_words_in_order.length : Int) then (voc.m_words_in_order.length : Int)
          else ni } := by
  unfold HVocabulary.StopWords HVocabulary.newStopList
  simp only [hc, Bool.not_true, Bool.false_eq_true, if_false]
  rw [foldl_stop_pairs (fun i : Nat => voc.m_words_in_order.getD i 0),
    foldl_stop_pairs (fun i : Nat => voc.m_words_in_order.getD
      ((voc.m_words_in_order.length : Int) - (i : Int) - 1).toNat 0)]
  simp only [List.nil_append, List.foldl_append]

theorem stopWords_not_created (voc : HVocabulary K) (hc : voc.m_created = false) (nf ni : Int) :
    voc.StopWords nf ni = voc := by
  unfold HVocabulary.StopWords
  simp [hc]

theorem cleared_flags (voc : HVocabulary K) (hinv : voc.StopInv) :
    voc.m_stop_list.foldl (fun ws id => ws.set id false) voc.m_word_stopped =
      List.replicate voc.m_words_in_order.length false := by
  obtain ⟨hlen, _, hflag, _⟩ := hinv
  apply List.ext_getElem
  · rw [length_foldl_set, hlen, List.length_replicate]
  · intro i h1 h2
    rw [length_foldl_set] at h1
    rw [List.getElem_replicate]
    have hgetD := getD_foldl_set false voc.m_stop_list voc.m_word_stopped i
    rw [List.getD_eq_getElem?_getD, List.getElem?_eq_getElem (by rw [length_foldl_set]; exact h1)]
      at hgetD
    simp only [Option.getD_some] at hgetD
    rw [hgetD]
    by_cases hm : i ∈ voc.m_stop_list
    · rw [if_pos ⟨hm, h1⟩]
    · rw [if_neg (fun h => hm h.1)]
      have := hflag i (by omega)
      by_contra hne
      exact hm (this.mp (by simpa using hne))

theorem mem_newStopList (voc : HVocabulary K) (nf ni : Int) (hnf : 0 ≤ nf) (hni : 0 ≤ ni)
    (w : Nat) :
    w ∈ voc.newStopList nf ni ↔
      w ∈ voc.m_words_in_order.take (min ni.toNat voc.m_words_in_order.length) ∨
      w ∈ voc.m_words_in_order.drop
        (voc.m_words_in_order.length - min nf.toNat voc.m_words_in_order.length) := by
  unfold HVocabulary.newStopList
  simp only [List.mem_append]
  have h1 : (if ni > (voc.m_words_in_order.length : Int) then (voc.m_words_in_order.length : Int)
      else ni).toNat = min ni.toNat voc.m_words_in_order.length := by
    split <;> omega
  have h2 : (if nf > (voc.m_words_in_order.length : Int) then (voc.m_words_in_order.length : Int)
      else nf).toNat = min nf.toNat voc.m_words_in_order.length := by
    split <;> omega
  rw [h1, h2, mem_map_range_getD _ _ (by omega), mem_map_range_getD_rev _ _ (by omega)]

theorem lt_of_mem_perm_range {l : List Nat} (h : l.Perm (List.range l.length)) {w : Nat}
    (hw : w ∈ l) : w < l.length :=
  List.mem_range.mp (h.mem_iff.mp hw)

theorem newStopList_lt (voc : HVocabulary K) (hinv : voc.StopInv) (nf ni : Int) (hnf : 0 ≤ nf)
    (hni : 0 ≤ ni) : ∀ w ∈ voc.newStopList nf ni, w < voc.m_words_in_order.length := by
  intro w hw
  rcases (mem_newStopList voc nf ni hnf hni w).mp hw with h | h
  · exact lt_of_mem_perm_range hinv.2.1 (List.mem_of_mem_take h)
  · exact lt_of_mem_perm_range hinv.2.1 (List.mem_of_mem_drop h)

theorem isWordStopped_stopWords (voc : HVocabulary K) (hc : voc.m_created = true)
    (hinv : voc.StopInv) (nf ni : Int) (hnf : 0 ≤ nf) (hni : 0 ≤ ni) (w : Nat) :
    (voc.StopWords nf ni).isWordStopped w = true ↔ w ∈ voc.newStopList nf ni := by
  rw [stopWords_eq voc hc, HVocabulary.isWordStopped]
  simp only [cleared_flags voc hinv, length_foldl_set, List.length_replicate, Bool.and_eq_true,
    decide_eq_true_eq, getD_foldl_set]
  constructor
  · rintro ⟨_, h⟩
    by_cases hm : w ∈ voc.newStopList nf ni
    · exact hm
    · rw [if_neg (fun h' => hm h'.1)] at h
      rw [getD_replicate_false] at h
      exact absurd h (by decide)
  · intro hm
    have hlt := newStopList_lt voc hinv nf ni hnf hni w hm
    exact ⟨hlt, by rw [if_pos ⟨hm, hlt⟩]⟩

/-- `StopWords` keeps the stop list consistent. -/
theorem stopInv_stopWords (voc : HVocabulary K) (hinv : voc.StopInv) (nf ni : Int)
    (hnf : 0 ≤ nf) (hni : 0 ≤ ni) : (voc.StopWords nf ni).StopInv := by
  cases hc : voc.m_created with
  | false => rw [stopWords_not_created voc hc]; exact hinv
  | true =>
    have hlt := newStopList_lt voc hinv nf ni hnf hni
    rw [stopWords_eq voc hc]
    refine ⟨?_, hinv.2.1, ?_, hlt⟩
    · simp only [length_foldl_set]
      exact hinv.1
    · intro w hw
      simp only [cleared_flags voc hinv, getD_foldl_set, List.length_replicate]
      constructor
      · intro h
        by_cases hm : w ∈ voc.newStopList nf ni
        · exact hm
        · rw [if_neg (fun h' => hm h'.1)] at h
          rw [getD_replicate_false] at h
          exact absurd h (by decide)
      · intro hm
        rw [if_pos ⟨hm, hw⟩]

end StopWordsProofs

section StopCount

variable {K : Type} [LinearOrderedField K]

theorem length_filter_take_drop (l : List Nat) (hnd : l.Nodup) (a b : Nat) (ha : a ≤ l.length)
    (p : Nat → Bool)
    (hp : ∀ w ∈ l, (p w = true ↔ (w ∈ l.take a ∨ w ∈ l.drop b))) :
    (l.filter p).length = if b ≤ a then l.length else a + (l.length - b) := by
  by_cases hba : b ≤ a
  · rw [if_pos hba]
    have : l.filter p = l := by
      rw [List.filter_eq_self]
      intro w hw
      rw [hp w hw]
      have hsplit : w ∈ l.take a ++ l.drop a := by rw [List.take_append_drop]; exact hw
      rcases List.mem_append.mp hsplit with h | h
      · exact Or.inl h
      · right
        have hd : l.drop a = (l.drop b).drop (a - b) := by
          rw [List.drop_drop]
          congr 1
          omega
        rw [hd] at h
        exact List.mem_of_mem_drop h
    rw [this]
  · rw [if_neg hba]
    have hB : (l.drop a).drop (b - a) = l.drop b := by
      rw [List.drop_drop]
      congr 1
      omega
    have hl : l.take a ++ ((l.drop a).take (b - a) ++ l.drop b) = l := by
      rw [← hB, List.take_append_drop, List.take_append_drop]
    have hnd2 : (l.take a ++ ((l.drop a).take (b - a) ++ l.drop b)).Nodup := by rw [hl]; exact hnd
    rw [List.nodup_append] at hnd2
    obtain ⟨_, hnd3, hdisj⟩ := hnd2
    rw [List.nodup_append] at hnd3
    obtain ⟨_, _, hdisj2⟩ := hnd3
    have hmemA : ∀ w ∈ l.take a, w ∈ l := fun w hw => List.mem_of_mem_take hw
    have hmemB : ∀ w ∈ l.drop b, w ∈ l := fun w hw => List.mem_of_mem_drop hw
    have hmemM : ∀ w ∈ (l.drop a).take (b - a), w ∈ l :=
      fun w hw => List.mem_of_mem_drop (List.mem_of_mem_take hw)
    have hfA : (l.take a).filter p = l.take a := by
      rw [List.filter_eq_self]
      intro w hw
      exact (hp w (hmemA w hw)).mpr (Or.inl hw)
    have hfB : (l.drop b).filter p = l.drop b := by
      rw [List.filter_eq_self]
      intro w hw
      exact (hp w (hmemB w hw)).mpr (Or.inr hw)
    have hfM : ((l.drop a).take (b - a)).filter p = [] := by
      rw [List.filter_eq_nil_iff]
      intro w hw hpw
      rcases (hp w (hmemM w hw)).mp hpw with h | h
      · exact hdisj h (List.mem_append.mpr (Or.inl hw))
      · exact hdisj2 hw h
    calc (l.filter p).length
        = ((l.take a ++ ((l.drop a).take (b - a) ++ l.drop b)).filter p).length := by rw [hl]
      _ = a + (l.length - b) := by
          rw [List.filter_append, List.filter_append, hfA, hfB, hfM]
          simp only [List.nil_append, List.length_append, List.length_take, List.length_drop]
          omega

theorem mem_zip_range (l : List K) (s : Nat) (x : K) (i : Nat)
    (h : (x, i) ∈ l.zip (List.range' s l.length)) : l.getD (i - s) 0 = x ∧ s ≤ i := by
  induction l generalizing s with
  | nil => simp at h
  | cons y rest ih =>
    simp only [List.length_cons, List.range'_succ, List.zip_cons_cons, List.mem_cons,
      Prod.mk.injEq] at h
    rcases h with ⟨rfl, rfl⟩ | h
    · simp
    · obtain ⟨h1, h2⟩ := ih (s + 1) h
      refine ⟨?_, by omega⟩
      have : i - s = (i - (s + 1)) + 1 := by omega
      rw [this, List.getD_cons_succ]
      exact h1

/-- `CreateStopList` leaves a consistent, empty stop list and the words
arranged by ascending frequency. -/
theorem stopInv_createStopList (A : StdAlgorithm) (hA : SortContract A) (voc : HVocabulary K) :
    (voc.CreateStopList A).StopInv ∧ (voc.CreateStopList A).FreqSorted ∧
    (voc.CreateStopList A).m_words_in_order.length = voc.m_word_frequency.length ∧
    (voc.CreateStopList A).m_stop_list = [] := by
  obtain ⟨hperm, hsorted⟩ := hA (K × Nat) pairLt
    (voc.m_word_frequency.zip (List.range voc.m_word_frequency.length)) strictWeak_pairLt
  have hsnd : (voc.m_word_frequency.zip (List.range voc.m_word_frequency.length)).map
      (fun p => p.2) = List.range voc.m_word_frequency.length := by
    apply List.map_snd_zip
    simp
  have hwio : ((A.sort pairLt (voc.m_word_frequency.zip
      (List.range voc.m_word_frequency.length))).map (fun p => p.2)).Perm
      (List.range voc.m_word_frequency.length) := by
    have hm := hperm.map (fun p : K × Nat => p.2)
    rw [hsnd] at hm
    exact hm
  have hlen : ((A.sort pairLt (voc.m_word_frequency.zip
      (List.range voc.m_word_frequency.length))).map (fun p => p.2)).length =
      voc.m_word_frequency.length := by
    rw [hwio.length_eq, List.length_range]
  refine ⟨⟨?_, ?_, ?_, ?_⟩, ?_, hlen, rfl⟩
  · simp only [HVocabulary.CreateStopList, List.length_replicate]
    exact hlen.symm
  · simp only [HVocabulary.CreateStopList]
    rw [hlen]
    exact hwio
  · intro w _
    simp only [HVocabulary.CreateStopList, getD_replicate_false, List.not_mem_nil]
    simp
  · intro w hw
    simp [HVocabulary.CreateStopList] at hw
  · simp only [HVocabulary.FreqSorted, HVocabulary.CreateStopList]
    rw [List.pairwise_map]
    have hmem : ∀ q ∈ A.sort pairLt (voc.m_word_frequency.zip
        (List.range voc.m_word_frequency.length)), voc.m_word_frequency.getD q.2 0 = q.1 := by
      intro q hq
      have hq2 := hperm.mem_iff.mp hq
      rw [List.range_eq_range'] at hq2
      have := mem_zip_range voc.m_word_frequency 0 q.1 q.2 hq2
      simpa using this.1
    have hs2 : (A.sort pairLt (voc.m_word_frequency.zip
        (List.range voc.m_word_frequency.length))).Pairwise (fun p q => p.1 ≤ q.1) := by
      refine hsorted.imp ?_
      intro p q h
      rcases (pairLt_eq_false_iff q p).mp h with h1 | ⟨h1, _⟩
      · exact le_of_lt h1
      · exact le_of_eq h1.symm
    refine List.Pairwise.imp_of_mem ?_ hs2
    intro p q hp hq hpq
    rw [hmem p hp, hmem q hq]
    exact hpq

end StopCount

section StopWordsClaims

variable {K : Type} [LinearOrderedField K]

theorem pairwise_take_drop {α : Type} {R : α → α → Prop} {l : List α} (h : l.Pairwise R)
    (n : Nat) {a b : α} (ha : a ∈ l.take n) (hb : b ∈ l.drop n) : R a b := by
  rw [← List.take_append_drop n l, List.pairwise_append] at h
  exact h.2.2 a ha b hb

theorem mem_take_or_drop {α : Type} (l : List α) (n : Nat) {a : α} (ha : a ∈ l) :
    a ∈ l.take n ∨ a ∈ l.drop n := by
  rw [← List.take_append_drop n l] at ha
  exact List.mem_append.mp ha

theorem exampleHVocabulary_stopInv (weighting : WeightingType) (w0 w1 : K) :
    (exampleHVocabulary weighting w0 w1).StopInv := by
  refine ⟨rfl, ?_, ?_, ?_⟩
  · show [1, 0].Perm [0, 1]
    exact List.Perm.swap 0 1 []
  · intro w _
    simp only [exampleHVocabulary, List.not_mem_nil, iff_false]
    match w with
    | 0 => simp
    | 1 => simp
    | (n + 2) => simp
  · intro w hw
    simp [exampleHVocabulary] at hw

theorem exampleHVocabulary_freqSorted (weighting : WeightingType) (w0 w1 : K) :
    (exampleHVocabulary weighting w0 w1).FreqSorted := by
  simp only [HVocabulary.FreqSorted, exampleHVocabulary, List.pairwise_cons, List.mem_singleton,
    forall_eq, List.not_mem_nil, false_imp_iff, implies_true, List.Pairwise.nil, and_true]
  show (1 / 3 : K) ≤ 2 / 3
  have h3 : (0 : K) < 3 := by norm_num
  rw [div_le_div_iff_of_pos_right h3]
  norm_num

/-- C11: in a created vocabulary whose stop-list state is consistent and whose
`m_words_in_order` is arranged by ascending frequency (the state left by
`CreateStopList` and kept by `StopWords`), with `W` words, after
`StopWords(nf, ni)` for `nf, ni ≥ 0` a word is stopped exactly when it is among
the `min(nf, W)` last or the `min(ni, W)` first elements of
`m_words_in_order`; the number of stopped words is `min(nf + ni, W)`; every
word among the first has a frequency at most that of every other word, and
every word among the last a frequency at least that of every other word. -/
theorem stopWords_stops_exactly (voc : HVocabulary K) (hc : voc.m_created = true)
    (hinv : voc.StopInv) (hsorted : voc.FreqSorted) (nf ni : Int) (hnf : 0 ≤ nf)
    (hni : 0 ≤ ni) :
    (∀ w, (voc.StopWords nf ni).isWordStopped w = true ↔
      (w ∈ voc.m_words_in_order.drop
          (voc.m_words_in_order.length - min nf.toNat voc.m_words_in_order.length) ∨
        w ∈ voc.m_words_in_order.take (min ni.toNat voc.m_words_in_order.length))) ∧
    ((List.range voc.m_words_in_order.length).filter
      (voc.StopWords nf ni).isWordStopped).length =
        min (nf.toNat + ni.toNat) voc.m_words_in_order.length ∧
    (∀ a ∈ voc.m_words_in_order.take (min ni.toNat voc.m_words_in_order.length),
      ∀ b ∈ voc.m_words_in_order,
        b ∉ voc.m_words_in_order.take (min ni.toNat voc.m_words_in_order.length) →
        (voc.StopWords nf ni).GetWordFrequency a ≤ (voc.StopWords nf ni).GetWordFrequency b) ∧
    (∀ a ∈ voc.m_words_in_order.drop
        (voc.m_words_in_order.length - min nf.toNat voc.m_words_in_order.length),
      ∀ b ∈ voc.m_words_in_order,
        b ∉ voc.m_words_in_order.drop
          (voc.m_words_in_order.length - min nf.toNat voc.m_words_in_order.length) →
        (voc.StopWords nf ni).GetWordFrequency b ≤ (voc.StopWords nf ni).GetWordFrequency a) := by
  have hstop : ∀ w, (voc.StopWords nf ni).isWordStopped w = true ↔
      (w ∈ voc.m_words_in_order.take (min ni.toNat voc.m_words_in_order.length) ∨
        w ∈ voc.m_words_in_order.drop
          (voc.m_words_in_order.length - min nf.toNat voc.m_words_in_order.length)) := by
    intro w
    rw [isWordStopped_stopWords voc hc hinv nf ni hnf hni, mem_newStopList voc nf ni hnf hni]
  have hfreq : ∀ w, (voc.StopWords nf ni).GetWordFrequency w = voc.m_word_frequency.getD w 0 := by
    intro w
    rw [stopWords_eq voc hc]
    simp [HVocabulary.GetWordFrequency, hc]
  obtain ⟨_, hperm, _, _⟩ := hinv
  have hnd : voc.m_words_in_order.Nodup := hperm.nodup_iff.mpr (List.nodup_range _)
  refine ⟨fun w => (hstop w).trans Or.comm, ?_, ?_, ?_⟩
  · have hcount := length_filter_take_drop voc.m_words_in_order hnd
      (min ni.toNat voc.m_words_in_order.length)
      (voc.m_words_in_order.length - min nf.toNat voc.m_words_in_order.length)
      (Nat.min_le_right _ _) (voc.StopWords nf ni).isWordStopped
      (fun w _ => hstop w)
    rw [← (hperm.filter _).length_eq, hcount]
    split <;> omega
  · intro a ha b hb hnot
    rw [hfreq, hfreq]
    rcases mem_take_or_drop voc.m_words_in_order
      (min ni.toNat voc.m_words_in_order.length) hb with h | h
    · exact absurd h hnot
    · exact pairwise_take_drop hsorted _ ha h
  · intro a ha b hb hnot
    rw [hfreq, hfreq]
    rcases mem_take_or_drop voc.m_words_in_order
      (voc.m_words_in_order.length - min nf.toNat voc.m_words_in_order.length) hb with h | h
    · exact pairwise_take_drop hsorted _ h ha
    · exact absurd h hnot

theorem stopWords_stops_exactly_witness :
    (exampleHVocabulary WeightingType.TF_IDF (0 : ℚ) 0).m_created = true ∧
    (exampleHVocabulary WeightingType.TF_IDF (0 : ℚ) 0).StopInv ∧
    (exampleHVocabulary WeightingType.TF_IDF (0 : ℚ) 0).FreqSorted ∧
    ((List.range 2).filter
      ((exampleHVocabulary WeightingType.TF_IDF (0 : ℚ) 0).StopWords 1 0).isWordStopped).length
      = 1 :=
  ⟨rfl, exampleHVocabulary_stopInv _ _ _, exampleHVocabulary_freqSorted _ _ _,
    (stopWords_stops_exactly (exampleHVocabulary WeightingType.TF_IDF (0 : ℚ) 0) rfl
      (exampleHVocabulary_stopInv _ _ _) (exampleHVocabulary_freqSorted _ _ _) 1 0
      (by decide) (by decide)).2.1⟩

end StopWordsClaims

section Descent

variable {K : Type} [LinearOrderedField K]

theorem foldl_best_fst (g : Nat → K) (rest : List Nat) (best : Nat × K) :
    (rest.foldl (fun (best : Nat × K) (id : Nat) =>
      if g id < best.2 then (id, g id) else best) best).1 ∈ best.1 :: rest := by
  induction rest generalizing best with
  | nil => simp
  | cons c rest ih =>
    rw [List.foldl_cons]
    have h := ih (if g c < best.2 then (c, g c) else best)
    rcases List.mem_cons.mp h with h1 | h1
    · rw [h1]
      split
      · simp
      · simp
    · exact List.mem_cons_of_mem _ (List.mem_cons_of_mem _ h1)

theorem nearestChild_mem (m_nodes : List (Node K)) (D : Int) (pf : List K) (first : Nat)
    (rest : List Nat) : nearestChild m_nodes D pf first rest ∈ first :: rest :=
  foldl_best_fst (fun id => DescriptorSqDistance D pf (m_nodes.getD id (Node.create 0)).Descriptor)
    rest _

theorem descend_some (m_nodes : List (Node K)) (D : Int) (pf : List K)
    (hchild : ∀ (i : Nat) (node : Node K), m_nodes[i]? = some node →
      ∀ c ∈ node.Children, i < c ∧ c < m_nodes.length) :
    ∀ (fuel id : Nat) (node : Node K), m_nodes[id]? = some node → node.Children ≠ [] →
      m_nodes.length ≤ id + fuel →
      ∃ (n : Nat) (leaf : Node K), m_nodes[n]? = some leaf ∧ leaf.isLeaf = true ∧
        descend m_nodes D pf fuel id = some leaf.WId := by
  intro fuel
  induction fuel with
  | zero =>
    intro id node hnode _ hlen
    have := (List.getElem?_eq_some_iff.mp hnode).1
    omega
  | succ fuel ih =>
    intro id node hnode hne hlen
    cases hch : node.Children with
    | nil => exact absurd hch hne
    | cons first rest =>
      have hmem : nearestChild m_nodes D pf first rest ∈ node.Children := by
        rw [hch]; exact nearestChild_mem m_nodes D pf first rest
      obtain ⟨hlt, hin⟩ := hchild id node hnode _ hmem
      obtain ⟨next, hnext⟩ : ∃ next, m_nodes[nearestChild m_nodes D pf first rest]? = some next :=
        ⟨m_nodes[nearestChild m_nodes D pf first rest], List.getElem?_eq_getElem hin⟩
      simp only [descend, hnode, hch, hnext]
      by_cases hleaf : next.isLeaf = true
      · rw [if_pos hleaf]
        exact ⟨_, next, hnext, hleaf, rfl⟩
      · rw [if_neg hleaf]
        apply ih _ next hnext
        · intro h
          apply hleaf
          simp [Node.isLeaf, h]
        · omega

theorem transformFeature_some (voc : HVocabulary K) (hc : voc.m_created = true)
    (htree : TreeOk voc.m_nodes) (pf : List K) :
    ∃ (n : Nat) (leaf : Node K), voc.m_nodes[n]? = some leaf ∧ leaf.isLeaf = true ∧
      voc.TransformFeature pf = some leaf.WId := by
  obtain ⟨⟨root, hroot, hne⟩, hchild⟩ := htree
  have h := descend_some voc.m_nodes voc.m_params.DescriptorLength pf hchild voc.m_nodes.length 0
    root hroot hne (by omega)
  simpa [HVocabulary.TransformFeature, HVocabulary.isEmpty, hc] using h

theorem transformFeature_not_created (voc : HVocabulary K) (hc : voc.m_created = false)
    (pf : List K) : voc.TransformFeature pf = some 0 := by
  simp [HVocabulary.TransformFeature, HVocabulary.isEmpty, hc]

theorem wordIds_cons_some (f : List K → Option Nat) (s : List K) (rest : List (List K))
    (ids : List Nat) (h : wordIds f (s :: rest) = some ids) :
    ∃ id r, f s = some id ∧ wordIds f rest = some r ∧ ids = id :: r := by
  cases hf : f s with
  | none => simp [wordIds, hf] at h
  | some id =>
    cases hr : wordIds f rest with
    | none => simp [wordIds, hf, hr] at h
    | some r =>
      simp only [wordIds, hf, hr, Option.some.injEq] at h
      exact ⟨id, r, rfl, rfl, h.symm⟩

theorem wordIds_some (f : List K → Option Nat) (l : List (List K))
    (h : ∀ s ∈ l, ∃ w, f s = some w) : ∃ ids, wordIds f l = some ids := by
  induction l with
  | nil => exact ⟨[], rfl⟩
  | cons s rest ih =>
    obtain ⟨w, hw⟩ := h s (List.mem_cons_self _ _)
    obtain ⟨ids, hids⟩ := ih (fun s hs => h s (List.mem_cons_of_mem _ hs))
    exact ⟨w :: ids, by simp [wordIds, hw, hids]⟩

theorem count_wordIds (f : List K → Option Nat) (l : List (List K)) (ids : List Nat)
    (h : wordIds f l = some ids) (i : Nat) :
    ids.count i = l.countP (fun s => decide (f s = some i)) := by
  induction l generalizing ids with
  | nil =>
    simp only [wordIds, Option.some.injEq] at h
    subst h
    rfl
  | cons s rest ih =>
    obtain ⟨id, r, hf, hr, rfl⟩ := wordIds_cons_some f s rest ids h
    rw [List.count_cons, List.countP_cons, ih r hr, hf]
    simp

theorem length_wordIds (f : List K → Option Nat) (l : List (List K)) (ids : List Nat)
    (h : wordIds f l = some ids) : ids.length = l.length := by
  induction l generalizing ids with
  | nil =>
    simp only [wordIds, Option.some.injEq] at h
    subst h
    rfl
  | cons s rest ih =>
    obtain ⟨id, r, hf, hr, rfl⟩ := wordIds_cons_some f s rest ids h
    simp [ih r hr]

theorem mem_wordIds (f : List K → Option Nat) (l : List (List K)) (ids : List Nat)
    (h : wordIds f l = some ids) (i : Nat) (hi : i ∈ ids) : ∃ s ∈ l, f s = some i := by
  induction l generalizing ids with
  | nil =>
    simp only [wordIds, Option.some.injEq] at h
    subst h
    simp at hi
  | cons s rest ih =>
    obtain ⟨id, r, hf, hr, rfl⟩ := wordIds_cons_some f s rest ids h
    rcases List.mem_cons.mp hi with rfl | hi
    · exact ⟨s, List.mem_cons_self _ _, hf⟩
    · obtain ⟨t, ht, hft⟩ := ih r hr hi
      exact ⟨t, List.mem_cons_of_mem _ ht, hft⟩

end Descent

section TransformLoop
variable {K : Type} [LinearOrderedField K]

theorem map_id_bumpFirst (v : BowVector K) (id : Nat) (w : K) :
    (bumpFirst v id w).map (fun e => e.id) = v.map (fun e => e.id) := by
  induction v with
  | nil => rfl
  | cons e rest ih =>
    unfold bumpFirst
    split
    · rfl
    · simp only [List.map_cons, ih]

theorem mem_bumpFirst (v : BowVector K) (id : Nat) (w : K)
    (hnd : (v.map (fun e => e.id)).Nodup) (x : BowVectorEntry K) (hx : x ∈ bumpFirst v id w) :
    (x.id ≠ id ∧ x ∈ v) ∨ (x.id = id ∧ ∃ e ∈ v, e.id = id ∧ x.value = e.value + w) := by
  induction v with
  | nil => simp [bumpFirst] at hx
  | cons e rest ih =>
    rw [List.map_cons, List.nodup_cons] at hnd
    unfold bumpFirst at hx
    by_cases he : e.id = id
    · rw [if_pos he] at hx
      rcases List.mem_cons.mp hx with rfl | hx
      · exact Or.inr ⟨he, e, List.mem_cons_self _ _, he, rfl⟩
      · left
        refine ⟨?_, List.mem_cons_of_mem _ hx⟩
        intro hxid
        apply hnd.1
        rw [he, ← hxid]
        exact List.mem_map_of_mem _ hx
    · rw [if_neg he] at hx
      rcases List.mem_cons.mp hx with rfl | hx
      · exact Or.inl ⟨he, List.mem_cons_self _ _⟩
      · rcases ih hnd.2 hx with ⟨h1, h2⟩ | ⟨h1, e2, h2, h3, h4⟩
        · exact Or.inl ⟨h1, List.mem_cons_of_mem _ h2⟩
        · exact Or.inr ⟨h1, e2, List.mem_cons_of_mem _ h2, h3, h4⟩

theorem any_id_iff (v : BowVector K) (id : Nat) :
    v.any (fun e => decide (e.id = id)) = true ↔ id ∈ v.map (fun e => e.id) := by
  simp only [List.any_eq_true, decide_eq_true_eq, List.mem_map]

theorem count_append_singleton_ne (l : List Nat) {a id : Nat} (h : a ≠ id) :
    (l ++ [id]).count a = l.count a := by
  rw [List.count_append, List.count_cons_of_ne h, List.count_nil, Nat.add_zero]

theorem count_append_singleton_self (l : List Nat) (id : Nat) :
    (l ++ [id]).count id = l.count id + 1 := by
  rw [List.count_append, List.count_cons_self, List.count_nil]

theorem weightedInv_step (voc : HVocabulary K) (st : BowVector K × List Nat × Nat)
    (l : List Nat) (id : Nat) (h : WeightedInv voc st l) :
    WeightedInv voc (voc.weightedStep st id) (l ++ [id]) := by
  obtain ⟨hnd, hsnd, hmem, hsmem, hcount, hval⟩ := h
  have hkeep : ∀ e ∈ st.1, e.id ≠ id → e.value =
      (if voc.base_m_params.Weighting = .IDF then 1 else ((l ++ [id]).count e.id : K)) *
        voc.GetWordWeight e.id := by
    intro e he hne
    rw [count_append_singleton_ne l hne]
    exact hval e he
  unfold HVocabulary.weightedStep
  by_cases hs : voc.isWordStopped id = true
  · have hne : ∀ e ∈ st.1, e.id ≠ id := by
      intro e he heq
      have := ((hmem e.id).mp (List.mem_map_of_mem _ he)).2
      rw [heq, hs] at this
      exact absurd this (by decide)
    rw [if_pos hs]
    by_cases hin : id ∈ st.2.1
    · rw [if_pos hin]
      refine ⟨hnd, hsnd, ?_, ?_, hcount, fun e he => hkeep e he (hne e he)⟩
      · intro i
        rw [hmem i, List.mem_append, List.mem_singleton]
        constructor
        · rintro ⟨h1, h2⟩; exact ⟨Or.inl h1, h2⟩
        · rintro ⟨h1 | h1, h2⟩
          · exact ⟨h1, h2⟩
          · rw [h1, hs] at h2; exact absurd h2 (by decide)
      · intro i
        rw [hsmem i, List.mem_append, List.mem_singleton]
        constructor
        · rintro ⟨h1, h2⟩; exact ⟨Or.inl h1, h2⟩
        · rintro ⟨h1 | h1, h2⟩
          · exact ⟨h1, h2⟩
          · rw [h1]; exact (hsmem id).mp hin
    · rw [if_neg hin]
      refine ⟨hnd, ?_, ?_, ?_, ?_, fun e he => hkeep e he (hne e he)⟩
      · exact List.Nodup.append hsnd (List.nodup_singleton _)
          (fun a ha hid => hin ((List.mem_singleton.mp hid) ▸ ha))
      · intro i
        show i ∈ st.1.map (fun e => e.id) ↔ _
        rw [hmem i, List.mem_append, List.mem_singleton]
        constructor
        · rintro ⟨h1, h2⟩; exact ⟨Or.inl h1, h2⟩
        · rintro ⟨h1 | h1, h2⟩
          · exact ⟨h1, h2⟩
          · rw [h1, hs] at h2; exact absurd h2 (by decide)
      · intro i
        show i ∈ st.2.1 ++ [id] ↔ _
        rw [List.mem_append, List.mem_singleton, hsmem i, List.mem_append, List.mem_singleton]
        constructor
        · rintro (⟨h1, h2⟩ | h1)
          · exact ⟨Or.inl h1, h2⟩
          · rw [h1]; exact ⟨Or.inr rfl, hs⟩
        · rintro ⟨h1 | h1, h2⟩
          · exact Or.inl ⟨h1, h2⟩
          · exact Or.inr h1
      · show st.2.2 + 1 = st.1.length + (st.2.1 ++ [id]).length
        rw [List.length_append, List.length_singleton, hcount]
        omega
  · have hs2 : voc.isWordStopped id = false := by
      cases hb : voc.isWordStopped id with
      | false => rfl
      | true => exact absurd hb hs
    have hstop : ∀ i, i ∈ st.2.1 ↔ (i ∈ l ++ [id] ∧ voc.isWordStopped i = true) := by
      intro i
      rw [hsmem i, List.mem_append, List.mem_singleton]
      constructor
      · rintro ⟨h1, h2⟩; exact ⟨Or.inl h1, h2⟩
      · rintro ⟨h1 | h1, h2⟩
        · exact ⟨h1, h2⟩
        · rw [h1, hs2] at h2; exact absurd h2 (by decide)
    rw [if_neg hs]
    by_cases hfound : st.1.any (fun e => decide (e.id = id)) = true
    · rw [if_pos hfound]
      have hidin := (any_id_iff st.1 id).mp hfound
      have hidl : id ∈ l := ((hmem id).mp hidin).1
      have hmem2 : ∀ i, i ∈ st.1.map (fun e => e.id) ↔
          (i ∈ l ++ [id] ∧ voc.isWordStopped i = false) := by
        intro i
        rw [hmem i, List.mem_append, List.mem_singleton]
        constructor
        · rintro ⟨h1, h2⟩; exact ⟨Or.inl h1, h2⟩
        · rintro ⟨h1 | h1, h2⟩
          · exact ⟨h1, h2⟩
          · rw [h1]; exact ⟨hidl, hs2⟩
      by_cases hw : voc.base_m_params.Weighting = .IDF
      · rw [if_neg (not_not.mpr hw)]
        refine ⟨hnd, hsnd, hmem2, hstop, hcount, ?_⟩
        intro e he
        rw [hval e he, if_pos hw, if_pos hw]
      · rw [if_pos hw]
        refine ⟨?_, hsnd, ?_, hstop, ?_, ?_⟩
        · show ((bumpFirst st.1 id (voc.GetWordWeight id)).map (fun e => e.id)).Nodup
          rw [map_id_bumpFirst]; exact hnd
        · intro i
          show i ∈ (bumpFirst st.1 id (voc.GetWordWeight id)).map (fun e => e.id) ↔ _
          rw [map_id_bumpFirst]; exact hmem2 i
        · show st.2.2 = (bumpFirst st.1 id (voc.GetWordWeight id)).length + st.2.1.length
          have := congrArg List.length (map_id_bumpFirst st.1 id (voc.GetWordWeight id))
          rw [List.length_map, List.length_map] at this
          rw [this]; exact hcount
        · intro x hx
          have hx2 : x ∈ bumpFirst st.1 id (voc.GetWordWeight id) := hx
          rcases mem_bumpFirst st.1 id _ hnd x hx2 with ⟨h1, h2⟩ | ⟨h1, e, h2, h3, h4⟩
          · exact hkeep x h2 h1
          · rw [if_neg hw, h4, hval e h2, if_neg hw, h1, h3, count_append_singleton_self]
            push_cast
            ring
    · rw [if_neg hfound]
      have hnotin : id ∉ st.1.map (fun e => e.id) := fun h => hfound ((any_id_iff st.1 id).mpr h)
      have hnl : id ∉ l := fun h => hnotin ((hmem id).mpr ⟨h, hs2⟩)
      refine ⟨?_, hsnd, ?_, hstop, ?_, ?_⟩
      · show ((st.1 ++ [BowVectorEntry.mk id (voc.GetWordWeight id)]).map (fun e => e.id)).Nodup
        rw [List.map_append]
        exact List.Nodup.append hnd (List.nodup_singleton _)
          (fun a ha hid => hnotin (by rw [List.map_cons, List.map_nil, List.mem_singleton] at hid; have hid2 : a = id := hid; rw [← hid2]; exact ha))
      · intro i
        show i ∈ (st.1 ++ [BowVectorEntry.mk id (voc.GetWordWeight id)]).map (fun e => e.id) ↔ _
        rw [List.map_append, List.mem_append, hmem i, List.mem_append]
        simp only [List.map_cons, List.map_nil, List.mem_singleton]
        constructor
        · rintro (⟨h1, h2⟩ | h1)
          · exact ⟨Or.inl h1, h2⟩
          · rw [h1]; exact ⟨Or.inr rfl, hs2⟩
        · rintro ⟨h1 | h1, h2⟩
          · exact Or.inl ⟨h1, h2⟩
          · exact Or.inr h1
      · show st.2.2 + 1 = (st.1 ++ [BowVectorEntry.mk id (voc.GetWordWeight id)]).length
          + st.2.1.length
        rw [List.length_append, List.length_singleton, hcount]
        omega
      · intro x hx
        have hx2 : x ∈ st.1 ++ [BowVectorEntry.mk id (voc.GetWordWeight id)] := hx
        rcases List.mem_append.mp hx2 with h | h
        · apply hkeep x h
          intro heq
          apply hnotin
          rw [← heq]
          exact List.mem_map_of_mem _ h
        · rw [List.mem_singleton] at h
          subst h
          show voc.GetWordWeight id = _
          rw [count_append_singleton_self, List.count_eq_zero_of_not_mem hnl]
          split <;> simp

theorem weightedInv_foldl (voc : HVocabulary K) (ids : List Nat) :
    ∀ (st : BowVector K × List Nat × Nat) (l : List Nat), WeightedInv voc st l →
      WeightedInv voc (ids.foldl voc.weightedStep st) (l ++ ids) := by
  induction ids with
  | nil => intro st l h; simpa using h
  | cons id rest ih =>
    intro st l h
    have := ih _ _ (weightedInv_step voc st l id h)
    simpa using this

theorem weightedInv_loop (voc : HVocabulary K) (ids : List Nat) :
    WeightedInv voc (ids.foldl voc.weightedStep ([], [], 0)) ids := by
  have h0 : WeightedInv voc (([], [], 0) : BowVector K × List Nat × Nat) [] := by
    refine ⟨List.nodup_nil, List.nodup_nil, ?_, ?_, rfl, ?_⟩ <;> simp
  simpa using weightedInv_foldl voc ids _ _ h0

theorem binaryInv_step (voc : HVocabulary K) (v : BowVector K) (l : List Nat) (id : Nat)
    (h : BinaryInv voc v l) : BinaryInv voc (voc.binaryStep v id) (l ++ [id]) := by
  obtain ⟨hnd, hmem, hval⟩ := h
  unfold HVocabulary.binaryStep
  cases hs : voc.isWordStopped id with
  | true =>
    simp only [Bool.not_true, Bool.false_eq_true, if_false]
    refine ⟨hnd, ?_, hval⟩
    intro i
    rw [hmem i, List.mem_append, List.mem_singleton]
    constructor
    · rintro ⟨h1, h2⟩; exact ⟨Or.inl h1, h2⟩
    · rintro ⟨h1 | h1, h2⟩
      · exact ⟨h1, h2⟩
      · rw [h1, hs] at h2; exact absurd h2 (by decide)
  | false =>
    simp only [Bool.not_false, if_true]
    by_cases hfound : v.any (fun e => decide (e.id = id)) = true
    · rw [if_pos hfound]
      have hidl : id ∈ l := ((hmem id).mp ((any_id_iff v id).mp hfound)).1
      refine ⟨hnd, ?_, hval⟩
      intro i
      rw [hmem i, List.mem_append, List.mem_singleton]
      constructor
      · rintro ⟨h1, h2⟩; exact ⟨Or.inl h1, h2⟩
      · rintro ⟨h1 | h1, h2⟩
        · exact ⟨h1, h2⟩
        · rw [h1]; exact ⟨hidl, hs⟩
    · rw [if_neg hfound]
      have hnotin : id ∉ v.map (fun e => e.id) := fun h => hfound ((any_id_iff v id).mpr h)
      refine ⟨?_, ?_, ?_⟩
      · rw [List.map_append]
        exact List.Nodup.append hnd (List.nodup_singleton _)
          (fun a ha hid => hnotin (by rw [List.map_cons, List.map_nil, List.mem_singleton] at hid; have hid2 : a = id := hid; rw [← hid2]; exact ha))
      · intro i
        rw [List.map_append, List.mem_append, hmem i, List.mem_append]
        simp only [List.map_cons, List.map_nil, List.mem_singleton]
        constructor
        · rintro (⟨h1, h2⟩ | h1)
          · exact ⟨Or.inl h1, h2⟩
          · rw [h1]; exact ⟨Or.inr rfl, hs⟩
        · rintro ⟨h1 | h1, h2⟩
          · exact Or.inl ⟨h1, h2⟩
          · exact Or.inr h1
      · intro x hx
        rcases List.mem_append.mp hx with h | h
        · exact hval x h
        · rw [List.mem_singleton] at h
          subst h
          rfl

theorem binaryInv_foldl (voc : HVocabulary K) (ids : List Nat) :
    ∀ (v : BowVector K) (l : List Nat), BinaryInv voc v l →
      BinaryInv voc (ids.foldl voc.binaryStep v) (l ++ ids) := by
  induction ids with
  | nil => intro v l h; simpa using h
  | cons id rest ih =>
    intro v l h
    have := ih _ _ (binaryInv_step voc v l id h)
    simpa using this

theorem binaryInv_loop (voc : HVocabulary K) (ids : List Nat) :
    BinaryInv voc (ids.foldl voc.binaryStep []) ids := by
  have h0 : BinaryInv voc ([] : BowVector K) [] := by
    refine ⟨List.nodup_nil, ?_, ?_⟩ <;> simp
  simpa using binaryInv_foldl voc ids _ _ h0

end TransformLoop

section TransformClaims
variable {K : Type} [LinearOrderedField K]

theorem strictWeak_entryLt : StrictWeak (BowVectorEntry.lt : BowVectorEntry K → _ → Bool) := by
  refine ⟨?_, ?_, ?_⟩
  · intro a; simp [BowVectorEntry.lt]
  · intro a b c h1 h2
    simp only [BowVectorEntry.lt, decide_eq_true_eq] at *
    omega
  · intro a b c h1 h2
    simp only [BowVectorEntry.lt, decide_eq_false_iff_not] at *
    omega

theorem putInOrder_perm (A : StdAlgorithm) (hA : SortContract A) (v : BowVector K) :
    (PutInOrder A v).Perm v :=
  (hA _ BowVectorEntry.lt v strictWeak_entryLt).1

theorem putInOrder_inOrder (A : StdAlgorithm) (hA : SortContract A) (v : BowVector K)
    (hnd : (v.map (fun e => e.id)).Nodup) : InOrder (PutInOrder A v) := by
  obtain ⟨hperm, hsorted⟩ := hA _ BowVectorEntry.lt v strictWeak_entryLt
  have hnd2 : ((PutInOrder A v).map (fun e => e.id)).Nodup :=
    (hperm.map _).nodup_iff.mpr hnd
  have hpw : (PutInOrder A v).Pairwise (fun a b => a.id ≠ b.id) := by
    rw [List.Nodup, List.pairwise_map] at hnd2
    exact hnd2
  unfold InOrder
  refine (List.Pairwise.and hsorted hpw).imp ?_
  intro a b ⟨h1, h2⟩
  simp only [BowVectorEntry.lt, decide_eq_false_iff_not] at h1
  omega

theorem transformIds_spec (voc : HVocabulary K) (ids : List Nat) :
    ((voc.TransformIds ids).map (fun e => e.id)).Nodup ∧
    (∀ i, i ∈ (voc.TransformIds ids).map (fun e => e.id) ↔
      (i ∈ ids ∧ voc.isWordStopped i = false)) := by
  unfold HVocabulary.TransformIds
  obtain ⟨b1, b2, _⟩ := binaryInv_loop voc ids
  obtain ⟨w1, _, w2, _⟩ := weightedInv_loop voc ids
  have hmap : ∀ (n : K) (v : BowVector K),
      (v.map (fun e => ({ e with value := e.value / n } : BowVectorEntry K))).map
        (fun e => e.id) = v.map (fun e => e.id) := by
    intro n v
    rw [List.map_map]
    rfl
  cases hW : voc.base_m_params.Weighting <;> simp only [] <;>
    first
    | exact ⟨b1, b2⟩
    | (split
       · rw [hmap]; exact ⟨w1, w2⟩
       · exact ⟨w1, w2⟩)

theorem transform_of_wordIds (A : StdAlgorithm) (voc : HVocabulary K) (features : List K)
    (arrange : Bool) (ids : List Nat) (hD : 0 < voc.base_m_params.DescriptorLength)
    (hlen : features.length % voc.base_m_params.DescriptorLength.toNat = 0)
    (hids : wordIds voc.TransformFeature
      (featureSlots features voc.base_m_params.DescriptorLength.toNat) = some ids) :
    voc.Transform A features arrange =
      some (if arrange then PutInOrder A (voc.TransformIds ids) else voc.TransformIds ids) := by
  unfold HVocabulary.Transform
  rw [if_pos ⟨hD, hlen⟩, hids]

theorem transform_some (A : StdAlgorithm) (voc : HVocabulary K)
    (hdef : voc.m_created = true → TreeOk voc.m_nodes) (features : List K) (arrange : Bool)
    (hD : 0 < voc.base_m_params.DescriptorLength)
    (hlen : features.length % voc.base_m_params.DescriptorLength.toNat = 0) :
    ∃ ids, wordIds voc.TransformFeature
        (featureSlots features voc.base_m_params.DescriptorLength.toNat) = some ids ∧
      voc.Transform A features arrange =
        some (if arrange then PutInOrder A (voc.TransformIds ids) else voc.TransformIds ids) := by
  have hall : ∀ s ∈ featureSlots features voc.base_m_params.DescriptorLength.toNat,
      ∃ w, voc.TransformFeature s = some w := by
    intro s _
    cases hc : voc.m_created with
    | false => exact ⟨0, transformFeature_not_created voc hc s⟩
    | true =>
      obtain ⟨_, leaf, _, _, h⟩ := transformFeature_some voc hc (hdef hc) s
      exact ⟨_, h⟩
  obtain ⟨ids, hids⟩ := wordIds_some _ _ hall
  exact ⟨ids, hids, transform_of_wordIds A voc features arrange ids hD hlen hids⟩

theorem putInOrder_nil (A : StdAlgorithm) (hA : SortContract A) :
    PutInOrder A ([] : BowVector K) = [] :=
  (putInOrder_perm A hA []).eq_nil

theorem example_stopWords_one_zero (weighting : WeightingType) (w0 w1 : K) :
    (exampleHVocabulary weighting w0 w1).StopWords 1 0 =
      { exampleHVocabulary weighting w0 w1 with
        m_stop_list := [0], m_word_stopped := [true, false],
        m_frequent_words_stopped := 1, m_infrequent_words_stopped := 0 } := by
  rfl

theorem example_sqDistance (a c : K) :
    DescriptorSqDistance 1 [a] [c] = (a - c) * (a - c) := by
  simp [DescriptorSqDistance, sqDiff, List.range_succ]

theorem descend_succ (m_nodes : List (Node K)) (D : Int) (pf : List K) (fuel id : Nat)
    (parent : Node K) (first : Nat) (rest : List Nat) (node : Node K)
    (hp : m_nodes[id]? = some parent) (hc : parent.Children = first :: rest)
    (hn : m_nodes[nearestChild m_nodes D pf first rest]? = some node) :
    descend m_nodes D pf (fuel + 1) id =
      if node.isLeaf then some node.WId
      else descend m_nodes D pf fuel (nearestChild m_nodes D pf first rest) := by
  simp only [descend, hp, hc, hn]

theorem example_descend_one (w0 w1 : K) (tail : List K) :
    descend (exampleNodes w0 w1) 1 ((1 : K) :: tail) 3 0 = some 0 := by
  have h1 : DescriptorSqDistance 1 ((1 : K) :: tail) [1] = 0 := by
    simp [DescriptorSqDistance, sqDiff, List.range_succ]
  have h5 : DescriptorSqDistance 1 ((1 : K) :: tail) [5] = 16 := by
    simp [DescriptorSqDistance, sqDiff, List.range_succ]
    norm_num
  have hn : nearestChild (exampleNodes w0 w1) 1 ((1 : K) :: tail) 1 [2] = 1 := by
    simp [nearestChild, exampleNodes, h1, h5]
    norm_num
  rw [descend_succ (exampleNodes w0 w1) 1 _ 2 0 _ 1 [2]
    { Id := 1, Children := [], Weight := w0, Descriptor := [1], WId := 0 } rfl rfl
    (by rw [hn]; rfl)]
  rfl

theorem example_descend_five (w0 w1 : K) (tail : List K) :
    descend (exampleNodes w0 w1) 1 ((5 : K) :: tail) 3 0 = some 1 := by
  have h1 : DescriptorSqDistance 1 ((5 : K) :: tail) [1] = 16 := by
    simp [DescriptorSqDistance, sqDiff, List.range_succ]
    norm_num
  have h5 : DescriptorSqDistance 1 ((5 : K) :: tail) [5] = 0 := by
    simp [DescriptorSqDistance, sqDiff, List.range_succ]
  have hn : nearestChild (exampleNodes w0 w1) 1 ((5 : K) :: tail) 1 [2] = 2 := by
    simp [nearestChild, exampleNodes, h1, h5]
  rw [descend_succ (exampleNodes w0 w1) 1 _ 2 0 _ 1 [2]
    { Id := 2, Children := [], Weight := w1, Descriptor := [5], WId := 1 } rfl rfl
    (by rw [hn]; rfl)]
  rfl
theorem featureSlots_one (features : List K) :
    featureSlots features 1 = (List.range features.length).map (fun i : Nat => features.drop i) := by
  simp [featureSlots]

theorem example_transform_stopped (A : StdAlgorithm) (hA : SortContract A)
    (weighting : WeightingType) (w0 w1 : K) (arrange : Bool) :
    ((exampleHVocabulary weighting w0 w1).StopWords 1 0).Transform A [1] arrange = some [] := by
  have hD1 : ((exampleHVocabulary weighting w0 w1).StopWords 1
      0).base_m_params.DescriptorLength.toNat = 1 := rfl
  have hids : wordIds ((exampleHVocabulary weighting w0 w1).StopWords 1 0).TransformFeature
      (featureSlots [(1 : K)]
        ((exampleHVocabulary weighting w0 w1).StopWords 1 0).base_m_params.DescriptorLength.toNat)
      = some [0] := by
    have h : ((exampleHVocabulary weighting w0 w1).StopWords 1 0).TransformFeature [1] = some 0 :=
      example_descend_one w0 w1 []
    rw [hD1, featureSlots_one]
    simp [wordIds, h]
  have hD : 0 < ((exampleHVocabulary weighting w0 w1).StopWords 1 0).base_m_params.DescriptorLength :=
    show (0 : Int) < 1 by decide
  have hlen : [(1 : K)].length %
      ((exampleHVocabulary weighting w0 w1).StopWords 1 0).base_m_params.DescriptorLength.toNat
        = 0 := by
    rw [hD1]
    exact Nat.mod_one _
  rw [transform_of_wordIds A _ [1] arrange [0] hD hlen hids]
  have hv : ((exampleHVocabulary weighting w0 w1).StopWords 1 0).TransformIds [0] = [] := by
    rw [example_stopWords_one_zero]
    cases weighting <;>
      simp [HVocabulary.TransformIds, HVocabulary.weightedStep, HVocabulary.binaryStep,
        HVocabulary.isWordStopped, exampleHVocabulary]
  rw [hv, putInOrder_nil A hA]
  simp

/-- C13: in a vocabulary whose tree, once created, is well formed, for every stop
configuration, weighting and feature array whose length is a multiple of the
descriptor length, `Transform` returns a vector none of whose entries has a
stopped word id; and in the vocabulary over the training descriptors `1`,
`1`, `5` (`D = 1`, `k = 2`, `L = 1`), after `StopWords(1, 0)`, `Transform` of
the single descriptor `1` is the empty vector. -/
theorem transform_excludes_stopped_words (A : StdAlgorithm) (hA : SortContract A)
    (voc : HVocabulary K) (htree : voc.m_created = true → TreeOk voc.m_nodes)
    (features : List K) (arrange : Bool) (hD : 0 < voc.base_m_params.DescriptorLength)
    (hlen : features.length % voc.base_m_params.DescriptorLength.toNat = 0) :
    (∃ v, voc.Transform A features arrange = some v ∧
      ∀ e ∈ v, voc.isWordStopped e.id = false) ∧
    (∀ (weighting : WeightingType) (w0 w1 : K),
      ((exampleHVocabulary weighting w0 w1).StopWords 1 0).Transform A [1] arrange = some []) := by
  constructor
  · obtain ⟨ids, _, hT⟩ := transform_some A voc htree features arrange hD hlen
    refine ⟨_, hT, ?_⟩
    intro e he
    have he2 : e ∈ voc.TransformIds ids := by
      cases arrange with
      | false => exact he
      | true => exact (putInOrder_perm A hA _).mem_iff.mp he
    exact (((transformIds_spec voc ids).2 e.id).mp (List.mem_map_of_mem _ he2)).2
  · intro weighting w0 w1
    exact example_transform_stopped A hA weighting w0 w1 arrange


theorem exampleNodes_treeOk (w0 w1 : K) : TreeOk (exampleNodes w0 w1) := by
  refine ⟨⟨{ Id := 0, Children := [1, 2], Weight := 0, Descriptor := [], WId := NO_WORD },
    rfl, by simp⟩, ?_⟩
  intro i node h c hc
  match i with
  | 0 =>
    simp only [exampleNodes, List.getElem?_cons_zero, Option.some.injEq] at h
    subst h
    simp only [List.mem_cons, List.mem_singleton, List.not_mem_nil, or_false] at hc
    simp only [exampleNodes, List.length_cons, List.length_nil]
    omega
  | 1 =>
    simp only [exampleNodes, List.getElem?_cons_succ, List.getElem?_cons_zero,
      Option.some.injEq] at h
    subst h
    simp at hc
  | 2 =>
    simp only [exampleNodes, List.getElem?_cons_succ, List.getElem?_cons_zero,
      Option.some.injEq] at h
    subst h
    simp at hc
  | (n + 3) =>
    simp [exampleNodes] at h

theorem transform_excludes_stopped_words_witness :
    ∃ v, ((exampleHVocabulary WeightingType.TF_IDF (0 : ℚ) 0).StopWords 1 0).Transform
        mergeSortAlgorithm [1, 5] true = some v ∧
      ∀ e ∈ v, ((exampleHVocabulary WeightingType.TF_IDF (0 : ℚ) 0).StopWords 1
        0).isWordStopped e.id = false :=
  (transform_excludes_stopped_words mergeSortAlgorithm mergeSortAlgorithm_contract
    ((exampleHVocabulary WeightingType.TF_IDF (0 : ℚ) 0).StopWords 1 0)
    (fun _ => exampleNodes_treeOk 0 0) [1, 5] true (show (0 : Int) < 1 by decide)
    (Nat.mod_one _)).1

/-- C16: for every vocabulary whose tree, once created, is well formed, every
weighting and every feature array whose length is a multiple of the descriptor
length, `Transform` with `arrange = true` returns a vector whose word ids are
strictly ascending, and with `arrange = false` a vector in which no word id
occurs twice. -/
theorem transform_word_ids_ascending (A : StdAlgorithm) (hA : SortContract A)
    (voc : HVocabulary K) (htree : voc.m_created = true → TreeOk voc.m_nodes)
    (features : List K) (hD : 0 < voc.base_m_params.DescriptorLength)
    (hlen : features.length % voc.base_m_params.DescriptorLength.toNat = 0) :
    (∃ v, voc.Transform A features true = some v ∧ InOrder v) ∧
    (∃ v, voc.Transform A features false = some v ∧ (v.map (fun e => e.id)).Nodup) := by
  constructor
  · obtain ⟨ids, _, hT⟩ := transform_some A voc htree features true hD hlen
    exact ⟨_, hT, putInOrder_inOrder A hA _ (transformIds_spec voc ids).1⟩
  · obtain ⟨ids, _, hT⟩ := transform_some A voc htree features false hD hlen
    exact ⟨_, hT, (transformIds_spec voc ids).1⟩

theorem transform_word_ids_ascending_witness :
    (∃ v, (exampleHVocabulary WeightingType.TF_IDF (0 : ℚ) 0).Transform
        mergeSortAlgorithm [5, 1, 5] true = some v ∧ InOrder v) ∧
    (∃ v, (exampleHVocabulary WeightingType.TF_IDF (0 : ℚ) 0).Transform
        mergeSortAlgorithm [5, 1, 5] false = some v ∧ (v.map (fun e => e.id)).Nodup) :=
  transform_word_ids_ascending mergeSortAlgorithm mergeSortAlgorithm_contract
    (exampleHVocabulary WeightingType.TF_IDF (0 : ℚ) 0)
    (fun _ => exampleNodes_treeOk 0 0) [5, 1, 5] (show (0 : Int) < 1 by decide)
    (Nat.mod_one _)

end TransformClaims

section TransformValues
variable {K : Type} [LinearOrderedField K]

theorem wordIds_eq_filterMap (f : List K → Option Nat) (l : List (List K)) (ids : List Nat)
    (h : wordIds f l = some ids) : l.filterMap f = ids := by
  induction l generalizing ids with
  | nil =>
    simp only [wordIds, Option.some.injEq] at h
    subst h
    rfl
  | cons s rest ih =>
    obtain ⟨id, r, hf, hr, rfl⟩ := wordIds_cons_some f s rest ids h
    rw [List.filterMap_cons, hf, ih r hr]

theorem weightedInv_nd (voc : HVocabulary K) (st : BowVector K × List Nat × Nat) (l : List Nat)
    (h : WeightedInv voc st l) : st.2.2 = l.dedup.length := by
  obtain ⟨hnd, hsnd, hmem, hsmem, hcount, _⟩ := h
  have hnd2 : (st.1.map (fun e => e.id) ++ st.2.1).Nodup := by
    refine List.Nodup.append hnd hsnd ?_
    intro a h1 h2
    have := ((hmem a).mp h1).2
    rw [((hsmem a).mp h2).2] at this
    exact absurd this (by decide)
  have hperm : (st.1.map (fun e => e.id) ++ st.2.1).Perm l.dedup := by
    rw [List.perm_ext_iff_of_nodup hnd2 (List.nodup_dedup l)]
    intro a
    rw [List.mem_append, hmem a, hsmem a, List.mem_dedup]
    constructor
    · rintro (h | h) <;> exact h.1
    · intro h
      cases hb : voc.isWordStopped a with
      | false => exact Or.inl ⟨h, rfl⟩
      | true => exact Or.inr ⟨h, rfl⟩
  rw [hcount, ← hperm.length_eq, List.length_append, List.length_map]

theorem transformIds_value (voc : HVocabulary K) (ids : List Nat)
    (hW : voc.base_m_params.Weighting = .TF ∨ voc.base_m_params.Weighting = .TF_IDF)
    (e : BowVectorEntry K) (he : e ∈ voc.TransformIds ids) :
    e.value = (ids.count e.id : K) * voc.GetWordWeight e.id / (ids.dedup.length : K) := by
  have hinv := weightedInv_loop voc ids
  have hnd := weightedInv_nd voc _ ids hinv
  obtain ⟨_, _, _, _, hcount, hval⟩ := hinv
  have hIDF : voc.base_m_params.Weighting ≠ .IDF := by
    rcases hW with h | h <;> rw [h] <;> decide
  have hT : voc.TransformIds ids =
      if (ids.foldl voc.weightedStep ([], [], 0)).2.2 > 0 ∧ voc.base_m_params.Weighting ≠ .IDF
      then (ids.foldl voc.weightedStep ([], [], 0)).1.map
        (fun e => { e with value := e.value / ((ids.foldl voc.weightedStep ([], [], 0)).2.2 : K) })
      else (ids.foldl voc.weightedStep ([], [], 0)).1 := by
    unfold HVocabulary.TransformIds
    rcases hW with h | h <;> rw [h]
  rw [hT] at he
  by_cases hpos : (ids.foldl voc.weightedStep ([], [], 0)).2.2 > 0
  · rw [if_pos ⟨hpos, hIDF⟩, List.mem_map] at he
    obtain ⟨e0, he0, rfl⟩ := he
    show e0.value / _ = _
    rw [hval e0 he0, if_neg hIDF, hnd]
  · rw [if_neg (fun h => hpos h.1)] at he
    have hz : (ids.foldl voc.weightedStep ([], [], 0)).1.length = 0 := by omega
    rw [List.length_eq_zero] at hz
    rw [hz] at he
    simp at he

/-- C15: under `TF` and `TF_IDF` weighting, for a vocabulary whose tree, once
created, is well formed and a feature array whose length is a multiple of the
descriptor length, `Transform` returns a vector that has exactly one entry for
every non-stopped word `i` reached by a descriptor of the document, and the
value of that entry is the number of descriptors of the document that descend
to `i`, times `GetWordWeight(i)`, divided by the number of distinct word ids
reached by the document, stopped or not. -/
theorem transform_value_count_weight_over_distinct (A : StdAlgorithm) (hA : SortContract A)
    (voc : HVocabulary K) (htree : voc.m_created = true → TreeOk voc.m_nodes)
    (hW : voc.base_m_params.Weighting = .TF ∨ voc.base_m_params.Weighting = .TF_IDF)
    (features : List K) (arrange : Bool) (hD : 0 < voc.base_m_params.DescriptorLength)
    (hlen : features.length % voc.base_m_params.DescriptorLength.toNat = 0) :
    ∃ v, voc.Transform A features arrange = some v ∧
      ∀ i, voc.isWordStopped i = false →
        0 < (featureSlots features voc.base_m_params.DescriptorLength.toNat).countP
          (fun s => decide (voc.TransformFeature s = some i)) →
        ∃ e ∈ v, e.id = i ∧ (∀ e2 ∈ v, e2.id = i → e2 = e) ∧
          e.value =
            ((featureSlots features voc.base_m_params.DescriptorLength.toNat).countP
              (fun s => decide (voc.TransformFeature s = some i)) : K) *
              voc.GetWordWeight i /
            (((featureSlots features voc.base_m_params.DescriptorLength.toNat).filterMap
              voc.TransformFeature).dedup.length : K) := by
  obtain ⟨ids, hids, hT⟩ := transform_some A voc htree features arrange hD hlen
  refine ⟨_, hT, ?_⟩
  intro i hstop hhit
  rw [← count_wordIds _ _ ids hids i] at hhit ⊢
  rw [wordIds_eq_filterMap _ _ ids hids]
  have hperm : (if arrange then PutInOrder A (voc.TransformIds ids)
      else voc.TransformIds ids).Perm (voc.TransformIds ids) := by
    cases arrange with
    | false => exact List.Perm.refl _
    | true => exact putInOrder_perm A hA _
  obtain ⟨hnd, hmem⟩ := transformIds_spec voc ids
  have hin : i ∈ (voc.TransformIds ids).map (fun e => e.id) :=
    (hmem i).mpr ⟨List.count_pos_iff.mp hhit, hstop⟩
  obtain ⟨e, he, hei⟩ := List.mem_map.mp hin
  refine ⟨e, hperm.mem_iff.mpr he, hei, ?_, ?_⟩
  · intro e2 he2 he2i
    have he2' := hperm.mem_iff.mp he2
    exact List.inj_on_of_nodup_map hnd he2' he (he2i.trans hei.symm)
  · rw [transformIds_value voc ids hW e he, hei]

theorem transform_value_count_weight_over_distinct_witness :
    ∃ v, (exampleHVocabulary WeightingType.TF (1 : ℚ) 1).Transform
        mergeSortAlgorithm [1, 1, 5] true = some v ∧
      ∀ i, (exampleHVocabulary WeightingType.TF (1 : ℚ) 1).isWordStopped i = false →
        0 < (featureSlots [(1 : ℚ), 1, 5] 1).countP
          (fun s => decide
            ((exampleHVocabulary WeightingType.TF (1 : ℚ) 1).TransformFeature s = some i)) →
        ∃ e ∈ v, e.id = i ∧ (∀ e2 ∈ v, e2.id = i → e2 = e) ∧
          e.value =
            ((featureSlots [(1 : ℚ), 1, 5] 1).countP
              (fun s => decide
                ((exampleHVocabulary WeightingType.TF (1 : ℚ) 1).TransformFeature s = some i))
              : ℚ) *
              (exampleHVocabulary WeightingType.TF (1 : ℚ) 1).GetWordWeight i /
            (((featureSlots [(1 : ℚ), 1, 5] 1).filterMap
              (exampleHVocabulary WeightingType.TF (1 : ℚ) 1).TransformFeature).dedup.length
              : ℚ) :=
  transform_value_count_weight_over_distinct mergeSortAlgorithm mergeSortAlgorithm_contract
    (exampleHVocabulary WeightingType.TF (1 : ℚ) 1) (fun _ => exampleNodes_treeOk 1 1)
    (Or.inl rfl) [1, 1, 5] true (show (0 : Int) < 1 by decide) (Nat.mod_one _)

/-- C14 (amended): under `TF` weighting, for a vocabulary whose tree, once
created, is well formed and a feature array whose length is a multiple of the
descriptor length, `Transform` returns a vector in which every non-stopped
word `i` reached by a descriptor of the document, of the weight `1` that
`Create` gives every word under `TF`, has exactly one entry, and the value of
that entry is the number of descriptors of the document that descend to `i`
divided by the number of distinct words reached by the document, each counted
once, stopped or not. -/
theorem transform_TF_value_count_over_distinct (A : StdAlgorithm) (hA : SortContract A)
    (voc : HVocabulary K) (htree : voc.m_created = true → TreeOk voc.m_nodes)
    (hW : voc.base_m_params.Weighting = .TF)
    (features : List K) (arrange : Bool) (hD : 0 < voc.base_m_params.DescriptorLength)
    (hlen : features.length % voc.base_m_params.DescriptorLength.toNat = 0) :
    ∃ v, voc.Transform A features arrange = some v ∧
      ∀ i, voc.isWordStopped i = false → voc.GetWordWeight i = 1 →
        0 < (featureSlots features voc.base_m_params.DescriptorLength.toNat).countP
          (fun s => decide (voc.TransformFeature s = some i)) →
        ∃ e ∈ v, e.id = i ∧ (∀ e2 ∈ v, e2.id = i → e2 = e) ∧
          e.value =
            ((featureSlots features voc.base_m_params.DescriptorLength.toNat).countP
              (fun s => decide (voc.TransformFeature s = some i)) : K) /
            (((featureSlots features voc.base_m_params.DescriptorLength.toNat).filterMap
              voc.TransformFeature).dedup.length : K) := by
  obtain ⟨ids, hids, hT⟩ := transform_some A voc htree features arrange hD hlen
  refine ⟨_, hT, ?_⟩
  intro i hstop hweight hhit
  rw [← count_wordIds _ _ ids hids i] at hhit ⊢
  rw [wordIds_eq_filterMap _ _ ids hids]
  have hperm : (if arrange then PutInOrder A (voc.TransformIds ids)
      else voc.TransformIds ids).Perm (voc.TransformIds ids) := by
    cases arrange with
    | false => exact List.Perm.refl _
    | true => exact putInOrder_perm A hA _
  obtain ⟨hnd, hmem⟩ := transformIds_spec voc ids
  have hin : i ∈ (voc.TransformIds ids).map (fun e => e.id) :=
    (hmem i).mpr ⟨List.count_pos_iff.mp hhit, hstop⟩
  obtain ⟨e, he, hei⟩ := List.mem_map.mp hin
  refine ⟨e, hperm.mem_iff.mpr he, hei, ?_, ?_⟩
  · intro e2 he2 he2i
    have he2' := hperm.mem_iff.mp he2
    exact List.inj_on_of_nodup_map hnd he2' he (he2i.trans hei.symm)
  · rw [transformIds_value voc ids (Or.inl hW) e he, hei, hweight, mul_one]

/-- Witness for C14: the vocabulary over the descriptors `1`, `1`, `5` and the
document `1`, `1`, `5`. -/
theorem transform_TF_value_count_over_distinct_witness :
    ∃ v, (exampleHVocabulary WeightingType.TF (1 : ℚ) 1).Transform
        mergeSortAlgorithm [1, 1, 5] true = some v ∧
      ∀ i, (exampleHVocabulary WeightingType.TF (1 : ℚ) 1).isWordStopped i = false →
        (exampleHVocabulary WeightingType.TF (1 : ℚ) 1).GetWordWeight i = 1 →
        0 < (featureSlots [(1 : ℚ), 1, 5] 1).countP
          (fun s => decide
            ((exampleHVocabulary WeightingType.TF (1 : ℚ) 1).TransformFeature s = some i)) →
        ∃ e ∈ v, e.id = i ∧ (∀ e2 ∈ v, e2.id = i → e2 = e) ∧
          e.value =
            ((featureSlots [(1 : ℚ), 1, 5] 1).countP
              (fun s => decide
                ((exampleHVocabulary WeightingType.TF (1 : ℚ) 1).TransformFeature s = some i))
              : ℚ) /
            (((featureSlots [(1 : ℚ), 1, 5] 1).filterMap
              (exampleHVocabulary WeightingType.TF (1 : ℚ) 1).TransformFeature).dedup.length
              : ℚ) :=
  transform_TF_value_count_over_distinct mergeSortAlgorithm mergeSortAlgorithm_contract
    (exampleHVocabulary WeightingType.TF (1 : ℚ) 1) (fun _ => exampleNodes_treeOk 1 1)
    rfl [1, 1, 5] true (show (0 : Int) < 1 by decide) (Nat.mod_one _)


theorem example_wordIds (weighting : WeightingType) (w0 w1 : K) :
    wordIds (exampleHVocabulary weighting w0 w1).TransformFeature
      (featureSlots [(1 : K), 1, 5]
        (exampleHVocabulary weighting w0 w1).base_m_params.DescriptorLength.toNat)
      = some [0, 0, 1] := by
  have hD1 : (exampleHVocabulary weighting w0 w1).base_m_params.DescriptorLength.toNat = 1 := rfl
  have h1 : ∀ tail : List K,
      (exampleHVocabulary weighting w0 w1).TransformFeature (1 :: tail) = some 0 :=
    fun tail => example_descend_one w0 w1 tail
  have h5 : ∀ tail : List K,
      (exampleHVocabulary weighting w0 w1).TransformFeature (5 :: tail) = some 1 :=
    fun tail => example_descend_five w0 w1 tail
  rw [hD1, featureSlots_one]
  simp [wordIds, h1, h5, List.range_succ]

/-- C14 (counterexample): in the vocabulary over the training descriptors `1`,
`1`, `5` with `TF` weighting (both word weights `1`) and no stopped word, the
document with the descriptors `1`, `1`, `5` has the word ids `0`, `0`, `1`, and
`Transform` gives word 0 the value `1`, that is its two occurrences divided by
the two distinct words of the document, and not `2/3`, its two occurrences
divided by the three descriptors of the document that map to non-stopped
words. -/
theorem transform_TF_divides_by_distinct_words :
    wordIds (exampleHVocabulary WeightingType.TF (1 : ℚ) 1).TransformFeature
      (featureSlots [(1 : ℚ), 1, 5] 1) = some [0, 0, 1] ∧
    (∀ w, (exampleHVocabulary WeightingType.TF (1 : ℚ) 1).isWordStopped w = false) ∧
    (exampleHVocabulary WeightingType.TF (1 : ℚ) 1).Transform mergeSortAlgorithm [1, 1, 5] true
      = some [{ id := 0, value := 1 }, { id := 1, value := 1 / 2 }] ∧
    (1 : ℚ) ≠ 2 / 3 := by
  have hids := example_wordIds WeightingType.TF (1 : ℚ) 1
  refine ⟨hids, ?_, ?_, by norm_num⟩
  · intro w
    match w with
    | 0 => rfl
    | 1 => rfl
    | (n + 2) => simp [HVocabulary.isWordStopped, exampleHVocabulary]
  · rw [transform_of_wordIds mergeSortAlgorithm _ [1, 1, 5] true [0, 0, 1]
      (show (0 : Int) < 1 by decide) (Nat.mod_one _) hids]
    have hv : (exampleHVocabulary WeightingType.TF (1 : ℚ) 1).TransformIds [0, 0, 1] =
        [{ id := 0, value := 1 }, { id := 1, value := 1 / 2 }] := by
      simp [HVocabulary.TransformIds, HVocabulary.weightedStep, HVocabulary.isWordStopped,
        HVocabulary.GetWordWeight, HVocabulary.isEmpty, HVocabulary.node, exampleHVocabulary,
        exampleNodes, bumpFirst]
    rw [hv]
    simp [PutInOrder, mergeSortAlgorithm, List.mergeSort, List.merge, List.splitInTwo,
      BowVectorEntry.lt]

theorem transform_congr (A : StdAlgorithm) (v1 v2 : HVocabulary K)
    (h1 : v1.m_created = v2.m_created) (h2 : v1.base_m_params = v2.base_m_params)
    (h3 : v1.m_word_stopped = v2.m_word_stopped) (h4 : v1.m_params = v2.m_params)
    (h5 : v1.m_nodes = v2.m_nodes) (h6 : v1.m_words = v2.m_words) (features : List K)
    (arrange : Bool) : v1.Transform A features arrange = v2.Transform A features arrange := by
  have hTF : v1.TransformFeature = v2.TransformFeature := by
    funext pf
    simp only [HVocabulary.TransformFeature, HVocabulary.isEmpty, h1, h4, h5]
  have hstop : v1.isWordStopped = v2.isWordStopped := by
    funext w
    simp only [HVocabulary.isWordStopped, h3]
  have hw : v1.GetWordWeight = v2.GetWordWeight := by
    funext w
    simp only [HVocabulary.GetWordWeight, HVocabulary.isEmpty, HVocabulary.node, h1, h5, h6]
  have hws : v1.weightedStep = v2.weightedStep := by
    funext st id
    simp only [HVocabulary.weightedStep, hstop, hw, h2]
  have hbs : v1.binaryStep = v2.binaryStep := by
    funext v id
    simp only [HVocabulary.binaryStep, hstop]
  have hT : v1.TransformIds = v2.TransformIds := by
    funext ids
    simp only [HVocabulary.TransformIds, hws, hbs, h2]
  simp only [HVocabulary.Transform, hTF, hT, h2]

theorem stopWords_stopWords (voc : HVocabulary K) (hc : voc.m_created = true)
    (hinv : voc.StopInv) (a b c d : Int) (ha : 0 ≤ a) (hb : 0 ≤ b) :
    (voc.StopWords a b).StopWords c d = voc.StopWords c d := by
  have hinv1 := stopInv_stopWords voc hinv a b ha hb
  have hc1 : (voc.StopWords a b).m_created = true := by rw [stopWords_eq voc hc]; exact hc
  have hwio : (voc.StopWords a b).m_words_in_order = voc.m_words_in_order := by
    rw [stopWords_eq voc hc]
  have hnew : (voc.StopWords a b).newStopList c d = voc.newStopList c d := by
    unfold HVocabulary.newStopList
    rw [hwio]
  rw [stopWords_eq _ hc1 c d, stopWords_eq voc hc c d, cleared_flags _ hinv1,
    cleared_flags voc hinv, hnew, hwio]
  rw [stopWords_eq voc hc a b]

theorem newStopList_zero (voc : HVocabulary K) : voc.newStopList 0 0 = [] := by
  unfold HVocabulary.newStopList
  have h : ¬ ((0 : Int) > (voc.m_words_in_order.length : Int)) := by omega
  simp [h]

/-- C12: in a created vocabulary with a consistent stop-list state, for
non-negative `a`, `b` and all `c`, `d`, the state after `StopWords(a, b)` followed by
`StopWords(c, d)` is the state after `StopWords(c, d)` alone, in particular
the flags `m_word_stopped` are the same; after `StopWords(a, b)` followed by
`StopWords(0, 0)` no word is stopped; and when no word was stopped before
these two calls, `Transform` gives after them what it gave before them. -/
theorem stopWords_do_not_stack (A : StdAlgorithm) (voc : HVocabulary K)
    (hc : voc.m_created = true) (hinv : voc.StopInv) (a b c d : Int) (ha : 0 ≤ a)
    (hb : 0 ≤ b) :
    (voc.StopWords a b).StopWords c d = voc.StopWords c d ∧
    ((voc.StopWords a b).StopWords c d).m_word_stopped = (voc.StopWords c d).m_word_stopped ∧
    (∀ w, ((voc.StopWords a b).StopWords 0 0).isWordStopped w = false) ∧
    (voc.m_stop_list = [] → ∀ (features : List K) (arrange : Bool),
      ((voc.StopWords a b).StopWords 0 0).Transform A features arrange =
        voc.Transform A features arrange) := by
  have h1 := stopWords_stopWords voc hc hinv a b c d ha hb
  have h0 := stopWords_stopWords voc hc hinv a b 0 0 ha hb
  refine ⟨h1, by rw [h1], ?_, ?_⟩
  · intro w
    rw [h0]
    cases h : (voc.StopWords 0 0).isWordStopped w with
    | false => rfl
    | true =>
      rw [isWordStopped_stopWords voc hc hinv 0 0 (le_refl 0) (le_refl 0), newStopList_zero] at h
      simp at h
  · intro hempty features arrange
    rw [h0]
    have hflags : (voc.StopWords 0 0).m_word_stopped = voc.m_word_stopped := by
      have hcl := cleared_flags voc hinv
      rw [hempty] at hcl
      rw [stopWords_eq voc hc, newStopList_zero, hempty]
      rfl
    apply transform_congr A _ _ _ _ hflags <;> rw [stopWords_eq voc hc]

theorem stopWords_do_not_stack_witness :
    ((exampleHVocabulary WeightingType.TF_IDF (0 : ℚ) 0).StopWords 1 1).StopWords 0 1 =
      (exampleHVocabulary WeightingType.TF_IDF (0 : ℚ) 0).StopWords 0 1 :=
  (stopWords_do_not_stack mergeSortAlgorithm (exampleHVocabulary WeightingType.TF_IDF (0 : ℚ) 0)
    rfl (exampleHVocabulary_stopInv _ _ _) 1 1 0 1 (by decide) (by decide)).1

end TransformValues

section NormalizeClaims
variable {K : Type} [LinearOrderedField K]

theorem sqrt_one_of_spec (L : StdLib K) (h : SqrtSpec L) : L.sqrt 1 = 1 := by
  have := sqrt_mul_self_of_spec L h 1 zero_le_one
  rwa [mul_one] at this

theorem normOf_Normalize_eq_one (L : StdLib K) (hsq : SqrtSpec L) (n : ScoringType)
    (hn : n = .L1_NORM ∨ n = .L2_NORM) (v : BowVector K) (h : 0 < normOf L n v) :
    normOf L n (Normalize L n v) = 1 := by
  rcases hn with rfl | rfl
  · rw [normOf_L1, sum_abs_Normalize_L1_eq L v h]
  · rw [normOf_L2, sum_sq_Normalize_L2_eq L hsq v h, sqrt_one_of_spec L hsq]

theorem normOf_nonneg (L : StdLib K) (hsq : SqrtSpec L) (n : ScoringType) (v : BowVector K) :
    0 ≤ normOf L n v := by
  cases n
  · rw [normOf_L1]; exact sum_abs_nonneg v
  · rw [normOf_L2]; exact (hsq _ (sum_sq_nonneg v)).1
  all_goals exact le_refl _

theorem map_div_one (v : BowVector K) :
    v.map (fun e => ({ e with value := e.value / 1 } : BowVectorEntry K)) = v := by
  induction v with
  | nil => rfl
  | cons e rest ih =>
    rw [List.map_cons, ih, div_one]

theorem normalize_of_pos (L : StdLib K) (n : ScoringType) (v : BowVector K)
    (h : 0 < normOf L n v) :
    Normalize L n v = v.map (fun e => { e with value := e.value / normOf L n v }) := by
  unfold Normalize
  simp only []
  rw [if_pos h]

/-- C17: for every vector, `Normalize(L1_NORM)` uses the sum of the absolute
values as magnitude and `Normalize(L2_NORM)` the square root of the sum of the
squares; for either norm the word ids, the length and the order of the entries
are unchanged; when the magnitude is positive every value is divided by it and
the result has magnitude 1; when the magnitude is 0 the vector is returned as
it is, and so is the empty vector. -/
theorem normalize_divides_by_magnitude (L : StdLib K) (hsq : SqrtSpec L) (v : BowVector K) :
    normOf L .L1_NORM v = (v.map (fun e => |e.value|)).sum ∧
    normOf L .L2_NORM v = L.sqrt ((v.map (fun e => e.value * e.value)).sum) ∧
    ∀ n : ScoringType, n = .L1_NORM ∨ n = .L2_NORM →
      (Normalize L n v).map (fun e => e.id) = v.map (fun e => e.id) ∧
      (Normalize L n v).length = v.length ∧
      (0 < normOf L n v →
        Normalize L n v = v.map (fun e => { e with value := e.value / normOf L n v }) ∧
        normOf L n (Normalize L n v) = 1) ∧
      (normOf L n v = 0 → Normalize L n v = v) ∧
      Normalize L n ([] : BowVector K) = [] := by
  refine ⟨normOf_L1 L v, normOf_L2 L v, ?_⟩
  intro n hn
  refine ⟨map_id_Normalize L n v, ?_, ?_, ?_, ?_⟩
  · have := congrArg List.length (map_id_Normalize L n v)
    rwa [List.length_map, List.length_map] at this
  · intro hpos
    exact ⟨normalize_of_pos L n v hpos, normOf_Normalize_eq_one L hsq n hn v hpos⟩
  · intro hz
    unfold Normalize
    simp only []
    rw [if_neg (by rw [hz]; exact lt_irrefl 0)]
  · unfold Normalize
    simp only []
    split <;> rfl

theorem normalize_divides_by_magnitude_witness :
    SqrtSpec (StdLib.mk Real.sqrt Real.log mergeSortBy) ∧
    (Normalize (StdLib.mk Real.sqrt Real.log mergeSortBy) .L2_NORM
      [{ id := 2, value := 3 }, { id := 5, value := 4 }]).map (fun e => e.id) = [2, 5] ∧
    (Normalize (StdLib.mk Real.sqrt Real.log mergeSortBy) .L2_NORM
      [{ id := 2, value := 3 }, { id := 5, value := 4 }]).length = 2 :=
  ⟨real_sqrtSpec,
    ((normalize_divides_by_magnitude (StdLib.mk Real.sqrt Real.log mergeSortBy) real_sqrtSpec
      [{ id := 2, value := 3 }, { id := 5, value := 4 }]).2.2 .L2_NORM (Or.inr rfl)).1,
    ((normalize_divides_by_magnitude (StdLib.mk Real.sqrt Real.log mergeSortBy) real_sqrtSpec
      [{ id := 2, value := 3 }, { id := 5, value := 4 }]).2.2 .L2_NORM (Or.inr rfl)).2.1⟩

/-- C18: for every vector and each of the norms `L1_NORM` and `L2_NORM`,
applying `Normalize` twice gives the vector that applying it once gives. -/
theorem normalize_idempotent (L : StdLib K) (hsq : SqrtSpec L) (n : ScoringType)
    (hn : n = .L1_NORM ∨ n = .L2_NORM) (v : BowVector K) :
    Normalize L n (Normalize L n v) = Normalize L n v := by
  by_cases hpos : 0 < normOf L n v
  · have h1 := normOf_Normalize_eq_one L hsq n hn v hpos
    have hstep := normalize_of_pos L n (Normalize L n v) (by rw [h1]; exact zero_lt_one)
    rw [h1] at hstep
    rw [hstep, map_div_one]
  · have hv : Normalize L n v = v := by
      unfold Normalize
      simp only []
      rw [if_neg hpos]
    rw [hv, hv]

theorem normalize_idempotent_witness :
    Normalize (StdLib.mk Real.sqrt Real.log mergeSortBy) .L2_NORM
      (Normalize (StdLib.mk Real.sqrt Real.log mergeSortBy) .L2_NORM
        [{ id := 2, value := 3 }, { id := 5, value := 4 }]) =
    Normalize (StdLib.mk Real.sqrt Real.log mergeSortBy) .L2_NORM
      [{ id := 2, value := 3 }, { id := 5, value := 4 }] :=
  normalize_idempotent (StdLib.mk Real.sqrt Real.log mergeSortBy) real_sqrtSpec .L2_NORM
    (Or.inr rfl) [{ id := 2, value := 3 }, { id := 5, value := 4 }]

end NormalizeClaims

section CreateWordsProofs
variable {K : Type} [LinearOrderedField K]

theorem createWordsLoop_words (l : List (Node K)) (i : Nat) (words : List Nat) :
    ∃ suffix, (CreateWordsLoop l i words).2 = words ++ suffix ∧
      suffix.length = l.countP (fun n => n.isLeaf) := by
  induction l generalizing i words with
  | nil => exact ⟨[], by simp [CreateWordsLoop]⟩
  | cons node rest ih =>
    unfold CreateWordsLoop
    by_cases hleaf : node.isLeaf = true
    · obtain ⟨suffix, h1, h2⟩ := ih (i + 1) (words ++ [i])
      refine ⟨i :: suffix, ?_, ?_⟩
      · simp only [hleaf, if_true, h1, List.append_assoc, List.singleton_append]
      · simp only [List.length_cons, h2, List.countP_cons, hleaf, if_true]
    · obtain ⟨suffix, h1, h2⟩ := ih (i + 1) words
      refine ⟨suffix, ?_, ?_⟩
      · simp only [hleaf, if_false, h1]
        rfl
      · simp only [h2, List.countP_cons, hleaf]
        simp

theorem createWordsLoop_length (l : List (Node K)) (i : Nat) (words : List Nat) :
    (CreateWordsLoop l i words).1.length = l.length := by
  induction l generalizing i words with
  | nil => rfl
  | cons node rest ih =>
    unfold CreateWordsLoop
    by_cases hleaf : node.isLeaf = true
    · simp only [hleaf, if_true, List.length_cons, ih]
    · simp only [hleaf, List.length_cons, ih]
      simp [ih]

theorem createWordsLoop_node (l : List (Node K)) (i : Nat) (words : List Nat) (j : Nat)
    (node : Node K) (h : l[j]? = some node) :
    ∃ wid, (CreateWordsLoop l i words).1[j]? = some { node with WId := wid } ∧
      (node.isLeaf = false → wid = node.WId) ∧
      (node.isLeaf = true → words.length ≤ wid ∧
        (CreateWordsLoop l i words).2[wid]? = some (i + j)) := by
  induction l generalizing i words j with
  | nil => simp at h
  | cons head rest ih =>
    by_cases hleaf : head.isLeaf = true
    · have hunf : CreateWordsLoop (head :: rest) i words =
          ({ head with WId := words.length } :: (CreateWordsLoop rest (i + 1) (words ++ [i])).1,
            (CreateWordsLoop rest (i + 1) (words ++ [i])).2) := by
        rw [CreateWordsLoop, if_pos hleaf]
      rw [hunf]
      cases j with
      | zero =>
        simp only [List.getElem?_cons_zero, Option.some.injEq] at h
        subst h
        refine ⟨words.length, by rw [List.getElem?_cons_zero], ?_, ?_⟩
        · intro hf; rw [hleaf] at hf; exact absurd hf (by decide)
        · intro _
          obtain ⟨suffix, h1, _⟩ := createWordsLoop_words rest (i + 1) (words ++ [i])
          refine ⟨le_refl _, ?_⟩
          show (CreateWordsLoop rest (i + 1) (words ++ [i])).2[words.length]? = _
          rw [h1, List.append_assoc, List.getElem?_append_right (le_refl _)]
          simp
      | succ j =>
        rw [List.getElem?_cons_succ] at h
        obtain ⟨wid, h1, h2, h3⟩ := ih (i + 1) (words ++ [i]) j h
        refine ⟨wid, ?_, h2, ?_⟩
        · rw [List.getElem?_cons_succ]; exact h1
        · intro hl
          obtain ⟨h4, h5⟩ := h3 hl
          rw [List.length_append, List.length_singleton] at h4
          refine ⟨by omega, ?_⟩
          show (CreateWordsLoop rest (i + 1) (words ++ [i])).2[wid]? = _
          rw [h5]
          congr 1
          omega
    · have hunf : CreateWordsLoop (head :: rest) i words =
          (head :: (CreateWordsLoop rest (i + 1) words).1,
            (CreateWordsLoop rest (i + 1) words).2) := by
        rw [CreateWordsLoop, if_neg hleaf]
      rw [hunf]
      cases j with
      | zero =>
        simp only [List.getElem?_cons_zero, Option.some.injEq] at h
        subst h
        refine ⟨head.WId, by rw [List.getElem?_cons_zero], fun _ => rfl, ?_⟩
        intro hl
        exact absurd hl hleaf
      | succ j =>
        rw [List.getElem?_cons_succ] at h
        obtain ⟨wid, h1, h2, h3⟩ := ih (i + 1) words j h
        refine ⟨wid, ?_, h2, ?_⟩
        · rw [List.getElem?_cons_succ]; exact h1
        · intro hl
          obtain ⟨h4, h5⟩ := h3 hl
          refine ⟨h4, ?_⟩
          show (CreateWordsLoop rest (i + 1) words).2[wid]? = _
          rw [h5]
          congr 1
          omega

theorem createWordsLoop_word (l : List (Node K)) (i : Nat) (words : List Nat) (w : Nat)
    (h1 : words.length ≤ w) (h2 : w < (CreateWordsLoop l i words).2.length) :
    ∃ j node, l[j]? = some node ∧ node.isLeaf = true ∧
      (CreateWordsLoop l i words).2[w]? = some (i + j) ∧
      (CreateWordsLoop l i words).1[j]? = some { node with WId := w } := by
  induction l generalizing i words with
  | nil =>
    simp only [CreateWordsLoop] at h2
    omega
  | cons head rest ih =>
    by_cases hleaf : head.isLeaf = true
    · have hunf : CreateWordsLoop (head :: rest) i words =
          ({ head with WId := words.length } :: (CreateWordsLoop rest (i + 1) (words ++ [i])).1,
            (CreateWordsLoop rest (i + 1) (words ++ [i])).2) := by
        rw [CreateWordsLoop, if_pos hleaf]
      rw [hunf] at h2 ⊢
      by_cases hw : w = words.length
      · subst hw
        refine ⟨0, head, by rw [List.getElem?_cons_zero], hleaf, ?_,
          by rw [List.getElem?_cons_zero]⟩
        obtain ⟨suffix, h3, _⟩ := createWordsLoop_words rest (i + 1) (words ++ [i])
        show (CreateWordsLoop rest (i + 1) (words ++ [i])).2[words.length]? = _
        rw [h3, List.append_assoc, List.getElem?_append_right (le_refl _)]
        simp
      · obtain ⟨j, node, h3, h4, h5, h6⟩ := ih (i + 1) (words ++ [i])
          (by rw [List.length_append, List.length_singleton]; omega) h2
        refine ⟨j + 1, node, by rw [List.getElem?_cons_succ]; exact h3, h4, ?_, ?_⟩
        · show (CreateWordsLoop rest (i + 1) (words ++ [i])).2[w]? = _
          rw [h5]
          congr 1
          omega
        · rw [List.getElem?_cons_succ]; exact h6
    · have hunf : CreateWordsLoop (head :: rest) i words =
          (head :: (CreateWordsLoop rest (i + 1) words).1,
            (CreateWordsLoop rest (i + 1) words).2) := by
        rw [CreateWordsLoop, if_neg hleaf]
      rw [hunf] at h2 ⊢
      obtain ⟨j, node, h3, h4, h5, h6⟩ := ih (i + 1) words h1 h2
      refine ⟨j + 1, node, by rw [List.getElem?_cons_succ]; exact h3, h4, ?_, ?_⟩
      · show (CreateWordsLoop rest (i + 1) words).2[w]? = _
        rw [h5]
        congr 1
        omega
      · rw [List.getElem?_cons_succ]; exact h6

end CreateWordsProofs

section FrequencyProofs
variable {K : Type} [LinearOrderedField K]

theorem length_bumpFrequency (fr : List K) (id : Nat) :
    (bumpFrequency fr id).length = fr.length := by
  unfold bumpFrequency
  rw [List.length_set]

theorem getD_bumpFrequency (fr : List K) (id w : Nat) (hw : w < fr.length) :
    (bumpFrequency fr id).getD w 0 = fr.getD w 0 + (if id = w then 1 else 0) := by
  unfold bumpFrequency
  rw [List.getD_eq_getElem?_getD, List.getElem?_set]
  by_cases h : id = w
  · subst h
    rw [if_pos rfl, if_pos rfl, if_pos hw]
    rfl
  · rw [if_neg h, if_neg h, add_zero, List.getD_eq_getElem?_getD]

theorem sum_set_add_one (fr : List K) (id : Nat) (h : id < fr.length) :
    (fr.set id (fr.getD id 0 + 1)).sum = fr.sum + 1 := by
  induction fr generalizing id with
  | nil => simp at h
  | cons x rest ih =>
    cases id with
    | zero => simp [List.set]; ring
    | succ id =>
      simp only [List.length_cons, Nat.add_lt_add_iff_right] at h
      simp only [List.set_cons_succ, List.sum_cons, List.getD_cons_succ, ih id h]
      ring

theorem sum_bumpFrequency (fr : List K) (id : Nat) (h : id < fr.length) :
    (bumpFrequency fr id).sum = fr.sum + 1 :=
  sum_set_add_one fr id h

theorem length_foldl_bump (ids : List Nat) (fr : List K) :
    (ids.foldl bumpFrequency fr).length = fr.length := by
  induction ids generalizing fr with
  | nil => rfl
  | cons id rest ih => rw [List.foldl_cons, ih, length_bumpFrequency]

theorem getD_foldl_bump (ids : List Nat) (fr : List K) (w : Nat) (hw : w < fr.length) :
    (ids.foldl bumpFrequency fr).getD w 0 = fr.getD w 0 + (ids.count w : K) := by
  induction ids generalizing fr with
  | nil => simp
  | cons id rest ih =>
    rw [List.foldl_cons, ih _ (by rw [length_bumpFrequency]; exact hw),
      getD_bumpFrequency fr id w hw, List.count_cons]
    by_cases h : id = w
    · subst h; simp; ring
    · have : (id == w) = false := by simpa using h
      simp [h, this]

theorem sum_foldl_bump (ids : List Nat) (fr : List K) (h : ∀ id ∈ ids, id < fr.length) :
    (ids.foldl bumpFrequency fr).sum = fr.sum + (ids.length : K) := by
  induction ids generalizing fr with
  | nil => simp
  | cons id rest ih =>
    rw [List.foldl_cons, ih _ (fun x hx => by
      rw [length_bumpFrequency]; exact h x (List.mem_cons_of_mem _ hx)),
      sum_bumpFrequency fr id (h id (List.mem_cons_self _ _))]
    simp only [List.length_cons]
    push_cast
    ring

theorem foldl_docs_bump (docs : List (List Nat)) (fr : List K) :
    docs.foldl (fun fr ids => ids.foldl bumpFrequency fr) fr =
      docs.flatten.foldl bumpFrequency fr := by
  induction docs generalizing fr with
  | nil => rfl
  | cons ids rest ih =>
    rw [List.foldl_cons, ih, List.flatten_cons, List.foldl_append]

theorem foldl_idfStep_fst (ids : List Nat) (st : List K × List Nat × List Bool) :
    (ids.foldl idfStep st).1 = ids.foldl bumpFrequency st.1 := by
  induction ids generalizing st with
  | nil => rfl
  | cons id rest ih =>
    rw [List.foldl_cons, List.foldl_cons, ih]
    congr 1
    unfold idfStep
    split <;> rfl

theorem foldl_idfDocument_fst (NWords : Nat) (docs : List (List Nat)) (st : List K × List Nat) :
    (docs.foldl (idfDocument NWords) st).1 = docs.flatten.foldl bumpFrequency st.1 := by
  induction docs generalizing st with
  | nil => rfl
  | cons ids rest ih =>
    rw [List.foldl_cons, ih, List.flatten_cons, List.foldl_append]
    congr 1
    exact foldl_idfStep_fst ids _

theorem getD_replicate_zero (n w : Nat) : (List.replicate n (0 : K)).getD w 0 = 0 := by
  rw [List.getD_eq_getElem?_getD, List.getElem?_replicate]
  split <;> rfl

theorem sum_replicate_zero (n : Nat) : (List.replicate n (0 : K)).sum = 0 := by
  simp

/-- The frequencies of `GetWordWeightsAndCreateStopList` for the word ids
`ids` of the training descriptors. -/
theorem frequency_spec (NWords : Nat) (ids : List Nat) (hrange : ∀ id ∈ ids, id < NWords)
    (counts : List K) (hcounts : counts = ids.foldl bumpFrequency (List.replicate NWords 0)) :
    let total : K := counts.foldl (fun s x => s + x) 0
    let fr : List K := if total > 0 then counts.map (fun x => x / total) else counts
    fr.length = NWords ∧
    (∀ w, w < NWords → fr.getD w 0 =
      if ids = [] then 0 else (ids.count w : K) / (ids.length : K)) ∧
    fr.sum = if ids = [] then 0 else 1 := by
  intro total fr
  have hlen : counts.length = NWords := by
    rw [hcounts, length_foldl_bump, List.length_replicate]
  have hget : ∀ w, w < NWords → counts.getD w 0 = (ids.count w : K) := by
    intro w hw
    rw [hcounts, getD_foldl_bump _ _ w (by rw [List.length_replicate]; exact hw),
      getD_replicate_zero, zero_add]
  have hsum : counts.sum = (ids.length : K) := by
    rw [hcounts, sum_foldl_bump _ _ (by rw [List.length_replicate]; exact hrange),
      sum_replicate_zero, zero_add]
  have htotal : total = (ids.length : K) := by
    show counts.foldl (fun s x => s + x) 0 = _
    have := foldl_add_eq_sum (fun x : K => x) counts 0
    rw [this, zero_add, List.map_id', hsum]
  by_cases hnil : ids = []
  · have ht0 : ¬ (total > 0) := by rw [htotal, hnil]; simp
    have hfr : fr = counts := if_neg ht0
    rw [hfr]
    refine ⟨hlen, ?_, ?_⟩
    · intro w hw
      rw [hget w hw, if_pos hnil, hnil]
      simp
    · rw [hsum, if_pos hnil, hnil]
      simp
  · have hpos : total > 0 := by
      rw [htotal]
      have : 0 < ids.length := List.length_pos.mpr hnil
      exact_mod_cast this
    have hfr : fr = counts.map (fun x => x / total) := if_pos hpos
    rw [hfr]
    refine ⟨by rw [List.length_map, hlen], ?_, ?_⟩
    · intro w hw
      rw [if_neg hnil, List.getD_eq_getElem?_getD, List.getElem?_map, ← htotal]
      have := hget w hw
      rw [List.getD_eq_getElem?_getD] at this
      rw [List.getElem?_eq_getElem (by rw [hlen]; exact hw)] at this ⊢
      simp only [Option.map_some', Option.getD_some] at this ⊢
      rw [this]
    · rw [if_neg hnil, sum_map_div counts (fun x => x) total, List.map_id', hsum, ← htotal]
      exact div_self (ne_of_gt hpos)

end FrequencyProofs

section CreateProofs
variable {K : Type} [LinearOrderedField K]

theorem trainingWordIds_some (f : List K → Option Nat) (D : Nat) (training : List (List K))
    (P : Nat → Prop)
    (h : ∀ doc ∈ training, ∀ s ∈ featureSlots doc D, ∃ w, f s = some w ∧ P w) :
    ∃ docs, trainingWordIds f D training = some docs ∧
      (∀ id ∈ docs.flatten, P id) ∧
      docs.flatten.length = (training.map (fun doc => (featureSlots doc D).length)).sum := by
  induction training with
  | nil => exact ⟨[], rfl, by simp, by simp⟩
  | cons doc rest ih =>
    obtain ⟨docs, h1, h2, h3⟩ := ih (fun d hd => h d (List.mem_cons_of_mem _ hd))
    obtain ⟨ids, hids⟩ := wordIds_some f (featureSlots doc D)
      (fun s hs => (h doc (List.mem_cons_self _ _) s hs).imp (fun _ hw => hw.1))
    refine ⟨ids :: docs, by simp [trainingWordIds, hids, h1], ?_, ?_⟩
    · intro id hid
      rw [List.flatten_cons, List.mem_append] at hid
      rcases hid with hid | hid
      · obtain ⟨s, hs, hfs⟩ := mem_wordIds f _ ids hids id hid
        obtain ⟨w, hw1, hw2⟩ := h doc (List.mem_cons_self _ _) s hs
        rw [hfs] at hw1
        rw [Option.some.inj hw1]
        exact hw2
      · exact h2 id hid
    · rw [List.flatten_cons, List.length_append, h3, length_wordIds f _ ids hids]
      simp

theorem getWordWeights_spec (L : StdLib K) (A : StdAlgorithm) (voc : HVocabulary K)
    (training : List (List K)) (docs : List (List Nat)) (hN : 0 < voc.GetNumberOfWords)
    (hne : training ≠ []) (hD : 0 < voc.base_m_params.DescriptorLength)
    (hids : trainingWordIds voc.TransformFeature voc.base_m_params.DescriptorLength.toNat
      training = some docs)
    (hrange : ∀ id ∈ docs.flatten, id < voc.GetNumberOfWords) :
    ∃ (fr weights : List K),
      voc.GetWordWeightsAndCreateStopList L A training =
        some (HVocabulary.CreateStopList A { voc with m_word_frequency := fr }, weights) ∧
      fr.length = voc.GetNumberOfWords ∧
      (∀ w, w < voc.GetNumberOfWords → fr.getD w 0 =
        if docs.flatten = [] then 0
        else (docs.flatten.count w : K) / (docs.flatten.length : K)) ∧
      fr.sum = if docs.flatten = [] then 0 else 1 := by
  have hany : docs.any (fun ids => ids.any (fun id => decide (voc.GetNumberOfWords ≤ id)))
      = false := by
    rw [Bool.eq_false_iff]
    intro h
    rw [List.any_eq_true] at h
    obtain ⟨ids, hids1, h⟩ := h
    rw [List.any_eq_true] at h
    obtain ⟨id, hid, h⟩ := h
    have := hrange id (List.mem_flatten.mpr ⟨ids, hids1, hid⟩)
    simp only [decide_eq_true_eq] at h
    omega
  have hcond : (voc.GetNumberOfWords > 0 ∧ training.length > 0) :=
    ⟨hN, List.length_pos.mpr hne⟩
  unfold HVocabulary.GetWordWeightsAndCreateStopList
  simp only []
  rw [if_neg (not_not.mpr hcond), if_neg (not_le.mpr hD), hids]
  simp only [hany, Bool.false_eq_true, if_false]
  cases hW : voc.base_m_params.Weighting
  · exact ⟨_, _, rfl, frequency_spec voc.GetNumberOfWords docs.flatten hrange _
      (foldl_idfDocument_fst _ docs _)⟩
  · exact ⟨_, _, rfl, frequency_spec voc.GetNumberOfWords docs.flatten hrange _
      (foldl_docs_bump docs _)⟩
  · exact ⟨_, _, rfl, frequency_spec voc.GetNumberOfWords docs.flatten hrange _
      (foldl_idfDocument_fst _ docs _)⟩
  · exact ⟨_, _, rfl, frequency_spec voc.GetNumberOfWords docs.flatten hrange _
      (foldl_docs_bump docs _)⟩

end CreateProofs

section CreateTree
variable {K : Type} [LinearOrderedField K]

theorem createWords_length (tree : List (Node K)) :
    (CreateWords tree).1.length = tree.length :=
  createWordsLoop_length tree 0 []

/-- A node of the arena after `CreateWords` is the node of `tree` at the same
index with a word id; the word id of a leaf indexes `m_words`, where the index
of the leaf is stored. -/
theorem createWords_node (tree : List (Node K)) (j : Nat) (node' : Node K)
    (h : (CreateWords tree).1[j]? = some node') :
    ∃ node, tree[j]? = some node ∧ node' = { node with WId := node'.WId } ∧
      node'.Children = node.Children ∧
      (node.isLeaf = false → node'.WId = node.WId) ∧
      (node.isLeaf = true → node'.WId < (CreateWords tree).2.length ∧
        (CreateWords tree).2[node'.WId]? = some j) := by
  have hj : j < tree.length := by
    rw [← createWords_length tree]
    exact (List.getElem?_eq_some_iff.mp h).1
  obtain ⟨wid, h1, h2, h3⟩ := createWordsLoop_node tree 0 [] j tree[j]
    (List.getElem?_eq_getElem hj)
  have h1' : (CreateWords tree).1[j]? = some { tree[j] with WId := wid } := h1
  rw [h] at h1'
  have hn := Option.some.inj h1'
  subst hn
  refine ⟨tree[j], List.getElem?_eq_getElem hj, rfl, rfl, h2, ?_⟩
  intro hl
  obtain ⟨_, h5⟩ := h3 hl
  have h5' : (CreateWords tree).2[wid]? = some j := by
    have : (CreateWords tree).2[wid]? = some (0 + j) := h5
    rwa [Nat.zero_add] at this
  exact ⟨(List.getElem?_eq_some_iff.mp h5').1, h5'⟩

theorem createWords_children (tree : List (Node K))
    (hchild : ∀ (i : Nat) (node : Node K), tree[i]? = some node →
      ∀ c ∈ node.Children, i < c ∧ c < tree.length) :
    ∀ (i : Nat) (node : Node K), (CreateWords tree).1[i]? = some node →
      ∀ c ∈ node.Children, i < c ∧ c < (CreateWords tree).1.length := by
  intro i node' h c hc
  obtain ⟨node, h1, _, h3, _⟩ := createWords_node tree i node' h
  rw [createWords_length]
  exact hchild i node h1 c (h3 ▸ hc)

theorem createWords_root (tree : List (Node K)) (h : ∃ root ∈ tree[0]?, root.Children ≠ []) :
    ∃ root ∈ (CreateWords tree).1[0]?, root.Children ≠ [] := by
  obtain ⟨root, hroot, hne⟩ := h
  have h0 : 0 < (CreateWords tree).1.length := by
    rw [createWords_length]
    exact (List.getElem?_eq_some_iff.mp hroot).1
  refine ⟨(CreateWords tree).1[0], List.getElem?_eq_getElem h0, ?_⟩
  obtain ⟨node, h1, _, h3, _⟩ := createWords_node tree 0 _ (List.getElem?_eq_getElem h0)
  have hroot' : tree[0]? = some root := hroot
  rw [hroot'] at h1
  rw [h3, ← Option.some.inj h1]
  exact hne

theorem arena_has_leaf (tree : List (Node K)) (hne : tree ≠ [])
    (hchild : ∀ (i : Nat) (node : Node K), tree[i]? = some node →
      ∀ c ∈ node.Children, i < c ∧ c < tree.length) :
    0 < tree.countP (fun n => n.isLeaf) := by
  have hpos : 0 < tree.length := List.length_pos.mpr hne
  rw [List.countP_pos_iff]
  refine ⟨tree[tree.length - 1], List.getElem_mem _, ?_⟩
  cases hc : (tree[tree.length - 1]).Children with
  | nil => simp [Node.isLeaf, hc]
  | cons c rest =>
    have := hchild (tree.length - 1) _ (List.getElem?_eq_getElem (by omega)) c
      (by rw [hc]; exact List.mem_cons_self _ _)
    omega

theorem createWords_words_length (tree : List (Node K)) :
    (CreateWords tree).2.length = tree.countP (fun n => n.isLeaf) := by
  obtain ⟨suffix, h1, h2⟩ := createWordsLoop_words tree 0 []
  have : (CreateWords tree).2 = [] ++ suffix := h1
  rw [this, List.nil_append, h2]

theorem getElem?_set_weight (nodes : List (Node K)) (j k : Nat) (x : K) :
    ((nodes.set j { nodes.getD j (Node.create 0) with Weight := x })[k]?).map
        Node.shape =
      (nodes[k]?).map Node.shape := by
  rw [List.getElem?_set]
  by_cases hjk : j = k
  · subst hjk
    rw [if_pos rfl]
    by_cases hlt : j < nodes.length
    · rw [if_pos hlt, List.getD_eq_getElem?_getD, List.getElem?_eq_getElem hlt]
      rfl
    · rw [if_neg hlt, List.getElem?_eq_none (by omega)]
  · rw [if_neg hjk]

theorem getElem?_foldl_set_weight (g : Nat → Nat) (x : Nat → K) (is : List Nat)
    (nodes : List (Node K)) (k : Nat) :
    ((is.foldl (fun (nodes : List (Node K)) (i : Nat) =>
        nodes.set (g i) { nodes.getD (g i) (Node.create 0) with Weight := x i }) nodes)[k]?).map
        Node.shape =
      (nodes[k]?).map Node.shape := by
  induction is generalizing nodes with
  | nil => rfl
  | cons i rest ih =>
    rw [List.foldl_cons, ih, getElem?_set_weight]

theorem nearestChild_congr (nodes nodes' : List (Node K))
    (hs : ∀ k : Nat, (nodes[k]?).map Node.shape =
      (nodes'[k]?).map Node.shape)
    (D : Int) (pf : List K) (first : Nat) (rest : List Nat) :
    nearestChild nodes D pf first rest = nearestChild nodes' D pf first rest := by
  have hd : ∀ k : Nat, (nodes.getD k (Node.create 0)).Descriptor =
      (nodes'.getD k (Node.create 0)).Descriptor := by
    intro k
    have h := hs k
    rw [List.getD_eq_getElem?_getD, List.getD_eq_getElem?_getD]
    cases h1 : nodes[k]? with
    | none =>
      cases h2 : nodes'[k]? with
      | none => rfl
      | some b => rw [h1, h2] at h; simp at h
    | some a =>
      cases h2 : nodes'[k]? with
      | none => rw [h1, h2] at h; simp at h
      | some b =>
        rw [h1, h2] at h
        simp only [Option.map_some', Option.some.injEq, Node.shape, Prod.mk.injEq] at h
        exact h.2.2.1
  unfold nearestChild
  simp only [hd]

theorem descend_congr (nodes nodes' : List (Node K))
    (hs : ∀ k : Nat, (nodes[k]?).map Node.shape =
      (nodes'[k]?).map Node.shape)
    (D : Int) (pf : List K) (fuel id : Nat) :
    descend nodes D pf fuel id = descend nodes' D pf fuel id := by
  have hcases : ∀ k : Nat, (nodes[k]? = none ∧ nodes'[k]? = none) ∨
      ∃ a b : Node K, nodes[k]? = some a ∧ nodes'[k]? = some b ∧ a.Children = b.Children ∧
        a.WId = b.WId := by
    intro k
    have h := hs k
    cases h1 : nodes[k]? with
    | none =>
      cases h2 : nodes'[k]? with
      | none => exact Or.inl ⟨rfl, rfl⟩
      | some b => rw [h1, h2] at h; simp at h
    | some a =>
      cases h2 : nodes'[k]? with
      | none => rw [h1, h2] at h; simp at h
      | some b =>
        rw [h1, h2] at h
        simp only [Option.map_some', Option.some.injEq, Node.shape, Prod.mk.injEq] at h
        exact Or.inr ⟨a, b, rfl, rfl, h.2.1, h.2.2.2⟩
  induction fuel generalizing id with
  | zero => rfl
  | succ fuel ih =>
    rcases hcases id with ⟨h1, h2⟩ | ⟨a, b, h1, h2, h3, _⟩
    · simp only [descend, h1, h2]
    · cases hch : a.Children with
      | nil =>
        have hch' : b.Children = [] := by rw [← h3, hch]
        simp only [descend, h1, h2, hch, hch']
      | cons first rest =>
        have hch' : b.Children = first :: rest := by rw [← h3, hch]
        have hn := nearestChild_congr nodes nodes' hs D pf first rest
        rcases hcases (nearestChild nodes D pf first rest) with ⟨h4, h5⟩ | ⟨c, d, h4, h5, h6, h7⟩
        · rw [hn] at h5
          simp only [descend, h1, h2, hch, hch', h4, h5]
        · have h5' := h5
          rw [hn] at h5'
          simp only [descend, h1, h2, hch, hch', h4, h5', Node.isLeaf, h6, h7]
          rw [ih, hn]

end CreateTree

section CreateClaims
variable {K : Type} [LinearOrderedField K]

theorem featureSlots_nil (D : Nat) (hD : 0 < D) : featureSlots ([] : List K) D = [] := by
  unfold featureSlots
  have : ([] : List K).length + D - 1 < D := by simp; omega
  rw [Nat.div_eq_of_lt this]
  rfl

theorem length_foldl_set_weight (g : Nat → Nat) (x : Nat → K) (is : List Nat)
    (nodes : List (Node K)) :
    (is.foldl (fun (nodes : List (Node K)) (i : Nat) =>
        nodes.set (g i) { nodes.getD (g i) (Node.create 0) with Weight := x i }) nodes).length =
      nodes.length := by
  induction is generalizing nodes with
  | nil => rfl
  | cons i rest ih => rw [List.foldl_cons, ih, List.length_set]

/-- The vocabulary that `CreateWith` returns, and the word ids of the training
descriptors in the tree with the words created. -/
theorem createWith_spec (L : StdLib K) (A : StdAlgorithm) (voc : HVocabulary K)
    (tree : List (Node K)) (training : List (List K)) (harena : ArenaOk tree training)
    (hdocs : training ≠ []) (hD : 0 < voc.base_m_params.DescriptorLength)
    (hD2 : 0 < voc.m_params.DescriptorLength)
    (hlen : ∀ features ∈ training,
      features.length % voc.m_params.DescriptorLength.toNat = 0) :
    ∃ (docs : List (List Nat)) (fr : List K) (voc' : HVocabulary K),
      voc.CreateWith L A tree training = some voc' ∧
      trainingWordIds voc'.TransformFeature voc'.base_m_params.DescriptorLength.toNat training
        = some docs ∧
      docs.flatten.length = (training.map (fun features =>
        (featureSlots features voc.base_m_params.DescriptorLength.toNat).length)).sum ∧
      voc'.m_created = true ∧ voc'.m_word_frequency = fr ∧
      voc'.m_words = (CreateWords tree).2 ∧ voc'.base_m_params = voc.base_m_params ∧
      (∀ k : Nat, (voc'.m_nodes[k]?).map Node.shape =
        ((CreateWords tree).1[k]?).map Node.shape) ∧
      fr.length = (CreateWords tree).2.length ∧
      (∀ w, w < (CreateWords tree).2.length → fr.getD w 0 =
        if docs.flatten = [] then 0
        else (docs.flatten.count w : K) / (docs.flatten.length : K)) ∧
      fr.sum = if docs.flatten = [] then 0 else 1 := by
  obtain ⟨hne, _, hchild, hroot⟩ := harena
  have hDn : 0 < voc.base_m_params.DescriptorLength.toNat := by omega
  have hdesc : ∀ doc ∈ training,
      ∀ s ∈ featureSlots doc voc.base_m_params.DescriptorLength.toNat,
      ∃ w, HVocabulary.TransformFeature
        { voc with m_nodes := (CreateWords tree).1, m_words := (CreateWords tree).2,
                   m_created := true } s = some w ∧ w < (CreateWords tree).2.length := by
    intro doc hdoc s hs
    have hdne : doc ≠ [] := by
      intro h
      rw [h, featureSlots_nil _ hDn] at hs
      simp at hs
    have htree : TreeOk (CreateWords tree).1 :=
      ⟨createWords_root tree (hroot ⟨doc, hdoc, hdne⟩), createWords_children tree hchild⟩
    obtain ⟨n, leaf, h1, h2, h3⟩ := transformFeature_some
      { voc with m_nodes := (CreateWords tree).1, m_words := (CreateWords tree).2,
                 m_created := true } rfl htree s
    refine ⟨leaf.WId, h3, ?_⟩
    obtain ⟨node, _, _, h5, _, h7⟩ := createWords_node tree n leaf h1
    have hl : node.isLeaf = true := by
      unfold Node.isLeaf at h2 ⊢
      rw [← h5]; exact h2
    exact (h7 hl).1
  obtain ⟨docs, hids, hrange, hcount⟩ := trainingWordIds_some _ _ training _ hdesc
  have hN : 0 < (CreateWords tree).2.length := by
    rw [createWords_words_length]
    exact arena_has_leaf tree hne hchild
  obtain ⟨fr, weights, hG, h1, h2, h3⟩ := getWordWeights_spec L A
    { voc with m_nodes := (CreateWords tree).1, m_words := (CreateWords tree).2,
               m_created := true } training docs hN hdocs hD hids hrange
  have hall : training.all (fun features =>
      decide (features.length % voc.m_params.DescriptorLength.toNat = 0)) = true := by
    rw [List.all_eq_true]
    intro f hf
    exact decide_eq_true (hlen f hf)
  have hshape : ∀ k : Nat,
      (((List.range (CreateWords tree).2.length).foldl
        (fun (nodes : List (Node K)) (i : Nat) =>
          nodes.set ((CreateWords tree).2.getD i 0)
            { nodes.getD ((CreateWords tree).2.getD i 0) (Node.create 0) with
              Weight := weights.getD i 0 }) (CreateWords tree).1)[k]?).map Node.shape =
      ((CreateWords tree).1[k]?).map Node.shape :=
    fun k => getElem?_foldl_set_weight (fun i => (CreateWords tree).2.getD i 0)
      (fun i => weights.getD i 0) _ _ k
  have hC : voc.CreateWith L A tree training = some
      { HVocabulary.CreateStopList A
          { voc with m_nodes := (CreateWords tree).1, m_words := (CreateWords tree).2,
                     m_created := true, m_word_frequency := fr } with
        m_nodes := (List.range (CreateWords tree).2.length).foldl
          (fun (nodes : List (Node K)) (i : Nat) =>
            nodes.set ((CreateWords tree).2.getD i 0)
              { nodes.getD ((CreateWords tree).2.getD i 0) (Node.create 0) with
                Weight := weights.getD i 0 }) (CreateWords tree).1 } := by
    unfold HVocabulary.CreateWith
    rw [if_pos ⟨hD2, hall⟩]
    unfold HVocabulary.SetNodeWeights
    rw [hG]
    rfl
  refine ⟨docs, fr, _, hC, ?_, hcount, ?_, ?_, ?_, ?_, ?_, h1, h2, h3⟩
  · rw [← hids]
    congr 1
    funext pf
    show descend _ voc.m_params.DescriptorLength pf _ 0 =
      descend (CreateWords tree).1 voc.m_params.DescriptorLength pf (CreateWords tree).1.length 0
    rw [descend_congr _ _ hshape]
    congr 1
    exact length_foldl_set_weight _ _ _ _
  · rfl
  · rfl
  · rfl
  · rfl
  · exact hshape


/-- C20: `Create` on a non-empty list of training documents, for an arena
left by `HKMeansStep` and under every weighting, returns a vocabulary whose
word frequencies are non-negative, sum to 1 when the training set has a
descriptor and to 0 otherwise, and in which the frequency of a word is the
number of training descriptors that descend to it divided by the number of
training descriptors. -/
theorem create_word_frequencies (L : StdLib K) (A : StdAlgorithm) (voc : HVocabulary K)
    (tree : List (Node K)) (training : List (List K)) (harena : ArenaOk tree training)
    (hdocs : training ≠ []) (hD : 0 < voc.base_m_params.DescriptorLength)
    (hD2 : 0 < voc.m_params.DescriptorLength)
    (hlen : ∀ features ∈ training,
      features.length % voc.m_params.DescriptorLength.toNat = 0) :
    ∃ (voc' : HVocabulary K) (docs : List (List Nat)),
      voc.CreateWith L A tree training = some voc' ∧
      trainingWordIds voc'.TransformFeature voc'.base_m_params.DescriptorLength.toNat training
        = some docs ∧
      docs.flatten.length = (training.map (fun features =>
        (featureSlots features voc.base_m_params.DescriptorLength.toNat).length)).sum ∧
      voc'.m_word_frequency.length = voc'.NumberOfWords ∧
      (∀ w, 0 ≤ voc'.GetWordFrequency w) ∧
      voc'.m_word_frequency.sum = (if docs.flatten = [] then 0 else 1) ∧
      (∀ w, w < voc'.NumberOfWords → voc'.GetWordFrequency w =
        if docs.flatten = [] then 0
        else (docs.flatten.count w : K) / (docs.flatten.length : K)) := by
  obtain ⟨docs, fr, voc', hC, hids, hcount, hcr, hfr, hwords, _, _, h1, h2, h3⟩ :=
    createWith_spec L A voc tree training harena hdocs hD hD2 hlen
  have hNW : voc'.NumberOfWords = (CreateWords tree).2.length := by
    simp [HVocabulary.NumberOfWords, HVocabulary.GetNumberOfWords, hcr, hwords]
  have hGF : ∀ w, voc'.GetWordFrequency w = fr.getD w 0 := by
    intro w
    simp [HVocabulary.GetWordFrequency, hcr, hfr]
  refine ⟨voc', docs, hC, hids, hcount, ?_, ?_, ?_, ?_⟩
  · rw [hfr, h1, hNW]
  · intro w
    rw [hGF]
    by_cases hw : w < (CreateWords tree).2.length
    · rw [h2 w hw]
      split
      · exact le_refl 0
      · exact div_nonneg (Nat.cast_nonneg _) (Nat.cast_nonneg _)
    · rw [List.getD_eq_getElem?_getD, List.getElem?_eq_none (by omega)]
      exact le_refl 0
  · rw [hfr, h3]
  · intro w hw
    rw [hGF, h2 w (hNW ▸ hw)]

theorem exampleArena_ok :
    ArenaOk (exampleArena : List (Node ℚ)) [[1], [1], [5]] := by
  refine ⟨by simp [exampleArena], ?_, ?_, ?_⟩
  · intro node hnode
    simp only [exampleArena, List.mem_cons, List.mem_singleton, List.not_mem_nil, or_false]
      at hnode
    rcases hnode with rfl | rfl | rfl <;> rfl
  · intro i node h c hc
    match i with
    | 0 =>
      simp only [exampleArena, List.getElem?_cons_zero, Option.some.injEq] at h
      subst h
      simp only [List.mem_cons, List.mem_singleton, List.not_mem_nil, or_false] at hc
      simp only [exampleArena, List.length_cons, List.length_nil]
      omega
    | 1 =>
      simp only [exampleArena, List.getElem?_cons_succ, List.getElem?_cons_zero,
        Option.some.injEq] at h
      subst h
      simp at hc
    | 2 =>
      simp only [exampleArena, List.getElem?_cons_succ, List.getElem?_cons_zero,
        Option.some.injEq] at h
      subst h
      simp at hc
    | (n + 3) =>
      simp [exampleArena] at h
  · intro _
    exact ⟨{ Id := 0, Children := [1, 2], Weight := 0, Descriptor := [], WId := NO_WORD }, rfl,
      by simp⟩

theorem create_word_frequencies_witness :
    ∃ (voc' : HVocabulary ℚ) (docs : List (List Nat)),
      (HVocabulary.init (exampleParams WeightingType.TF)).CreateWith ratLib mergeSortAlgorithm
        exampleArena [[1], [1], [5]] = some voc' ∧
      trainingWordIds voc'.TransformFeature voc'.base_m_params.DescriptorLength.toNat
        [[1], [1], [5]] = some docs ∧
      voc'.m_word_frequency.sum = (if docs.flatten = [] then 0 else 1) := by
  obtain ⟨voc', docs, h1, h2, _, _, _, h3, _⟩ :=
    create_word_frequencies ratLib mergeSortAlgorithm
      (HVocabulary.init (exampleParams WeightingType.TF)) exampleArena [[1], [1], [5]]
      exampleArena_ok (by simp) (show (0 : Int) < 1 by decide) (show (0 : Int) < 1 by decide)
      (by intro f _; exact Nat.mod_one _)
  exact ⟨voc', docs, h1, h2, h3⟩


theorem createWordsLoop_countP (l : List (Node K)) (i : Nat) (words : List Nat) :
    (CreateWordsLoop l i words).1.countP (fun n => n.isLeaf) =
      l.countP (fun n => n.isLeaf) := by
  induction l generalizing i words with
  | nil => rfl
  | cons head rest ih =>
    by_cases hleaf : head.isLeaf = true
    · rw [CreateWordsLoop, if_pos hleaf]
      have h2 : Node.isLeaf ({ head with WId := words.length } : Node K) = true := hleaf
      simp only [List.countP_cons, ih, hleaf, h2]
    · rw [CreateWordsLoop, if_neg hleaf]
      simp only [List.countP_cons, ih]

theorem countP_isLeaf_of_shape (nodes nodes' : List (Node K))
    (hs : ∀ k : Nat, (nodes[k]?).map Node.shape = (nodes'[k]?).map Node.shape) :
    nodes.countP (fun n => n.isLeaf) = nodes'.countP (fun n => n.isLeaf) := by
  have hmap : nodes.map Node.shape = nodes'.map Node.shape := by
    apply List.ext_getElem?
    intro k
    rw [List.getElem?_map, List.getElem?_map]
    exact hs k
  have h : ∀ l : List (Node K), l.countP (fun n => n.isLeaf) =
      (l.map Node.shape).countP (fun s => s.2.1.isEmpty) := by
    intro l
    rw [List.countP_map]
    rfl
  rw [h nodes, h nodes', hmap]

/-- The words of a created vocabulary: after `Create`, for an arena left by
`HKMeansStep`, `m_words` has one element per leaf of the tree, the node of
every word `w` is a leaf whose `WId` is `w`, and every node that is not a leaf
keeps the `WId` of its construction, `NO_WORD`. -/
theorem createWith_words_are_leaves (L : StdLib K) (A : StdAlgorithm) (voc : HVocabulary K)
    (tree : List (Node K)) (training : List (List K)) (harena : ArenaOk tree training)
    (hdocs : training ≠ []) (hD : 0 < voc.base_m_params.DescriptorLength)
    (hD2 : 0 < voc.m_params.DescriptorLength)
    (hlen : ∀ features ∈ training,
      features.length % voc.m_params.DescriptorLength.toNat = 0) :
    ∃ voc' : HVocabulary K, voc.CreateWith L A tree training = some voc' ∧
      voc'.m_words.length = voc'.m_nodes.countP (fun n => n.isLeaf) ∧
      (∀ w, w < voc'.NumberOfWords → ∃ (n : Nat) (node : Node K),
        voc'.m_words[w]? = some n ∧ voc'.m_nodes[n]? = some node ∧
        node.isLeaf = true ∧ node.WId = w) ∧
      (∀ node ∈ voc'.m_nodes, node.isLeaf = false → node.WId = NO_WORD) := by
  obtain ⟨docs, fr, voc', hC, _, _, hcr, _, hwords, _, hshape, _⟩ :=
    createWith_spec L A voc tree training harena hdocs hD hD2 hlen
  obtain ⟨_, hwid, _, _⟩ := harena
  have hget : ∀ (k : Nat) (b : Node K), (CreateWords tree).1[k]? = some b →
      ∃ a, voc'.m_nodes[k]? = some a ∧ a.Children = b.Children ∧ a.WId = b.WId := by
    intro k b hb
    have h := hshape k
    rw [hb] at h
    cases ha : voc'.m_nodes[k]? with
    | none => rw [ha] at h; simp at h
    | some a =>
      rw [ha] at h
      simp only [Option.map_some', Option.some.injEq, Node.shape, Prod.mk.injEq] at h
      exact ⟨a, rfl, h.2.1, h.2.2.2⟩
  have hget' : ∀ (k : Nat) (a : Node K), voc'.m_nodes[k]? = some a →
      ∃ b, (CreateWords tree).1[k]? = some b ∧ a.Children = b.Children ∧ a.WId = b.WId := by
    intro k a ha
    have h := hshape k
    rw [ha] at h
    cases hb : (CreateWords tree).1[k]? with
    | none => rw [hb] at h; simp at h
    | some b =>
      rw [hb] at h
      simp only [Option.map_some', Option.some.injEq, Node.shape, Prod.mk.injEq] at h
      exact ⟨b, rfl, h.2.1, h.2.2.2⟩
  have hNW : voc'.NumberOfWords = (CreateWords tree).2.length := by
    simp [HVocabulary.NumberOfWords, HVocabulary.GetNumberOfWords, hcr, hwords]
  refine ⟨voc', hC, ?_, ?_, ?_⟩
  · rw [hwords, createWords_words_length, countP_isLeaf_of_shape _ _ hshape]
    exact (createWordsLoop_countP tree 0 []).symm
  · intro w hw
    rw [hNW] at hw
    obtain ⟨j, node, _, hleaf, h5, h6⟩ := createWordsLoop_word tree 0 [] w (Nat.zero_le _) hw
    have h5' : (CreateWords tree).2[w]? = some j := by
      have : (CreateWords tree).2[w]? = some (0 + j) := h5
      rwa [Nat.zero_add] at this
    obtain ⟨a, ha1, ha2, ha3⟩ := hget j _ h6
    refine ⟨j, a, by rw [hwords]; exact h5', ha1, ?_, ha3⟩
    unfold Node.isLeaf at hleaf ⊢
    rw [ha2]
    exact hleaf
  · intro a ha hnl
    obtain ⟨k, hk⟩ := List.mem_iff_getElem?.mp ha
    obtain ⟨b, hb1, hb2, hb3⟩ := hget' k a hk
    obtain ⟨node, hn1, _, hn3, hn4, _⟩ := createWords_node tree k b hb1
    have hnl2 : node.isLeaf = false := by
      unfold Node.isLeaf at hnl ⊢
      rw [← hn3, ← hb2]
      exact hnl
    rw [hb3, hn4 hnl2]
    exact hwid node (List.getElem?_mem hn1)

end CreateClaims

section LoadClaims
variable {K : Type} [LinearOrderedField K]

theorem example_saveText (weighting : WeightingType) (w0 w1 : K) :
    (exampleHVocabulary weighting w0 w1).SaveText = some
      [ Token.int 0, Token.int weighting.toInt, Token.int 0, Token.int 1, Token.int 1,
        Token.int 2, Token.int 0, Token.int 0,
        Token.int 2, Token.int 1, Token.int 3,
        Token.int 1, Token.int 0, Token.real w0, Token.real 1,
        Token.int 2, Token.int 0, Token.real w1, Token.real 5,
        Token.int 0, Token.real (2 / 3), Token.int 1,
        Token.int 1, Token.real (1 / 3), Token.int 2 ] := by
  rfl

theorem example_fromFile (A : StdAlgorithm) (weighting : WeightingType) (w0 w1 : K) :
    HVocabulary.fromFile A
      [ Token.int 0, Token.int weighting.toInt, Token.int 0, Token.int 1, Token.int 1,
        Token.int 2, Token.int 0, Token.int 0,
        Token.int 2, Token.int 1, Token.int 3,
        Token.int 1, Token.int 0, Token.real w0, Token.real 1,
        Token.int 2, Token.int 0, Token.real w1, Token.real 5,
        Token.int 0, Token.real (2 / 3), Token.int 1,
        Token.int 1, Token.real (1 / 3), Token.int 2 ] = none := by
  cases weighting <;> rfl


theorem example_loadText_same_length (A : StdAlgorithm) (weighting : WeightingType)
    (w0 w1 : K) :
    ∃ voc' : HVocabulary K,
      (HVocabulary.init (exampleParams weighting)).LoadText A
        [ Token.int 0, Token.int weighting.toInt, Token.int 0, Token.int 1, Token.int 1,
          Token.int 2, Token.int 0, Token.int 0,
          Token.int 2, Token.int 1, Token.int 3,
          Token.int 1, Token.int 0, Token.real w0, Token.real 1,
          Token.int 2, Token.int 0, Token.real w1, Token.real 5,
          Token.int 0, Token.real (2 / 3), Token.int 1,
          Token.int 1, Token.real (1 / 3), Token.int 2 ] = some (voc', []) ∧
      voc'.m_nodes = exampleNodes w0 w1 ∧ voc'.m_words = [1, 2] := by
  cases weighting <;> exact ⟨_, rfl, rfl, rfl⟩

/-- C19: the vocabulary over the training descriptors `1`, `1`, `5`
(`D = 1`, `k = 2`, `L = 1`) is saved by `SaveText` as 25 numbers. The
constructor `HVocabulary(filename)` on that file is undefined: `_load` reads
for the first node as many descriptor values as the `DescriptorLength` of
`HVocabulary::m_params`, which is still the 64 of `HVocParams(0, 0)` and not
the 1 of the header, and runs off the end of the file. Loaded into an object
whose `HVocabulary::m_params` has descriptor length 1, the same file gives
back the nodes and the words that were saved. -/
theorem load_reads_descriptor_length_of_the_object (A : StdAlgorithm)
    (weighting : WeightingType) (w0 w1 : K) :
    ∃ f : List (Token K),
      (exampleHVocabulary weighting w0 w1).SaveText = some f ∧ f.length = 25 ∧
      HVocabulary.fromFile A f = none ∧
      ∃ voc' : HVocabulary K,
        (HVocabulary.init (exampleParams weighting)).LoadText A f = some (voc', []) ∧
        voc'.m_nodes = exampleNodes w0 w1 ∧ voc'.m_words = [1, 2] :=
  ⟨_, example_saveText weighting w0 w1, rfl, example_fromFile A weighting w0 w1,
    example_loadText_same_length A weighting w0 w1⟩

end LoadClaims

section ExampleCreate

theorem example_createWords :
    CreateWords (exampleArena : List (Node ℚ)) =
      ([ { Id := 0, Children := [1, 2], Weight := 0, Descriptor := [], WId := NO_WORD },
         { Id := 1, Children := [], Weight := 0, Descriptor := [1], WId := 0 },
         { Id := 2, Children := [], Weight := 0, Descriptor := [5], WId := 1 } ], [1, 2]) := by
  rfl

theorem example_trainingWordIds :
    trainingWordIds
      (HVocabulary.TransformFeature
        { HVocabulary.init (exampleParams WeightingType.TF) with
          m_nodes := exampleNodes (0 : ℚ) 0, m_words := [1, 2], m_created := true })
      1 [[1], [1], [5]] = some [[0], [0], [1]] := by
  have h1 : ∀ tail : List ℚ, HVocabulary.TransformFeature
      { HVocabulary.init (exampleParams WeightingType.TF) with
        m_nodes := exampleNodes (0 : ℚ) 0, m_words := [1, 2], m_created := true }
      (1 :: tail) = some 0 := fun tail => example_descend_one 0 0 tail
  have h5 : ∀ tail : List ℚ, HVocabulary.TransformFeature
      { HVocabulary.init (exampleParams WeightingType.TF) with
        m_nodes := exampleNodes (0 : ℚ) 0, m_words := [1, 2], m_created := true }
      (5 :: tail) = some 1 := fun tail => example_descend_five 0 0 tail
  simp [trainingWordIds, featureSlots_one, wordIds, h1, h5, List.range_succ]


theorem example_getWordWeights :
    HVocabulary.GetWordWeightsAndCreateStopList ratLib mergeSortAlgorithm
      { HVocabulary.init (exampleParams WeightingType.TF) with
        m_nodes := exampleNodes (0 : ℚ) 0, m_words := [1, 2], m_created := true }
      [[1], [1], [5]] =
    some ({ exampleHVocabulary WeightingType.TF (0 : ℚ) 0 with m_nodes := exampleNodes 0 0 },
      [1, 1]) := by
  unfold HVocabulary.GetWordWeightsAndCreateStopList
  have hD : ({ HVocabulary.init (exampleParams WeightingType.TF) with
        m_nodes := exampleNodes (0 : ℚ) 0, m_words := [1, 2],
        m_created := true } : HVocabulary ℚ).base_m_params.DescriptorLength.toNat = 1 := rfl
  rw [hD, example_trainingWordIds]
  simp [HVocabulary.GetNumberOfWords, HVocabulary.init, exampleParams, bumpFrequency,
    HVocabulary.CreateStopList, exampleHVocabulary, mergeSortAlgorithm, List.mergeSort,
    List.merge, List.splitInTwo, pairLt, List.range_succ]
  norm_num
  refine ⟨rfl, ?_⟩
  have hr : List.range 2 = [0, 1] := rfl
  rw [hr]
  norm_num [List.zip, List.zipWith, List.mergeSort, List.merge, List.splitInTwo]


/-- `Create` on the three training documents `[1]`, `[1]`, `[5]` with `TF`
weighting, for the arena with the centres `1` and `5`, gives the small
vocabulary with both weights `1`. -/
theorem example_createWith :
    (HVocabulary.init (exampleParams WeightingType.TF)).CreateWith ratLib mergeSortAlgorithm
      exampleArena [[1], [1], [5]] = some (exampleHVocabulary WeightingType.TF (1 : ℚ) 1) := by
  have h : HVocabulary.GetWordWeightsAndCreateStopList ratLib mergeSortAlgorithm
      { HVocabulary.init (exampleParams WeightingType.TF) with
        m_nodes := (CreateWords (exampleArena : List (Node ℚ))).1,
        m_words := (CreateWords (exampleArena : List (Node ℚ))).2, m_created := true }
      [[1], [1], [5]] =
      some ({ exampleHVocabulary WeightingType.TF (0 : ℚ) 0 with m_nodes := exampleNodes 0 0 },
        [1, 1]) := example_getWordWeights
  unfold HVocabulary.CreateWith
  rw [if_pos ⟨by decide, by decide⟩]
  unfold HVocabulary.SetNodeWeights
  rw [h]
  rfl

end ExampleCreate

section IndexRows
variable {K : Type} [LinearOrderedField K]

theorem filter_id_of_nodup (u : BowVector K) (w : Nat) (h : (u.map (fun e => e.id)).Nodup) :
    (u.filter (fun e => decide (e.id = w))).length ≤ 1 := by
  induction u with
  | nil => simp
  | cons e t ih =>
    rw [List.map_cons, List.nodup_cons] at h
    by_cases hw : e.id = w
    · have ht : t.filter (fun e => decide (e.id = w)) = [] := by
        rw [List.filter_eq_nil_iff]
        intro x hx hxw
        simp only [decide_eq_true_eq] at hxw
        apply h.1
        rw [hw, ← hxw]
        exact List.mem_map_of_mem _ hx
      simp [List.filter_cons, hw, ht]
    · simp only [List.filter_cons, hw, decide_False, Bool.false_eq_true, if_false]
      exact ih h.2

theorem pairwise_of_length_le_one {α : Type} (R : α → α → Prop) (l : List α)
    (h : l.length ≤ 1) : l.Pairwise R := by
  match l with
  | [] => exact List.Pairwise.nil
  | [a] => exact List.pairwise_singleton R a
  | a :: b :: t => simp at h

theorem storedRow_pairwise (m : Nat) (us : List (BowVector K)) (w : Nat)
    (h : ∀ u ∈ us, (u.map (fun e => e.id)).Nodup) :
    (storedRow m us w).Pairwise (fun a b => a.id < b.id) := by
  induction us generalizing m with
  | nil => exact List.Pairwise.nil
  | cons u rest ih =>
    simp only [storedRow]
    rw [List.pairwise_append]
    refine ⟨?_, ih (m + 1) (fun x hx => h x (List.mem_cons_of_mem _ hx)), ?_⟩
    · apply pairwise_of_length_le_one
      rw [List.length_map]
      exact filter_id_of_nodup u w (h u (List.mem_cons_self _ _))
    · intro a ha b hb
      obtain ⟨e, _, rfl⟩ := List.mem_map.mp ha
      have := storedRow_id_ge (m + 1) rest w b hb
      show m < b.id
      omega

/-- C28 (amended): after every sequence of at most `2^32` `AddEntry` calls on
a new database, with vectors whose word ids are below the number of words and
in none of which a word id occurs twice (the vectors need not be in order),
every row of the inverted file has strictly ascending entry ids. The bound on
the word ids keeps `m_index[it->id]` inside the index, where the source is
defined. -/
theorem addEntry_rows_strictly_ascending (L : StdLib K) (voc : Vocabulary)
    (vs : List (BowVector K)) (hlen : vs.length ≤ 4294967296)
    (hW : ∀ v ∈ vs, ∀ e ∈ v, e.id < voc.NumberOfWords)
    (hnd : ∀ v ∈ vs, (v.map (fun e => e.id)).Nodup) :
    ∀ row ∈ ((Database.create K voc).addAll L vs).m_index,
      row.Pairwise (fun a b => a.id < b.id) := by
  intro row hrow
  obtain ⟨w, hw⟩ := List.mem_iff_getElem?.mp hrow
  have hget : ((Database.create K voc).addAll L vs).m_index.getD w [] = row := by
    rw [List.getD_eq_getElem?_getD, hw]
    rfl
  rw [getD_index_fresh L voc vs w hlen] at hget
  rw [← hget]
  split
  · apply storedRow_pairwise
    intro u hu
    obtain ⟨v, hv, rfl⟩ := List.mem_map.mp hu
    rw [map_id_normalizeFor]
    exact hnd v hv
  · exact List.Pairwise.nil

/-- Witness for C28: the three example entries over a vocabulary of two words. -/
theorem addEntry_rows_strictly_ascending_witness :
    (exampleEntries ℚ).length ≤ 4294967296 ∧
    (∀ v ∈ exampleEntries ℚ, ∀ e ∈ v, e.id < (exampleVoc 2 .L1_NORM true).NumberOfWords) ∧
    (∀ v ∈ exampleEntries ℚ, (v.map (fun e => e.id)).Nodup) ∧
    ∀ row ∈ ((Database.create ℚ (exampleVoc 2 .L1_NORM true)).addAll ratLib
        (exampleEntries ℚ)).m_index,
      row.Pairwise (fun a b => a.id < b.id) :=
  ⟨by simp [exampleEntries], ids_lt_exampleEntries ℚ, by simp [exampleEntries],
    addEntry_rows_strictly_ascending ratLib (exampleVoc 2 .L1_NORM true) (exampleEntries ℚ)
      (by simp [exampleEntries]) (ids_lt_exampleEntries ℚ) (by simp [exampleEntries])⟩

/-- C28 (counterexample): one `AddEntry` call with the vector
`[(0, 1), (0, 1)]`, whose word ids are below the two words of the vocabulary,
leaves the row of word 0 with the entry ids `0, 0`, which are not strictly
ascending. -/
theorem addEntry_repeated_word_repeats_entry_id :
    ¬ ∀ row ∈ ((Database.create ℚ (exampleVoc 2 .DOT_PRODUCT true)).addAll ratLib
        [[{ id := 0, value := 1 }, { id := 0, value := 1 }]]).m_index,
      row.Pairwise (fun a b => a.id < b.id) := by
  intro h
  have h0 := h [{ id := 0, value := 1 }, { id := 0, value := 1 }] (List.mem_cons_self _ _)
  simp at h0


theorem run_append (L : StdLib K) (db : Database K) (ops ops' : List (DbOp K)) :
    Database.run L db (ops ++ ops') =
      ((Database.run L db ops).1 ++ (Database.run L (Database.run L db ops).2 ops').1,
        (Database.run L (Database.run L db ops).2 ops').2) := by
  induction ops generalizing db with
  | nil => simp [Database.run]
  | cons op rest ih =>
    cases op with
    | AddEntry v => simp [Database.run, ih]
    | Clear => simp [Database.run, ih]

theorem run_addEntries (L : StdLib K) (db : Database K) (vs : List (BowVector K)) :
    (Database.run L db (vs.map DbOp.AddEntry)).1 = db.addAllIds L vs := by
  induction vs generalizing db with
  | nil => rfl
  | cons v rest ih => simp [Database.run, Database.addAllIds, ih]

/-- C29 (amended): over every sequence of `AddEntry` and `Clear` operations on
a database, the `AddEntry` calls of a run without `Clear` return consecutive,
hence different, entry ids as long as the counter stays within 32 bits; after
a `Clear` the counter is 0, so the ids of the next run start at 0 again. -/
theorem entry_ids_distinct_between_clears (L : StdLib K) (db : Database K)
    (ops : List (DbOp K)) (vs : List (BowVector K))
    (h : (Database.run L db ops).2.m_nentries + vs.length ≤ 4294967296) :
    (Database.run L db (ops ++ vs.map DbOp.AddEntry)).1 =
      (Database.run L db ops).1 ++
        List.range' (Database.run L db ops).2.m_nentries vs.length ∧
    (List.range' (Database.run L db ops).2.m_nentries vs.length).Nodup ∧
    (Database.run L db (ops ++ [DbOp.Clear])).2.m_nentries = 0 := by
  refine ⟨?_, List.nodup_range' _ _, ?_⟩
  · rw [run_append, run_addEntries, addAllIds_eq_range L _ vs h]
  · rw [run_append]
    rfl

theorem entry_ids_distinct_between_clears_witness :
    (Database.run ratLib (Database.create ℚ (exampleVoc 2 .L1_NORM true))
      (([DbOp.AddEntry [{ id := 0, value := 1 }], DbOp.Clear] : List (DbOp ℚ)) ++
        (exampleEntries ℚ).map DbOp.AddEntry)).1 =
      (Database.run ratLib (Database.create ℚ (exampleVoc 2 .L1_NORM true))
        [DbOp.AddEntry [{ id := 0, value := 1 }], DbOp.Clear]).1 ++ List.range' 0 3 :=
  (entry_ids_distinct_between_clears ratLib (Database.create ℚ (exampleVoc 2 .L1_NORM true))
    [DbOp.AddEntry [{ id := 0, value := 1 }], DbOp.Clear] (exampleEntries ℚ)
    (by simp [Database.run, Database.Clear, exampleEntries])).1

/-- C29 (counterexample): `AddEntry`, `Clear`, `AddEntry` on a new database
returns the entry id 0 twice. -/
theorem clear_restarts_entry_ids :
    ¬ (Database.run ratLib (Database.create ℚ (exampleVoc 2 .DOT_PRODUCT true))
      [DbOp.AddEntry [{ id := 0, value := 1 }], DbOp.Clear,
        DbOp.AddEntry [{ id := 1, value := 1 }]]).1.Nodup := by
  have h : (Database.run ratLib (Database.create ℚ (exampleVoc 2 .DOT_PRODUCT true))
      [DbOp.AddEntry [{ id := 0, value := 1 }], DbOp.Clear,
        DbOp.AddEntry [{ id := 1, value := 1 }]]).1 = [0, 0] := rfl
  rw [h]
  decide

end IndexRows

section ClearClaims
variable {K : Type} [LinearOrderedField K]

theorem accumulateRows_of_empty_rows (f : K → K → K) (index : List (IFRow K))
    (h : ∀ w : Nat, index.getD w [] = []) (v : BowVector K) : accumulateRows f index v = [] := by
  unfold accumulateRows
  have : ∀ (ret : List (Result K)), v.foldl (fun ret it =>
      (index.getD it.id []).foldl
        (fun ret rit => addScore ret rit.id (f it.value rit.value)) ret) ret = ret := by
    induction v with
    | nil => intro ret; rfl
    | cons e rest ih =>
      intro ret
      rw [List.foldl_cons, h e.id, List.foldl_nil, ih]
  exact this []

theorem sort_nil (L : StdLib K) (hsort : SortSpec L) (lt : Result K → Result K → Bool)
    (hlt : lt = Result.lt ∨ lt = Result.GreaterThan) : L.sort lt [] = [] :=
  (hsort lt [] hlt).1.eq_nil

theorem getD_replicate_nil (n w : Nat) : (List.replicate n ([] : IFRow K)).getD w [] = [] := by
  rw [List.getD_eq_getElem?_getD, List.getElem?_replicate]
  split <;> rfl

theorem query_of_empty_rows (L : StdLib K) (hsort : SortSpec L) (db : Database K)
    (h : ∀ w : Nat, db.m_index.getD w [] = []) (v : BowVector K) (max_results : Nat) :
    db.Query L v max_results = [] := by
  have hs1 := sort_nil L hsort Result.lt (Or.inl rfl)
  have hs2 := sort_nil L hsort Result.GreaterThan (Or.inr rfl)
  unfold Database.Query Database._Query
  cases hS : db.m_voc.m_params.Scoring <;>
    simp [doQueryL1, doQueryL2, doQueryChiSquare, doQueryKL, doQueryBhattacharyya,
      doQueryDotProduct, sortedL1, sortedL2, sortedChiSquare,
      accumulateRows_of_empty_rows _ _ h, hs1, hs2, cut, mapScore, hS]

/-- C30: for every database state, `Clear` leaves an inverted file of exactly
`NumberOfWords()` rows, all of them empty, and `NumberOfEntries()` equal to 0;
the vocabulary object (tree, weights, frequencies, stop list, parameters) is
the one the database had; and a `Query` right after `Clear` returns no
result. -/
theorem clear_empties_the_database (L : StdLib K) (hsort : SortSpec L) (db : HDatabase K)
    (v : BowVector K) (max_results : Nat) :
    db.Clear.m_index.length = db.m_voc.NumberOfWords ∧
    (∀ row ∈ db.Clear.m_index, row = []) ∧
    db.Clear.toDatabase.NumberOfEntries = 0 ∧
    db.Clear.m_voc = db.m_voc ∧
    db.Clear.toDatabase = db.toDatabase.Clear ∧
    db.Clear.toDatabase.Query L v max_results = [] := by
  refine ⟨by simp [HDatabase.Clear], ?_, rfl, rfl, ?_, ?_⟩
  · intro row hrow
    exact List.eq_of_mem_replicate hrow
  · simp [HDatabase.Clear, HDatabase.toDatabase, Database.Clear, HVocabulary.toVocabulary,
      HVocabulary.NumberOfWords, Vocabulary.NumberOfWords, HVocabulary.GetNumberOfWords]
  · apply query_of_empty_rows L hsort
    intro w
    exact getD_replicate_nil _ _

theorem clear_empties_the_database_witness :
    SortSpec ratLib ∧
    (exampleHDatabase WeightingType.TF_IDF (1 : ℚ) 1).Clear.m_index.length = 2 ∧
    (exampleHDatabase WeightingType.TF_IDF (1 : ℚ) 1).Clear.toDatabase.Query ratLib
      [{ id := 0, value := 1 }] 10 = [] :=
  ⟨ratLib_sortSpec,
    (clear_empties_the_database ratLib ratLib_sortSpec
      (exampleHDatabase WeightingType.TF_IDF (1 : ℚ) 1) [{ id := 0, value := 1 }] 10).1,
    (clear_empties_the_database ratLib ratLib_sortSpec
      (exampleHDatabase WeightingType.TF_IDF (1 : ℚ) 1) [{ id := 0, value := 1 }] 10).2.2.2.2.2⟩

end ClearClaims

section PersistenceClaims
variable {K : Type} [LinearOrderedField K]

theorem example_createStopList (weighting : WeightingType) (w0 w1 : ℚ) :
    HVocabulary.CreateStopList mergeSortAlgorithm (exampleHVocabulary weighting w0 w1) =
      exampleHVocabulary weighting w0 w1 := by
  have hr : List.range 2 = [0, 1] := rfl
  simp only [HVocabulary.CreateStopList, exampleHVocabulary, List.length_cons, List.length_nil,
    Nat.reduceAdd, hr, mergeSortAlgorithm]
  have hs : (([2 / 3, 1 / 3] : List ℚ).zip [0, 1]).mergeSort (fun a b => !pairLt b a) =
      [(1 / 3, 1), (2 / 3, 0)] := by
    norm_num [List.zip, List.zipWith, List.mergeSort, List.merge, List.splitInTwo, pairLt]
  rw [hs]
  rfl

theorem example_loadText_roundtrip (weighting : WeightingType) (w0 w1 : ℚ) :
    (HVocabulary.init (exampleParams weighting)).LoadText mergeSortAlgorithm
      [ Token.int 0, Token.int weighting.toInt, Token.int 0, Token.int 1, Token.int 1,
        Token.int 2, Token.int 0, Token.int 0,
        Token.int 2, Token.int 1, Token.int 3,
        Token.int 1, Token.int 0, Token.real w0, Token.real 1,
        Token.int 2, Token.int 0, Token.real w1, Token.real 5,
        Token.int 0, Token.real (2 / 3), Token.int 1,
        Token.int 1, Token.real (1 / 3), Token.int 2 ] =
      some (exampleHVocabulary weighting w0 w1, []) := by
  have h1 : (HVocabulary.init (exampleParams weighting)).LoadText mergeSortAlgorithm
      [ Token.int 0, Token.int weighting.toInt, Token.int 0, Token.int 1, Token.int 1,
        Token.int 2, Token.int 0, Token.int 0,
        Token.int 2, Token.int 1, Token.int 3,
        Token.int 1, Token.int 0, Token.real w0, Token.real 1,
        Token.int 2, Token.int 0, Token.real w1, Token.real 5,
        Token.int 0, Token.real (2 / 3), Token.int 1,
        Token.int 1, Token.real (1 / 3), Token.int 2 ] =
      some (HVocabulary.StopWords
        (HVocabulary.CreateStopList mergeSortAlgorithm (exampleHVocabulary weighting w0 w1))
        0 0, []) := by
    cases weighting <;> rfl
  rw [h1, example_createStopList]
  rfl

/-- C25: the vocabulary over the training descriptors `1`, `1`, `5` (`D = 1`,
`k = 2`, `L = 1`, weights `w0`, `w1`) is saved by `SaveText`. Loaded into an
object built with descriptor length 1 the file gives back the vocabulary that
was saved, member by member, and is read to its end; the constructor
`HVocabulary(filename)`, whose object has the descriptor length 64 of
`HVocParams(0, 0)`, is undefined on the same file. -/
theorem save_then_load_needs_the_descriptor_length (weighting : WeightingType) (w0 w1 : ℚ) :
    ∃ f : List (Token ℚ),
      (exampleHVocabulary weighting w0 w1).SaveText = some f ∧
      (HVocabulary.init (exampleParams weighting)).LoadText mergeSortAlgorithm f =
        some (exampleHVocabulary weighting w0 w1, []) ∧
      HVocabulary.fromFile mergeSortAlgorithm f = none :=
  ⟨_, example_saveText weighting w0 w1, example_loadText_roundtrip weighting w0 w1,
    example_fromFile mergeSortAlgorithm weighting w0 w1⟩

/-- C26: after `LoadTextHeader` on the file of the small vocabulary, whose
header holds `D = 1`, the parameters of the base class have descriptor length
1, the stride of `Vocabulary::Transform`, while `HVocabulary::m_params` keeps
the 64 of its construction, the length used by `DescriptorSqDistance` and the
number of values `_load` reads for a node; `_load` then runs off the end of
the file. This holds for the object of `HVocabulary(filename)`, built with
`HVocParams(0, 0)`, and for the object of `Database::initVoc`, built with
`HVocParams(2, 1)`. -/
theorem load_keeps_descriptor_length_of_construction (A : StdAlgorithm)
    (weighting : WeightingType) (w0 w1 : K) (k L : Int) :
    ∃ (f rest : List (Token K)) (voc : HVocabulary K) (nwords : Int),
      (exampleHVocabulary weighting w0 w1).SaveText = some f ∧
      (HVocabulary.init (HVocParams.withDefaults k L)).LoadTextHeader f =
        some (voc, nwords, rest) ∧
      voc.base_m_params.DescriptorLength = 1 ∧ voc.m_params.DescriptorLength = 64 ∧
      HVocabulary._load A voc rest nwords = none := by
  refine ⟨_,
    [ Token.int 2, Token.int 1, Token.int 3,
      Token.int 1, Token.int 0, Token.real w0, Token.real 1,
      Token.int 2, Token.int 0, Token.real w1, Token.real 5,
      Token.int 0, Token.real (2 / 3), Token.int 1,
      Token.int 1, Token.real (1 / 3), Token.int 2 ],
    { HVocabulary.init (HVocParams.withDefaults k L) with
      m_frequent_words_stopped := 0
      m_infrequent_words_stopped := 0
      base_m_params :=
        { Weighting := weighting, Scoring := .L1_NORM, ScaleScore := true,
          DescriptorLength := 1 } },
    2, example_saveText weighting w0 w1, ?_, rfl, rfl, rfl⟩
  cases weighting <;> rfl

theorem example_database_saveText (weighting : WeightingType) (w0 w1 : K) :
    (exampleHDatabase weighting w0 w1).SaveText = some
      [ Token.int 0, Token.int weighting.toInt, Token.int 0, Token.int 1, Token.int 1,
        Token.int 2, Token.int 0, Token.int 0,
        Token.int 2, Token.int 1, Token.int 3,
        Token.int 1, Token.int 0, Token.real w0, Token.real 1,
        Token.int 2, Token.int 0, Token.real w1, Token.real 5,
        Token.int 0, Token.real (2 / 3), Token.int 1,
        Token.int 1, Token.real (1 / 3), Token.int 2,
        Token.int 1, Token.int 1,
        Token.int 0, Token.int 1, Token.int 0, Token.real 1 ] := by
  rfl

/-- C27: the database over the small vocabulary (`D = 1`) with the single
entry `[(0, 1)]` is saved by `SaveText` as the 25 numbers of the vocabulary
followed by `1 1` and the row `0 1 0 1`. `LoadText` on that file is
undefined: the vocabulary is loaded into `HVocabulary(HVocParams(2, 1))`,
whose descriptor length is 64, and `_load` of the vocabulary runs off the end
of the file before the database is read. -/
theorem database_load_fails_with_the_vocabulary (A : StdAlgorithm)
    (weighting : WeightingType) (w0 w1 : K) :
    ∃ f : List (Token K),
      (exampleHDatabase weighting w0 w1).SaveText = some f ∧ f.length = 31 ∧
      HDatabase.LoadText A f = none := by
  refine ⟨_, example_database_saveText weighting w0 w1, rfl, ?_⟩
  cases weighting <;> rfl

theorem castUnsigned_castInt (x : Nat) (h : x < 4294967296) : castUnsigned (castInt x) = x := by
  unfold castUnsigned castInt
  rw [Nat.mod_eq_of_lt h]
  split
  · have : ((x : Int) % 4294967296) = x := Int.emod_eq_of_lt (by omega) (by omega)
    rw [this]
    rfl
  · have : (((x : Int) - 4294967296) % 4294967296) = x := by
      rw [Int.sub_emod, Int.emod_self, sub_zero, Int.emod_emod_of_dvd _ (dvd_refl _)]
      exact Int.emod_eq_of_lt (by omega) (by omega)
    rw [this]
    rfl

theorem pushBackAt_append (pre : List (IFRow K)) (cur : IFRow K) (post : List (IFRow K))
    (e : IFEntry K) :
    pushBackAt (pre ++ cur :: post) pre.length e = pre ++ (cur ++ [e]) :: post := by
  induction pre with
  | nil => rfl
  | cons r rest ih =>
    show r :: pushBackAt (rest ++ cur :: post) rest.length e = _
    rw [ih]
    rfl

theorem loadRow_saved (pre : List (IFRow K)) (post : List (IFRow K)) (row : IFRow K)
    (hid : ∀ e ∈ row, e.id < 4294967296) (tail : List (Token K)) :
    ∀ cur : IFRow K,
      loadRow (pre.length : Int) row.length (pre ++ cur :: post)
        (row.flatMap (fun rit => [Token.int (castInt rit.id), Token.real rit.value]) ++ tail) =
      some (pre ++ (cur ++ row) :: post, tail) := by
  induction row with
  | nil => intro cur; simp [loadRow]
  | cons e rest ih =>
    intro cur
    have hlt : ¬ ((pre.length : Int) < 0 ∨
        ((pre ++ cur :: post).length : Int) ≤ (pre.length : Int)) := by
      simp only [List.length_append, List.length_cons]
      omega
    have he : castUnsigned (castInt e.id) = e.id :=
      castUnsigned_castInt _ (hid e (List.mem_cons_self _ _))
    simp only [List.flatMap_cons, List.length_cons, List.cons_append, List.nil_append, loadRow,
      readInt, readReal, if_neg hlt, Int.toNat_ofNat, he, pushBackAt_append]
    rw [ih (fun x hx => hid x (List.mem_cons_of_mem _ hx))]
    simp

theorem loadRows_saved (rest : List (IFRow K))
    (hid : ∀ row ∈ rest, ∀ e ∈ row, e.id < 4294967296) :
    ∀ pre : List (IFRow K),
      loadRows (rest.countP (fun row => !row.isEmpty))
        (pre ++ List.replicate rest.length []) (saveRows pre.length rest) =
      some (pre ++ rest) := by
  induction rest with
  | nil => intro pre; simp [loadRows]
  | cons row rest ih =>
    intro pre
    have hrest := ih (fun r hr => hid r (List.mem_cons_of_mem _ hr)) (pre ++ [row])
    rw [List.length_append, List.length_singleton, List.append_assoc, List.append_assoc] at hrest
    cases row with
    | nil =>
      simpa [saveRows, List.replicate_succ] using hrest
    | cons e es =>
      have hrow := loadRow_saved pre (List.replicate rest.length []) (e :: es)
        (hid _ (List.mem_cons_self _ _)) (saveRows (pre.length + 1) rest) []
      simp only [List.nil_append] at hrow
      simp only [saveRows, List.isEmpty_cons, Bool.false_eq_true, if_false, List.countP_cons,
        Bool.not_false, if_true, List.length_cons, List.replicate_succ, List.cons_append,
        List.nil_append, loadRows, readInt, List.append_assoc]
      have hk : ((es.length + 1 : Nat) : Int).toNat = (e :: es).length := by
        simp
      rw [hk, hrow]
      simpa using hrest

/-- The second half of `Database::LoadText` gives back what the second half
of `Database::SaveText` wrote: for every vocabulary object, every inverted
file with one row per word and every counter, both within 32 bits, `_load` on
the saved numbers returns the inverted file and the counter. -/
theorem database_load_of_saved_rows (voc : HVocabulary K) (index : List (IFRow K)) (n : Nat)
    (hlen : index.length = voc.NumberOfWords) (hn : n < 4294967296)
    (hid : ∀ row ∈ index, ∀ e ∈ row, e.id < 4294967296) :
    HDatabase._load voc
      ([Token.int (castInt n), Token.int (index.countP (fun row => !row.isEmpty))] ++
        saveRows 0 index) =
      some { m_voc := voc, m_index := index, m_nentries := n } := by
  have h := loadRows_saved index hid []
  simp only [List.nil_append, List.length_nil] at h
  simp only [HDatabase._load, List.cons_append, List.nil_append, readInt, Int.toNat_ofNat,
    ← hlen, h, castUnsigned_castInt n hn]

end PersistenceClaims

section DescentClaims
variable {K : Type} [LinearOrderedField K]

theorem foldl_best_nearest (g : Nat → K) (rest : List Nat) :
    ∀ (done : List Nat) (best : Nat × K), best.2 = g best.1 →
      (∃ j : Nat, done[j]? = some best.1 ∧
        (∀ (i x : Nat), done[i]? = some x → g best.1 ≤ g x) ∧
        (∀ (i x : Nat), i < j → done[i]? = some x → g best.1 < g x)) →
      ∃ j : Nat, (done ++ rest)[j]? =
          some (rest.foldl (fun (best : Nat × K) (id : Nat) =>
            if g id < best.2 then (id, g id) else best) best).1 ∧
        (∀ (i x : Nat), (done ++ rest)[i]? = some x →
          g (rest.foldl (fun (best : Nat × K) (id : Nat) =>
            if g id < best.2 then (id, g id) else best) best).1 ≤ g x) ∧
        (∀ (i x : Nat), i < j → (done ++ rest)[i]? = some x →
          g (rest.foldl (fun (best : Nat × K) (id : Nat) =>
            if g id < best.2 then (id, g id) else best) best).1 < g x) := by
  induction rest with
  | nil =>
    intro done best _ h
    simpa using h
  | cons y rest ih =>
    intro done best hb ⟨j, hj, hle, hlt⟩
    have hj' : j < done.length := (List.getElem?_eq_some_iff.mp hj).1
    have happ : done ++ y :: rest = (done ++ [y]) ++ rest := by simp
    rw [List.foldl_cons, happ]
    by_cases hy : g y < best.2
    · rw [if_pos hy]
      apply ih (done ++ [y]) (y, g y) rfl
      refine ⟨done.length, by simp, ?_, ?_⟩
      · intro i x hx
        by_cases hi : i < done.length
        · rw [List.getElem?_append_left hi] at hx
          have := hle i x hx
          rw [hb] at hy
          exact le_of_lt (lt_of_lt_of_le hy this)
        · rw [List.getElem?_append_right (by omega)] at hx
          have hi0 : i - done.length = 0 := by
            by_contra hne
            rw [List.getElem?_eq_none (by simp; omega)] at hx
            exact absurd hx (by simp)
          rw [hi0] at hx
          simp only [List.getElem?_cons_zero, Option.some.injEq] at hx
          rw [hx]
      · intro i x hi hx
        rw [List.getElem?_append_left hi] at hx
        have := hle i x hx
        rw [hb] at hy
        exact lt_of_lt_of_le hy this
    · rw [if_neg hy]
      apply ih (done ++ [y]) best hb
      refine ⟨j, by rw [List.getElem?_append_left hj']; exact hj, ?_, ?_⟩
      · intro i x hx
        by_cases hi : i < done.length
        · rw [List.getElem?_append_left hi] at hx
          exact hle i x hx
        · rw [List.getElem?_append_right (by omega)] at hx
          have hi0 : i - done.length = 0 := by
            by_contra hne
            rw [List.getElem?_eq_none (by simp; omega)] at hx
            exact absurd hx (by simp)
          rw [hi0] at hx
          simp only [List.getElem?_cons_zero, Option.some.injEq] at hx
          rw [← hx, ← hb]
          exact not_lt.mp hy
      · intro i x hi hx
        rw [List.getElem?_append_left (by omega)] at hx
        exact hlt i x hi hx

theorem nearestChild_isNearest (m_nodes : List (Node K)) (D : Int) (pf : List K) (first : Nat)
    (rest : List Nat) :
    IsNearestChild m_nodes D pf (first :: rest) (nearestChild m_nodes D pf first rest) := by
  have h := foldl_best_nearest
    (fun id => DescriptorSqDistance D pf (m_nodes.getD id (Node.create 0)).Descriptor) rest
    [first] (first, DescriptorSqDistance D pf (m_nodes.getD first (Node.create 0)).Descriptor)
    rfl ⟨0, rfl, by
      intro i x hx
      cases i with
      | zero => simp only [List.getElem?_cons_zero, Option.some.injEq] at hx; rw [hx]
      | succ i => simp at hx, by
      intro i x hi _
      omega⟩
  exact h

theorem isNearestChild_unique (m_nodes : List (Node K)) (D : Int) (pf : List K)
    (children : List Nat) (c c' : Nat) (h : IsNearestChild m_nodes D pf children c)
    (h' : IsNearestChild m_nodes D pf children c') : c = c' := by
  obtain ⟨j, hj, hle, hlt⟩ := h
  obtain ⟨j', hj', hle', hlt'⟩ := h'
  rcases Nat.lt_trichotomy j j' with hlt1 | heq | hgt
  · exact absurd (hlt' j c hlt1 hj) (not_lt.mpr (hle j' c' hj'))
  · subst heq
    rw [hj] at hj'
    exact Option.some.inj hj'
  · exact absurd (hlt j' c' hgt hj') (not_lt.mpr (hle' j c hj))

theorem specDescent_unique (m_nodes : List (Node K)) (D : Int) (pf : List K) (id w w' : Nat)
    (h : SpecDescent m_nodes D pf id w) (h' : SpecDescent m_nodes D pf id w') : w = w' := by
  induction h with
  | leaf id parent c node hp hn hc hl =>
    cases h' with
    | leaf _ parent' c' node' hp' hn' hc' hl' =>
      rw [hp] at hp'
      cases Option.some.inj hp'
      have := isNearestChild_unique m_nodes D pf _ c c' hn hn'
      subst this
      rw [hc] at hc'
      cases Option.some.inj hc'
      rfl
    | step _ parent' c' node' _ hp' hn' hc' hl' _ =>
      rw [hp] at hp'
      cases Option.some.inj hp'
      have := isNearestChild_unique m_nodes D pf _ c c' hn hn'
      subst this
      rw [hc] at hc'
      cases Option.some.inj hc'
      rw [hl] at hl'
      exact absurd hl' (by simp)
  | step id parent c node w hp hn hc hl _ ih =>
    cases h' with
    | leaf _ parent' c' node' hp' hn' hc' hl' =>
      rw [hp] at hp'
      cases Option.some.inj hp'
      have := isNearestChild_unique m_nodes D pf _ c c' hn hn'
      subst this
      rw [hc] at hc'
      cases Option.some.inj hc'
      rw [hl] at hl'
      exact absurd hl' (by simp)
    | step _ parent' c' node' _ hp' hn' hc' hl' hd' =>
      rw [hp] at hp'
      cases Option.some.inj hp'
      have := isNearestChild_unique m_nodes D pf _ c c' hn hn'
      subst this
      exact ih hd'

/-- The loop of the descent returns, within the fuel of one unit per node of
the arena, the word id of the leaf that the descent of the specification
reaches. -/
theorem descend_spec (m_nodes : List (Node K)) (D : Int) (pf : List K)
    (hchild : ∀ (i : Nat) (node : Node K), m_nodes[i]? = some node →
      ∀ c ∈ node.Children, i < c ∧ c < m_nodes.length) :
    ∀ (fuel id : Nat) (node : Node K), m_nodes[id]? = some node → node.Children ≠ [] →
      m_nodes.length ≤ id + fuel →
      ∃ (n : Nat) (leaf : Node K), m_nodes[n]? = some leaf ∧ leaf.isLeaf = true ∧
        descend m_nodes D pf fuel id = some leaf.WId ∧
        SpecDescent m_nodes D pf id leaf.WId := by
  intro fuel
  induction fuel with
  | zero =>
    intro id node hnode _ hlen
    have := (List.getElem?_eq_some_iff.mp hnode).1
    omega
  | succ fuel ih =>
    intro id node hnode hne hlen
    cases hch : node.Children with
    | nil => exact absurd hch hne
    | cons first rest =>
      have hmem : nearestChild m_nodes D pf first rest ∈ node.Children := by
        rw [hch]; exact nearestChild_mem m_nodes D pf first rest
      have hnear : IsNearestChild m_nodes D pf node.Children
          (nearestChild m_nodes D pf first rest) := by
        rw [hch]; exact nearestChild_isNearest m_nodes D pf first rest
      obtain ⟨hlt, hin⟩ := hchild id node hnode _ hmem
      obtain ⟨next, hnext⟩ : ∃ next, m_nodes[nearestChild m_nodes D pf first rest]? = some next :=
        ⟨m_nodes[nearestChild m_nodes D pf first rest], List.getElem?_eq_getElem hin⟩
      simp only [descend, hnode, hch, hnext]
      by_cases hleaf : next.isLeaf = true
      · rw [if_pos hleaf]
        exact ⟨_, next, hnext, hleaf, rfl, SpecDescent.leaf id node _ next hnode hnear hnext hleaf⟩
      · rw [if_neg hleaf]
        obtain ⟨n, leaf, h1, h2, h3, h4⟩ := ih _ next hnext (by
          intro h
          apply hleaf
          simp [Node.isLeaf, h]) (by omega)
        exact ⟨n, leaf, h1, h2, h3,
          SpecDescent.step id node _ next _ hnode hnear hnext (by simpa using hleaf) h4⟩

/-- C24: in a created vocabulary whose tree satisfies the structural invariants
(the root has a child, the children of every node are later nodes of the
arena, the word id of every leaf indexes `m_words`), the single-descriptor
`Transform` returns, for every descriptor, the word id of the one leaf reached
from the root by taking at each node the child of minimal squared distance,
the lowest child index winning a tie, and that id is below `NumberOfWords()`;
in a vocabulary that is not created it returns `0`. -/
theorem transform_descends_to_nearest_leaf (voc : HVocabulary K) (pfeature : List K) :
    (voc.m_created = false → voc.TransformFeature pfeature = some 0) ∧
    (voc.m_created = true → TreeOk voc.m_nodes →
      (∀ (n : Nat) (leaf : Node K), voc.m_nodes[n]? = some leaf → leaf.isLeaf = true →
        leaf.WId < voc.m_words.length) →
      ∃ w : Nat, voc.TransformFeature pfeature = some w ∧
        SpecDescent voc.m_nodes voc.m_params.DescriptorLength pfeature 0 w ∧
        (∀ w' : Nat, SpecDescent voc.m_nodes voc.m_params.DescriptorLength pfeature 0 w' →
          w' = w) ∧
        w < voc.NumberOfWords) := by
  refine ⟨fun hc => transformFeature_not_created voc hc pfeature, ?_⟩
  intro hc ⟨⟨root, hroot, hne⟩, hchild⟩ hwords
  obtain ⟨n, leaf, h1, h2, h3, h4⟩ := descend_spec voc.m_nodes voc.m_params.DescriptorLength
    pfeature hchild voc.m_nodes.length 0 root hroot hne (by omega)
  refine ⟨leaf.WId, ?_, h4, ?_, ?_⟩
  · simpa [HVocabulary.TransformFeature, HVocabulary.isEmpty, hc] using h3
  · intro w' hw'
    exact specDescent_unique _ _ _ _ _ _ hw' h4
  · have := hwords n leaf h1 h2
    simpa [HVocabulary.NumberOfWords, HVocabulary.GetNumberOfWords, hc] using this

theorem exampleNodes_leaf_words (w0 w1 : K) (n : Nat) (leaf : Node K)
    (h : (exampleNodes w0 w1)[n]? = some leaf) (hl : leaf.isLeaf = true) : leaf.WId < 2 := by
  match n with
  | 0 =>
    simp only [exampleNodes, List.getElem?_cons_zero, Option.some.injEq] at h
    subst h
    simp [Node.isLeaf] at hl
  | 1 =>
    simp only [exampleNodes, List.getElem?_cons_succ, List.getElem?_cons_zero,
      Option.some.injEq] at h
    subst h
    show _ < 2
    norm_num
  | 2 =>
    simp only [exampleNodes, List.getElem?_cons_succ, List.getElem?_cons_zero,
      Option.some.injEq] at h
    subst h
    show _ < 2
    norm_num
  | n + 3 =>
    simp [exampleNodes] at h

/-- In the small vocabulary the descriptor `5` descends to word 1, the leaf
with the centre `5`, and the empty vocabulary gives word 0. -/
theorem transform_descends_to_nearest_leaf_witness :
    (HVocabulary.init (exampleParams .TF_IDF) : HVocabulary ℚ).TransformFeature [5] = some 0 ∧
    ∃ w : Nat, (exampleHVocabulary .TF_IDF (0 : ℚ) 0).TransformFeature [5] = some w ∧
      SpecDescent (exampleNodes (0 : ℚ) 0) 1 [5] 0 w ∧
      (∀ w' : Nat, SpecDescent (exampleNodes (0 : ℚ) 0) 1 [5] 0 w' → w' = w) ∧
      w < (exampleHVocabulary .TF_IDF (0 : ℚ) 0).NumberOfWords ∧ w = 1 := by
  refine ⟨(transform_descends_to_nearest_leaf
    (HVocabulary.init (exampleParams .TF_IDF) : HVocabulary ℚ) [5]).1 rfl, ?_⟩
  obtain ⟨w, h1, h2, h3, h4⟩ :=
    (transform_descends_to_nearest_leaf (exampleHVocabulary .TF_IDF (0 : ℚ) 0) [5]).2 rfl
      (exampleNodes_treeOk 0 0) (exampleNodes_leaf_words 0 0)
  refine ⟨w, h1, h2, h3, h4, ?_⟩
  have h5 : (exampleHVocabulary .TF_IDF (0 : ℚ) 0).TransformFeature [5] = some 1 :=
    example_descend_five 0 0 []
  rw [h5] at h1
  exact (Option.some.inj h1).symm

end DescentClaims


section TreeBuilding
variable {K : Type} [LinearOrderedField K]

theorem set_of_getElem? {α : Type} (l : List α) (i : Nat) (a : α) (h : l[i]? = some a) :
    l.set i a = l := by
  apply List.ext_getElem?
  intro j
  rw [List.getElem?_set]
  by_cases hij : i = j
  · subst hij
    rw [if_pos rfl, if_pos (List.getElem?_eq_some_iff.mp h).1, h]
  · rw [if_neg hij]

theorem createChildNodes_eq (cs : List (List K)) :
    ∀ (nodes : List (Node K)) (parent : Nat) (p : Node K), nodes[parent]? = some p →
      createChildNodes nodes parent cs =
        nodes.set parent { p with Children := p.Children ++ List.range' nodes.length cs.length } ++
          (cs.enumFrom nodes.length).map
            (fun x => { (Node.create x.1 : Node K) with Descriptor := x.2 }) := by
  induction cs with
  | nil =>
    intro nodes parent p hp
    simp only [createChildNodes, List.foldl_nil, List.length_nil, List.range'_zero,
      List.append_nil, List.enumFrom_nil, List.map_nil]
    exact (set_of_getElem? nodes parent _ hp).symm
  | cons c cs ih =>
    intro nodes parent p hp
    have hlt : parent < nodes.length := (List.getElem?_eq_some_iff.mp hp).1
    have hgetD : (nodes ++ [{ (Node.create nodes.length : Node K) with Descriptor := c }]).getD
        parent (Node.create 0) = p := by
      rw [List.getD_eq_getElem?_getD, List.getElem?_append_left hlt, hp]
      rfl
    have hstep : createChildNodes nodes parent (c :: cs) =
        createChildNodes
          (nodes.set parent { p with Children := p.Children ++ [nodes.length] } ++
            [{ (Node.create nodes.length : Node K) with Descriptor := c }]) parent cs := by
      show List.foldl _ _ (c :: cs) = List.foldl _ _ cs
      rw [List.foldl_cons]
      simp only [hgetD]
      rw [List.set_append_left _ _ hlt]
    rw [hstep]
    have hp1 : (nodes.set parent { p with Children := p.Children ++ [nodes.length] } ++
        [{ (Node.create nodes.length : Node K) with Descriptor := c }])[parent]? =
        some { p with Children := p.Children ++ [nodes.length] } := by
      rw [List.getElem?_append_left (by rw [List.length_set]; exact hlt),
        List.getElem?_set_self hlt]
    rw [ih _ parent _ hp1]
    simp only [List.length_append, List.length_set, List.length_singleton, List.length_cons,
      List.enumFrom_cons, List.map_cons]
    rw [List.set_append_left _ _ (by rw [List.length_set]; exact hlt), List.set_set,
      List.append_assoc, List.singleton_append, List.append_assoc, List.range'_succ]
    simp

theorem createWordsLoop_leaves (leaves : List (Node K)) :
    ∀ (i : Nat) (words : List Nat), (∀ node ∈ leaves, node.isLeaf = true) →
      CreateWordsLoop leaves i words =
        ((leaves.enumFrom words.length).map (fun x => { x.2 with WId := x.1 }),
          words ++ List.range' i leaves.length) := by
  induction leaves with
  | nil =>
    intro i words _
    simp [CreateWordsLoop]
  | cons node rest ih =>
    intro i words h
    have hl : node.isLeaf = true := h node (List.mem_cons_self _ _)
    rw [CreateWordsLoop, if_pos hl]
    simp only [ih (i + 1) (words ++ [i]) (fun n hn => h n (List.mem_cons_of_mem _ hn))]
    simp [List.range'_succ]

theorem clusterFeatures_few (rnd : RandomSource) (fuel : Nat) (params : HVocParams)
    (pf : List (List K)) (n : Nat) (h : (pf.length : Int) ≤ params.k) :
    clusterFeatures rnd fuel params pf n =
      some (pf.map (fun f => f.take params.DescriptorLength.toNat),
        (List.range pf.length).map (fun i : Nat => [i]), n) := by
  unfold clusterFeatures
  rw [if_pos h]

theorem foldl_option_fixed {σ : Type} (f : Option σ → Nat → Option σ) (l : List Nat) (st : σ)
    (h : ∀ (i : Nat) (s : σ), f (some s) i = some s) : l.foldl f (some st) = some st := by
  induction l with
  | nil => rfl
  | cons i rest ih => rw [List.foldl_cons, h, ih]

theorem length_getD_singletons (n i : Nat) :
    (((List.range n).map (fun i : Nat => [i])).getD i []).length ≤ 1 := by
  rw [List.getD_eq_getElem?_getD, List.getElem?_map]
  by_cases hi : i < n
  · rw [List.getElem?_range hi]
    simp
  · rw [List.getElem?_eq_none (by simpa using hi)]
    simp

theorem hkmeansStep_few (rnd : RandomSource) (fuel : Nat) (params : HVocParams) (levels : Nat)
    (st : List (Node K) × Nat) (parent : Nat) (pf : List (List K)) (hne : pf ≠ [])
    (h : (pf.length : Int) ≤ params.k) :
    HKMeansStep rnd fuel params levels st parent pf =
      some (createChildNodes st.1 parent
        (pf.map (fun f => f.take params.DescriptorLength.toNat)), st.2) := by
  have he : pf.isEmpty = false := by
    cases pf with
    | nil => exact absurd rfl hne
    | cons _ _ => rfl
  cases levels with
  | zero =>
    rw [HKMeansStep]
    simp only [he, clusterFeatures_few rnd fuel params pf st.2 h]
    simp
  | succ levels =>
    rw [HKMeansStep]
    simp only [he, clusterFeatures_few rnd fuel params pf st.2 h]
    simp only [Bool.false_eq_true, if_false]
    apply foldl_option_fixed
    intro i s
    have := length_getD_singletons pf.length i
    simp only [List.length_map]
    rw [if_neg (by omega)]

theorem createChildNodes_root (cs : List (List K)) :
    createChildNodes [(Node.create 0 : Node K)] 0 cs =
      { Id := 0, Children := List.range' 1 cs.length, Weight := 0, Descriptor := [],
        WId := NO_WORD } ::
      (cs.enumFrom 1).map
        (fun x => { Id := x.1, Children := [], Weight := 0, Descriptor := x.2, WId := NO_WORD }) := by
  rw [createChildNodes_eq cs [Node.create 0] 0 (Node.create 0) rfl]
  rfl

theorem fewTree_arenaOk (cs : List (List K)) (hne : cs ≠ []) (training : List (List K)) :
    ArenaOk (createChildNodes [(Node.create 0 : Node K)] 0 cs) training := by
  rw [createChildNodes_root]
  have hpos : 0 < cs.length := List.length_pos.mpr hne
  refine ⟨by simp, ?_, ?_, ?_⟩
  · intro node hnode
    rw [List.mem_cons] at hnode
    rcases hnode with h | h
    · rw [h]
    · rw [List.mem_map] at h
      obtain ⟨x, _, hx⟩ := h
      rw [← hx]
  · intro i node hi c hc
    cases i with
    | zero =>
      simp only [List.getElem?_cons_zero, Option.some.injEq] at hi
      rw [← hi] at hc
      simp only [List.mem_range'_1] at hc
      simp only [List.length_cons, List.length_map, List.enumFrom_length]
      omega
    | succ i =>
      simp only [List.getElem?_cons_succ, List.getElem?_map] at hi
      cases hx : (List.enumFrom 1 cs)[i]? with
      | none => rw [hx] at hi; simp at hi
      | some x =>
        rw [hx] at hi
        simp only [Option.map_some', Option.some.injEq] at hi
        rw [← hi] at hc
        simp at hc
  · intro _
    refine ⟨_, by rw [List.getElem?_cons_zero]; rfl, ?_⟩
    intro h
    have := congrArg List.length h
    rw [List.length_range', List.length_nil] at this
    omega

theorem createWords_fewTree (cs : List (List K)) (hne : cs ≠ []) :
    (CreateWords (createChildNodes [(Node.create 0 : Node K)] 0 cs)).1.map Node.shape =
        (0, List.range' 1 cs.length, [], NO_WORD) ::
          cs.enum.map (fun x => (x.1 + 1, [], x.2, x.1)) ∧
      (CreateWords (createChildNodes [(Node.create 0 : Node K)] 0 cs)).2 =
        List.range' 1 cs.length := by
  rw [createChildNodes_root]
  have hpos : 0 < cs.length := List.length_pos.mpr hne
  have hroot : ∀ n : Node K, n.Children = List.range' 1 cs.length → ¬ n.isLeaf = true := by
    intro n hn
    simp only [Node.isLeaf, List.isEmpty_eq_true, hn]
    intro h
    have := congrArg List.length h
    rw [List.length_range', List.length_nil] at this
    omega
  have hleaves : ∀ (g : Nat × List K → Node K), (∀ x, (g x).Children = []) →
      ∀ node ∈ (cs.enumFrom 1).map g, node.isLeaf = true := by
    intro g hg node h
    rw [List.mem_map] at h
    obtain ⟨x, _, hx⟩ := h
    rw [← hx, Node.isLeaf, hg]
    rfl
  have hloop : ∀ (g : Nat × List K → Node K), (∀ x, (g x).Children = []) →
      CreateWordsLoop ((cs.enumFrom 1).map g) 1 [] =
        ((((cs.enumFrom 1).map g).enumFrom 0).map (fun x => { x.2 with WId := x.1 }),
          List.range' 1 cs.length) := by
    intro g hg
    rw [createWordsLoop_leaves _ 1 [] (hleaves g hg)]
    simp
  rw [CreateWords, CreateWordsLoop, if_neg (hroot _ rfl)]
  simp only [Nat.zero_add]
  rw [hloop]
  swap
  · intro x
    rfl
  refine ⟨?_, rfl⟩
  simp only [List.map_cons, List.length_nil, List.map_map]
  congr 1
  apply List.ext_getElem?
  intro j
  simp only [List.getElem?_map, List.getElem?_enumFrom, List.enum, Option.map_map]
  cases cs[j]? with
  | none => rfl
  | some c =>
    simp only [Option.map_some', Function.comp, Node.shape]
    simp [Nat.add_comm]

/-- C23: when the training set holds between 1 and `k` descriptors, `Create`
returns the same vocabulary for every generator and every fuel: the root with
one leaf child per training descriptor, in input order, the `i`-th child being
node `i + 1` with the `i`-th descriptor and the word id `i`. -/
theorem create_few_descriptors_deterministic (L : StdLib K) (A : StdAlgorithm)
    (voc : HVocabulary K) (training : List (List K))
    (hD : 0 < voc.base_m_params.DescriptorLength) (hD2 : 0 < voc.m_params.DescriptorLength)
    (hlen : ∀ features ∈ training,
      features.length % voc.m_params.DescriptorLength.toNat = 0)
    (h1 : training.flatMap
      (fun features => featureSlots features voc.m_params.DescriptorLength.toNat) ≠ [])
    (hk : ((training.flatMap
      (fun features => featureSlots features voc.m_params.DescriptorLength.toNat)).length : Int)
        ≤ voc.m_params.k) :
    ∃ voc' : HVocabulary K,
      (∀ (rnd : RandomSource) (fuel : Nat), voc.Create rnd fuel L A training = some voc') ∧
      voc'.m_created = true ∧
      voc'.m_nodes.map Node.shape =
        (0, List.range' 1 (training.flatMap
            (fun features => featureSlots features voc.m_params.DescriptorLength.toNat)).length,
          [], NO_WORD) ::
        (training.flatMap
          (fun features => featureSlots features voc.m_params.DescriptorLength.toNat)).enum.map
          (fun x => (x.1 + 1, [], x.2.take voc.m_params.DescriptorLength.toNat, x.1)) ∧
      voc'.m_words = List.range' 1 (training.flatMap
        (fun features => featureSlots features voc.m_params.DescriptorLength.toNat)).length := by
  have hcs : (training.flatMap
      (fun features => featureSlots features voc.m_params.DescriptorLength.toNat)).map
      (fun f => f.take voc.m_params.DescriptorLength.toNat) ≠ [] := by
    intro h
    exact h1 (List.map_eq_nil_iff.mp h)
  have htr : training ≠ [] := by
    intro h
    rw [h] at h1
    exact h1 rfl
  obtain ⟨_, _, voc', hC, _, _, hcr, _, hw, _, hshape, _⟩ := createWith_spec L A voc _ training
    (fewTree_arenaOk _ hcs training) htr hD hD2 hlen
  have hcw := createWords_fewTree _ hcs
  refine ⟨voc', ?_, hcr, ?_, ?_⟩
  · intro rnd fuel
    unfold HVocabulary.Create
    have hall : training.all (fun features =>
        decide (features.length % voc.m_params.DescriptorLength.toNat = 0)) = true := by
      rw [List.all_eq_true]
      intro f hf
      exact decide_eq_true (hlen f hf)
    rw [if_pos ⟨hD2, hall⟩, hkmeansStep_few rnd fuel voc.m_params _ _ 0 _ h1 hk]
    exact hC
  · have : voc'.m_nodes.map Node.shape = (CreateWords (createChildNodes [(Node.create 0 : Node K)]
        0 ((training.flatMap
      (fun features => featureSlots features voc.m_params.DescriptorLength.toNat)).map
      (fun f => f.take voc.m_params.DescriptorLength.toNat)))).1.map Node.shape := by
      apply List.ext_getElem?
      intro j
      rw [List.getElem?_map, List.getElem?_map]
      exact hshape j
    rw [this, hcw.1, List.length_map]
    congr 1
    apply List.ext_getElem?
    intro j
    simp only [List.getElem?_map, List.enum, List.getElem?_enumFrom, Option.map_map]
    cases (training.flatMap
      (fun features => featureSlots features voc.m_params.DescriptorLength.toNat))[j]? with
    | none => rfl
    | some c => rfl
  · rw [hw, hcw.2, List.length_map]

theorem getWordWeights_m_params (L : StdLib K) (A : StdAlgorithm) (voc v : HVocabulary K)
    (training : List (List K)) (w : List K)
    (h : voc.GetWordWeightsAndCreateStopList L A training = some (v, w)) :
    v.m_params = voc.m_params ∧ v.m_nodes = voc.m_nodes ∧ v.m_words = voc.m_words ∧
      v.m_created = voc.m_created := by
  unfold HVocabulary.GetWordWeightsAndCreateStopList at h
  simp only [] at h
  split at h
  · exact absurd h (by simp)
  · split at h
    · exact absurd h (by simp)
    · split at h
      · exact absurd h (by simp)
      · split at h
        · exact absurd h (by simp)
        · have h1 := (Prod.mk.inj (Option.some.inj h)).1
          rw [← h1]
          exact ⟨rfl, rfl, rfl, rfl⟩

theorem createWith_m_params (L : StdLib K) (A : StdAlgorithm) (voc voc' : HVocabulary K)
    (tree : List (Node K)) (training : List (List K))
    (h : voc.CreateWith L A tree training = some voc') : voc'.m_params = voc.m_params := by
  unfold HVocabulary.CreateWith at h
  split at h
  · unfold HVocabulary.SetNodeWeights at h
    split at h
    · exact absurd h (by simp)
    · rename_i v w hG
      have := (getWordWeights_m_params L A _ v training w hG).1
      rw [← Option.some.inj h]
      exact this
  · exact absurd h (by simp)

theorem create_m_params (rnd : RandomSource) (fuel : Nat) (L : StdLib K) (A : StdAlgorithm)
    (voc voc' : HVocabulary K) (training : List (List K))
    (h : voc.Create rnd fuel L A training = some voc') : voc'.m_params = voc.m_params := by
  unfold HVocabulary.Create at h
  split at h
  · split at h
    · exact absurd h (by simp)
    · exact createWith_m_params L A voc voc' _ training h
  · exact absurd h (by simp)

theorem map_shape_getElem? (nodes nodes' : List (Node K))
    (h : nodes.map Node.shape = nodes'.map Node.shape) (k : Nat) :
    (nodes[k]?).map Node.shape = (nodes'[k]?).map Node.shape := by
  rw [← List.getElem?_map, ← List.getElem?_map, h]

end TreeBuilding

section TreeExamples

theorem example_fewTree_descend :
    descend (examplePlaneNodes : List (Node ℚ)) 2 [1 / 10, 1 / 10] 3 0 = some 0 := by
  have h1 : DescriptorSqDistance 2 [(1 : ℚ) / 10, 1 / 10] [0, 0] = 1 / 50 := by
    simp [DescriptorSqDistance, sqDiff, List.range_succ]
    norm_num
  have h2 : DescriptorSqDistance 2 [(1 : ℚ) / 10, 1 / 10] [10, 10] = 9801 / 50 := by
    simp [DescriptorSqDistance, sqDiff, List.range_succ]
    norm_num
  have hn : nearestChild (examplePlaneNodes : List (Node ℚ)) 2 [1 / 10, 1 / 10] 1 [2] = 1 := by
    show (if DescriptorSqDistance 2 [(1 : ℚ) / 10, 1 / 10] [10, 10] <
        DescriptorSqDistance 2 [(1 : ℚ) / 10, 1 / 10] [0, 0] then
          ((2 : Nat), DescriptorSqDistance 2 [(1 : ℚ) / 10, 1 / 10] [10, 10])
        else ((1 : Nat), DescriptorSqDistance 2 [(1 : ℚ) / 10, 1 / 10] [0, 0])).1 = 1
    rw [h1, h2]
    norm_num
  rw [descend_succ (examplePlaneNodes : List (Node ℚ)) 2 _ 2 0 _ 1 [2]
    { Id := 1, Children := [], Weight := 0, Descriptor := [0, 0], WId := 0 } rfl rfl
    (by rw [hn]; rfl)]
  rfl

/-- With `k = 2`, `L = 1`, `D = 2` and the training vector `(0,0,10,10)`,
`Create` returns for every generator the root with the leaves `(0,0)`, word 0,
and `(10,10)`, word 1, and `(0.1, 0.1)` descends to word 0. -/
theorem create_few_descriptors_deterministic_witness :
    ∃ voc' : HVocabulary ℚ,
      (∀ (rnd : RandomSource) (fuel : Nat),
        (HVocabulary.init examplePlaneParams).Create rnd fuel ratLib mergeSortAlgorithm
          [[0, 0, 10, 10]] = some voc') ∧
      voc'.m_created = true ∧
      voc'.m_nodes.map Node.shape =
        [(0, [1, 2], [], NO_WORD), (1, [], [0, 0], 0), (2, [], [10, 10], 1)] ∧
      voc'.m_words = [1, 2] ∧
      voc'.TransformFeature [1 / 10, 1 / 10] = some 0 := by
  obtain ⟨voc', h1, h2, h3, h4⟩ := create_few_descriptors_deterministic ratLib mergeSortAlgorithm
    (HVocabulary.init examplePlaneParams : HVocabulary ℚ) [[0, 0, 10, 10]]
    (by decide) (by decide)
    (by intro f hf; rw [List.mem_singleton] at hf; rw [hf]; rfl)
    (by intro h; exact absurd (congrArg List.length h) (by decide))
    (by decide)
  have hp := create_m_params ⟨0, fun _ => 0⟩ 0 ratLib mergeSortAlgorithm _ voc' _
    (h1 ⟨0, fun _ => 0⟩ 0)
  have h3' : voc'.m_nodes.map Node.shape =
      [(0, [1, 2], [], NO_WORD), (1, [], [0, 0], 0), (2, [], [10, 10], 1)] := h3
  refine ⟨voc', h1, h2, h3', h4, ?_⟩
  have hl : voc'.m_nodes.length = 3 := by
    have := congrArg List.length h3'
    simpa using this
  unfold HVocabulary.TransformFeature HVocabulary.isEmpty
  rw [h2, hp, hl]
  simp only [Bool.not_true, Bool.false_eq_true, if_false]
  rw [descend_congr voc'.m_nodes _ (map_shape_getElem? voc'.m_nodes examplePlaneNodes h3')]
  exact example_fewTree_descend

end TreeExamples

section KMeans
variable {K : Type} [LinearOrderedField K]

theorem foldl_range_add (f : Nat → K) (m : Nat) (init : K) :
    (List.range m).foldl (fun (s : K) (j : Nat) => s + f j) init =
      init + ∑ j in Finset.range m, f j := by
  induction m with
  | zero => simp
  | succ m ih =>
    rw [List.range_succ, List.foldl_append, ih, Finset.sum_range_succ]
    simp [add_assoc]

theorem sum_blocks_of_four (g : Nat → K) (q : Nat) :
    ∑ j in Finset.range q, (g (4 * j) + g (4 * j + 1) + g (4 * j + 2) + g (4 * j + 3)) =
      ∑ c in Finset.range (4 * q), g c := by
  induction q with
  | zero => simp
  | succ q ih =>
    rw [Finset.sum_range_succ, ih]
    have : 4 * (q + 1) = 4 * q + 1 + 1 + 1 + 1 := by ring
    rw [this, Finset.sum_range_succ, Finset.sum_range_succ, Finset.sum_range_succ,
      Finset.sum_range_succ]
    ring

/-- The squared distance is the sum of the squared differences of the first
`DescriptorLength` coordinates. -/
theorem descriptorSqDistance_eq_sum (D : Int) (v w : List K) :
    DescriptorSqDistance D v w = ∑ c in Finset.range D.toNat, sqDiff v w c := by
  unfold DescriptorSqDistance
  simp only []
  have h1 := foldl_range_add (fun j => sqDiff v w (4 * j) + sqDiff v w (4 * j + 1) +
    sqDiff v w (4 * j + 2) + sqDiff v w (4 * j + 3)) ((D.toNat - D.toNat % 4) / 4) 0
  have h1' : (List.range ((D.toNat - D.toNat % 4) / 4)).foldl
      (fun (sqd : K) (j : Nat) =>
        sqd + sqDiff v w (4 * j) + sqDiff v w (4 * j + 1) + sqDiff v w (4 * j + 2)
          + sqDiff v w (4 * j + 3)) 0 =
      ∑ c in Finset.range (4 * ((D.toNat - D.toNat % 4) / 4)), sqDiff v w c := by
    rw [← sum_blocks_of_four, ← zero_add (∑ j in Finset.range _, _), ← h1]
    congr 1
    funext s j
    ring
  rw [h1', foldl_range_add (fun j => sqDiff v w (D.toNat - D.toNat % 4 + j))]
  have hq : 4 * ((D.toNat - D.toNat % 4) / 4) = D.toNat - D.toNat % 4 := by omega
  rw [hq]
  have hd : D.toNat = (D.toNat - D.toNat % 4) + D.toNat % 4 := by omega
  conv_rhs => rw [hd, Finset.sum_range_add]

theorem foldl_nearestCluster (g : List K → K) (rest : List (List K)) :
    ∀ (done : List (List K)) (st : Nat × K × Nat), st.2.2 = done.length →
      st.1 < done.length → st.2.1 = g (done.getD st.1 []) →
      (∀ i : Nat, i < done.length → st.2.1 ≤ g (done.getD i [])) →
      (∀ i : Nat, i < st.1 → st.2.1 < g (done.getD i [])) →
      (rest.foldl (fun (st : Nat × K × Nat) (c : List K) =>
          if g c < st.2.1 then (st.2.2, g c, st.2.2 + 1) else (st.1, st.2.1, st.2.2 + 1)) st).1
          < (done ++ rest).length ∧
      (∀ i : Nat, i < (done ++ rest).length →
        g ((done ++ rest).getD (rest.foldl (fun (st : Nat × K × Nat) (c : List K) =>
          if g c < st.2.1 then (st.2.2, g c, st.2.2 + 1) else (st.1, st.2.1, st.2.2 + 1)) st).1 [])
          ≤ g ((done ++ rest).getD i [])) ∧
      (∀ i : Nat, i < (rest.foldl (fun (st : Nat × K × Nat) (c : List K) =>
          if g c < st.2.1 then (st.2.2, g c, st.2.2 + 1) else (st.1, st.2.1, st.2.2 + 1)) st).1 →
        g ((done ++ rest).getD (rest.foldl (fun (st : Nat × K × Nat) (c : List K) =>
          if g c < st.2.1 then (st.2.2, g c, st.2.2 + 1) else (st.1, st.2.1, st.2.2 + 1)) st).1 [])
          < g ((done ++ rest).getD i [])) := by
  induction rest with
  | nil =>
    intro done st _ h2 h3 h4 h5
    simp only [List.foldl_nil, List.append_nil]
    rw [← h3]
    exact ⟨h2, h4, h5⟩
  | cons c rest ih =>
    intro done st h1 h2 h3 h4 h5
    have happ : done ++ c :: rest = (done ++ [c]) ++ rest := by simp
    have hget : ∀ i : Nat, i < done.length → (done ++ [c]).getD i [] = done.getD i [] := by
      intro i hi
      rw [List.getD_eq_getElem?_getD, List.getD_eq_getElem?_getD, List.getElem?_append_left hi]
    have hlast : (done ++ [c]).getD done.length [] = c := by
      rw [List.getD_eq_getElem?_getD, List.getElem?_append_right (le_refl _)]
      simp
    rw [List.foldl_cons, happ]
    by_cases hc : g c < st.2.1
    · rw [if_pos hc]
      apply ih (done ++ [c])
      · simp [h1]
      · simp [h1]
      · simp only [h1, hlast]
      · intro i hi
        simp only [List.length_append, List.length_singleton] at hi
        by_cases hi2 : i < done.length
        · rw [hget i hi2]
          exact le_of_lt (lt_of_lt_of_le hc (h4 i hi2))
        · have : i = done.length := by omega
          rw [this, hlast]
      · intro i hi
        simp only [h1] at hi
        rw [hget i hi]
        exact lt_of_lt_of_le hc (h4 i hi)
    · rw [if_neg hc]
      apply ih (done ++ [c])
      · simp [h1]
      · simp only [List.length_append, List.length_singleton]
        omega
      · simp only [hget st.1 h2, h3]
      · intro i hi
        simp only [List.length_append, List.length_singleton] at hi
        by_cases hi2 : i < done.length
        · rw [hget i hi2]
          exact h4 i hi2
        · have : i = done.length := by omega
          rw [this, hlast]
          exact not_lt.mp hc
      · intro i hi
        rw [hget i (by omega)]
        exact h5 i hi

/-- The cluster associated with a feature is the nearest centre, the lowest
index winning a tie. -/
theorem nearestCluster_spec (D : Int) (C : List (List K)) (hC : C ≠ []) (f : List K) :
    nearestCluster D C f < C.length ∧
    (∀ i : Nat, i < C.length →
      DescriptorSqDistance D f (C.getD (nearestCluster D C f) []) ≤
        DescriptorSqDistance D f (C.getD i [])) ∧
    (∀ i : Nat, i < nearestCluster D C f →
      DescriptorSqDistance D f (C.getD (nearestCluster D C f) []) <
        DescriptorSqDistance D f (C.getD i [])) := by
  cases C with
  | nil => exact absurd rfl hC
  | cons c0 rest =>
    have h := foldl_nearestCluster (fun c => DescriptorSqDistance D f c) rest [c0]
      (0, DescriptorSqDistance D f c0, 1) rfl (by simp) rfl
      (by
        intro i hi
        simp only [List.length_singleton] at hi
        have : i = 0 := by omega
        rw [this]
        exact le_refl _)
      (by intro i hi; omega)
    exact h

theorem sum_sq_mean_le (S : Finset Nat) (x : Nat → K) (y : K) :
    ∑ j in S, (x j - (∑ j in S, x j) / (S.card : K)) * (x j - (∑ j in S, x j) / (S.card : K)) ≤
      ∑ j in S, (x j - y) * (x j - y) := by
  by_cases hS : S.card = 0
  · rw [Finset.card_eq_zero.mp hS]
    simp
  have hN : (0 : K) < (S.card : K) := by
    have : 0 < S.card := Nat.pos_of_ne_zero hS
    exact_mod_cast this
  have h0 : ∑ j in S, (x j - (∑ j in S, x j) / (S.card : K)) = 0 := by
    rw [Finset.sum_sub_distrib, Finset.sum_const, nsmul_eq_mul, mul_div_cancel₀ _ (ne_of_gt hN),
      sub_self]
  have hexp : ∀ j : Nat, (x j - y) * (x j - y) =
      (x j - (∑ j in S, x j) / (S.card : K)) * (x j - (∑ j in S, x j) / (S.card : K)) +
        (2 * ((∑ j in S, x j) / (S.card : K) - y)) * (x j - (∑ j in S, x j) / (S.card : K)) +
        ((∑ j in S, x j) / (S.card : K) - y) * ((∑ j in S, x j) / (S.card : K) - y) := by
    intro j
    ring
  rw [Finset.sum_congr rfl (fun j _ => hexp j), Finset.sum_add_distrib, Finset.sum_add_distrib,
    ← Finset.mul_sum, h0, mul_zero, add_zero, Finset.sum_const, nsmul_eq_mul]
  have := mul_nonneg (le_of_lt hN) (mul_self_nonneg ((∑ j in S, x j) / (S.card : K) - y))
  linarith

theorem getD_groupsOf (nc : Nat) (a : List Nat) (i : Nat) (hi : i < nc) :
    (groupsOf nc a).getD i [] =
      (List.range a.length).filter (fun j : Nat => a.getD j 0 = i) := by
  unfold groupsOf
  rw [List.getD_eq_getElem?_getD, List.getElem?_map, List.getElem?_range hi]
  rfl

theorem length_groupsOf (nc : Nat) (a : List Nat) : (groupsOf nc a).length = nc := by
  simp [groupsOf]

theorem length_centresOf (D : Int) (pf : List (List K)) (nc : Nat) (a : List Nat) :
    (centresOf D pf nc a).length = nc := by
  simp [centresOf, groupsOf]

theorem getD_centresOf (D : Int) (pf : List (List K)) (nc : Nat) (a : List Nat) (i c : Nat)
    (hi : i < nc) (hc : c < D.toNat) :
    ((centresOf D pf nc a).getD i []).getD c 0 =
      (∑ j in (Finset.range a.length).filter (fun j : Nat => a.getD j 0 = i),
          (pf.getD j []).getD c 0) /
        (((Finset.range a.length).filter (fun j : Nat => a.getD j 0 = i)).card : K) := by
  have h1 : (centresOf D pf nc a).getD i [] =
      clusterCentre D.toNat pf ((List.range a.length).filter (fun j : Nat => a.getD j 0 = i)) := by
    unfold centresOf
    rw [List.getD_eq_getElem?_getD, List.getElem?_map,
      List.getElem?_eq_getElem (by rw [length_groupsOf]; exact hi)]
    simp only [Option.map_some', Option.getD_some]
    rw [← getD_groupsOf nc a i hi, List.getD_eq_getElem?_getD,
      List.getElem?_eq_getElem (by rw [length_groupsOf]; exact hi)]
    rfl
  have hnd : ((List.range a.length).filter (fun j : Nat => a.getD j 0 = i)).Nodup :=
    (List.nodup_range _).filter _
  rw [h1]
  unfold clusterCentre
  rw [List.getD_eq_getElem?_getD, List.getElem?_map, List.getElem?_range hc]
  simp only [Option.map_some', Option.getD_some]
  have hf : ((List.range a.length).filter (fun j : Nat => a.getD j 0 = i)).toFinset =
      (Finset.range a.length).filter (fun j : Nat => a.getD j 0 = i) := by
    ext j
    simp
  rw [foldl_add_eq_sum, zero_add, ← List.sum_toFinset _ hnd, ← List.toFinset_card_of_nodup hnd,
    hf]

theorem associationCost_eq (D : Int) (pf C : List (List K)) (nc : Nat) (a : List Nat)
    (ha : IsAssociation pf.length nc a) :
    associationCost D pf C a =
      ∑ c in Finset.range D.toNat, ∑ i in Finset.range nc,
        ∑ j in (Finset.range pf.length).filter (fun j : Nat => a.getD j 0 = i),
          sqDiff (pf.getD j []) (C.getD i []) c := by
  unfold associationCost
  simp only [descriptorSqDistance_eq_sum]
  rw [Finset.sum_comm]
  apply Finset.sum_congr rfl
  intro c _
  rw [← Finset.sum_fiberwise_of_maps_to (g := fun j : Nat => a.getD j 0)
    (t := Finset.range nc) (fun j hj => Finset.mem_range.mpr (ha.2 j (Finset.mem_range.mp hj)))]
  apply Finset.sum_congr rfl
  intro i _
  apply Finset.sum_congr rfl
  intro j hj
  rw [(Finset.mem_filter.mp hj).2]

/-- The centres computed from an association have the least cost for it. -/
theorem cost_centres_le (D : Int) (pf C : List (List K)) (nc : Nat) (a : List Nat)
    (ha : IsAssociation pf.length nc a) :
    associationCost D pf (centresOf D pf nc a) a ≤ associationCost D pf C a := by
  rw [associationCost_eq D pf _ nc a ha, associationCost_eq D pf C nc a ha]
  apply Finset.sum_le_sum
  intro c hc
  apply Finset.sum_le_sum
  intro i hi
  unfold sqDiff
  rw [getD_centresOf D pf nc a i c (Finset.mem_range.mp hi) (Finset.mem_range.mp hc), ha.1]
  exact sum_sq_mean_le _ (fun j => (pf.getD j []).getD c 0) _

theorem getD_map_features (pf : List (List K)) (f : List K → Nat) (j : Nat)
    (hj : j < pf.length) : (pf.map f).getD j 0 = f (pf.getD j []) := by
  rw [List.getD_eq_getElem?_getD, List.getD_eq_getElem?_getD, List.getElem?_map,
    List.getElem?_eq_getElem hj]
  rfl

theorem nextAssociation_isAssociation (D : Int) (pf : List (List K)) (nc : Nat) (a : List Nat)
    (hnc : 0 < nc) : IsAssociation pf.length nc (nextAssociation D pf nc a) := by
  refine ⟨by simp [nextAssociation], ?_⟩
  intro j hj
  unfold nextAssociation
  rw [getD_map_features pf _ j hj]
  have hC : centresOf D pf nc a ≠ [] := by
    intro h
    have := length_centresOf D pf nc a
    rw [h] at this
    simp at this
    omega
  have := (nearestCluster_spec D _ hC (pf.getD j [])).1
  rwa [length_centresOf] at this

/-- An iteration of k-means that changes the association improves it. -/
theorem nextAssociation_improves (D : Int) (pf : List (List K)) (nc : Nat) (a : List Nat)
    (hnc : 0 < nc) (ha : IsAssociation pf.length nc a)
    (hne : nextAssociation D pf nc a ≠ a) :
    Improves D pf nc (nextAssociation D pf nc a) a := by
  have hb := nextAssociation_isAssociation D pf nc a hnc
  have hC : centresOf D pf nc a ≠ [] := by
    intro h
    have := length_centresOf D pf nc a
    rw [h] at this
    simp at this
    omega
  have hspec : ∀ j : Nat, j < pf.length →
      DescriptorSqDistance D (pf.getD j [])
          ((centresOf D pf nc a).getD ((nextAssociation D pf nc a).getD j 0) []) ≤
        DescriptorSqDistance D (pf.getD j []) ((centresOf D pf nc a).getD (a.getD j 0) []) ∧
      (a.getD j 0 < (nextAssociation D pf nc a).getD j 0 →
        DescriptorSqDistance D (pf.getD j [])
          ((centresOf D pf nc a).getD ((nextAssociation D pf nc a).getD j 0) []) <
        DescriptorSqDistance D (pf.getD j []) ((centresOf D pf nc a).getD (a.getD j 0) [])) := by
    intro j hj
    have hs := nearestCluster_spec D _ hC (pf.getD j [])
    have hj' : (nextAssociation D pf nc a).getD j 0 =
        nearestCluster D (centresOf D pf nc a) (pf.getD j []) := by
      unfold nextAssociation
      rw [getD_map_features pf _ j hj]
    rw [hj']
    exact ⟨hs.2.1 _ (by rw [length_centresOf]; exact ha.2 j hj), fun h => hs.2.2 _ h⟩
  have h1 := cost_centres_le D pf (centresOf D pf nc a) nc (nextAssociation D pf nc a) hb
  have h3 : associationCost D pf (centresOf D pf nc a) (nextAssociation D pf nc a) ≤
      associationCost D pf (centresOf D pf nc a) a := by
    unfold associationCost
    exact Finset.sum_le_sum (fun j hj => (hspec j (Finset.mem_range.mp hj)).1)
  by_cases hlt : associationCost D pf (centresOf D pf nc (nextAssociation D pf nc a))
      (nextAssociation D pf nc a) < associationCost D pf (centresOf D pf nc a) a
  · exact Or.inl hlt
  · have heq : associationCost D pf (centresOf D pf nc (nextAssociation D pf nc a))
        (nextAssociation D pf nc a) = associationCost D pf (centresOf D pf nc a) a :=
      le_antisymm (le_trans h1 h3) (not_lt.mp hlt)
    have heq2 : associationCost D pf (centresOf D pf nc a) (nextAssociation D pf nc a) =
        associationCost D pf (centresOf D pf nc a) a :=
      le_antisymm h3 (heq ▸ h1)
    have hpt := (Finset.sum_eq_sum_iff_of_le
      (fun j hj => (hspec j (Finset.mem_range.mp hj)).1)).mp heq2
    have hle : ∀ j : Nat, j < pf.length →
        (nextAssociation D pf nc a).getD j 0 ≤ a.getD j 0 := by
      intro j hj
      by_contra hcon
      have := (hspec j hj).2 (not_le.mp hcon)
      rw [hpt j (Finset.mem_range.mpr hj)] at this
      exact lt_irrefl _ this
    have hex : ∃ j : Nat, j < pf.length ∧
        (nextAssociation D pf nc a).getD j 0 ≠ a.getD j 0 := by
      by_contra hcon
      apply hne
      apply List.ext_getElem (by rw [hb.1, ha.1])
      intro j h1 h2
      have hj : j < pf.length := by rw [← ha.1]; exact h2
      have := not_not.mp (fun hh => hcon ⟨j, hj, hh⟩)
      rw [List.getD_eq_getElem?_getD, List.getD_eq_getElem?_getD, List.getElem?_eq_getElem h1,
        List.getElem?_eq_getElem h2] at this
      exact this
    obtain ⟨j, hj, hjne⟩ := hex
    refine Or.inr ⟨heq, ?_⟩
    exact Finset.sum_lt_sum (fun i hi => hle i (Finset.mem_range.mp hi))
      ⟨j, Finset.mem_range.mpr hj, lt_of_le_of_ne (hle j hj) hjne⟩

theorem mem_associations (n nc : Nat) (a : List Nat) (ha : IsAssociation n nc a) :
    a ∈ associations n nc := by
  unfold associations
  rw [Finset.mem_image]
  refine ⟨fun j => ⟨a.getD j 0, ha.2 j j.2⟩, Finset.mem_univ _, ?_⟩
  apply List.ext_getElem (by rw [List.length_ofFn, ha.1])
  intro j h1 h2
  rw [List.getElem_ofFn]
  simp only [List.getD_eq_getElem?_getD, List.getElem?_eq_getElem h2, Option.getD_some]

theorem improves_trans (D : Int) (pf : List (List K)) (nc : Nat) (c b a : List Nat)
    (h1 : Improves D pf nc c b) (h2 : Improves D pf nc b a) : Improves D pf nc c a := by
  unfold Improves at *
  rcases h1 with h1 | ⟨h1, h1'⟩
  · rcases h2 with h2 | ⟨h2, _⟩
    · exact Or.inl (lt_trans h1 h2)
    · exact Or.inl (h2 ▸ h1)
  · rcases h2 with h2 | ⟨h2, h2'⟩
    · exact Or.inl (h1 ▸ h2)
    · exact Or.inr ⟨h1.trans h2, lt_trans h1' h2'⟩

theorem improves_irrefl (D : Int) (pf : List (List K)) (nc : Nat) (a : List Nat) :
    ¬ Improves D pf nc a a := by
  intro h
  rcases h with h | ⟨_, h⟩
  · exact lt_irrefl _ h
  · exact lt_irrefl _ h

theorem kmeansLoop_succ (D : Int) (pf : List (List K)) (nc fuel : Nat) (a : List Nat) :
    kmeansLoop D pf nc (fuel + 1) a =
      if nextAssociation D pf nc a = a then
        some (centresOf D pf nc a, groupsOf nc (nextAssociation D pf nc a))
      else kmeansLoop D pf nc fuel (nextAssociation D pf nc a) := rfl

theorem kmeansLoop_total_aux (D : Int) (pf : List (List K)) (nc : Nat) (hnc : 0 < nc) :
    ∀ (m : Nat) (S : Finset (List Nat)) (a : List Nat), S.card ≤ m →
      IsAssociation pf.length nc a →
      (∀ b : List Nat, IsAssociation pf.length nc b → Improves D pf nc b a → b ∈ S) →
      ∃ (N : Nat) (r : List (List K) × List (List Nat)),
        (∀ fuel : Nat, N ≤ fuel → kmeansLoop D pf nc fuel a = some r) ∧
        r.1.length = nc ∧ r.2.length = nc := by
  intro m
  induction m with
  | zero =>
    intro S a hS ha hall
    have hfix : nextAssociation D pf nc a = a := by
      by_contra hne
      have := hall _ (nextAssociation_isAssociation D pf nc a hnc)
        (nextAssociation_improves D pf nc a hnc ha hne)
      rw [Finset.card_eq_zero.mp (Nat.le_zero.mp hS)] at this
      exact absurd this (Finset.not_mem_empty _)
    refine ⟨1, (centresOf D pf nc a, groupsOf nc (nextAssociation D pf nc a)), ?_,
      length_centresOf D pf nc a, length_groupsOf nc _⟩
    intro fuel hfuel
    obtain ⟨f, rfl⟩ : ∃ f, fuel = f + 1 := ⟨fuel - 1, by omega⟩
    rw [kmeansLoop_succ, if_pos hfix]
  | succ m ih =>
    intro S a hS ha hall
    by_cases hfix : nextAssociation D pf nc a = a
    · refine ⟨1, (centresOf D pf nc a, groupsOf nc (nextAssociation D pf nc a)), ?_,
        length_centresOf D pf nc a, length_groupsOf nc _⟩
      intro fuel hfuel
      obtain ⟨f, rfl⟩ : ∃ f, fuel = f + 1 := ⟨fuel - 1, by omega⟩
      rw [kmeansLoop_succ, if_pos hfix]
    · have hb := nextAssociation_isAssociation D pf nc a hnc
      have himp := nextAssociation_improves D pf nc a hnc ha hfix
      have hmem := hall _ hb himp
      obtain ⟨N, r, hr, h1, h2⟩ := ih (S.erase (nextAssociation D pf nc a))
        (nextAssociation D pf nc a)
        (by rw [Finset.card_erase_of_mem hmem]; omega) hb
        (by
          intro c hc hci
          rw [Finset.mem_erase]
          refine ⟨?_, hall c hc (improves_trans D pf nc _ _ _ hci himp)⟩
          intro heq
          rw [heq] at hci
          exact improves_irrefl D pf nc _ hci)
      refine ⟨N + 1, r, ?_, h1, h2⟩
      intro fuel hfuel
      obtain ⟨f, rfl⟩ : ∃ f, fuel = f + 1 := ⟨fuel - 1, by omega⟩
      rw [kmeansLoop_succ, if_neg hfix]
      exact hr f (by omega)

/-- The loop `while(goon)` of `HKMeansStep` ends: started from an association
of the features with at least one cluster, it returns with enough fuel, and
the result has one centre and one group per cluster. -/
theorem kmeansLoop_total (D : Int) (pf : List (List K)) (nc : Nat) (hnc : 0 < nc)
    (a : List Nat) (ha : IsAssociation pf.length nc a) :
    ∃ (N : Nat) (r : List (List K) × List (List Nat)),
      (∀ fuel : Nat, N ≤ fuel → kmeansLoop D pf nc fuel a = some r) ∧
      r.1.length = nc ∧ r.2.length = nc :=
  kmeansLoop_total_aux D pf nc hnc (associations pf.length nc).card (associations pf.length nc)
    a (le_refl _) ha (fun b hb _ => mem_associations _ _ b hb)

end KMeans

section Seeding
variable {K : Type} [LinearOrderedField K]

theorem drawCut_total_aux (rnd : RandomSource) (hM : 0 < rnd.RAND_MAX) (sqd_sum : K)
    (hs : 0 < sqd_sum) :
    ∀ (d n : Nat), rnd.rand (n + d) ≠ 0 →
      ∃ (N : Nat) (r : K × Nat), ∀ fuel : Nat, N ≤ fuel → drawCut rnd sqd_sum fuel n = some r := by
  have hcut : ∀ n : Nat, (rnd.RandomValue n 0 sqd_sum : K) = 0 ↔ rnd.rand n = 0 := by
    intro n
    unfold RandomSource.RandomValue
    have hMK : (0 : K) < (rnd.RAND_MAX : K) := by exact_mod_cast hM
    rw [sub_zero, add_zero, mul_eq_zero, div_eq_zero_iff]
    constructor
    · rintro ((h | h) | h)
      · exact_mod_cast h
      · exact absurd h (ne_of_gt hMK)
      · exact absurd h (ne_of_gt hs)
    · intro h
      left; left
      exact_mod_cast h
  intro d
  induction d with
  | zero =>
    intro n hn
    refine ⟨1, (rnd.RandomValue n 0 sqd_sum, n + 1), ?_⟩
    intro fuel hfuel
    obtain ⟨f, rfl⟩ : ∃ f, fuel = f + 1 := ⟨fuel - 1, by omega⟩
    rw [drawCut]
    rw [if_neg (by rw [hcut]; exact hn)]
  | succ d ih =>
    intro n hn
    by_cases h0 : rnd.rand n = 0
    · obtain ⟨N, r, hr⟩ := ih (n + 1) (by rw [Nat.add_assoc, Nat.add_comm 1 d]; exact hn)
      refine ⟨N + 1, r, ?_⟩
      intro fuel hfuel
      obtain ⟨f, rfl⟩ : ∃ f, fuel = f + 1 := ⟨fuel - 1, by omega⟩
      rw [drawCut]
      rw [if_pos (by rw [hcut]; exact h0)]
      exact hr f (by omega)
    · refine ⟨1, (rnd.RandomValue n 0 sqd_sum, n + 1), ?_⟩
      intro fuel hfuel
      obtain ⟨f, rfl⟩ : ∃ f, fuel = f + 1 := ⟨fuel - 1, by omega⟩
      rw [drawCut]
      rw [if_neg (by rw [hcut]; exact h0)]

/-- The draw of `cut_d` returns for a positive sum of distances. -/
theorem drawCut_total (rnd : RandomSource) (hrnd : rnd.NeverStuck) (sqd_sum : K)
    (hs : 0 < sqd_sum) (n : Nat) :
    ∃ (N : Nat) (r : K × Nat), ∀ fuel : Nat, N ≤ fuel → drawCut rnd sqd_sum fuel n = some r := by
  obtain ⟨m, hm, hne⟩ := hrnd.2 n
  exact drawCut_total_aux rnd hrnd.1 sqd_sum hs (m - n) n (by rwa [Nat.add_sub_cancel' hm])

theorem plusPlusLoop_total (rnd : RandomSource) (hrnd : rnd.NeverStuck) (D : Int)
    (pf : List (List K)) :
    ∀ (remaining : Nat) (st : List (List K) × List Bool × Nat),
      ∃ (N : Nat) (r : List (List K) × Nat),
        (∀ fuel : Nat, N ≤ fuel → plusPlusLoop rnd fuel D pf remaining st = some r) ∧
        st.1.length ≤ r.1.length ∧ r.1.length ≤ st.1.length + remaining := by
  intro remaining
  induction remaining with
  | zero =>
    intro st
    exact ⟨0, (st.1, st.2.2), fun fuel _ => rfl, le_refl _, le_refl _⟩
  | succ remaining ih =>
    intro st
    by_cases hs : (0 : K) < (((List.range pf.length).filter
        (fun i : Nat => !st.2.1.getD i false)).map
        (fun i : Nat => minSqDistance D st.1 (pf.getD i []))).foldl (fun s x => s + x) 0
    · obtain ⟨N1, r1, hr1⟩ := drawCut_total rnd hrnd _ hs st.2.2
      obtain ⟨N2, r2, hr2, h1, h2⟩ := ih
        (st.1 ++ [(pf.getD (((List.range pf.length).filter
            (fun i : Nat => !st.2.1.getD i false)).getD
              (cutPosition r1.1 (((List.range pf.length).filter
                (fun i : Nat => !st.2.1.getD i false)).map
                (fun i : Nat => minSqDistance D st.1 (pf.getD i []))) 0 0) 0) []).take D.toNat],
          st.2.1.set (((List.range pf.length).filter
            (fun i : Nat => !st.2.1.getD i false)).getD
              (cutPosition r1.1 (((List.range pf.length).filter
                (fun i : Nat => !st.2.1.getD i false)).map
                (fun i : Nat => minSqDistance D st.1 (pf.getD i []))) 0 0) 0) true, r1.2)
      refine ⟨max N1 N2, r2, ?_, ?_, ?_⟩
      · intro fuel hfuel
        rw [plusPlusLoop]
        simp only []
        rw [if_pos hs, hr1 fuel (le_trans (le_max_left _ _) hfuel)]
        exact hr2 fuel (le_trans (le_max_right _ _) hfuel)
      · simp only [List.length_append, List.length_singleton] at h1
        omega
      · simp only [List.length_append, List.length_singleton] at h2
        omega
    · refine ⟨0, (st.1, st.2.2), ?_, le_refl _, Nat.le_add_right _ _⟩
      intro fuel _
      rw [plusPlusLoop]
      simp only []
      rw [if_neg hs]

/-- `RandomClustersPlusPlus` returns between 1 and `k` centres. -/
theorem randomClustersPlusPlus_total (rnd : RandomSource) (hrnd : rnd.NeverStuck)
    (params : HVocParams) (hk : 1 ≤ params.k) (pf : List (List K)) (n : Nat) :
    ∃ (N : Nat) (r : List (List K) × Nat),
      (∀ fuel : Nat, N ≤ fuel → RandomClustersPlusPlus rnd fuel params pf n = some r) ∧
      1 ≤ r.1.length ∧ (r.1.length : Int) ≤ params.k := by
  obtain ⟨N, r, hr, h1, h2⟩ := plusPlusLoop_total rnd hrnd params.DescriptorLength pf
    (params.k - 1).toNat
    ([(pf.getD (rnd.RandomInt n 0 (pf.length - 1)) []).take params.DescriptorLength.toNat],
      (List.replicate pf.length false).set (rnd.RandomInt n 0 (pf.length - 1)) true, n + 1)
  refine ⟨N, r, ?_, ?_, ?_⟩
  · intro fuel hfuel
    unfold RandomClustersPlusPlus
    rw [if_neg (by omega)]
    exact hr fuel hfuel
  · simpa using h1
  · simp only [List.length_singleton] at h2
    omega

/-- The clustering of `HKMeansStep` returns for a non-empty list of features:
between 1 and `k` clusters, and one group per cluster. -/
theorem clusterFeatures_total (rnd : RandomSource) (hrnd : rnd.NeverStuck)
    (params : HVocParams) (hk : 1 ≤ params.k) (pf : List (List K)) (hne : pf ≠ []) (n : Nat) :
    ∃ (N : Nat) (r : List (List K) × List (List Nat) × Nat),
      (∀ fuel : Nat, N ≤ fuel → clusterFeatures rnd fuel params pf n = some r) ∧
      1 ≤ r.1.length ∧ (r.1.length : Int) ≤ params.k ∧ r.2.1.length = r.1.length := by
  by_cases hfew : (pf.length : Int) ≤ params.k
  · refine ⟨0, _, fun fuel _ => clusterFeatures_few rnd fuel params pf n hfew, ?_, ?_, ?_⟩
    · simp only [List.length_map]
      exact List.length_pos.mpr hne
    · simpa using hfew
    · simp
  · obtain ⟨N1, r1, hr1, h1, h2⟩ := randomClustersPlusPlus_total rnd hrnd params hk pf n
    have hne1 : r1.1 ≠ [] := by
      intro h
      rw [h] at h1
      simp at h1
    have ha : IsAssociation pf.length r1.1.length
        (pf.map (nearestCluster params.DescriptorLength r1.1)) := by
      refine ⟨by simp, ?_⟩
      intro j hj
      rw [getD_map_features pf _ j hj]
      exact (nearestCluster_spec params.DescriptorLength r1.1 hne1 _).1
    obtain ⟨N2, r2, hr2, h3, h4⟩ := kmeansLoop_total params.DescriptorLength pf r1.1.length
      (by omega) _ ha
    refine ⟨max N1 N2, (r2.1, r2.2, r1.2), ?_, by show 1 ≤ r2.1.length; omega,
      by show (r2.1.length : Int) ≤ _; rw [h3]; exact h2,
      by show r2.2.length = r2.1.length; rw [h3, h4]⟩
    intro fuel hfuel
    unfold clusterFeatures
    rw [if_neg hfew, hr1 fuel (le_trans (le_max_left _ _) hfuel)]
    simp only []
    rw [hr2 fuel (le_trans (le_max_right _ _) hfuel)]

end Seeding

section TreeInvariant
variable {K : Type} [LinearOrderedField K]

theorem getElem?_enumFrom_map {α β : Type} (g : Nat × α → β) (l : List α) (b j : Nat) :
    ((l.enumFrom b).map g)[j]? = (l[j]?).map (fun a => g (b + j, a)) := by
  rw [List.getElem?_map, List.getElem?_enumFrom]
  cases l[j]? <;> rfl

theorem countP_isLeaf_new (cs : List (List K)) (b : Nat) :
    ((cs.enumFrom b).map
      (fun x => { (Node.create x.1 : Node K) with Descriptor := x.2 })).countP
        (fun n => n.isLeaf) = cs.length := by
  induction cs generalizing b with
  | nil => rfl
  | cons c cs ih =>
    rw [List.enumFrom_cons, List.map_cons, List.countP_cons, ih]
    simp [Node.isLeaf, Node.create]

/-- The arena after the loop that creates the child nodes. -/
theorem createChildNodes_inv (k Lmax : Nat) (nodes : List (Node K)) (lev : Nat → Nat)
    (parent : Nat) (p : Node K) (cs : List (List K))
    (hinv : ArenaInv k Lmax nodes lev) (hp : nodes[parent]? = some p) (hpc : p.Children = [])
    (hlev : lev parent + 1 ≤ Lmax) (hcs : cs ≠ []) (hk : cs.length ≤ k) :
    ArenaInv k Lmax (createChildNodes nodes parent cs)
      (fun i => if i < nodes.length then lev i else lev parent + 1) ∧
    (∀ i : Nat, i < nodes.length → i ≠ parent →
      (createChildNodes nodes parent cs)[i]? = nodes[i]?) ∧
    (createChildNodes nodes parent cs)[parent]? =
      some { p with Children := List.range' nodes.length cs.length } ∧
    (createChildNodes nodes parent cs).length = nodes.length + cs.length ∧
    (∀ j : Nat, j < cs.length → ∃ c : Node K,
      (createChildNodes nodes parent cs)[nodes.length + j]? = some c ∧ c.Children = []) ∧
    (createChildNodes nodes parent cs).countP (fun n => n.isLeaf) + 1 =
      nodes.countP (fun n => n.isLeaf) + cs.length := by
  have hlt : parent < nodes.length := (List.getElem?_eq_some_iff.mp hp).1
  have heq := createChildNodes_eq cs nodes parent p hp
  rw [hpc, List.nil_append] at heq
  have hlen : (createChildNodes nodes parent cs).length = nodes.length + cs.length := by
    rw [heq]
    simp
  have hold : ∀ i : Nat, i < nodes.length → i ≠ parent →
      (createChildNodes nodes parent cs)[i]? = nodes[i]? := by
    intro i hi hne
    rw [heq, List.getElem?_append_left (by rw [List.length_set]; exact hi),
      List.getElem?_set_ne (Ne.symm hne)]
  have hpar : (createChildNodes nodes parent cs)[parent]? =
      some { p with Children := List.range' nodes.length cs.length } := by
    rw [heq, List.getElem?_append_left (by rw [List.length_set]; exact hlt),
      List.getElem?_set_self hlt]
  have hnew : ∀ j : Nat, j < cs.length →
      (createChildNodes nodes parent cs)[nodes.length + j]? =
        some { (Node.create (nodes.length + j) : Node K) with Descriptor := cs.getD j [] } := by
    intro j hj
    rw [heq, List.getElem?_append_right (by rw [List.length_set]; omega), List.length_set,
      Nat.add_sub_cancel_left, getElem?_enumFrom_map, List.getElem?_eq_getElem hj,
      List.getD_eq_getElem?_getD, List.getElem?_eq_getElem hj]
    rfl
  refine ⟨?_, hold, hpar, hlen, ?_, ?_⟩
  · intro i node hi
    have hi' : i < nodes.length + cs.length := by
      rw [← hlen]
      exact (List.getElem?_eq_some_iff.mp hi).1
    by_cases h1 : i < nodes.length
    · by_cases h2 : i = parent
      · subst h2
        rw [hpar] at hi
        have hn := Option.some.inj hi
        obtain ⟨a1, a2, _, a4, _⟩ := hinv i p hp
        rw [← hn]
        refine ⟨a1, a2, by simpa using hk, by simp only [h1, if_true]; exact a4, ?_⟩
        intro c hc
        simp only [List.mem_range'_1] at hc
        refine ⟨by omega, by rw [hlen]; omega, ?_⟩
        simp only [h1, if_true]
        rw [if_neg (by omega)]
      · rw [hold i h1 h2] at hi
        obtain ⟨a1, a2, a3, a4, a5⟩ := hinv i node hi
        refine ⟨a1, a2, a3, by simp only [h1, if_true]; exact a4, ?_⟩
        intro c hc
        obtain ⟨b1, b2, b3⟩ := a5 c hc
        refine ⟨b1, by rw [hlen]; omega, ?_⟩
        simp only [h1, b2, if_true]
        exact b3
    · obtain ⟨j, rfl⟩ : ∃ j, i = nodes.length + j := ⟨i - nodes.length, by omega⟩
      rw [hnew j (by omega)] at hi
      have hn := Option.some.inj hi
      rw [← hn]
      refine ⟨rfl, rfl, by simp [Node.create], ?_, ?_⟩
      · show (if nodes.length + j < nodes.length then lev (nodes.length + j)
          else lev parent + 1) ≤ Lmax
        rw [if_neg h1]
        exact hlev
      · intro c hc
        simp [Node.create] at hc
  · intro j hj
    exact ⟨_, hnew j hj, rfl⟩
  · rw [heq, List.countP_append, List.countP_set _ _ _ _ hlt, countP_isLeaf_new]
    have hpl : nodes[parent].isLeaf = true := by
      have : nodes[parent] = p := by
        have := List.getElem?_eq_getElem hlt
        rw [hp] at this
        exact (Option.some.inj this).symm
      simp only [this, Node.isLeaf, hpc, List.isEmpty_nil]
    have hnl : ∀ q : Node K, q.Children = List.range' nodes.length cs.length →
        q.isLeaf = false := by
      intro q hq
      simp only [Node.isLeaf, List.isEmpty_eq_false, hq]
      intro h
      have := congrArg List.length h
      rw [List.length_range', List.length_nil] at this
      exact hcs (List.length_eq_zero.mp this)
    have hpos : 0 < nodes.countP (fun n => n.isLeaf) := by
      rw [List.countP_pos_iff]
      exact ⟨nodes[parent], List.getElem_mem _, hpl⟩
    have hnl' := hnl { p with Children := List.range' nodes.length cs.length } rfl
    simp only [hpl, hnl', if_true, Bool.false_eq_true, if_false]
    omega

theorem getD_range' (b n i : Nat) (hi : i < n) : (List.range' b n).getD i 0 = b + i := by
  rw [List.getD_eq_getElem?_getD, List.getElem?_eq_getElem (by rw [List.length_range']; exact hi),
    List.getElem_range'_1]
  rfl

/-- The loop of `HKMeansStep` over the children, for the children `is` still
to be visited. -/
theorem childrenLoop_total
    (F : Nat → List (Node K) × Nat → Nat → List (List K) → Option (List (Node K) × Nat))
    (k Lmax h : Nat) (hk1 : 1 ≤ k) (hF : StepTotal F k Lmax h) (parent base nc : Nat)
    (groups : List (List Nat)) (pf : List (List K)) (hpb : parent < base) :
    ∀ (is : List Nat) (nodes : List (Node K)) (n : Nat) (lev : Nat → Nat),
      ArenaInv k Lmax nodes lev → is.Nodup →
      (∃ pn : Node K, nodes[parent]? = some pn ∧ pn.Children = List.range' base nc) →
      base + nc ≤ nodes.length →
      (∀ i ∈ is, i < nc ∧ lev (base + i) + h + 1 ≤ Lmax ∧
        ∃ c : Node K, nodes[base + i]? = some c ∧ c.Children = []) →
      ∃ (N : Nat) (nodes' : List (Node K)) (n' : Nat) (lev' : Nat → Nat),
        (∀ fuel : Nat, N ≤ fuel →
          is.foldl
            (fun (st : Option (List (Node K) × Nat)) (i : Nat) =>
              match st with
              | none => none
              | some st =>
                let id := (st.1.getD ((st.1.getD parent (Node.create 0)).Children.getD i 0)
                  (Node.create 0)).Id
                let child_features := (groups.getD i []).map (fun j : Nat => pf.getD j [])
                if child_features.length > 1 then F fuel st id child_features
                else some st)
            (some (nodes, n)) = some (nodes', n')) ∧
        ArenaInv k Lmax nodes' lev' ∧
        (∀ j : Nat, j < nodes.length → lev' j = lev j) ∧
        (∀ j : Nat, j < nodes.length → (∀ i ∈ is, j ≠ base + i) → nodes'[j]? = nodes[j]?) ∧
        nodes.length ≤ nodes'.length ∧
        nodes'.length ≤ nodes.length + is.length * levelSum k h ∧
        nodes'.countP (fun n => n.isLeaf) + is.length ≤
          nodes.countP (fun n => n.isLeaf) + is.length * k ^ (h + 1) := by
  intro is
  induction is with
  | nil =>
    intro nodes n lev hinv _ _ _ _
    exact ⟨0, nodes, n, lev, fun _ _ => rfl, hinv, fun _ _ => rfl, fun _ _ _ => rfl, le_refl _,
      by simp, by simp⟩
  | cons i rest ih =>
    intro nodes n lev hinv hnd hpar hlen hch
    obtain ⟨pn, hpn, hpnc⟩ := hpar
    obtain ⟨hi, hlevi, c, hc, hcc⟩ := hch i (List.mem_cons_self _ _)
    have hnd' := List.nodup_cons.mp hnd
    have hid : (nodes.getD ((nodes.getD parent (Node.create 0)).Children.getD i 0)
        (Node.create 0)).Id = base + i := by
      have h1 : nodes.getD parent (Node.create 0) = pn := by
        rw [List.getD_eq_getElem?_getD, hpn]; rfl
      rw [h1, hpnc, getD_range' base nc i hi]
      have h2 : nodes.getD (base + i) (Node.create 0) = c := by
        rw [List.getD_eq_getElem?_getD, hc]; rfl
      rw [h2]
      exact (hinv (base + i) c hc).1
    have hpk : 1 ≤ k ^ (h + 1) := Nat.one_le_pow _ _ hk1
    by_cases hcf : ((groups.getD i []).map (fun j : Nat => pf.getD j [])).length > 1
    · have hne : (groups.getD i []).map (fun j : Nat => pf.getD j []) ≠ [] := by
        intro h0
        rw [h0] at hcf
        simp at hcf
      obtain ⟨N1, nodes1, n1, lev1, hr1, hinv1, hlev1, hfr1, _, hle1, hub1, hcnt1⟩ :=
        hF nodes n (base + i) _ c lev hinv hc hcc hlevi hne
      obtain ⟨N2, nodes2, n2, lev2, hr2, hinv2, hlev2, hfr2, hle2, hub2, hcnt2⟩ :=
        ih nodes1 n1 lev1 hinv1 hnd'.2
          ⟨pn, by rw [hfr1 parent (by omega) (by omega)]; exact hpn, hpnc⟩ (by omega)
          (by
            intro i' hi'
            obtain ⟨a1, a2, c', a3, a4⟩ := hch i' (List.mem_cons_of_mem _ hi')
            have hne' : i' ≠ i := fun h => hnd'.1 (h ▸ hi')
            refine ⟨a1, ?_, c', ?_, a4⟩
            · rw [hlev1 (base + i') (by omega)]
              exact a2
            · rw [hfr1 (base + i') (by omega) (by omega)]
              exact a3)
      refine ⟨max N1 N2, nodes2, n2, lev2, ?_, hinv2, ?_, ?_, by omega, ?_, ?_⟩
      · intro fuel hfuel
        rw [List.foldl_cons]
        simp only [hid]
        rw [if_pos hcf, hr1 fuel (le_trans (le_max_left _ _) hfuel)]
        exact hr2 fuel (le_trans (le_max_right _ _) hfuel)
      · intro j hj
        rw [hlev2 j (by omega), hlev1 j hj]
      · intro j hj hall
        rw [hfr2 j (by omega) (fun i' hi' => hall i' (List.mem_cons_of_mem _ hi')),
          hfr1 j hj (hall i (List.mem_cons_self _ _))]
      · simp only [List.length_cons, Nat.add_mul, Nat.one_mul]
        omega
      · simp only [List.length_cons, Nat.add_mul, Nat.one_mul]
        omega
    · obtain ⟨N2, nodes2, n2, lev2, hr2, hinv2, hlev2, hfr2, hle2, hub2, hcnt2⟩ :=
        ih nodes n lev hinv hnd'.2 ⟨pn, hpn, hpnc⟩ hlen
          (fun i' hi' => hch i' (List.mem_cons_of_mem _ hi'))
      refine ⟨N2, nodes2, n2, lev2, ?_, hinv2, hlev2, ?_, hle2, ?_, ?_⟩
      · intro fuel hfuel
        rw [List.foldl_cons]
        simp only [hid]
        rw [if_neg hcf]
        exact hr2 fuel hfuel
      · intro j hj hall
        exact hfr2 j hj (fun i' hi' => hall i' (List.mem_cons_of_mem _ hi'))
      · simp only [List.length_cons, Nat.add_mul, Nat.one_mul]
        omega
      · simp only [List.length_cons, Nat.add_mul, Nat.one_mul]
        omega

/-- `HKMeansStep` returns with enough fuel, for every number of levels, and
leaves an arena as in `StepOk`. -/
theorem hkmeansStep_total (rnd : RandomSource) (hrnd : rnd.NeverStuck) (params : HVocParams)
    (hk : 1 ≤ params.k) (Lmax : Nat) :
    ∀ levels : Nat,
      StepTotal (fun fuel => HKMeansStep (K := K) rnd fuel params levels) params.k.toNat Lmax
        levels := by
  intro levels
  induction levels with
  | zero =>
    intro nodes n parent pf p lev hinv hp hpc hlev hne
    have he : pf.isEmpty = false := by
      cases pf with
      | nil => exact absurd rfl hne
      | cons _ _ => rfl
    obtain ⟨N, r, hr, h1, h2, _⟩ := clusterFeatures_total rnd hrnd params hk pf hne n
    have hcs : r.1 ≠ [] := by
      intro h
      rw [h] at h1
      simp at h1
    obtain ⟨a1, a2, a3, a4, _, a6⟩ := createChildNodes_inv params.k.toNat Lmax nodes lev parent p
      r.1 hinv hp hpc (by omega) hcs (by omega)
    refine ⟨N, createChildNodes nodes parent r.1, r.2.2, _, ?_, a1, ?_, a2, ⟨_, a3, ?_⟩,
      by omega, ?_, ?_⟩
    · intro fuel hfuel
      show HKMeansStep rnd fuel params 0 (nodes, n) parent pf = _
      rw [HKMeansStep]
      simp only [he, Bool.false_eq_true, if_false, hr fuel hfuel]
    · intro i hi
      simp only [hi, if_true]
    · intro h
      have := congrArg List.length h
      rw [List.length_range', List.length_nil] at this
      omega
    · rw [a4]
      simp only [levelSum]
      omega
    · simp only [Nat.zero_add, pow_one]
      omega
  | succ h ih =>
    intro nodes n parent pf p lev hinv hp hpc hlev hne
    have he : pf.isEmpty = false := by
      cases pf with
      | nil => exact absurd rfl hne
      | cons _ _ => rfl
    have hlt : parent < nodes.length := (List.getElem?_eq_some_iff.mp hp).1
    obtain ⟨N, r, hr, h1, h2, _⟩ := clusterFeatures_total rnd hrnd params hk pf hne n
    have hcs : r.1 ≠ [] := by
      intro h
      rw [h] at h1
      simp at h1
    obtain ⟨a1, a2, a3, a4, a5, a6⟩ := createChildNodes_inv params.k.toNat Lmax nodes lev parent
      p r.1 hinv hp hpc (by omega) hcs (by omega)
    obtain ⟨N2, nodes2, n2, lev2, hr2, hinv2, hlev2, hfr2, hle2, hub2, hcnt2⟩ :=
      childrenLoop_total (fun fuel => HKMeansStep (K := K) rnd fuel params h) params.k.toNat Lmax h
        (by omega) ih parent nodes.length r.1.length r.2.1 pf hlt (List.range r.1.length)
        (createChildNodes nodes parent r.1) r.2.2 _ a1 (List.nodup_range _) ⟨_, a3, rfl⟩
        (by omega)
        (by
          intro i hi
          have hi' : i < r.1.length := List.mem_range.mp hi
          refine ⟨hi', ?_, a5 i hi'⟩
          show (if nodes.length + i < nodes.length then lev (nodes.length + i)
            else lev parent + 1) + h + 1 ≤ Lmax
          rw [if_neg (by omega)]
          omega)
    have hnot : ∀ j : Nat, j < nodes.length → ∀ i ∈ List.range r.1.length,
        j ≠ nodes.length + i := by
      intro j hj i _
      omega
    refine ⟨max N N2, nodes2, n2, lev2, ?_, hinv2, ?_, ?_, ?_, by omega, ?_, ?_⟩
    · intro fuel hfuel
      show HKMeansStep rnd fuel params (h + 1) (nodes, n) parent pf = _
      rw [HKMeansStep]
      simp only [he, Bool.false_eq_true, if_false, hr fuel (le_trans (le_max_left _ _) hfuel)]
      exact hr2 fuel (le_trans (le_max_right _ _) hfuel)
    · intro i hi
      rw [hlev2 i (by omega)]
      simp only [hi, if_true]
    · intro i hi hne'
      rw [hfr2 i (by omega) (hnot i hi)]
      exact a2 i hi hne'
    · refine ⟨_, by rw [hfr2 parent (by omega) (hnot parent hlt)]; exact a3, ?_⟩
      intro h0
      have := congrArg List.length h0
      rw [List.length_range', List.length_nil] at this
      omega
    · rw [List.length_range] at hub2
      have hmul : r.1.length * levelSum params.k.toNat h ≤
          params.k.toNat * levelSum params.k.toNat h := Nat.mul_le_mul_right _ (by omega)
      simp only [levelSum]
      omega
    · rw [List.length_range] at hcnt2
      have hmul : r.1.length * params.k.toNat ^ (h + 1) ≤
          params.k.toNat * params.k.toNat ^ (h + 1) := Nat.mul_le_mul_right _ (by omega)
      have hpow : params.k.toNat ^ (h + 1 + 1) = params.k.toNat * params.k.toNat ^ (h + 1) := by
        rw [pow_succ, Nat.mul_comm]
      rw [hpow]
      omega

end TreeInvariant

section TreeSafety
variable {K : Type} [LinearOrderedField K]

theorem plusPlusLoop_safe (rnd : RandomSource) (fuel : Nat) (D : Int) (pf : List (List K)) :
    ∀ (remaining : Nat) (st : List (List K) × List Bool × Nat) (r : List (List K) × Nat),
      plusPlusLoop rnd fuel D pf remaining st = some r →
      st.1.length ≤ r.1.length ∧ r.1.length ≤ st.1.length + remaining := by
  intro remaining
  induction remaining with
  | zero =>
    intro st r h
    rw [plusPlusLoop] at h
    rw [← Option.some.inj h]
    exact ⟨le_refl _, le_refl _⟩
  | succ remaining ih =>
    intro st r h
    rw [plusPlusLoop] at h
    simp only [] at h
    split at h
    · split at h
      · exact absurd h (by simp)
      · have := ih _ _ h
        simp only [List.length_append, List.length_singleton] at this
        omega
    · rw [← Option.some.inj h]
      exact ⟨le_refl _, Nat.le_add_right _ _⟩

theorem kmeansLoop_safe (D : Int) (pf : List (List K)) (nc : Nat) :
    ∀ (fuel : Nat) (a : List Nat) (r : List (List K) × List (List Nat)),
      kmeansLoop D pf nc fuel a = some r → r.1.length = nc ∧ r.2.length = nc := by
  intro fuel
  induction fuel with
  | zero =>
    intro a r h
    rw [kmeansLoop] at h
    exact absurd h (by simp)
  | succ fuel ih =>
    intro a r h
    rw [kmeansLoop_succ] at h
    split at h
    · rw [← Option.some.inj h]
      exact ⟨length_centresOf D pf nc a, length_groupsOf nc _⟩
    · exact ih _ _ h

theorem clusterFeatures_safe (rnd : RandomSource) (fuel : Nat) (params : HVocParams)
    (pf : List (List K)) (hne : pf ≠ []) (n : Nat)
    (r : List (List K) × List (List Nat) × Nat)
    (h : clusterFeatures rnd fuel params pf n = some r) :
    1 ≤ r.1.length ∧ (r.1.length : Int) ≤ params.k := by
  unfold clusterFeatures at h
  split at h
  · rename_i hfew
    rw [← Option.some.inj h]
    simp only [List.length_map]
    exact ⟨List.length_pos.mpr hne, hfew⟩
  · split at h
    · exact absurd h (by simp)
    · rename_i clusters n1 hR
      split at h
      · exact absurd h (by simp)
      · rename_i cl gr hK
        rw [← Option.some.inj h]
        have h1 := (kmeansLoop_safe _ _ _ _ _ _ hK).1
        unfold RandomClustersPlusPlus at hR
        split at hR
        · exact absurd hR (by simp)
        · rename_i hk1
          have h2 := plusPlusLoop_safe _ _ _ _ _ _ _ hR
          simp only [List.length_singleton] at h2
          have h1' : cl.length = clusters.length := h1
          show 1 ≤ cl.length ∧ (cl.length : Int) ≤ params.k
          exact ⟨by omega, by omega⟩

theorem foldl_option_none {σ : Type} (g : Option σ → Nat → Option σ) (l : List Nat)
    (hg : ∀ i : Nat, g none i = none) : l.foldl g none = none := by
  induction l with
  | nil => rfl
  | cons i rest ih => rw [List.foldl_cons, hg]; exact ih

theorem childrenLoop_safe
    (F : Nat → List (Node K) × Nat → Nat → List (List K) → Option (List (Node K) × Nat))
    (k Lmax h : Nat) (hk1 : 1 ≤ k) (hF : StepSafe F k Lmax h) (parent base nc : Nat)
    (groups : List (List Nat)) (pf : List (List K)) (hpb : parent < base) (fuel : Nat) :
    ∀ (is : List Nat) (nodes : List (Node K)) (n : Nat) (lev : Nat → Nat)
      (nodes' : List (Node K)) (n' : Nat),
      ArenaInv k Lmax nodes lev → is.Nodup →
      (∃ pn : Node K, nodes[parent]? = some pn ∧ pn.Children = List.range' base nc) →
      base + nc ≤ nodes.length →
      (∀ i ∈ is, i < nc ∧ lev (base + i) + h + 1 ≤ Lmax ∧
        ∃ c : Node K, nodes[base + i]? = some c ∧ c.Children = []) →
      is.foldl
        (fun (st : Option (List (Node K) × Nat)) (i : Nat) =>
          match st with
          | none => none
          | some st =>
            let id := (st.1.getD ((st.1.getD parent (Node.create 0)).Children.getD i 0)
              (Node.create 0)).Id
            let child_features := (groups.getD i []).map (fun j : Nat => pf.getD j [])
            if child_features.length > 1 then F fuel st id child_features
            else some st)
        (some (nodes, n)) = some (nodes', n') →
      ∃ lev' : Nat → Nat,
        ArenaInv k Lmax nodes' lev' ∧
        (∀ j : Nat, j < nodes.length → lev' j = lev j) ∧
        (∀ j : Nat, j < nodes.length → (∀ i ∈ is, j ≠ base + i) → nodes'[j]? = nodes[j]?) ∧
        nodes.length ≤ nodes'.length ∧
        nodes'.length ≤ nodes.length + is.length * levelSum k h ∧
        nodes'.countP (fun n => n.isLeaf) + is.length ≤
          nodes.countP (fun n => n.isLeaf) + is.length * k ^ (h + 1) := by
  intro is
  induction is with
  | nil =>
    intro nodes n lev nodes' n' hinv _ _ _ _ hrun
    have := Prod.mk.inj (Option.some.inj hrun)
    rw [← this.1]
    exact ⟨lev, hinv, fun _ _ => rfl, fun _ _ _ => rfl, le_refl _, by simp, by simp⟩
  | cons i rest ih =>
    intro nodes n lev nodes' n' hinv hnd hpar hlen hch hrun
    obtain ⟨pn, hpn, hpnc⟩ := hpar
    obtain ⟨hi, hlevi, c, hc, hcc⟩ := hch i (List.mem_cons_self _ _)
    have hnd' := List.nodup_cons.mp hnd
    have hid : (nodes.getD ((nodes.getD parent (Node.create 0)).Children.getD i 0)
        (Node.create 0)).Id = base + i := by
      have h1 : nodes.getD parent (Node.create 0) = pn := by
        rw [List.getD_eq_getElem?_getD, hpn]; rfl
      rw [h1, hpnc, getD_range' base nc i hi]
      have h2 : nodes.getD (base + i) (Node.create 0) = c := by
        rw [List.getD_eq_getElem?_getD, hc]; rfl
      rw [h2]
      exact (hinv (base + i) c hc).1
    have hpk : 1 ≤ k ^ (h + 1) := Nat.one_le_pow _ _ hk1
    rw [List.foldl_cons] at hrun
    simp only [hid] at hrun
    by_cases hcf : ((groups.getD i []).map (fun j : Nat => pf.getD j [])).length > 1
    · have hne : (groups.getD i []).map (fun j : Nat => pf.getD j []) ≠ [] := by
        intro h0
        rw [h0] at hcf
        simp at hcf
      rw [if_pos hcf] at hrun
      cases hF1 : F fuel (nodes, n) (base + i)
          ((groups.getD i []).map (fun j : Nat => pf.getD j [])) with
      | none =>
        rw [hF1] at hrun
        rw [foldl_option_none _ rest (fun _ => rfl)] at hrun
        exact absurd hrun (by simp)
      | some st1 =>
        obtain ⟨nodes1, n1⟩ := st1
        rw [hF1] at hrun
        obtain ⟨lev1, hinv1, hlev1, hfr1, _, hle1, hub1, hcnt1⟩ :=
          hF fuel nodes n (base + i) _ c lev nodes1 n1 hinv hc hcc hlevi hne hF1
        obtain ⟨lev2, hinv2, hlev2, hfr2, hle2, hub2, hcnt2⟩ :=
          ih nodes1 n1 lev1 nodes' n' hinv1 hnd'.2
            ⟨pn, by rw [hfr1 parent (by omega) (by omega)]; exact hpn, hpnc⟩ (by omega)
            (by
              intro i' hi'
              obtain ⟨a1, a2, c', a3, a4⟩ := hch i' (List.mem_cons_of_mem _ hi')
              have hne' : i' ≠ i := fun h => hnd'.1 (h ▸ hi')
              refine ⟨a1, ?_, c', ?_, a4⟩
              · rw [hlev1 (base + i') (by omega)]
                exact a2
              · rw [hfr1 (base + i') (by omega) (by omega)]
                exact a3) hrun
        refine ⟨lev2, hinv2, ?_, ?_, by omega, ?_, ?_⟩
        · intro j hj
          rw [hlev2 j (by omega), hlev1 j hj]
        · intro j hj hall
          rw [hfr2 j (by omega) (fun i' hi' => hall i' (List.mem_cons_of_mem _ hi')),
            hfr1 j hj (hall i (List.mem_cons_self _ _))]
        · simp only [List.length_cons, Nat.add_mul, Nat.one_mul]
          omega
        · simp only [List.length_cons, Nat.add_mul, Nat.one_mul]
          omega
    · rw [if_neg hcf] at hrun
      obtain ⟨lev2, hinv2, hlev2, hfr2, hle2, hub2, hcnt2⟩ :=
        ih nodes n lev nodes' n' hinv hnd'.2 ⟨pn, hpn, hpnc⟩ hlen
          (fun i' hi' => hch i' (List.mem_cons_of_mem _ hi')) hrun
      refine ⟨lev2, hinv2, hlev2, ?_, hle2, ?_, ?_⟩
      · intro j hj hall
        exact hfr2 j hj (fun i' hi' => hall i' (List.mem_cons_of_mem _ hi'))
      · simp only [List.length_cons, Nat.add_mul, Nat.one_mul]
        omega
      · simp only [List.length_cons, Nat.add_mul, Nat.one_mul]
        omega

/-- Every result of `HKMeansStep`, for every generator and every fuel, is an
arena as in `StepOk`. -/
theorem hkmeansStep_safe (rnd : RandomSource) (params : HVocParams) (hk : 1 ≤ params.k)
    (Lmax : Nat) :
    ∀ levels : Nat,
      StepSafe (fun fuel => HKMeansStep (K := K) rnd fuel params levels) params.k.toNat Lmax
        levels := by
  intro levels
  induction levels with
  | zero =>
    intro fuel nodes n parent pf p lev nodes' n' hinv hp hpc hlev hne hrun
    have he : pf.isEmpty = false := by
      cases pf with
      | nil => exact absurd rfl hne
      | cons _ _ => rfl
    have hrun' : HKMeansStep rnd fuel params 0 (nodes, n) parent pf = some (nodes', n') := hrun
    rw [HKMeansStep] at hrun'
    simp only [he, Bool.false_eq_true, if_false] at hrun'
    cases hcl : clusterFeatures rnd fuel params pf n with
    | none =>
      rw [hcl] at hrun'
      exact absurd hrun' (by simp)
    | some r =>
      rw [hcl] at hrun'
      obtain ⟨h1, h2⟩ := clusterFeatures_safe rnd fuel params pf hne n r hcl
      have hcs : r.1 ≠ [] := by
        intro h
        rw [h] at h1
        simp at h1
      obtain ⟨a1, a2, a3, a4, _, a6⟩ := createChildNodes_inv params.k.toNat Lmax nodes lev parent
        p r.1 hinv hp hpc (by omega) hcs (by omega)
      have hn := (Prod.mk.inj (Option.some.inj hrun')).1
      rw [← hn]
      refine ⟨_, a1, ?_, a2, ⟨_, a3, ?_⟩, by omega, ?_, ?_⟩
      · intro i hi
        simp only [hi, if_true]
      · intro h
        have := congrArg List.length h
        rw [List.length_range', List.length_nil] at this
        omega
      · rw [a4]
        simp only [levelSum]
        omega
      · simp only [Nat.zero_add, pow_one]
        omega
  | succ h ih =>
    intro fuel nodes n parent pf p lev nodes' n' hinv hp hpc hlev hne hrun
    have he : pf.isEmpty = false := by
      cases pf with
      | nil => exact absurd rfl hne
      | cons _ _ => rfl
    have hlt : parent < nodes.length := (List.getElem?_eq_some_iff.mp hp).1
    have hrun' : HKMeansStep rnd fuel params (h + 1) (nodes, n) parent pf = some (nodes', n') :=
      hrun
    rw [HKMeansStep] at hrun'
    simp only [he, Bool.false_eq_true, if_false] at hrun'
    cases hcl : clusterFeatures rnd fuel params pf n with
    | none =>
      rw [hcl] at hrun'
      exact absurd hrun' (by simp)
    | some r =>
      rw [hcl] at hrun'
      obtain ⟨h1, h2⟩ := clusterFeatures_safe rnd fuel params pf hne n r hcl
      have hcs : r.1 ≠ [] := by
        intro h
        rw [h] at h1
        simp at h1
      obtain ⟨a1, a2, a3, a4, a5, a6⟩ := createChildNodes_inv params.k.toNat Lmax nodes lev
        parent p r.1 hinv hp hpc (by omega) hcs (by omega)
      obtain ⟨lev2, hinv2, hlev2, hfr2, hle2, hub2, hcnt2⟩ :=
        childrenLoop_safe (fun fuel => HKMeansStep (K := K) rnd fuel params h) params.k.toNat
          Lmax h (by omega) ih parent nodes.length r.1.length r.2.1 pf hlt fuel
          (List.range r.1.length) (createChildNodes nodes parent r.1) r.2.2 _ nodes' n' a1
          (List.nodup_range _) ⟨_, a3, rfl⟩ (by omega)
          (by
            intro i hi
            have hi' : i < r.1.length := List.mem_range.mp hi
            refine ⟨hi', ?_, a5 i hi'⟩
            show (if nodes.length + i < nodes.length then lev (nodes.length + i)
              else lev parent + 1) + h + 1 ≤ Lmax
            rw [if_neg (by omega)]
            omega) hrun'
      have hnot : ∀ j : Nat, j < nodes.length → ∀ i ∈ List.range r.1.length,
          j ≠ nodes.length + i := by
        intro j hj i _
        omega
      refine ⟨lev2, hinv2, ?_, ?_, ?_, by omega, ?_, ?_⟩
      · intro i hi
        rw [hlev2 i (by omega)]
        simp only [hi, if_true]
      · intro i hi hne'
        rw [hfr2 i (by omega) (hnot i hi)]
        exact a2 i hi hne'
      · refine ⟨_, by rw [hfr2 parent (by omega) (hnot parent hlt)]; exact a3, ?_⟩
        intro h0
        have := congrArg List.length h0
        rw [List.length_range', List.length_nil] at this
        omega
      · rw [List.length_range] at hub2
        have hmul : r.1.length * levelSum params.k.toNat h ≤
            params.k.toNat * levelSum params.k.toNat h := Nat.mul_le_mul_right _ (by omega)
        simp only [levelSum]
        omega
      · rw [List.length_range] at hcnt2
        have hmul : r.1.length * params.k.toNat ^ (h + 1) ≤
            params.k.toNat * params.k.toNat ^ (h + 1) := Nat.mul_le_mul_right _ (by omega)
        have hpow : params.k.toNat ^ (h + 1 + 1) =
            params.k.toNat * params.k.toNat ^ (h + 1) := by
          rw [pow_succ, Nat.mul_comm]
        rw [hpow]
        omega

end TreeSafety

section TreeOfCreate
variable {K : Type} [LinearOrderedField K]

theorem hkmeansStep_nil (rnd : RandomSource) (fuel : Nat) (params : HVocParams) (levels : Nat)
    (st : List (Node K) × Nat) (parent : Nat) :
    HKMeansStep rnd fuel params levels st parent [] = some st := by
  cases levels <;> rfl

theorem featureSlots_ne_nil (features : List K) (D : Nat) (hD : 0 < D) (hne : features ≠ []) :
    featureSlots features D ≠ [] := by
  intro h
  have hl := congrArg List.length h
  unfold featureSlots at hl
  rw [List.length_map, List.length_range, List.length_nil] at hl
  have hpos : 0 < features.length := List.length_pos.mpr hne
  have : D ≤ features.length + D - 1 := by omega
  have := Nat.div_pos this hD
  omega

theorem root_arenaInv (k Lmax : Nat) :
    ArenaInv k Lmax [(Node.create 0 : Node K)] (fun _ => 0) := by
  intro i node hi
  cases i with
  | zero =>
    simp only [List.getElem?_cons_zero, Option.some.injEq] at hi
    rw [← hi]
    exact ⟨rfl, rfl, by simp [Node.create], Nat.zero_le _, by simp [Node.create]⟩
  | succ i => simp at hi

theorem one_le_levelSum (k : Nat) (hk : 1 ≤ k) (h : Nat) : 1 ≤ levelSum k h := by
  cases h with
  | zero => exact hk
  | succ h =>
    simp only [levelSum]
    omega

/-- Every arena that `HKMeansStep` leaves from the root, for every generator
and every fuel, has the bounds of the tree. -/
theorem hkmeans_root_safe (rnd : RandomSource) (fuel : Nat) (params : HVocParams)
    (hk : 1 ≤ params.k) (hL : 1 ≤ params.L) (pf : List (List K)) (tree : List (Node K))
    (n' : Nat)
    (h : HKMeansStep rnd fuel params (params.L - 1).toNat ([Node.create 0], 0) 0 pf =
      some (tree, n')) :
    TreeBounds params.k.toNat params.L.toNat tree ∧
    (pf ≠ [] → ∃ root ∈ tree[0]?, root.Children ≠ []) := by
  by_cases hpf : pf = []
  · subst hpf
    rw [hkmeansStep_nil] at h
    have ht := (Prod.mk.inj (Option.some.inj h)).1
    rw [← ht]
    refine ⟨⟨⟨fun _ => 0, rfl, root_arenaInv _ _⟩, by simp, ?_, ?_⟩, fun hne => absurd rfl hne⟩
    · simp
    · have h1 : [(Node.create 0 : Node K)].countP (fun n => n.isLeaf) = 1 := rfl
      rw [h1]
      exact Nat.one_le_pow _ _ (by omega)
  · obtain ⟨lev', hinv, hlev, _, hroot, hle, hub, hcnt⟩ :=
      hkmeansStep_safe rnd params hk params.L.toNat (params.L - 1).toNat fuel
        [Node.create 0] 0 0 pf (Node.create 0) (fun _ => 0) tree n'
        (root_arenaInv _ _) rfl rfl
        (by show 0 + (params.L - 1).toNat + 1 ≤ params.L.toNat; omega) hpf h
    have hL1 : (params.L - 1).toNat = params.L.toNat - 1 := by omega
    have hL2 : (params.L - 1).toNat + 1 = params.L.toNat := by omega
    refine ⟨⟨⟨lev', hlev 0 (by simp), hinv⟩, ?_, ?_, ?_⟩, fun _ => ?_⟩
    · intro h0
      rw [h0] at hle
      simp at hle
    · rw [← hL1]
      simpa [Nat.add_comm] using hub
    · rw [hL2] at hcnt
      have h1 : [(Node.create 0 : Node K)].countP (fun n => n.isLeaf) = 1 := rfl
      rw [h1] at hcnt
      omega
    · obtain ⟨p', hp', hne'⟩ := hroot
      exact ⟨p', hp', hne'⟩

/-- With a generator that is never stuck, `HKMeansStep` returns from the root
with enough fuel. -/
theorem hkmeans_root_total (rnd : RandomSource) (hrnd : rnd.NeverStuck) (params : HVocParams)
    (hk : 1 ≤ params.k) (hL : 1 ≤ params.L) (pf : List (List K)) :
    ∃ (N : Nat) (tree : List (Node K)) (n' : Nat), ∀ fuel : Nat, N ≤ fuel →
      HKMeansStep rnd fuel params (params.L - 1).toNat ([Node.create 0], 0) 0 pf =
        some (tree, n') := by
  by_cases hpf : pf = []
  · subst hpf
    exact ⟨0, _, _, fun fuel _ => hkmeansStep_nil rnd fuel params _ _ 0⟩
  · obtain ⟨N, nodes', n', _, hr, _⟩ :=
      hkmeansStep_total rnd hrnd params hk params.L.toNat (params.L - 1).toNat
        [Node.create 0] 0 0 pf (Node.create 0) (fun _ => 0)
        (root_arenaInv _ _) rfl rfl
        (by show 0 + (params.L - 1).toNat + 1 ≤ params.L.toNat; omega) hpf
    exact ⟨N, nodes', n', hr⟩

theorem treeBounds_arenaOk (k Lmax : Nat) (tree : List (Node K)) (training : List (List K))
    (hb : TreeBounds k Lmax tree)
    (hroot : (∃ features ∈ training, features ≠ []) → ∃ root ∈ tree[0]?, root.Children ≠ []) :
    ArenaOk tree training := by
  obtain ⟨⟨lev, _, hinv⟩, hne, _, _⟩ := hb
  refine ⟨hne, ?_, ?_, hroot⟩
  · intro node hnode
    obtain ⟨i, hi, hget⟩ := List.getElem_of_mem hnode
    exact (hinv i node (by rw [List.getElem?_eq_getElem hi, hget])).2.1
  · intro i node hi c hc
    obtain ⟨_, _, _, _, h5⟩ := hinv i node hi
    exact ⟨(h5 c hc).1, (h5 c hc).2.1⟩

theorem childPath_level (k Lmax : Nat) (nodes : List (Node K)) (lev : Nat → Nat)
    (hinv : ArenaInv k Lmax nodes lev) (i d j : Nat) (hpath : ChildPath nodes i d j)
    (hi : i < nodes.length) : lev j = lev i + d ∧ j < nodes.length := by
  induction hpath with
  | here i => exact ⟨rfl, hi⟩
  | down i c d j node hnode hc _ ih =>
    obtain ⟨_, _, _, _, h5⟩ := hinv i node hnode
    obtain ⟨_, h2, h3⟩ := h5 c hc
    obtain ⟨h6, h7⟩ := ih h2
    exact ⟨by rw [h6, h3]; omega, h7⟩

/-- In a tree with the bounds, a node reached from the root by `d` child links
has `d ≤ Lmax`. -/
theorem childPath_depth (k Lmax : Nat) (tree : List (Node K)) (hb : TreeBounds k Lmax tree)
    (d j : Nat) (hpath : ChildPath tree 0 d j) : d ≤ Lmax := by
  obtain ⟨⟨lev, h0, hinv⟩, hne, _, _⟩ := hb
  obtain ⟨h1, h2⟩ := childPath_level k Lmax tree lev hinv 0 d j hpath (List.length_pos.mpr hne)
  have := (hinv j tree[j] (List.getElem?_eq_getElem h2)).2.2.2.1
  omega

theorem levelSum_closed (m h : Nat) :
    (1 + levelSum (m + 1) h) * m + 1 = (m + 1) ^ (h + 2) := by
  induction h with
  | zero =>
    simp only [levelSum]
    ring
  | succ h ih =>
    simp only [levelSum]
    have : (m + 1) ^ (h + 1 + 2) = (m + 1) * (m + 1) ^ (h + 2) := by ring
    rw [this, ← ih]
    ring

theorem levelSum_le_div (k L : Nat) (hk : 2 ≤ k) (hL : 1 ≤ L) :
    1 + levelSum k (L - 1) = (k ^ (L + 1) - 1) / (k - 1) := by
  obtain ⟨m, rfl⟩ : ∃ m, k = m + 1 := ⟨k - 1, by omega⟩
  obtain ⟨h, rfl⟩ : ∃ h, L = h + 1 := ⟨L - 1, by omega⟩
  have := levelSum_closed m h
  simp only [Nat.add_sub_cancel]
  rw [← this, Nat.add_sub_cancel]
  exact (Nat.mul_div_cancel _ (by omega)).symm

theorem some_of_map_shape (nodes nodes' : List (Node K))
    (hs : ∀ k : Nat, (nodes[k]?).map Node.shape = (nodes'[k]?).map Node.shape)
    (i : Nat) (node : Node K) (h : nodes[i]? = some node) :
    ∃ node' : Node K, nodes'[i]? = some node' ∧ node.Children = node'.Children ∧
      node.Descriptor = node'.Descriptor ∧ node.WId = node'.WId ∧ node.Id = node'.Id := by
  have h1 := hs i
  rw [h] at h1
  cases h2 : nodes'[i]? with
  | none => rw [h2] at h1; simp at h1
  | some node' =>
    rw [h2] at h1
    simp only [Option.map_some', Option.some.injEq, Node.shape, Prod.mk.injEq] at h1
    exact ⟨node', rfl, h1.2.1, h1.2.2.1, h1.2.2.2, h1.1⟩

theorem length_of_map_shape (nodes nodes' : List (Node K))
    (hs : ∀ k : Nat, (nodes[k]?).map Node.shape = (nodes'[k]?).map Node.shape) :
    nodes.length = nodes'.length := by
  apply le_antisymm
  · by_contra hcon
    have h1 := hs nodes'.length
    rw [List.getElem?_eq_getElem (by omega), List.getElem?_eq_none (le_refl _)] at h1
    simp at h1
  · by_contra hcon
    have h1 := hs nodes.length
    rw [List.getElem?_eq_none (le_refl _), List.getElem?_eq_getElem (by omega)] at h1
    simp at h1

theorem childPath_of_children (nodes tree : List (Node K))
    (hch : ∀ (i : Nat) (node : Node K), nodes[i]? = some node →
      ∃ tnode : Node K, tree[i]? = some tnode ∧ node.Children = tnode.Children)
    (i d j : Nat) (h : ChildPath nodes i d j) : ChildPath tree i d j := by
  induction h with
  | here i => exact ChildPath.here i
  | down i c d j node hnode hc _ ih =>
    obtain ⟨tnode, h1, h2⟩ := hch i node hnode
    exact ChildPath.down i c d j tnode h1 (h2 ▸ hc) ih

/-- A call of `CreateWith` that returns has passed the assertions of the
source: the training set is not empty, the descriptor length is positive and
the training vectors hold whole descriptors. -/
theorem createWith_some_pre (L : StdLib K) (A : StdAlgorithm) (voc voc' : HVocabulary K)
    (tree : List (Node K)) (training : List (List K))
    (h : voc.CreateWith L A tree training = some voc') :
    training ≠ [] ∧ 0 < voc.base_m_params.DescriptorLength ∧
    0 < voc.m_params.DescriptorLength ∧
    ∀ features ∈ training, features.length % voc.m_params.DescriptorLength.toNat = 0 := by
  unfold HVocabulary.CreateWith at h
  split at h
  · rename_i hcond
    unfold HVocabulary.SetNodeWeights at h
    split at h
    · exact absurd h (by simp)
    · rename_i v w hG
      unfold HVocabulary.GetWordWeightsAndCreateStopList at hG
      simp only [] at hG
      split at hG
      · exact absurd hG (by simp)
      · rename_i h1
        split at hG
        · exact absurd hG (by simp)
        · rename_i h2
          have h1' := not_not.mp h1
          refine ⟨?_, not_le.mp h2, hcond.1, ?_⟩
          · intro h0
            rw [h0] at h1'
            exact absurd h1'.2 (by simp)
          · intro f hf
            exact of_decide_eq_true (List.all_eq_true.mp hcond.2 f hf)
  · exact absurd h (by simp)

/-- The tree of a vocabulary that `Create` returns: the arena that
`HKMeansStep` has left from the root, with the bounds of the tree. -/
theorem create_safe (rnd : RandomSource) (fuel : Nat) (L : StdLib K) (A : StdAlgorithm)
    (voc voc' : HVocabulary K) (training : List (List K)) (hk : 1 ≤ voc.m_params.k)
    (hL : 1 ≤ voc.m_params.L)
    (h : voc.Create rnd fuel L A training = some voc') :
    ∃ (tree : List (Node K)) (n' : Nat),
      HKMeansStep rnd fuel voc.m_params (voc.m_params.L - 1).toNat ([Node.create 0], 0) 0
        (training.flatMap
          (fun features => featureSlots features voc.m_params.DescriptorLength.toNat)) =
        some (tree, n') ∧
      voc.CreateWith L A tree training = some voc' ∧
      TreeBounds voc.m_params.k.toNat voc.m_params.L.toNat tree ∧
      ArenaOk tree training := by
  unfold HVocabulary.Create at h
  split at h
  · rename_i hcond
    split at h
    · exact absurd h (by simp)
    · rename_i tree n' hrun
      obtain ⟨hb, hroot⟩ := hkmeans_root_safe rnd fuel voc.m_params hk hL _ tree n' hrun
      refine ⟨tree, n', hrun, h, hb, treeBounds_arenaOk _ _ tree training hb ?_⟩
      intro ⟨features, hf, hne⟩
      apply hroot
      intro h0
      have hmem : ∀ s ∈ featureSlots features voc.m_params.DescriptorLength.toNat,
          s ∈ training.flatMap
            (fun features => featureSlots features voc.m_params.DescriptorLength.toNat) :=
        fun s hs => List.mem_flatMap.mpr ⟨features, hf, hs⟩
      rw [h0] at hmem
      have hD : 0 < voc.m_params.DescriptorLength.toNat := by
        have := hcond.1
        omega
      cases hfs : featureSlots features voc.m_params.DescriptorLength.toNat with
      | nil => exact featureSlots_ne_nil features _ hD hne hfs
      | cons s rest =>
        rw [hfs] at hmem
        exact absurd (hmem s (List.mem_cons_self _ _)) (List.not_mem_nil _)
  · exact absurd h (by simp)

/-- The shape of a vocabulary built on a tree with the bounds. -/
theorem createWith_bounds (L : StdLib K) (A : StdAlgorithm) (voc voc' : HVocabulary K)
    (tree : List (Node K)) (training : List (List K)) (k Lmax : Nat)
    (hb : TreeBounds k Lmax tree) (harena : ArenaOk tree training)
    (hdocs : training ≠ []) (hD : 0 < voc.base_m_params.DescriptorLength)
    (hC : voc.CreateWith L A tree training = some voc') :
    (∀ (i : Nat) (node : Node K), voc'.m_nodes[i]? = some node → node.Children.length ≤ k) ∧
    (∀ d j : Nat, ChildPath voc'.m_nodes 0 d j → d ≤ Lmax) ∧
    voc'.NumberOfWords ≤ k ^ Lmax ∧
    voc'.m_nodes.length ≤ 1 + levelSum k (Lmax - 1) ∧
    voc'.isEmpty = false := by
  have hcond : 0 < voc.m_params.DescriptorLength ∧ training.all (fun features =>
      decide (features.length % voc.m_params.DescriptorLength.toNat = 0)) = true := by
    unfold HVocabulary.CreateWith at hC
    split at hC
    · rename_i hc
      exact hc
    · exact absurd hC (by simp)
  obtain ⟨_, _, voc'', hC', _, _, hcr, _, hw, _, hshape, _⟩ := createWith_spec L A voc tree
    training harena hdocs hD hcond.1
    (fun f hf => of_decide_eq_true (List.all_eq_true.mp hcond.2 f hf))
  rw [hC] at hC'
  have hv := Option.some.inj hC'
  subst hv
  have hlen : voc'.m_nodes.length = tree.length := by
    rw [length_of_map_shape _ _ hshape, createWords_length]
  obtain ⟨⟨lev, h0, hinv⟩, hne, hub, hcnt⟩ := hb
  have hch : ∀ (i : Nat) (node : Node K), voc'.m_nodes[i]? = some node →
      ∃ tnode : Node K, tree[i]? = some tnode ∧ node.Children = tnode.Children := by
    intro i node hi
    obtain ⟨node', h1, h2, _⟩ := some_of_map_shape _ _ hshape i node hi
    obtain ⟨tnode, h3, _, h4, _⟩ := createWords_node tree i node' h1
    exact ⟨tnode, h3, h2.trans h4⟩
  refine ⟨?_, ?_, ?_, by rw [hlen]; exact hub, by simp [HVocabulary.isEmpty, hcr]⟩
  · intro i node hi
    obtain ⟨tnode, h1, h2⟩ := hch i node hi
    rw [h2]
    exact (hinv i tnode h1).2.2.1
  · intro d j hpath
    exact childPath_depth k Lmax tree ⟨⟨lev, h0, hinv⟩, hne, hub, hcnt⟩ d j
      (childPath_of_children _ tree hch 0 d j hpath)
  · simp only [HVocabulary.NumberOfWords, HVocabulary.GetNumberOfWords, hcr, if_true]
    rw [hw, createWords_words_length]
    exact hcnt

theorem flatMap_slots_ne_nil (training : List (List K)) (D : Nat) (hD : 0 < D)
    (h : ∃ features ∈ training, features ≠ []) :
    training.flatMap (fun features => featureSlots features D) ≠ [] := by
  obtain ⟨features, hf, hne⟩ := h
  intro h0
  have hmem : ∀ s ∈ featureSlots features D,
      s ∈ training.flatMap (fun features => featureSlots features D) :=
    fun s hs => List.mem_flatMap.mpr ⟨features, hf, hs⟩
  rw [h0] at hmem
  cases hfs : featureSlots features D with
  | nil => exact featureSlots_ne_nil features _ hD hne hfs
  | cons s rest =>
    rw [hfs] at hmem
    exact absurd (hmem s (List.mem_cons_self _ _)) (List.not_mem_nil _)

/-- With a generator that is never stuck, `Create` returns with enough fuel. -/
theorem create_total (rnd : RandomSource) (hrnd : rnd.NeverStuck) (L : StdLib K)
    (A : StdAlgorithm) (voc : HVocabulary K) (training : List (List K))
    (hk : 1 ≤ voc.m_params.k) (hL : 1 ≤ voc.m_params.L)
    (hD : 0 < voc.base_m_params.DescriptorLength) (hD2 : 0 < voc.m_params.DescriptorLength)
    (hne : training ≠ [])
    (hlen : ∀ features ∈ training,
      features.length % voc.m_params.DescriptorLength.toNat = 0) :
    ∃ (N : Nat) (voc' : HVocabulary K), ∀ fuel : Nat, N ≤ fuel →
      voc.Create rnd fuel L A training = some voc' := by
  obtain ⟨N, tree, n', hrun⟩ := hkmeans_root_total rnd hrnd voc.m_params hk hL
    (training.flatMap
      (fun features => featureSlots features voc.m_params.DescriptorLength.toNat))
  obtain ⟨hb, hroot⟩ := hkmeans_root_safe rnd N voc.m_params hk hL _ tree n' (hrun N (le_refl _))
  have harena : ArenaOk tree training :=
    treeBounds_arenaOk _ _ tree training hb
      (fun h => hroot (flatMap_slots_ne_nil training _ (by omega) h))
  obtain ⟨_, _, voc', hC, _⟩ := createWith_spec L A voc tree training harena hne hD hD2 hlen
  refine ⟨N, voc', ?_⟩
  intro fuel hfuel
  unfold HVocabulary.Create
  have hall : training.all (fun features =>
      decide (features.length % voc.m_params.DescriptorLength.toNat = 0)) = true := by
    rw [List.all_eq_true]
    intro f hf
    exact decide_eq_true (hlen f hf)
  rw [if_pos ⟨hD2, hall⟩, hrun fuel hfuel]
  exact hC

/-- C21: for `k ≥ 2` and `L ≥ 1`, every vocabulary that `Create` returns, for
every training set, every generator behind `rand()` and every fuel, has at most
`k` children per node, no node more than `L` child links below the root, at
most `k^L` words and at most `(k^(L+1) - 1)/(k - 1)` nodes, and is not empty;
and for a non-empty training set of whole descriptors `Create` does return,
with enough fuel, for every generator that does not return `0` for ever. -/
theorem create_tree_is_bounded (L : StdLib K) (A : StdAlgorithm) (voc : HVocabulary K)
    (training : List (List K)) (hk : 2 ≤ voc.m_params.k) (hL : 1 ≤ voc.m_params.L) :
    (∀ (rnd : RandomSource) (fuel : Nat) (voc' : HVocabulary K),
      voc.Create rnd fuel L A training = some voc' →
      (∀ (i : Nat) (node : Node K), voc'.m_nodes[i]? = some node →
        node.Children.length ≤ voc.m_params.k.toNat) ∧
      (∀ d j : Nat, ChildPath voc'.m_nodes 0 d j → d ≤ voc.m_params.L.toNat) ∧
      voc'.NumberOfWords ≤ voc.m_params.k.toNat ^ voc.m_params.L.toNat ∧
      voc'.m_nodes.length ≤
        (voc.m_params.k.toNat ^ (voc.m_params.L.toNat + 1) - 1) / (voc.m_params.k.toNat - 1) ∧
      voc'.isEmpty = false) ∧
    (0 < voc.base_m_params.DescriptorLength → 0 < voc.m_params.DescriptorLength →
      training ≠ [] →
      (∀ features ∈ training,
        features.length % voc.m_params.DescriptorLength.toNat = 0) →
      ∀ rnd : RandomSource, rnd.NeverStuck →
        ∃ (N : Nat) (voc' : HVocabulary K), ∀ fuel : Nat, N ≤ fuel →
          voc.Create rnd fuel L A training = some voc') := by
  refine ⟨?_, fun hD hD2 hne hlen rnd hrnd =>
    create_total rnd hrnd L A voc training (by omega) hL hD hD2 hne hlen⟩
  intro rnd fuel voc' hC
  obtain ⟨tree, _, _, hCW, hb, harena⟩ :=
    create_safe rnd fuel L A voc voc' training (by omega) hL hC
  obtain ⟨hne, hD, _, _⟩ := createWith_some_pre L A voc voc' tree training hCW
  obtain ⟨h1, h2, h3, h4, h5⟩ := createWith_bounds L A voc voc' tree training _ _ hb harena hne
    hD hCW
  refine ⟨h1, h2, h3, ?_, h5⟩
  rw [← levelSum_le_div _ _ (by omega) (by omega)]
  exact h4

end TreeOfCreate

section TreeOfCreateExamples

/-- With `k = 2`, `L = 1` and the training descriptors `1`, `1`, `5`, `Create`
returns for a generator that always gives `1`, and the vocabulary has at most
2 children per node, depth at most 1, at most 2 words and at most 3 nodes. -/
theorem create_tree_is_bounded_witness :
    ∃ (N : Nat) (voc' : HVocabulary ℚ),
      (∀ fuel : Nat, N ≤ fuel →
        (HVocabulary.init (exampleParams .TF)).Create ⟨32767, fun _ => 1⟩ fuel ratLib
          mergeSortAlgorithm [[1], [1], [5]] = some voc') ∧
      (∀ (i : Nat) (node : Node ℚ), voc'.m_nodes[i]? = some node → node.Children.length ≤ 2) ∧
      (∀ d j : Nat, ChildPath voc'.m_nodes 0 d j → d ≤ 1) ∧
      voc'.NumberOfWords ≤ 2 ∧ voc'.m_nodes.length ≤ 3 ∧ voc'.isEmpty = false := by
  have h := create_tree_is_bounded ratLib mergeSortAlgorithm
    (HVocabulary.init (exampleParams .TF) : HVocabulary ℚ) [[1], [1], [5]]
    (by decide) (by decide)
  obtain ⟨N, voc', hN⟩ := h.2 (by decide) (by decide) (by simp)
    (by intro f _; exact Nat.mod_one _) ⟨32767, fun _ => 1⟩
    ⟨by decide, fun n => ⟨n, le_refl _, Nat.one_ne_zero⟩⟩
  exact ⟨N, voc', hN, h.1 ⟨32767, fun _ => 1⟩ N voc' (hN N (le_refl _))⟩

end TreeOfCreateExamples

section Weights
variable {K : Type} [LinearOrderedField K]

theorem getD_set_nat (l : List Nat) (i w : Nat) (x : Nat) (hi : i < l.length) :
    (l.set i x).getD w 0 = if w = i then x else l.getD w 0 := by
  rw [List.getD_eq_getElem?_getD, List.getElem?_set, List.getD_eq_getElem?_getD]
  by_cases h : i = w
  · subst h
    simp [hi]
  · rw [if_neg h, if_neg (Ne.symm h)]

theorem getD_set_bool (l : List Bool) (i w : Nat) (x : Bool) (hi : i < l.length) :
    (l.set i x).getD w false = if w = i then x else l.getD w false := by
  rw [List.getD_eq_getElem?_getD, List.getElem?_set, List.getD_eq_getElem?_getD]
  by_cases h : i = w
  · subst h
    simp [hi]
  · rw [if_neg h, if_neg (Ne.symm h)]

/-- The inner loop of the `IDF` branch over the descriptors of one document:
`counted` marks the words met, and `Ni` is incremented once for every word met
for the first time. -/
theorem foldl_idfStep_Ni (NWords : Nat) (ids : List Nat) :
    ∀ st : List K × List Nat × List Bool, st.2.1.length = NWords → st.2.2.length = NWords →
      (∀ id ∈ ids, id < NWords) →
      (ids.foldl idfStep st).2.1.length = NWords ∧
      (ids.foldl idfStep st).2.2.length = NWords ∧
      ∀ w : Nat, w < NWords →
        ((ids.foldl idfStep st).2.2.getD w false = (st.2.2.getD w false || decide (w ∈ ids))) ∧
        (ids.foldl idfStep st).2.1.getD w 0 =
          st.2.1.getD w 0 + (if st.2.2.getD w false = false ∧ w ∈ ids then 1 else 0) := by
  induction ids with
  | nil =>
    intro st h1 h2 _
    refine ⟨h1, h2, fun w _ => ⟨by simp, by simp⟩⟩
  | cons id rest ih =>
    intro st h1 h2 hr
    have hid : id < NWords := hr id (List.mem_cons_self _ _)
    rw [List.foldl_cons]
    by_cases hc : st.2.2.getD id false = true
    · have hstep : idfStep st id = (bumpFrequency st.1 id, st.2.1, st.2.2) := by
        simp only [idfStep, hc, Bool.not_true, Bool.false_eq_true, if_false]
      rw [hstep]
      obtain ⟨a1, a2, a3⟩ := ih (bumpFrequency st.1 id, st.2.1, st.2.2) h1 h2
        (fun x hx => hr x (List.mem_cons_of_mem _ hx))
      refine ⟨a1, a2, ?_⟩
      intro w hw
      obtain ⟨b1, b2⟩ := a3 w hw
      refine ⟨?_, ?_⟩
      · rw [b1]
        by_cases hwid : w = id
        · subst hwid
          rw [hc]
          rfl
        · simp [hwid]
      · rw [b2]
        by_cases hwid : w = id
        · subst hwid
          rw [hc]
          simp
        · simp [hwid]
    · have hc' : st.2.2.getD id false = false := by
        cases h : st.2.2.getD id false with
        | true => exact absurd h hc
        | false => rfl
      have hstep : idfStep st id =
          (bumpFrequency st.1 id, st.2.1.set id (st.2.1.getD id 0 + 1), st.2.2.set id true) := by
        simp only [idfStep, hc', Bool.not_false, if_true]
      rw [hstep]
      obtain ⟨a1, a2, a3⟩ := ih
        (bumpFrequency st.1 id, st.2.1.set id (st.2.1.getD id 0 + 1), st.2.2.set id true)
        (by simp only [List.length_set]; exact h1)
        (by simp only [List.length_set]; exact h2)
        (fun x hx => hr x (List.mem_cons_of_mem _ hx))
      refine ⟨a1, a2, ?_⟩
      intro w hw
      obtain ⟨b1, b2⟩ := a3 w hw
      simp only [] at b1 b2
      rw [getD_set_bool _ _ _ _ (by rw [h2]; exact hid)] at b1 b2
      rw [getD_set_nat _ _ _ _ (by rw [h1]; exact hid)] at b2
      refine ⟨?_, ?_⟩
      · rw [b1]
        by_cases hwid : w = id
        · subst hwid
          rw [hc']
          simp
        · simp [hwid]
      · rw [b2]
        by_cases hwid : w = id
        · subst hwid
          rw [hc']
          simp
        · simp [hwid]

theorem idfDocument_Ni (NWords : Nat) (st : List K × List Nat) (ids : List Nat)
    (h1 : st.2.length = NWords) (hr : ∀ id ∈ ids, id < NWords) :
    (idfDocument NWords st ids).2.length = NWords ∧
    ∀ w : Nat, w < NWords →
      (idfDocument NWords st ids).2.getD w 0 = st.2.getD w 0 + (if w ∈ ids then 1 else 0) := by
  obtain ⟨a1, _, a3⟩ := foldl_idfStep_Ni NWords ids (st.1, st.2, List.replicate NWords false) h1
    (by simp) hr
  refine ⟨a1, ?_⟩
  intro w hw
  have := (a3 w hw).2
  simp only [getD_replicate_false, true_and] at this
  exact this

theorem foldl_idfDocument_Ni (NWords : Nat) (docs : List (List Nat)) :
    ∀ st : List K × List Nat, st.2.length = NWords → (∀ id ∈ docs.flatten, id < NWords) →
      (docs.foldl (idfDocument NWords) st).2.length = NWords ∧
      ∀ w : Nat, w < NWords →
        (docs.foldl (idfDocument NWords) st).2.getD w 0 =
          st.2.getD w 0 + docs.countP (fun ids => decide (w ∈ ids)) := by
  induction docs with
  | nil =>
    intro st h1 _
    exact ⟨h1, fun w _ => by simp⟩
  | cons ids rest ih =>
    intro st h1 hr
    obtain ⟨a1, a2⟩ := idfDocument_Ni NWords st ids h1
      (fun id hid => hr id (by rw [List.flatten_cons]; exact List.mem_append_left _ hid))
    obtain ⟨b1, b2⟩ := ih (idfDocument NWords st ids) a1
      (fun id hid => hr id (by rw [List.flatten_cons]; exact List.mem_append_right _ hid))
    rw [List.foldl_cons]
    refine ⟨b1, ?_⟩
    intro w hw
    rw [b2 w hw, a2 w hw, List.countP_cons]
    by_cases hmem : w ∈ ids
    · simp [hmem]
      omega
    · simp [hmem]

theorem length_trainingWordIds (f : List K → Option Nat) (D : Nat) (training : List (List K))
    (docs : List (List Nat)) (h : trainingWordIds f D training = some docs) :
    docs.length = training.length := by
  induction training generalizing docs with
  | nil =>
    simp only [trainingWordIds, Option.some.injEq] at h
    rw [← h]
    rfl
  | cons features rest ih =>
    rw [trainingWordIds] at h
    split at h
    · exact absurd h (by simp)
    · split at h
      · exact absurd h (by simp)
      · rename_i ids _ docs' hd
        rw [← Option.some.inj h]
        simp [ih docs' hd]

theorem getD_replicate_one (n w : Nat) (hw : w < n) : (List.replicate n (1 : K)).getD w 0 = 1 := by
  rw [List.getD_eq_getElem?_getD, List.getElem?_replicate, if_pos hw]
  rfl

theorem getD_replicate_zero_nat (n w : Nat) : (List.replicate n (0 : Nat)).getD w 0 = 0 := by
  rw [List.getD_eq_getElem?_getD, List.getElem?_replicate]
  split <;> rfl

/-- The vector `weights` that `GetWordWeightsAndCreateStopList` returns. -/
theorem getWordWeights_weights (L : StdLib K) (A : StdAlgorithm) (voc : HVocabulary K)
    (training : List (List K)) (docs : List (List Nat)) (hN : 0 < voc.GetNumberOfWords)
    (hne : training ≠ []) (hD : 0 < voc.base_m_params.DescriptorLength)
    (hids : trainingWordIds voc.TransformFeature voc.base_m_params.DescriptorLength.toNat
      training = some docs)
    (hrange : ∀ id ∈ docs.flatten, id < voc.GetNumberOfWords) :
    ∃ (fr weights : List K),
      voc.GetWordWeightsAndCreateStopList L A training =
        some (HVocabulary.CreateStopList A { voc with m_word_frequency := fr }, weights) ∧
      ∀ w : Nat, w < voc.GetNumberOfWords →
        weights.getD w 0 = specWordWeight L voc.base_m_params.Weighting docs w := by
  have hany : docs.any (fun ids => ids.any (fun id => decide (voc.GetNumberOfWords ≤ id)))
      = false := by
    rw [Bool.eq_false_iff]
    intro h
    rw [List.any_eq_true] at h
    obtain ⟨ids, hids1, h⟩ := h
    rw [List.any_eq_true] at h
    obtain ⟨id, hid, h⟩ := h
    have := hrange id (List.mem_flatten.mpr ⟨ids, hids1, hid⟩)
    simp only [decide_eq_true_eq] at h
    omega
  have hcond : (voc.GetNumberOfWords > 0 ∧ training.length > 0) :=
    ⟨hN, List.length_pos.mpr hne⟩
  have hdl := length_trainingWordIds _ _ _ _ hids
  have hidf : ∀ w : Nat, w < voc.GetNumberOfWords →
      ((docs.foldl (idfDocument voc.GetNumberOfWords)
        (List.replicate voc.GetNumberOfWords (0 : K),
          List.replicate voc.GetNumberOfWords 0)).2.map
        (fun (Ni : Nat) => if Ni > 0 then L.log ((training.length : K) / (Ni : K)) else 0)).getD
          w 0 =
      if 0 < docs.countP (fun ids => decide (w ∈ ids)) then
        L.log ((docs.length : K) / (docs.countP (fun ids => decide (w ∈ ids)) : K))
      else 0 := by
    intro w hw
    obtain ⟨a1, a2⟩ := foldl_idfDocument_Ni voc.GetNumberOfWords docs
      (List.replicate voc.GetNumberOfWords (0 : K), List.replicate voc.GetNumberOfWords 0)
      (by simp) hrange
    rw [List.getD_eq_getElem?_getD, List.getElem?_map,
      List.getElem?_eq_getElem (by rw [a1]; exact hw)]
    simp only [Option.map_some', Option.getD_some]
    have := a2 w hw
    rw [List.getD_eq_getElem?_getD, List.getElem?_eq_getElem (by rw [a1]; exact hw)] at this
    simp only [Option.getD_some, getD_replicate_zero_nat, Nat.zero_add] at this
    rw [this, hdl]
  unfold HVocabulary.GetWordWeightsAndCreateStopList
  simp only []
  rw [if_neg (not_not.mpr hcond), if_neg (not_le.mpr hD), hids]
  simp only [hany, Bool.false_eq_true, if_false]
  cases hW : voc.base_m_params.Weighting
  · exact ⟨_, _, rfl, fun w hw => hidf w hw⟩
  · exact ⟨_, _, rfl, fun w hw => getD_replicate_one _ w hw⟩
  · exact ⟨_, _, rfl, fun w hw => hidf w hw⟩
  · exact ⟨_, _, rfl, fun w _ => getD_replicate_zero _ w⟩

/-- The loop of `SetNodeWeights`: with distinct word nodes inside the arena,
the node of word `w` gets `weights[w]`. -/
theorem foldl_set_weight_getD (words : List Nat) (x : Nat → K) (hnd : words.Nodup) :
    ∀ (n : Nat) (nodes : List (Node K)), n ≤ words.length →
      (∀ j ∈ words, j < nodes.length) →
      ∀ w : Nat, w < n →
        (((List.range n).foldl (fun (nodes : List (Node K)) (i : Nat) =>
          nodes.set (words.getD i 0)
            { nodes.getD (words.getD i 0) (Node.create 0) with Weight := x i }) nodes).getD
              (words.getD w 0) (Node.create 0)).Weight = x w := by
  intro n
  induction n with
  | zero =>
    intro nodes _ _ w hw
    omega
  | succ n ih =>
    intro nodes hn hin w hw
    rw [List.range_succ, List.foldl_append, List.foldl_cons, List.foldl_nil]
    have hwn : words.getD n 0 = words[n] := by
      rw [List.getD_eq_getElem?_getD, List.getElem?_eq_getElem (by omega)]
      rfl
    have hww : words.getD w 0 = words[w] := by
      rw [List.getD_eq_getElem?_getD, List.getElem?_eq_getElem (by omega)]
      rfl
    have hlen : ((List.range n).foldl (fun (nodes : List (Node K)) (i : Nat) =>
          nodes.set (words.getD i 0)
            { nodes.getD (words.getD i 0) (Node.create 0) with Weight := x i }) nodes).length =
        nodes.length := length_foldl_set_weight (fun i => words.getD i 0) x _ _
    rw [List.getD_eq_getElem?_getD, List.getElem?_set]
    by_cases hwn2 : w = n
    · subst hwn2
      rw [if_pos rfl, if_pos (by rw [hlen, hww]; exact hin _ (List.getElem_mem _))]
      rfl
    · have hne : words.getD n 0 ≠ words.getD w 0 := by
        rw [hwn, hww]
        intro h
        exact hwn2 ((List.Nodup.getElem_inj_iff hnd).mp h).symm
      rw [if_neg hne, ← List.getD_eq_getElem?_getD]
      exact ih nodes (by omega) hin w (by omega)

theorem createWords_words_nodup (tree : List (Node K)) :
    (CreateWords tree).2.Nodup ∧ ∀ j ∈ (CreateWords tree).2, j < tree.length := by
  have hw : ∀ w : Nat, w < (CreateWords tree).2.length →
      ∃ (j : Nat) (node : Node K), tree[j]? = some node ∧
        (CreateWords tree).2[w]? = some j ∧
        (CreateWords tree).1[j]? = some { node with WId := w } := by
    intro w hw
    obtain ⟨j, node, h1, _, h3, h4⟩ := createWordsLoop_word tree 0 [] w (Nat.zero_le _) hw
    exact ⟨j, node, h1, by rw [Nat.zero_add] at h3; exact h3, h4⟩
  refine ⟨?_, ?_⟩
  · rw [List.nodup_iff_injective_getElem]
    intro a b hab
    obtain ⟨j1, node1, _, h2, h3⟩ := hw a.1 a.2
    obtain ⟨j2, node2, _, h5, h6⟩ := hw b.1 b.2
    rw [List.getElem?_eq_getElem a.2] at h2
    rw [List.getElem?_eq_getElem b.2] at h5
    have e1 : (CreateWords tree).2[a.1] = j1 := Option.some.inj h2
    have e2 : (CreateWords tree).2[b.1] = j2 := Option.some.inj h5
    have hj : j1 = j2 := by rw [← e1, ← e2]; exact hab
    subst hj
    rw [h3] at h6
    have := congrArg Node.WId (Option.some.inj h6)
    exact Fin.ext this
  · intro j hj
    obtain ⟨w, hw1, hw2⟩ := List.getElem_of_mem hj
    obtain ⟨j1, node1, h1, h2, _⟩ := hw w hw1
    rw [List.getElem?_eq_getElem hw1, hw2] at h2
    rw [Option.some.inj h2]
    exact (List.getElem?_eq_some_iff.mp h1).1

/-- The weights of the words of the vocabulary that `CreateWith` returns. -/
theorem createWith_weights (L : StdLib K) (A : StdAlgorithm) (voc : HVocabulary K)
    (tree : List (Node K)) (training : List (List K)) (harena : ArenaOk tree training)
    (hdocs : training ≠ []) (hD : 0 < voc.base_m_params.DescriptorLength)
    (hD2 : 0 < voc.m_params.DescriptorLength)
    (hlen : ∀ features ∈ training,
      features.length % voc.m_params.DescriptorLength.toNat = 0) :
    ∃ (docs : List (List Nat)) (voc' : HVocabulary K),
      voc.CreateWith L A tree training = some voc' ∧
      trainingWordIds voc'.TransformFeature voc'.base_m_params.DescriptorLength.toNat training
        = some docs ∧
      docs.length = training.length ∧
      ∀ w : Nat, w < voc'.NumberOfWords →
        voc'.GetWordWeight w = specWordWeight L voc.base_m_params.Weighting docs w := by
  obtain ⟨hne, _, hchild, hroot⟩ := harena
  have hDn : 0 < voc.base_m_params.DescriptorLength.toNat := by omega
  have hdesc : ∀ doc ∈ training,
      ∀ s ∈ featureSlots doc voc.base_m_params.DescriptorLength.toNat,
      ∃ w, HVocabulary.TransformFeature
        { voc with m_nodes := (CreateWords tree).1, m_words := (CreateWords tree).2,
                   m_created := true } s = some w ∧ w < (CreateWords tree).2.length := by
    intro doc hdoc s hs
    have hdne : doc ≠ [] := by
      intro h
      rw [h, featureSlots_nil _ hDn] at hs
      simp at hs
    have htree : TreeOk (CreateWords tree).1 :=
      ⟨createWords_root tree (hroot ⟨doc, hdoc, hdne⟩), createWords_children tree hchild⟩
    obtain ⟨n, leaf, h1, h2, h3⟩ := transformFeature_some
      { voc with m_nodes := (CreateWords tree).1, m_words := (CreateWords tree).2,
                 m_created := true } rfl htree s
    refine ⟨leaf.WId, h3, ?_⟩
    obtain ⟨node, _, _, h5, _, h7⟩ := createWords_node tree n leaf h1
    have hl : node.isLeaf = true := by
      unfold Node.isLeaf at h2 ⊢
      rw [← h5]; exact h2
    exact (h7 hl).1
  obtain ⟨docs, hids, hrange, _⟩ := trainingWordIds_some _ _ training _ hdesc
  have hN : 0 < (CreateWords tree).2.length := by
    rw [createWords_words_length]
    exact arena_has_leaf tree hne hchild
  obtain ⟨fr, weights, hG, hwt⟩ := getWordWeights_weights L A
    { voc with m_nodes := (CreateWords tree).1, m_words := (CreateWords tree).2,
               m_created := true } training docs hN hdocs hD hids hrange
  have hall : training.all (fun features =>
      decide (features.length % voc.m_params.DescriptorLength.toNat = 0)) = true := by
    rw [List.all_eq_true]
    intro f hf
    exact decide_eq_true (hlen f hf)
  have hshape : ∀ k : Nat,
      (((List.range (CreateWords tree).2.length).foldl
        (fun (nodes : List (Node K)) (i : Nat) =>
          nodes.set ((CreateWords tree).2.getD i 0)
            { nodes.getD ((CreateWords tree).2.getD i 0) (Node.create 0) with
              Weight := weights.getD i 0 }) (CreateWords tree).1)[k]?).map Node.shape =
      ((CreateWords tree).1[k]?).map Node.shape :=
    fun k => getElem?_foldl_set_weight (fun i => (CreateWords tree).2.getD i 0)
      (fun i => weights.getD i 0) _ _ k
  have hC : voc.CreateWith L A tree training = some
      { HVocabulary.CreateStopList A
          { voc with m_nodes := (CreateWords tree).1, m_words := (CreateWords tree).2,
                     m_created := true, m_word_frequency := fr } with
        m_nodes := (List.range (CreateWords tree).2.length).foldl
          (fun (nodes : List (Node K)) (i : Nat) =>
            nodes.set ((CreateWords tree).2.getD i 0)
              { nodes.getD ((CreateWords tree).2.getD i 0) (Node.create 0) with
                Weight := weights.getD i 0 }) (CreateWords tree).1 } := by
    unfold HVocabulary.CreateWith
    rw [if_pos ⟨hD2, hall⟩]
    unfold HVocabulary.SetNodeWeights
    rw [hG]
    rfl
  obtain ⟨hnd, hin⟩ := createWords_words_nodup tree
  refine ⟨docs, _, hC, ?_, length_trainingWordIds _ _ _ _ hids, ?_⟩
  · rw [← hids]
    congr 1
    funext pf
    show descend _ voc.m_params.DescriptorLength pf _ 0 =
      descend (CreateWords tree).1 voc.m_params.DescriptorLength pf (CreateWords tree).1.length 0
    rw [descend_congr _ _ hshape]
    congr 1
    exact length_foldl_set_weight _ _ _ _
  · intro w hw
    have hw' : w < (CreateWords tree).2.length := hw
    rw [← hwt w hw']
    exact foldl_set_weight_getD (CreateWords tree).2 (fun i => weights.getD i 0) hnd
      (CreateWords tree).2.length (CreateWords tree).1 (le_refl _)
      (fun j hj => by rw [createWords_length]; exact hin j hj) w hw'

end Weights

section WeightsExample
variable {K : Type} [LinearOrderedField K]

theorem drawCut_pos (rnd : RandomSource) (sqd_sum : K) (hs : 0 < sqd_sum) :
    ∀ (fuel n : Nat) (cut : K) (n' : Nat), drawCut rnd sqd_sum fuel n = some (cut, n') →
      0 < cut := by
  intro fuel
  induction fuel with
  | zero =>
    intro n cut n' h
    rw [drawCut] at h
    exact absurd h (by simp)
  | succ fuel ih =>
    intro n cut n' h
    rw [drawCut] at h
    split at h
    · exact ih _ _ _ h
    · rename_i hne
      have hc := (Prod.mk.inj (Option.some.inj h)).1
      rw [← hc]
      have hnn : (0 : K) ≤ rnd.RandomValue n 0 sqd_sum := by
        unfold RandomSource.RandomValue
        rw [sub_zero, add_zero]
        exact mul_nonneg (div_nonneg (Nat.cast_nonneg _) (Nat.cast_nonneg _)) (le_of_lt hs)
      exact lt_of_le_of_ne hnn (Ne.symm hne)

theorem example_dist_11 : DescriptorSqDistance 1 ([1] : List K) [1] = 0 := by
  rw [example_sqDistance]; ring

theorem example_dist_15 : DescriptorSqDistance 1 ([1] : List K) [5] = 16 := by
  rw [example_sqDistance]; ring

theorem example_dist_51 : DescriptorSqDistance 1 ([5] : List K) [1] = 16 := by
  rw [example_sqDistance]; ring

theorem example_dist_55 : DescriptorSqDistance 1 ([5] : List K) [5] = 0 := by
  rw [example_sqDistance]; ring

theorem cutPosition_zero_pos (cut d : K) (hcut : 0 < cut) :
    cutPosition cut [0, d] 0 0 = 1 := by
  have h1 : ¬ ((0 : K) + 0 ≥ cut) := by
    rw [add_zero]
    exact not_le.mpr hcut
  simp only [cutPosition, h1, if_false]
  split <;> rfl

theorem cutPosition_two (cut d e : K) :
    cutPosition cut [d, e] 0 0 = 0 ∨ cutPosition cut [d, e] 0 0 = 1 := by
  simp only [cutPosition]
  split
  · exact Or.inl rfl
  · right
    split <;> rfl

/-- One iteration of the loop of `RandomClustersPlusPlus` with a positive sum
of distances. -/
theorem plusPlusLoop_one (rnd : RandomSource) (fuel : Nat) (D : Int) (pf : List (List K))
    (clusters : List (List K)) (used : List Bool) (n : Nat) (ifeatures : List Nat)
    (sqdistances : List K) (sqd_sum : K)
    (hif : (List.range pf.length).filter (fun i : Nat => !used.getD i false) = ifeatures)
    (hsq : ifeatures.map (fun i : Nat => minSqDistance D clusters (pf.getD i [])) = sqdistances)
    (hsum : sqdistances.foldl (fun s x => s + x) 0 = sqd_sum) (hpos : 0 < sqd_sum)
    (r : List (List K) × Nat)
    (h : plusPlusLoop rnd fuel D pf 1 (clusters, used, n) = some r) :
    ∃ (cut : K), 0 < cut ∧
      r.1 = clusters ++
        [(pf.getD (ifeatures.getD (cutPosition cut sqdistances 0 0) 0) []).take D.toNat] := by
  rw [plusPlusLoop] at h
  simp only [] at h
  rw [hif, hsq, hsum, if_pos hpos] at h
  cases hd : drawCut rnd sqd_sum fuel n with
  | none =>
    rw [hd] at h
    exact absurd h (by simp)
  | some c =>
    obtain ⟨cut, n2⟩ := c
    rw [hd] at h
    simp only [] at h
    rw [plusPlusLoop] at h
    refine ⟨cut, drawCut_pos rnd sqd_sum hpos fuel n cut n2 hd, ?_⟩
    rw [← Option.some.inj h]

/-- The second centre drawn when the first one is a descriptor `1`. -/
theorem example_plusPlus_from_one (rnd : RandomSource) (fuel : Nat) (used : List Bool) (n : Nat)
    (hu : used = [true, false, false] ∨ used = [false, true, false])
    (r : List (List K) × Nat)
    (h : plusPlusLoop rnd fuel 1 ([[1], [1], [5]] : List (List K)) 1 ([[1]], used, n) = some r) :
    r.1 = [[1], [5]] := by
  have hsq1 : minSqDistance 1 ([[1]] : List (List K)) [1] = 0 := example_dist_11
  have hsq5 : minSqDistance 1 ([[1]] : List (List K)) [5] = 16 := example_dist_51
  rcases hu with hu | hu
  · subst hu
    obtain ⟨cut, hcut, hr⟩ := plusPlusLoop_one rnd fuel 1 ([[1], [1], [5]] : List (List K))
      [[1]] [true, false, false] n [1, 2] [0, 16] 16 rfl
      (by
        show [minSqDistance 1 ([[1]] : List (List K)) [1], minSqDistance 1 [[1]] [5]] = _
        rw [hsq1, hsq5])
      (by
        show (0 : K) + 0 + 16 = 16
        norm_num) (by norm_num) r h
    rw [hr, cutPosition_zero_pos cut 16 hcut]
    rfl
  · subst hu
    obtain ⟨cut, hcut, hr⟩ := plusPlusLoop_one rnd fuel 1 ([[1], [1], [5]] : List (List K))
      [[1]] [false, true, false] n [0, 2] [0, 16] 16 rfl
      (by
        show [minSqDistance 1 ([[1]] : List (List K)) [1], minSqDistance 1 [[1]] [5]] = _
        rw [hsq1, hsq5])
      (by
        show (0 : K) + 0 + 16 = 16
        norm_num) (by norm_num) r h
    rw [hr, cutPosition_zero_pos cut 16 hcut]
    rfl

/-- The second centre drawn when the first one is the descriptor `5`. -/
theorem example_plusPlus_from_five (rnd : RandomSource) (fuel : Nat) (n : Nat)
    (r : List (List K) × Nat)
    (h : plusPlusLoop rnd fuel 1 ([[1], [1], [5]] : List (List K)) 1
      ([[5]], [false, false, true], n) = some r) :
    r.1 = [[5], [1]] := by
  have hsq : minSqDistance 1 ([[5]] : List (List K)) [1] = 16 := example_dist_15
  obtain ⟨cut, _, hr⟩ := plusPlusLoop_one rnd fuel 1 ([[1], [1], [5]] : List (List K))
    [[5]] [false, false, true] n [0, 1] [16, 16] 32 rfl
    (by
      show [minSqDistance 1 ([[5]] : List (List K)) [1], minSqDistance 1 [[5]] [1]] = _
      rw [hsq])
    (by
      show (0 : K) + 16 + 16 = 32
      norm_num) (by norm_num) r h
  rw [hr]
  rcases cutPosition_two cut 16 16 with h0 | h1
  · rw [h0]
    rfl
  · rw [h1]
    rfl

/-- The centres that `RandomClustersPlusPlus` can draw for the descriptors
`1`, `1`, `5` and `k = 2`. -/
theorem example_seeding (rnd : RandomSource) (hr : ∀ n : Nat, rnd.rand n ≤ rnd.RAND_MAX)
    (fuel : Nat) (weighting : WeightingType) (r : List (List K) × Nat)
    (h : RandomClustersPlusPlus rnd fuel (exampleParams weighting)
      ([[1], [1], [5]] : List (List K)) 0 = some r) :
    r.1 = [[1], [5]] ∨ r.1 = [[5], [1]] := by
  have hi : rnd.RandomInt 0 0 2 < 3 := by
    unfold RandomSource.RandomInt
    have := hr 0
    rw [Nat.add_zero]
    apply Nat.div_lt_of_lt_mul
    show rnd.rand 0 * 3 < (rnd.RAND_MAX + 1) * 3
    omega
  unfold RandomClustersPlusPlus at h
  have hk : ¬ ((exampleParams weighting).k < 1) := by
    show ¬ ((2 : Int) < 1)
    decide
  rw [if_neg hk] at h
  have h' : plusPlusLoop rnd fuel 1 ([[1], [1], [5]] : List (List K)) 1
      ([(([[1], [1], [5]] : List (List K)).getD (rnd.RandomInt 0 0 2) []).take 1],
        (List.replicate 3 false).set (rnd.RandomInt 0 0 2) true, 1) = some r := h
  generalize rnd.RandomInt 0 0 2 = i0 at h' hi
  interval_cases i0
  · exact Or.inl (example_plusPlus_from_one rnd fuel _ 1 (Or.inl rfl) r h')
  · exact Or.inl (example_plusPlus_from_one rnd fuel _ 1 (Or.inr rfl) r h')
  · exact Or.inr (example_plusPlus_from_five rnd fuel 1 r h')

theorem example_nearest_15_1 (tail : List K) :
    nearestCluster 1 ([[1], [5]] : List (List K)) (1 :: tail) = 0 := by
  have h1 : DescriptorSqDistance 1 ((1 : K) :: tail) [1] = 0 := by
    simp [DescriptorSqDistance, sqDiff, List.range_succ]
  have h5 : DescriptorSqDistance 1 ((1 : K) :: tail) [5] = 16 := by
    simp [DescriptorSqDistance, sqDiff, List.range_succ]
    norm_num
  simp only [nearestCluster, List.foldl_cons, List.foldl_nil, h1, h5]
  rw [if_neg (by norm_num)]

theorem example_nearest_15_5 (tail : List K) :
    nearestCluster 1 ([[1], [5]] : List (List K)) (5 :: tail) = 1 := by
  have h1 : DescriptorSqDistance 1 ((5 : K) :: tail) [1] = 16 := by
    simp [DescriptorSqDistance, sqDiff, List.range_succ]
    norm_num
  have h5 : DescriptorSqDistance 1 ((5 : K) :: tail) [5] = 0 := by
    simp [DescriptorSqDistance, sqDiff, List.range_succ]
  simp only [nearestCluster, List.foldl_cons, List.foldl_nil, h1, h5]
  rw [if_pos (by norm_num)]

theorem example_nearest_51_1 (tail : List K) :
    nearestCluster 1 ([[5], [1]] : List (List K)) (1 :: tail) = 1 := by
  have h1 : DescriptorSqDistance 1 ((1 : K) :: tail) [1] = 0 := by
    simp [DescriptorSqDistance, sqDiff, List.range_succ]
  have h5 : DescriptorSqDistance 1 ((1 : K) :: tail) [5] = 16 := by
    simp [DescriptorSqDistance, sqDiff, List.range_succ]
    norm_num
  simp only [nearestCluster, List.foldl_cons, List.foldl_nil, h1, h5]
  rw [if_pos (by norm_num)]

theorem example_nearest_51_5 (tail : List K) :
    nearestCluster 1 ([[5], [1]] : List (List K)) (5 :: tail) = 0 := by
  have h1 : DescriptorSqDistance 1 ((5 : K) :: tail) [1] = 16 := by
    simp [DescriptorSqDistance, sqDiff, List.range_succ]
    norm_num
  have h5 : DescriptorSqDistance 1 ((5 : K) :: tail) [5] = 0 := by
    simp [DescriptorSqDistance, sqDiff, List.range_succ]
  simp only [nearestCluster, List.foldl_cons, List.foldl_nil, h1, h5]
  rw [if_neg (by norm_num)]

theorem example_centres_15 :
    centresOf 1 ([[1], [1], [5]] : List (List K)) 2 [0, 0, 1] = [[1], [5]] := by
  show [[((0 : K) + 1 + 1) / ((2 : Nat) : K)], [((0 : K) + 5) / ((1 : Nat) : K)]] = _
  norm_num

theorem example_centres_51 :
    centresOf 1 ([[1], [1], [5]] : List (List K)) 2 [1, 1, 0] = [[5], [1]] := by
  show [[((0 : K) + 5) / ((1 : Nat) : K)], [((0 : K) + 1 + 1) / ((2 : Nat) : K)]] = _
  norm_num

/-- The iteration of k-means leaves the centres `1`, `5` in place. -/
theorem example_kmeans_15 (fuel : Nat) (r : List (List K) × List (List Nat))
    (h : kmeansLoop 1 ([[1], [1], [5]] : List (List K)) 2 fuel
      (([[1], [1], [5]] : List (List K)).map (nearestCluster 1 [[1], [5]])) = some r) :
    r.1 = [[1], [5]] := by
  have ha : ([[1], [1], [5]] : List (List K)).map (nearestCluster 1 [[1], [5]]) = [0, 0, 1] := by
    simp only [List.map_cons, List.map_nil, example_nearest_15_1, example_nearest_15_5]
  rw [ha] at h
  cases fuel with
  | zero => exact absurd h (by simp [kmeansLoop])
  | succ fuel =>
    rw [kmeansLoop_succ] at h
    have hn : nextAssociation 1 ([[1], [1], [5]] : List (List K)) 2 [0, 0, 1] = [0, 0, 1] := by
      unfold nextAssociation
      rw [example_centres_15, ha]
    rw [if_pos hn, example_centres_15] at h
    rw [← Option.some.inj h]

/-- The iteration of k-means leaves the centres `5`, `1` in place. -/
theorem example_kmeans_51 (fuel : Nat) (r : List (List K) × List (List Nat))
    (h : kmeansLoop 1 ([[1], [1], [5]] : List (List K)) 2 fuel
      (([[1], [1], [5]] : List (List K)).map (nearestCluster 1 [[5], [1]])) = some r) :
    r.1 = [[5], [1]] := by
  have ha : ([[1], [1], [5]] : List (List K)).map (nearestCluster 1 [[5], [1]]) = [1, 1, 0] := by
    simp only [List.map_cons, List.map_nil, example_nearest_51_1, example_nearest_51_5]
  rw [ha] at h
  cases fuel with
  | zero => exact absurd h (by simp [kmeansLoop])
  | succ fuel =>
    rw [kmeansLoop_succ] at h
    have hn : nextAssociation 1 ([[1], [1], [5]] : List (List K)) 2 [1, 1, 0] = [1, 1, 0] := by
      unfold nextAssociation
      rw [example_centres_51, ha]
    rw [if_pos hn, example_centres_51] at h
    rw [← Option.some.inj h]

/-- The arenas that `HKMeansStep` can leave for the descriptors `1`, `1`, `5`
with `k = 2` and `L = 1`. -/
theorem example_hkmeans (rnd : RandomSource) (hr : ∀ n : Nat, rnd.rand n ≤ rnd.RAND_MAX)
    (fuel : Nat) (weighting : WeightingType) (tree : List (Node K)) (n' : Nat)
    (h : HKMeansStep rnd fuel (exampleParams weighting) 0 ([Node.create 0], 0) 0
      ([[1], [1], [5]] : List (List K)) = some (tree, n')) :
    tree = exampleArena ∨ tree = exampleArenaSwapped := by
  rw [HKMeansStep] at h
  have he : ([[1], [1], [5]] : List (List K)).isEmpty = false := rfl
  simp only [he, Bool.false_eq_true, if_false] at h
  cases hcl : clusterFeatures rnd fuel (exampleParams weighting)
      ([[1], [1], [5]] : List (List K)) 0 with
  | none =>
    rw [hcl] at h
    exact absurd h (by simp)
  | some c =>
    obtain ⟨cl, gr, n1⟩ := c
    rw [hcl] at h
    have ht : createChildNodes [(Node.create 0 : Node K)] 0 cl = tree :=
      (Prod.mk.inj (Option.some.inj h)).1
    unfold clusterFeatures at hcl
    have hfew : ¬ ((([[1], [1], [5]] : List (List K)).length : Int) ≤
        (exampleParams weighting).k) := by
      show ¬ ((3 : Int) ≤ 2)
      decide
    rw [if_neg hfew] at hcl
    cases hR : RandomClustersPlusPlus rnd fuel (exampleParams weighting)
        ([[1], [1], [5]] : List (List K)) 0 with
    | none =>
      rw [hR] at hcl
      exact absurd hcl (by simp)
    | some r0 =>
      rw [hR] at hcl
      simp only [] at hcl
      cases hK : kmeansLoop (exampleParams weighting).DescriptorLength
          ([[1], [1], [5]] : List (List K)) r0.1.length fuel
          (([[1], [1], [5]] : List (List K)).map
            (nearestCluster (exampleParams weighting).DescriptorLength r0.1)) with
      | none =>
        rw [hK] at hcl
        exact absurd hcl (by simp)
      | some r1 =>
        rw [hK] at hcl
        have hc : r1.1 = cl := (Prod.mk.inj (Option.some.inj hcl)).1
        rcases example_seeding rnd hr fuel weighting r0 hR with h0 | h0
        · rw [h0] at hK
          have := example_kmeans_15 fuel r1 hK
          left
          rw [← ht, ← hc, this, createChildNodes_root]
          rfl
        · rw [h0] at hK
          have := example_kmeans_51 fuel r1 hK
          right
          rw [← ht, ← hc, this, createChildNodes_root]
          rfl

theorem example_docs (f : List K → Option Nat) (a b : Nat)
    (h1 : ∀ tail : List K, f (1 :: tail) = some a)
    (h5 : ∀ tail : List K, f (5 :: tail) = some b) :
    trainingWordIds f 1 [[1], [1], [5]] = some [[a], [a], [b]] := by
  simp [trainingWordIds, featureSlots_one, wordIds, h1, h5, List.range_succ]

theorem example_descend_swapped_one (w0 w1 : K) (tail : List K) :
    descend (exampleNodesSwapped w0 w1) 1 ((1 : K) :: tail) 3 0 = some 1 := by
  have h1 : DescriptorSqDistance 1 ((1 : K) :: tail) [1] = 0 := by
    simp [DescriptorSqDistance, sqDiff, List.range_succ]
  have h5 : DescriptorSqDistance 1 ((1 : K) :: tail) [5] = 16 := by
    simp [DescriptorSqDistance, sqDiff, List.range_succ]
    norm_num
  have hn : nearestChild (exampleNodesSwapped w0 w1) 1 ((1 : K) :: tail) 1 [2] = 2 := by
    show (if DescriptorSqDistance 1 ((1 : K) :: tail) [1] <
        DescriptorSqDistance 1 ((1 : K) :: tail) [5] then
          ((2 : Nat), DescriptorSqDistance 1 ((1 : K) :: tail) [1])
        else ((1 : Nat), DescriptorSqDistance 1 ((1 : K) :: tail) [5])).1 = 2
    rw [h1, h5, if_pos (by norm_num)]
  rw [descend_succ (exampleNodesSwapped w0 w1) 1 _ 2 0 _ 1 [2]
    { Id := 2, Children := [], Weight := w1, Descriptor := [1], WId := 1 } rfl rfl
    (by rw [hn]; rfl)]
  rfl

theorem example_descend_swapped_five (w0 w1 : K) (tail : List K) :
    descend (exampleNodesSwapped w0 w1) 1 ((5 : K) :: tail) 3 0 = some 0 := by
  have h1 : DescriptorSqDistance 1 ((5 : K) :: tail) [1] = 16 := by
    simp [DescriptorSqDistance, sqDiff, List.range_succ]
    norm_num
  have h5 : DescriptorSqDistance 1 ((5 : K) :: tail) [5] = 0 := by
    simp [DescriptorSqDistance, sqDiff, List.range_succ]
  have hn : nearestChild (exampleNodesSwapped w0 w1) 1 ((5 : K) :: tail) 1 [2] = 1 := by
    show (if DescriptorSqDistance 1 ((5 : K) :: tail) [1] <
        DescriptorSqDistance 1 ((5 : K) :: tail) [5] then
          ((2 : Nat), DescriptorSqDistance 1 ((5 : K) :: tail) [1])
        else ((1 : Nat), DescriptorSqDistance 1 ((5 : K) :: tail) [5])).1 = 1
    rw [h1, h5, if_neg (by norm_num)]
  rw [descend_succ (exampleNodesSwapped w0 w1) 1 _ 2 0 _ 1 [2]
    { Id := 1, Children := [], Weight := w0, Descriptor := [5], WId := 0 } rfl rfl
    (by rw [hn]; rfl)]
  rfl

/-- The vocabulary that `CreateWith` builds on one of the two arenas of the
descriptors `1`, `1`, `5`: its nodes, its words and the words of the training
descriptors. -/
theorem example_vocabulary_of_arena (L : StdLib K) (A : StdAlgorithm)
    (weighting : WeightingType) (tree nodes0 : List (Node K)) (a b : Nat)
    (hcw : CreateWords tree = (nodes0, [1, 2])) (hlen0 : nodes0.length = 3)
    (hone : ∀ tail : List K, descend nodes0 1 (1 :: tail) 3 0 = some a)
    (hfive : ∀ tail : List K, descend nodes0 1 (5 :: tail) 3 0 = some b)
    (harena : ArenaOk tree ([[1], [1], [5]] : List (List K))) (voc' : HVocabulary K)
    (hCW : (HVocabulary.init (exampleParams weighting)).CreateWith L A tree [[1], [1], [5]] =
      some voc') :
    voc'.m_nodes.map Node.shape = nodes0.map Node.shape ∧ voc'.m_words = [1, 2] ∧
    voc'.NumberOfWords = 2 ∧ voc'.base_m_params.DescriptorLength = 1 ∧
    trainingWordIds voc'.TransformFeature 1 [[1], [1], [5]] = some [[a], [a], [b]] := by
  obtain ⟨_, _, voc'', hC', _, _, hcr, _, hw, hbase, hshape, _⟩ := createWith_spec L A
    (HVocabulary.init (exampleParams weighting)) tree [[1], [1], [5]] harena (by simp)
    (show (0 : Int) < 1 by decide) (show (0 : Int) < 1 by decide)
    (by intro f _; exact Nat.mod_one _)
  rw [hCW] at hC'
  have hv := Option.some.inj hC'
  subst hv
  have hp := createWith_m_params L A _ voc' tree _ hCW
  rw [hcw] at hshape hw
  have hl : voc'.m_nodes.length = 3 := by
    rw [length_of_map_shape _ _ hshape]
    exact hlen0
  have hT : ∀ pf : List K, voc'.TransformFeature pf = descend nodes0 1 pf 3 0 := by
    intro pf
    unfold HVocabulary.TransformFeature HVocabulary.isEmpty
    rw [hcr, hp, hl]
    simp only [Bool.not_true, Bool.false_eq_true, if_false]
    exact descend_congr _ _ hshape _ _ _ _
  refine ⟨?_, hw, ?_, by rw [hbase]; rfl, ?_⟩
  · apply List.ext_getElem?
    intro j
    rw [List.getElem?_map, List.getElem?_map]
    exact hshape j
  · simp only [HVocabulary.NumberOfWords, HVocabulary.GetNumberOfWords, hcr, if_true, hw]
    rfl
  · exact example_docs _ a b (fun tail => by rw [hT]; exact hone tail)
      (fun tail => by rw [hT]; exact hfive tail)

theorem example_specWordWeight (L : StdLib K) :
    specWordWeight L .TF_IDF [[0], [0], [1]] 0 = L.log (3 / 2) ∧
    specWordWeight L .TF_IDF [[0], [0], [1]] 1 = L.log 3 ∧
    specWordWeight L .TF_IDF [[1], [1], [0]] 0 = L.log 3 ∧
    specWordWeight L .TF_IDF [[1], [1], [0]] 1 = L.log (3 / 2) := by
  have h2 : List.countP (fun ids => decide (0 ∈ ids)) [[0], [0], [1]] = 2 := by decide
  have h1 : List.countP (fun ids => decide (1 ∈ ids)) [[0], [0], [1]] = 1 := by decide
  have h3 : List.countP (fun ids => decide (0 ∈ ids)) [[1], [1], [0]] = 1 := by decide
  have h4 : List.countP (fun ids => decide (1 ∈ ids)) [[1], [1], [0]] = 2 := by decide
  refine ⟨?_, ?_, ?_, ?_⟩
  · simp only [specWordWeight, h2]
    norm_num
  · simp only [specWordWeight, h1]
    norm_num
  · simp only [specWordWeight, h3]
    norm_num
  · simp only [specWordWeight, h4]
    norm_num

end WeightsExample

section WeightsClaim
variable {K : Type} [LinearOrderedField K]

/-- C22: every vocabulary that `Create` returns on a training set of `N`
groups, for every generator behind `rand()` and every fuel, gives word `w` the
weight of the specification: under `TF_IDF` and `IDF` it is `ln(N / N_w)`, with
`N_w` the number of training groups that have a descriptor descending to `w` in
the vocabulary, and `0` when `N_w = 0`; under `TF` it is `1` (`specWordWeight`).
For a non-empty training set of whole descriptors `Create` returns, with enough
fuel, for every generator that does not return `0` for ever. -/
theorem create_word_weights (L : StdLib K) (A : StdAlgorithm) (voc : HVocabulary K)
    (training : List (List K)) (hk : 1 ≤ voc.m_params.k) (hL : 1 ≤ voc.m_params.L) :
    (∀ (rnd : RandomSource) (fuel : Nat) (voc' : HVocabulary K),
      voc.Create rnd fuel L A training = some voc' →
      ∃ docs : List (List Nat),
        trainingWordIds voc'.TransformFeature voc'.base_m_params.DescriptorLength.toNat training
          = some docs ∧
        docs.length = training.length ∧
        ∀ w : Nat, w < voc'.NumberOfWords →
          voc'.GetWordWeight w = specWordWeight L voc.base_m_params.Weighting docs w) ∧
    (0 < voc.base_m_params.DescriptorLength → 0 < voc.m_params.DescriptorLength →
      training ≠ [] →
      (∀ features ∈ training,
        features.length % voc.m_params.DescriptorLength.toNat = 0) →
      ∀ rnd : RandomSource, rnd.NeverStuck →
        ∃ (N : Nat) (voc' : HVocabulary K), ∀ fuel : Nat, N ≤ fuel →
          voc.Create rnd fuel L A training = some voc') := by
  refine ⟨?_, fun hD hD2 hne hlen rnd hrnd =>
    create_total rnd hrnd L A voc training hk hL hD hD2 hne hlen⟩
  intro rnd fuel voc' hC
  obtain ⟨tree, _, _, hCW, _, harena⟩ := create_safe rnd fuel L A voc voc' training hk hL hC
  obtain ⟨hne, hD, hD2, hlen⟩ := createWith_some_pre L A voc voc' tree training hCW
  obtain ⟨docs, voc'', hC', h1, h2, h3⟩ := createWith_weights L A voc tree training harena hne
    hD hD2 hlen
  rw [hCW] at hC'
  have hv := Option.some.inj hC'
  subst hv
  exact ⟨docs, h1, h2, h3⟩

end WeightsClaim

section WeightsWitness

/-- The training groups `(1)`, `(1)`, `(5)` with `D = 1`, `k = 2`, `L = 1` and
`TF_IDF`: for every generator whose values are at most `RAND_MAX`, a vocabulary
that `Create` returns has two words, the leaf with the descriptor `1` weighted
`ln(3/2)` and the leaf with the descriptor `5` weighted `ln 3`, in one of the
two orders; and `Create` returns for the generator that always gives `1`. -/
theorem create_word_weights_witness :
    (∀ (rnd : RandomSource) (fuel : Nat) (voc' : HVocabulary ℝ),
      (∀ n : Nat, rnd.rand n ≤ rnd.RAND_MAX) →
      (HVocabulary.init (exampleParams .TF_IDF)).Create rnd fuel
        (StdLib.mk Real.sqrt Real.log mergeSortBy) mergeSortAlgorithm [[1], [1], [5]] =
          some voc' →
      voc'.NumberOfWords = 2 ∧
      ((voc'.m_nodes.map Node.shape =
          [(0, [1, 2], [], NO_WORD), (1, [], [1], 0), (2, [], [5], 1)] ∧
        voc'.GetWordWeight 0 = Real.log (3 / 2) ∧ voc'.GetWordWeight 1 = Real.log 3) ∨
       (voc'.m_nodes.map Node.shape =
          [(0, [1, 2], [], NO_WORD), (1, [], [5], 0), (2, [], [1], 1)] ∧
        voc'.GetWordWeight 0 = Real.log 3 ∧ voc'.GetWordWeight 1 = Real.log (3 / 2)))) ∧
    ∃ (N : Nat) (voc' : HVocabulary ℝ), ∀ fuel : Nat, N ≤ fuel →
      (HVocabulary.init (exampleParams .TF_IDF)).Create ⟨32767, fun _ => 1⟩ fuel
        (StdLib.mk Real.sqrt Real.log mergeSortBy) mergeSortAlgorithm [[1], [1], [5]] =
          some voc' := by
  have h := create_word_weights (StdLib.mk Real.sqrt Real.log mergeSortBy) mergeSortAlgorithm
    (HVocabulary.init (exampleParams .TF_IDF) : HVocabulary ℝ) [[1], [1], [5]]
    (by decide) (by decide)
  refine ⟨?_, h.2 (by decide) (by decide) (by simp) (by intro f _; exact Nat.mod_one _)
    ⟨32767, fun _ => 1⟩ ⟨by decide, fun n => ⟨n, le_refl _, Nat.one_ne_zero⟩⟩⟩
  intro rnd fuel voc' hr hC
  obtain ⟨docs, hdocs, _, hw⟩ := h.1 rnd fuel voc' hC
  obtain ⟨tree, n', hrun, hCW, _, harena⟩ := create_safe rnd fuel _ _ _ voc' _
    (by decide) (by decide) hC
  have hpf : ([[1], [1], [5]] : List (List ℝ)).flatMap (fun features => featureSlots features
      (HVocabulary.init (exampleParams .TF_IDF) : HVocabulary ℝ).m_params.DescriptorLength.toNat)
      = [[1], [1], [5]] := by
    show ([[1], [1], [5]] : List (List ℝ)).flatMap (fun features => featureSlots features 1) = _
    simp [featureSlots_one, List.range_succ]
  rw [hpf] at hrun
  have hes := example_specWordWeight (StdLib.mk Real.sqrt Real.log mergeSortBy)
  rcases example_hkmeans rnd hr fuel .TF_IDF tree n' hrun with ht | ht
  · subst ht
    obtain ⟨s1, _, s3, s4, s5⟩ := example_vocabulary_of_arena _ _ .TF_IDF exampleArena
      (exampleNodes 0 0) 0 1 rfl rfl (example_descend_one 0 0) (example_descend_five 0 0)
      harena voc' hCW
    rw [s4] at hdocs
    have hd : docs = [[0], [0], [1]] := by
      have h1 : trainingWordIds voc'.TransformFeature 1 [[1], [1], [5]] = some docs := hdocs
      rw [s5] at h1
      exact (Option.some.inj h1).symm
    subst hd
    refine ⟨s3, Or.inl ⟨s1, ?_, ?_⟩⟩
    · rw [hw 0 (by rw [s3]; decide)]
      exact hes.1
    · rw [hw 1 (by rw [s3]; decide)]
      exact hes.2.1
  · subst ht
    obtain ⟨s1, _, s3, s4, s5⟩ := example_vocabulary_of_arena _ _ .TF_IDF exampleArenaSwapped
      (exampleNodesSwapped 0 0) 1 0 rfl rfl (example_descend_swapped_one 0 0)
      (example_descend_swapped_five 0 0) harena voc' hCW
    rw [s4] at hdocs
    have hd : docs = [[1], [1], [0]] := by
      have h1 : trainingWordIds voc'.TransformFeature 1 [[1], [1], [5]] = some docs := hdocs
      rw [s5] at h1
      exact (Option.some.inj h1).symm
    subst hd
    refine ⟨s3, Or.inr ⟨s1, ?_, ?_⟩⟩
    · rw [hw 0 (by rw [s3]; decide)]
      exact hes.2.2.1
    · rw [hw 1 (by rw [s3]; decide)]
      exact hes.2.2.2

end WeightsWitness

section DistanceLoops
variable {K : Type} [LinearOrderedField K]

theorem flatMap_blocks_of_four (q : Nat) :
    (List.range q).flatMap (fun j : Nat => [4 * j, 4 * j + 1, 4 * j + 2, 4 * j + 3]) =
      List.range (4 * q) := by
  induction q with
  | zero => rfl
  | succ q ih =>
    rw [List.range_succ, List.flatMap_append, ih]
    have : 4 * (q + 1) = 4 * q + 1 + 1 + 1 + 1 := by ring
    rw [this, List.range_succ, List.range_succ, List.range_succ, List.range_succ]
    simp

theorem sqDistanceOffsets_eq_range (D : Int) : sqDistanceOffsets D = List.range D.toNat := by
  unfold sqDistanceOffsets
  simp only []
  rw [flatMap_blocks_of_four]
  have hq : 4 * ((D.toNat - D.toNat % 4) / 4) = D.toNat - D.toNat % 4 := by omega
  rw [hq]
  have hd : D.toNat = (D.toNat - D.toNat % 4) + D.toNat % 4 := by omega
  conv_rhs => rw [hd, List.range_add]

theorem naiveSqDistance_eq_sum (D : Int) (v w : List K) :
    naiveSqDistance D v w = ∑ c in Finset.range D.toNat, sqDiff v w c := by
  unfold naiveSqDistance
  rw [foldl_range_add, zero_add]

/-- C34: for every descriptor length (the loops are empty for a length that is
not positive) and all buffers `v`, `w`, `DescriptorSqDistance`, with its blocks
of four summands and its remainder loop, returns what the naive loop over
`i < D` returns; the offsets its two loops read are `0, 1, ..., D - 1`, each
once and in this order, so none at or beyond `D`; and its value is the sum of
the squared differences at exactly these offsets. -/
theorem descriptorSqDistance_refines_naive_loop (D : Int) (v w : List K) :
    DescriptorSqDistance D v w = naiveSqDistance D v w ∧
    sqDistanceOffsets D = List.range D.toNat ∧
    (sqDistanceOffsets D).Nodup ∧
    (∀ i ∈ sqDistanceOffsets D, (i : Int) < max D 0) ∧
    DescriptorSqDistance D v w = ((sqDistanceOffsets D).map (sqDiff v w)).sum := by
  refine ⟨?_, sqDistanceOffsets_eq_range D, ?_, ?_, ?_⟩
  · rw [descriptorSqDistance_eq_sum, naiveSqDistance_eq_sum]
  · rw [sqDistanceOffsets_eq_range]
    exact List.nodup_range _
  · intro i hi
    rw [sqDistanceOffsets_eq_range, List.mem_range] at hi
    omega
  · rw [descriptorSqDistance_eq_sum, sqDistanceOffsets_eq_range, Finset.sum_range,
      ← List.sum_ofFn]
    congr 1
    apply List.ext_getElem
    · simp
    · intro n h1 h2
      simp

end DistanceLoops

section IsInOrder
variable {K : Type} [LinearOrderedField K]

theorem isInOrderLoop_spec (v : BowVector K) :
    ∀ (left i : Nat), i + left + 1 = v.length →
      isInOrderLoop v left i = some (decide (InOrder (v.drop i))) := by
  intro left
  induction left with
  | zero =>
    intro i h
    rw [isInOrderLoop]
    have hlen : (v.drop i).length = 1 := by rw [List.length_drop]; omega
    obtain ⟨a, ha⟩ := List.length_eq_one.mp hlen
    rw [ha]
    simp [InOrder]
  | succ left ih =>
    intro i h
    have h0 : i < v.length := by omega
    have h1 : i + 1 < v.length := by omega
    rw [isInOrderLoop, List.getElem?_eq_getElem h0, List.getElem?_eq_getElem h1]
    simp only []
    have hd : v.drop i = v[i] :: v[i + 1] :: v.drop (i + 2) := by
      rw [List.drop_eq_getElem_cons h0, List.drop_eq_getElem_cons h1]
    have hd1 : v.drop (i + 1) = v[i + 1] :: v.drop (i + 2) := by
      rw [List.drop_eq_getElem_cons h1]
    by_cases hge : v[i].id ≥ v[i + 1].id
    · rw [if_pos hge]
      congr 1
      symm
      rw [decide_eq_false_iff_not, hd]
      intro hord
      have := (List.pairwise_cons.mp hord).1 v[i + 1] (List.mem_cons_self _ _)
      omega
    · rw [if_neg hge, ih (i + 1) (by omega)]
      congr 1
      rw [decide_eq_decide, hd, ← hd1]
      unfold InOrder
      constructor
      · intro hp
        rw [hd1] at hp ⊢
        refine List.pairwise_cons.mpr ⟨?_, hp⟩
        intro y hy
        rcases List.mem_cons.mp hy with hy | hy
        · rw [hy]; omega
        · have := (List.pairwise_cons.mp hp).1 y hy
          omega
      · intro hp
        exact (List.pairwise_cons.mp hp).2

/-- On a vector that is not empty (and has fewer than `2^32` entries)
`isInOrder` reads inside the vector and answers whether the word ids are
strictly ascending. -/
theorem isInOrder_of_ne_nil (v : BowVector K) (h0 : 0 < v.length)
    (h1 : v.length < 4294967296) : isInOrder v = some (decide (InOrder v)) := by
  unfold isInOrder
  simp only []
  have hb : (v.length % 4294967296 + 4294967295) % 4294967296 = v.length - 1 := by omega
  rw [hb, isInOrderLoop_spec v (v.length - 1) 0 (by omega), List.drop_zero]

theorem isInOrder_nil : isInOrder ([] : BowVector K) = none := by
  unfold isInOrder
  simp only [List.length_nil]
  have : (0 % 4294967296 + 4294967295) % 4294967296 = 4294967294 + 1 := by norm_num
  rw [this, isInOrderLoop]
  rfl

/-- C35: on the empty vector `isInOrder` computes the bound `n-1` as
`4294967295`, enters the loop and reads the entries 0 and 1, which the vector
does not have, so that no answer is defined; on the vectors `[(3, 1)]`,
`[(0, 1), (1, 1)]` and `[(1, 1), (1, 1)]` it answers true, true and false,
as the documented predicate does. -/
theorem isInOrder_reads_outside_the_empty_vector :
    isInOrder ([] : BowVector K) = none ∧
    isInOrderLoop ([] : BowVector K) 4294967295 0 = none ∧
    isInOrder ([⟨3, 1⟩] : BowVector K) = some true ∧
    isInOrder ([⟨0, 1⟩, ⟨1, 1⟩] : BowVector K) = some true ∧
    isInOrder ([⟨1, 1⟩, ⟨1, 1⟩] : BowVector K) = some false := by
  refine ⟨isInOrder_nil, ?_, ?_, ?_, ?_⟩
  · have : (4294967295 : Nat) = 4294967294 + 1 := by norm_num
    rw [this, isInOrderLoop]
    rfl
  · rw [isInOrder_of_ne_nil _ (by simp) (by simp)]
    simp [InOrder]
  · rw [isInOrder_of_ne_nil _ (by simp) (by simp)]
    simp [InOrder]
  · rw [isInOrder_of_ne_nil _ (by simp) (by simp)]
    simp [InOrder]

end IsInOrder

section Symmetry
variable {K : Type} [LinearOrderedField K]

theorem pairValue_comm (L : StdLib K) (S : ScoringType) (hS : S ≠ .KL) (x y : K) :
    pairValue L S x y = pairValue L S y x := by
  cases S with
  | L1_NORM => exact pairValue_L1_comm L x y
  | L2_NORM => simp only [pairValue]; ring
  | CHI_SQUARE =>
    simp only [pairValue]
    rw [add_comm y x]
    ring
  | KL => exact absurd rfl hS
  | BHATTACHARYYA => simp only [pairValue]; rw [mul_comm]
  | DOT_PRODUCT => simp only [pairValue]; ring

theorem matchSum_symm (L : StdLib K) (S : ScoringType) (hS : S ≠ .KL) (a b : BowVector K) :
    matchSum (pairValue L S) a b = matchSum (pairValue L S) b a := by
  rw [matchSum_comm]
  congr 1
  funext x y
  exact pairValue_comm L S hS y x

theorem finishScore_comm (L : StdLib K) (p : VocParams) (a b : BowVector K) (s : K) :
    finishScore L p a b s = finishScore L p b a s := by
  unfold finishScore
  cases p.Scoring <;> simp only []
  rw [add_comm (accumulateValues a)]

/-- For a scoring other than KL, `Vocabulary::Score` is the final `switch`
applied to the sum over the common words of the two normalised vectors,
whichever of the two is iterated. -/
theorem score_eq_matchSum (L : StdLib K) (voc : Vocabulary) (hS : voc.m_params.Scoring ≠ .KL)
    (v w : BowVector K) (hv : InOrder v) (hw : InOrder w) :
    voc.Score L v w =
      finishScore L voc.m_params (normalizeFor L voc.m_params.Scoring v)
        (normalizeFor L voc.m_params.Scoring w)
        (matchSum (pairValue L voc.m_params.Scoring) (normalizeFor L voc.m_params.Scoring v)
          (normalizeFor L voc.m_params.Scoring w)) := by
  have hv' := inOrder_normalizeFor L voc.m_params.Scoring hv
  have hw' := inOrder_normalizeFor L voc.m_params.Scoring hw
  unfold Vocabulary.Score
  simp only [hS, decide_False, Bool.false_or]
  by_cases hlen : (normalizeFor L voc.m_params.Scoring v).length <
      (normalizeFor L voc.m_params.Scoring w).length
  · simp only [hlen, decide_True, if_true]
    rw [scoreLoop_eq_matchSum L _ hS _ _ hv' hw']
  · simp only [hlen, decide_False, Bool.false_eq_true, if_false]
    rw [scoreLoop_eq_matchSum L _ hS _ _ hw' hv', matchSum_symm L _ hS, finishScore_comm]

/-- C40: for each scoring other than KL, scaled or not, and all in-order
vectors `v` and `w`, `Vocabulary::Score(v, w) = Vocabulary::Score(w, v)`,
whichever of the two vectors is the shorter one and is iterated. -/
theorem score_symmetric_unless_KL (L : StdLib K) (voc : Vocabulary)
    (hS : voc.m_params.Scoring ≠ .KL) (v w : BowVector K) (hv : InOrder v) (hw : InOrder w) :
    voc.Score L v w = voc.Score L w v := by
  rw [score_eq_matchSum L voc hS v w hv hw, score_eq_matchSum L voc hS w v hw hv,
    matchSum_symm L _ hS, finishScore_comm]

end Symmetry

section KLScan
variable {K : Type} [LinearOrderedField K]

theorem find?_of_getElem (b : BowVector K) (hb : InOrder b) (x : Nat) :
    ∀ (p : Nat) (d : BowVectorEntry K), b[p]? = some d → d.id = x →
      b.find? (fun d => decide (d.id = x)) = some d := by
  induction b with
  | nil => intro p d hp; simp at hp
  | cons d0 rest ih =>
    intro p d hp hx
    have hb' : InOrder rest := (List.pairwise_cons.mp hb).2
    have hhead := (List.pairwise_cons.mp hb).1
    cases p with
    | zero =>
      simp only [List.getElem?_cons_zero, Option.some.injEq] at hp
      subst hp
      rw [List.find?_cons_of_pos]
      simpa using hx
    | succ q =>
      simp only [List.getElem?_cons_succ] at hp
      have hlt : d0.id < d.id := hhead d (List.getElem?_mem hp)
      rw [List.find?_cons_of_neg]
      · exact ih hb' q d hp hx
      · simp only [decide_eq_true_eq]
        omega

theorem scoreStep_KL_spec (L : StdLib K) (b : BowVector K) (hb : InOrder b) (s : K) (fi : Nat)
    (e : BowVectorEntry K) (hfi : ∀ j < fi, ∀ d, b[j]? = some d → d.id < e.id) :
    (scoreStep L .KL b (s, fi) e).1 = s + klTerm L b e ∧
    ∀ x, e.id < x → (∀ j < fi, ∀ d, b[j]? = some d → d.id < x) →
      ∀ j < (scoreStep L .KL b (s, fi) e).2, ∀ d, b[j]? = some d → d.id < x := by
  have hspec := binarySearch_spec b hb e.id _ (fi : Int) ((b.length : Int) - 1) rfl
    (by omega) (by omega)
  unfold scoreStep
  simp only []
  by_cases hpos : 0 ≤ binarySearch b e.id (fi : Int) ((b.length : Int) - 1)
  · obtain ⟨h1, h2, d0, hd0, hid⟩ := hspec.1 hpos
    simp only [hpos, if_true, hd0]
    refine ⟨?_, fun x hx _ j hj d hd => ?_⟩
    · unfold klTerm
      rw [find?_of_getElem b hb e.id _ d0 hd0 hid]
      rfl
    · by_cases hjp : j = (binarySearch b e.id (fi : Int) ((b.length : Int) - 1)).toNat
      · subst hjp
        rw [hd0] at hd
        cases hd
        omega
      · have := inOrder_getElem_lt hb hd hd0 (by omega)
        omega
  · simp only [hpos, if_false, if_true]
    refine ⟨?_, fun x _ hx => hx⟩
    unfold klTerm
    have hnone : b.find? (fun d => decide (d.id = e.id)) = none := by
      rw [List.find?_eq_none]
      intro d hd
      simp only [decide_eq_true_eq]
      obtain ⟨j, hj⟩ := List.mem_iff_getElem?.mp hd
      by_cases hjfi : j < fi
      · have := hfi j hjfi d hj
        omega
      · have hjlen : j < b.length := (List.getElem?_eq_some.mp hj).1
        exact hspec.2 hpos j (by omega) (by omega) d hj
    rw [hnone]

theorem foldl_scoreStep_KL (L : StdLib K) (b : BowVector K) (hb : InOrder b) (a : BowVector K)
    (ha : InOrder a) (s : K) (fi : Nat)
    (hfi : ∀ e ∈ a, ∀ j < fi, ∀ d, b[j]? = some d → d.id < e.id) :
    (a.foldl (scoreStep L .KL b) (s, fi)).1 = s + klSum L a b := by
  induction a generalizing s fi with
  | nil => simp [klSum]
  | cons e rest ih =>
    have hstep := scoreStep_KL_spec L b hb s fi e (hfi e (List.mem_cons_self _ _))
    have hrest : InOrder rest := (List.pairwise_cons.mp ha).2
    have hhead := (List.pairwise_cons.mp ha).1
    rw [List.foldl_cons]
    have hst : scoreStep L .KL b (s, fi) e =
        ((scoreStep L .KL b (s, fi) e).1, (scoreStep L .KL b (s, fi) e).2) := rfl
    rw [hst, ih hrest _ _ (fun e' he' j hj d hd =>
      hstep.2 e'.id (hhead e' he') (hfi e' (List.mem_cons_of_mem _ he')) j hj d hd), hstep.1]
    simp only [klSum, List.map_cons, List.sum_cons]
    ring

/-- Under KL the scan iterates over the first argument: the score is the sum
of the KL terms of the entries of the normalised `v` against the normalised
`w`. -/
theorem score_KL_eq (L : StdLib K) (voc : Vocabulary) (hS : voc.m_params.Scoring = .KL)
    (v w : BowVector K) (hv : InOrder v) (hw : InOrder w) :
    voc.Score L v w = klSum L (Normalize L .L1_NORM v) (Normalize L .L1_NORM w) := by
  have hv' : InOrder (Normalize L .L1_NORM v) := inOrder_Normalize L .L1_NORM hv
  have hw' : InOrder (Normalize L .L1_NORM w) := inOrder_Normalize L .L1_NORM hw
  unfold Vocabulary.Score
  simp only [hS, normalizeFor, MustNormalize, finishScore, decide_True, Bool.true_or, if_true]
  unfold scoreLoop
  rw [foldl_scoreStep_KL L _ hw' _ hv' 0 0 (fun _ _ j hj => absurd hj (by omega))]
  simp

theorem normalize_single_one (L : StdLib ℝ) :
    Normalize L .L1_NORM ([⟨0, 1⟩] : BowVector ℝ) = [⟨0, 1⟩] := by
  simp [Normalize, normOf]

theorem normalize_exampleHalves_real (L : StdLib ℝ) :
    Normalize L .L1_NORM (exampleHalves ℝ) = exampleHalves ℝ := by
  have h : normOf L .L1_NORM (exampleHalves ℝ) = 1 := by
    simp only [normOf, exampleHalves, List.foldl_cons, List.foldl_nil]
    norm_num [abs_of_pos]
  unfold Normalize
  simp only [h]
  simp [exampleHalves]

theorem log_EPSILON_real : Real.log (EPSILON : ℝ) = -(52 * Real.log 2) := by
  unfold EPSILON
  rw [one_div, Real.log_inv, Real.log_pow]
  norm_num

theorem log_half_real : Real.log (1 / 2 : ℝ) = -Real.log 2 := by
  rw [one_div, Real.log_inv]

/-- C33: under KL the scan iterates over the first argument: for all in-order
`v` and `w` the score is the sum, over the entries of the normalised `v`, of
`v_i * ln(v_i / w_i)` for a word that `w` holds and of `v_i * (ln v_i - ln EPS)`
for a word that `w` does not hold. For `v = [(0, 1)]` and
`w = [(0, 0.5), (1, 0.5)]` over the reals, `Score(v, w) = ln 2` and
`Score(w, v) = 25 ln 2`, which differ. -/
theorem score_KL_not_commutative :
    (∀ (L : StdLib K) (voc : Vocabulary), voc.m_params.Scoring = .KL →
      ∀ v w : BowVector K, InOrder v → InOrder w →
        voc.Score L v w = klSum L (Normalize L .L1_NORM v) (Normalize L .L1_NORM w)) ∧
    InOrder ([⟨0, 1⟩] : BowVector ℝ) ∧ InOrder (exampleHalves ℝ) ∧
    (exampleVoc 2 .KL false).Score (StdLib.mk Real.sqrt Real.log mergeSortBy)
      [⟨0, 1⟩] (exampleHalves ℝ) = Real.log 2 ∧
    (exampleVoc 2 .KL false).Score (StdLib.mk Real.sqrt Real.log mergeSortBy)
      (exampleHalves ℝ) [⟨0, 1⟩] = 25 * Real.log 2 ∧
    (exampleVoc 2 .KL false).Score (StdLib.mk Real.sqrt Real.log mergeSortBy)
      [⟨0, 1⟩] (exampleHalves ℝ) ≠
    (exampleVoc 2 .KL false).Score (StdLib.mk Real.sqrt Real.log mergeSortBy)
      (exampleHalves ℝ) [⟨0, 1⟩] := by
  have h1 : (exampleVoc 2 .KL false).Score (StdLib.mk Real.sqrt Real.log mergeSortBy)
      [⟨0, 1⟩] (exampleHalves ℝ) = Real.log 2 := by
    rw [score_KL_eq _ _ rfl _ _ (inOrder_singleton _) (inOrder_exampleHalves ℝ),
      normalize_single_one, normalize_exampleHalves_real]
    simp only [klSum, klTerm, exampleHalves, List.map_cons, List.map_nil, List.find?_cons_of_pos,
      decide_True, List.sum_cons, List.sum_nil]
    norm_num
  have h2 : (exampleVoc 2 .KL false).Score (StdLib.mk Real.sqrt Real.log mergeSortBy)
      (exampleHalves ℝ) [⟨0, 1⟩] = 25 * Real.log 2 := by
    rw [score_KL_eq _ _ rfl _ _ (inOrder_exampleHalves ℝ) (inOrder_singleton _),
      normalize_single_one, normalize_exampleHalves_real]
    simp only [klSum, klTerm, exampleHalves, List.map_cons, List.map_nil, List.find?, LOG_EPS,
      decide_True, List.sum_cons, List.sum_nil]
    rw [log_EPSILON_real]
    norm_num
    rw [log_half_real]
    ring
  refine ⟨fun L voc hS v w hv hw => score_KL_eq L voc hS v w hv hw, inOrder_singleton _,
    inOrder_exampleHalves ℝ, h1, h2, ?_⟩
  rw [h1, h2]
  have hlog : 0 < Real.log 2 := Real.log_pos (by norm_num)
  intro h
  linarith

/-- Witness for C40: under scaled L1 and under chi-square, the vectors
`[(0, 0.5), (1, 0.5)]` and `[(0, 1)]` over the rationals, of different
lengths, score the same in both orders. -/
theorem score_symmetric_unless_KL_witness :
    InOrder (exampleHalves ℚ) ∧ InOrder ([⟨0, 1⟩] : BowVector ℚ) ∧
    (exampleVoc 2 .L1_NORM true).Score ratLib (exampleHalves ℚ) [⟨0, 1⟩] =
      (exampleVoc 2 .L1_NORM true).Score ratLib [⟨0, 1⟩] (exampleHalves ℚ) ∧
    (exampleVoc 2 .CHI_SQUARE false).Score ratLib (exampleHalves ℚ) [⟨0, 1⟩] =
      (exampleVoc 2 .CHI_SQUARE false).Score ratLib [⟨0, 1⟩] (exampleHalves ℚ) :=
  ⟨inOrder_exampleHalves ℚ, inOrder_singleton _,
    score_symmetric_unless_KL ratLib (exampleVoc 2 .L1_NORM true) (by decide) _ _
      (inOrder_exampleHalves ℚ) (inOrder_singleton _),
    score_symmetric_unless_KL ratLib (exampleVoc 2 .CHI_SQUARE false) (by decide) _ _
      (inOrder_exampleHalves ℚ) (inOrder_singleton _)⟩

/-- Witness for C33: the scan formula at `v = [(0, 1)]`,
`w = [(0, 0.5), (1, 0.5)]` over the reals. -/
theorem score_KL_not_commutative_witness :
    (exampleVoc 2 .KL false).Score (StdLib.mk Real.sqrt Real.log mergeSortBy)
      [⟨0, 1⟩] (exampleHalves ℝ) =
    klSum (StdLib.mk Real.sqrt Real.log mergeSortBy)
      (Normalize (StdLib.mk Real.sqrt Real.log mergeSortBy) .L1_NORM [⟨0, 1⟩])
      (Normalize (StdLib.mk Real.sqrt Real.log mergeSortBy) .L1_NORM (exampleHalves ℝ)) :=
  (@score_KL_not_commutative ℝ _).1 _ (exampleVoc 2 .KL false) rfl _ _
    (inOrder_singleton _) (inOrder_exampleHalves ℝ)

end KLScan

section TrueDistances
variable {K : Type} [LinearOrderedField K]

theorem valueOf_cons (d : BowVectorEntry K) (rest : BowVector K) (i : Nat) :
    valueOf (d :: rest) i = if d.id = i then d.value else valueOf rest i := by
  unfold valueOf
  by_cases h : d.id = i
  · rw [List.find?_cons_of_pos _ (by simpa using h), if_pos h]
  · rw [List.find?_cons_of_neg _ (by simpa using h), if_neg h]

theorem valueOf_of_forall_ne (v : BowVector K) (i : Nat) (h : ∀ e ∈ v, e.id ≠ i) :
    valueOf v i = 0 := by
  unfold valueOf
  rw [List.find?_eq_none.mpr (fun e he => by simpa using h e he)]

/-- A sum over the word ids below `N` of a quantity that vanishes where the
word is absent is the sum over the entries of the vector. -/
theorem sum_range_valueOf (F : Nat → K → K) (hF : ∀ i, F i 0 = 0) (N : Nat) :
    ∀ (v : BowVector K), InOrder v → (∀ e ∈ v, e.id < N) →
      ∑ i in Finset.range N, F i (valueOf v i) = (v.map (fun e => F e.id e.value)).sum := by
  intro v
  induction v with
  | nil =>
    intro _ _
    simp [valueOf, hF]
  | cons d rest ih =>
    intro hv hN
    have hrest : InOrder rest := (List.pairwise_cons.mp hv).2
    have hhead := (List.pairwise_cons.mp hv).1
    have h0 : valueOf rest d.id = 0 :=
      valueOf_of_forall_ne rest d.id (fun e he => by have := hhead e he; omega)
    have hpt : ∀ i ∈ Finset.range N, F i (valueOf (d :: rest) i) =
        (if i = d.id then F d.id d.value else 0) + F i (valueOf rest i) := by
      intro i _
      rw [valueOf_cons]
      by_cases h : d.id = i
      · subst h
        simp [h0, hF]
      · rw [if_neg h, if_neg (fun h' => h h'.symm), zero_add]
    rw [Finset.sum_congr rfl hpt, Finset.sum_add_distrib, Finset.sum_ite_eq',
      if_pos (Finset.mem_range.mpr (hN d (List.mem_cons_self _ _))),
      ih hrest (fun e he => hN e (List.mem_cons_of_mem _ he))]
    simp

theorem sum_ite_eq_valueOf (g : K → K) (hg : g 0 = 0) (x : Nat) :
    ∀ (w : BowVector K), InOrder w →
      (w.map (fun d => if d.id = x then g d.value else 0)).sum = g (valueOf w x) := by
  intro w
  induction w with
  | nil => intro _; simp [valueOf, hg]
  | cons d rest ih =>
    intro hw
    have hrest : InOrder rest := (List.pairwise_cons.mp hw).2
    have hhead := (List.pairwise_cons.mp hw).1
    rw [valueOf_cons, List.map_cons, List.sum_cons]
    by_cases h : d.id = x
    · rw [if_pos h, if_pos h, sum_ite_id_of_forall_ne g x rest (fun e he => by
        have := hhead e he
        omega)]
      simp
    · rw [if_neg h, if_neg h, ih hrest, zero_add]

/-- The sum over the common words is the sum over all word ids when the
summand vanishes as soon as one of the two values is `0`. -/
theorem matchSum_eq_sum_range (g : K → K → K) (hg1 : ∀ x, g x 0 = 0) (hg2 : ∀ y, g 0 y = 0)
    (N : Nat) (v w : BowVector K) (hv : InOrder v) (hw : InOrder w)
    (hN : ∀ e ∈ v, e.id < N) :
    matchSum g v w = ∑ i in Finset.range N, g (valueOf v i) (valueOf w i) := by
  rw [sum_range_valueOf (fun i x => g x (valueOf w i)) (fun i => hg2 _) N v hv hN]
  unfold matchSum
  congr 1
  apply List.map_congr_left
  intro e _
  exact sum_ite_eq_valueOf (fun y => g e.value y) (hg1 _) e.id w hw

theorem accumulateValues_eq_sum (v : BowVector K) :
    accumulateValues v = (v.map (fun e => e.value)).sum := by
  unfold accumulateValues
  have h : ∀ (l : BowVector K) (s : K),
      l.foldl (fun w e => e.value + w) s = s + (l.map (fun e => e.value)).sum := by
    intro l
    induction l with
    | nil => intro s; simp
    | cons e rest ih =>
      intro s
      rw [List.foldl_cons, ih, List.map_cons, List.sum_cons]
      ring
  rw [h, zero_add]

theorem l1Distance_eq (N : Nat) (v w : BowVector K) (hv : InOrder v) (hw : InOrder w)
    (hNv : ∀ e ∈ v, e.id < N) (hNw : ∀ e ∈ w, e.id < N) (L : StdLib K) :
    l1Distance N v w = matchSum (pairValue L .L1_NORM) v w +
      (v.map (fun e => |e.value|)).sum + (w.map (fun e => |e.value|)).sum := by
  rw [matchSum_eq_sum_range (pairValue L .L1_NORM) (by intro x; simp [pairValue])
    (by intro y; simp [pairValue]) N v w hv hw hNv,
    ← sum_range_valueOf (fun _ x => |x|) (fun _ => abs_zero) N v hv hNv,
    ← sum_range_valueOf (fun _ x => |x|) (fun _ => abs_zero) N w hw hNw,
    ← Finset.sum_add_distrib, ← Finset.sum_add_distrib]
  unfold l1Distance
  apply Finset.sum_congr rfl
  intro i _
  simp only [pairValue]
  ring

theorem chi_zero_right (x : K) : (x - 0) * (x - 0) / (x + 0) - x - 0 = 0 := by
  by_cases h : x = 0
  · subst h; simp
  · field_simp

theorem chi_zero_left (y : K) : (0 - y) * (0 - y) / (0 + y) - 0 - y = 0 := by
  by_cases h : y = 0
  · subst h; simp
  · field_simp

theorem chiSquareDistance_eq (N : Nat) (v w : BowVector K) (hv : InOrder v) (hw : InOrder w)
    (hNv : ∀ e ∈ v, e.id < N) (hNw : ∀ e ∈ w, e.id < N) (L : StdLib K) :
    chiSquareDistance N v w = matchSum (pairValue L .CHI_SQUARE) v w +
      (v.map (fun e => e.value)).sum + (w.map (fun e => e.value)).sum := by
  rw [matchSum_eq_sum_range (pairValue L .CHI_SQUARE) (fun x => chi_zero_right x)
    (fun y => chi_zero_left y) N v w hv hw hNv,
    ← sum_range_valueOf (fun _ x => x) (fun _ => rfl) N v hv hNv,
    ← sum_range_valueOf (fun _ x => x) (fun _ => rfl) N w hw hNw,
    ← Finset.sum_add_distrib, ← Finset.sum_add_distrib]
  unfold chiSquareDistance
  apply Finset.sum_congr rfl
  intro i _
  simp only [pairValue]
  ring

theorem ids_lt_Normalize (L : StdLib K) (n : ScoringType) (v : BowVector K) (N : Nat)
    (h : ∀ e ∈ v, e.id < N) : ∀ e ∈ Normalize L n v, e.id < N := by
  intro e he
  have hm : e.id ∈ (Normalize L n v).map (fun e => e.id) := List.mem_map_of_mem _ he
  rw [map_id_Normalize] at hm
  obtain ⟨e0, he0, hid⟩ := List.mem_map.mp hm
  rw [← hid]
  exact h e0 he0

/-- C36: under unscaled L1 scoring, for in-order `v` and `w` with positive L1
norms and word ids below `N`, `Vocabulary::Score(v, w)` is `2` plus the sum over
the common words of `|v_i - w_i| - |v_i| - |w_i|` of the normalised vectors, and
this is their L1 distance, the sum over all word ids below `N` of `|v_i - w_i|`
with an absent word counted as `0`; the scan, whichever of the two vectors it
iterates, adds exactly the terms of the pairs of entries with equal word ids. -/
theorem score_L1_is_the_L1_distance (L : StdLib K) (voc : Vocabulary)
    (hS : voc.m_params.Scoring = .L1_NORM) (hscale : voc.m_params.ScaleScore = false)
    (v w : BowVector K) (hv : InOrder v) (hw : InOrder w)
    (hnv : 0 < normOf L .L1_NORM v) (hnw : 0 < normOf L .L1_NORM w)
    (N : Nat) (hNv : ∀ e ∈ v, e.id < N) (hNw : ∀ e ∈ w, e.id < N) :
    voc.Score L v w =
      2 + matchSum (pairValue L .L1_NORM) (Normalize L .L1_NORM v) (Normalize L .L1_NORM w) ∧
    voc.Score L v w = l1Distance N (Normalize L .L1_NORM v) (Normalize L .L1_NORM w) ∧
    scoreLoop L .L1_NORM (Normalize L .L1_NORM v) (Normalize L .L1_NORM w) =
      matchSum (pairValue L .L1_NORM) (Normalize L .L1_NORM v) (Normalize L .L1_NORM w) ∧
    scoreLoop L .L1_NORM (Normalize L .L1_NORM w) (Normalize L .L1_NORM v) =
      matchSum (pairValue L .L1_NORM) (Normalize L .L1_NORM v) (Normalize L .L1_NORM w) := by
  have hv' : InOrder (Normalize L .L1_NORM v) := inOrder_Normalize L .L1_NORM hv
  have hw' : InOrder (Normalize L .L1_NORM w) := inOrder_Normalize L .L1_NORM hw
  have hs : voc.Score L v w =
      2 + matchSum (pairValue L .L1_NORM) (Normalize L .L1_NORM v) (Normalize L .L1_NORM w) := by
    rw [score_L1_eq L voc hS v w hv hw, hscale]
    simp
  refine ⟨hs, ?_, scoreLoop_eq_matchSum L .L1_NORM (by decide) _ _ hv' hw', ?_⟩
  · rw [hs, l1Distance_eq N _ _ hv' hw' (ids_lt_Normalize L _ v N hNv)
      (ids_lt_Normalize L _ w N hNw) L, sum_abs_Normalize_L1_eq L v hnv,
      sum_abs_Normalize_L1_eq L w hnw]
    ring
  · rw [scoreLoop_eq_matchSum L .L1_NORM (by decide) _ _ hw' hv', matchSum_L1_symm]

/-- Witness for C36: `v = [(0, 0.5), (1, 0.5)]` and `w = [(0, 1)]` over the
rationals, at L1 distance `|0.5 - 1| + |0.5 - 0| = 1`. -/
theorem score_L1_is_the_L1_distance_witness :
    InOrder (exampleHalves ℚ) ∧ InOrder ([⟨0, 1⟩] : BowVector ℚ) ∧
    0 < normOf ratLib .L1_NORM (exampleHalves ℚ) ∧
    0 < normOf ratLib .L1_NORM ([⟨0, 1⟩] : BowVector ℚ) ∧
    (exampleVoc 2 .L1_NORM false).Score ratLib (exampleHalves ℚ) [⟨0, 1⟩] =
      l1Distance 2 (Normalize ratLib .L1_NORM (exampleHalves ℚ))
        (Normalize ratLib .L1_NORM [⟨0, 1⟩]) ∧
    l1Distance 2 (Normalize ratLib .L1_NORM (exampleHalves ℚ))
        (Normalize ratLib .L1_NORM ([⟨0, 1⟩] : BowVector ℚ)) = 1 := by
  have hn1 : 0 < normOf ratLib .L1_NORM (exampleHalves ℚ) :=
    normOf_L1_pos ratLib _ (by simp [exampleHalves]) (by simp [exampleHalves])
  have hn2 : 0 < normOf ratLib .L1_NORM ([⟨0, 1⟩] : BowVector ℚ) :=
    normOf_L1_pos ratLib _ (by simp) (by simp)
  refine ⟨inOrder_exampleHalves ℚ, inOrder_singleton _, hn1, hn2,
    (score_L1_is_the_L1_distance ratLib (exampleVoc 2 .L1_NORM false) rfl rfl _ _
      (inOrder_exampleHalves ℚ) (inOrder_singleton _) hn1 hn2 2
      (by simp [exampleHalves]) (by simp)).2.1, ?_⟩
  norm_num [l1Distance, valueOf, Normalize, normOf, exampleHalves, Finset.sum_range_succ,
    List.find?, abs_div]

theorem score_ChiSquare_eq (L : StdLib K) (voc : Vocabulary)
    (hS : voc.m_params.Scoring = .CHI_SQUARE) (v w : BowVector K) (hv : InOrder v)
    (hw : InOrder w) (N : Nat) (hNv : ∀ e ∈ v, e.id < N) (hNw : ∀ e ∈ w, e.id < N) :
    voc.Score L v w =
      if voc.m_params.ScaleScore
      then 1 - chiSquareDistance N (Normalize L .L1_NORM v) (Normalize L .L1_NORM w) / 2
      else chiSquareDistance N (Normalize L .L1_NORM v) (Normalize L .L1_NORM w) := by
  have hv' : InOrder (Normalize L .L1_NORM v) := inOrder_Normalize L .L1_NORM hv
  have hw' : InOrder (Normalize L .L1_NORM w) := inOrder_Normalize L .L1_NORM hw
  rw [score_eq_matchSum L voc (by rw [hS]; decide) v w hv hw,
    chiSquareDistance_eq N _ _ hv' hw' (ids_lt_Normalize L _ v N hNv)
      (ids_lt_Normalize L _ w N hNw) L]
  simp only [hS, normalizeFor, MustNormalize, finishScore, accumulateValues_eq_sum]
  split <;> ring

/-- C37: under chi-square scoring, for an in-order query `v` and a stored
entry `k` added from an in-order `w`, both with strictly positive values and
sharing a word, the score `Database::Query` reports for entry `k` (`2 +` the
accumulated sum, or minus its half when scaled) equals
`Vocabulary::Score(v, w)` (the sum plus the sums of the values of the two
normalised vectors, or `1` minus half of that when scaled); both are the
chi-square distance over all word ids below `N` of the L1-normalised vectors
(or `1` minus half of it when scaled); and the entry is reported when
`max_results` is at least the number of entries. -/
theorem query_ChiSquare_agrees_with_score (L : StdLib K) (hsort : SortSpec L)
    (voc : Vocabulary) (hS : voc.m_params.Scoring = .CHI_SQUARE) (vs : List (BowVector K))
    (hlen : vs.length ≤ 4294967296) (hW : ∀ u ∈ vs, ∀ e ∈ u, e.id < voc.NumberOfWords)
    (v : BowVector K) (hv : InOrder v) (hvpos : ∀ e ∈ v, 0 < e.value)
    (k : Nat) (w : BowVector K) (hk : vs[k]? = some w)
    (hw : InOrder w) (hwpos : ∀ e ∈ w, 0 < e.value) (hshare : Shares v w) (max_results : Nat)
    (N : Nat) (hNv : ∀ e ∈ v, e.id < N) (hNw : ∀ e ∈ w, e.id < N) :
    (∀ r ∈ ((Database.create K voc).addAll L vs).Query L v max_results,
        r.Id = k → r.Score = voc.Score L v w) ∧
    (vs.length ≤ max_results →
        ∃ r ∈ ((Database.create K voc).addAll L vs).Query L v max_results, r.Id = k) ∧
    voc.Score L v w =
      (if voc.m_params.ScaleScore
      then 1 - chiSquareDistance N (Normalize L .L1_NORM v) (Normalize L .L1_NORM w) / 2
      else chiSquareDistance N (Normalize L .L1_NORM v) (Normalize L .L1_NORM w)) := by
  have hvne : v ≠ [] := by
    obtain ⟨e, he, _⟩ := hshare
    exact List.ne_nil_of_mem he
  have hwne : w ≠ [] := by
    obtain ⟨_, _, d, hd, _⟩ := hshare
    exact List.ne_nil_of_mem hd
  have hvoc : ((Database.create K voc).addAll L vs).m_voc = voc := by
    rw [addAll_voc]; rfl
  have hQ : ((Database.create K voc).addAll L vs).Query L v max_results =
      mapScore (if voc.m_params.ScaleScore then (fun s => -s / 2) else (fun s => 2 + s))
        (cut (L.sort Result.lt (accumulateRows (pairValue L .CHI_SQUARE)
          ((Database.create K voc).addAll L vs).m_index (normalizeFor L .CHI_SQUARE v)))
          max_results) := by
    unfold Database.Query Database._Query
    simp only [hvoc, hS, doQueryChiSquare, sortedChiSquare]
    split <;> rfl
  have hperm := sort_perm L hsort (accumulateRows (pairValue L .CHI_SQUARE)
          ((Database.create K voc).addAll L vs).m_index (normalizeFor L .CHI_SQUARE v))
  refine ⟨?_, ?_, score_ChiSquare_eq L voc hS v w hv hw N hNv hNw⟩
  · intro r hr hrk
    rw [hQ] at hr
    obtain ⟨r0, hr0, rfl⟩ := List.mem_map.mp hr
    have hr0acc := hperm.mem_iff.mp (mem_of_mem_cut hr0)
    have hsc := score_accumulateRows_fresh L voc vs hlen hW _ _ r0 hr0acc
    have hrk' : r0.Id = k := hrk
    rw [hS, hrk', getD_map_normalizeFor L .CHI_SQUARE vs k w hk] at hsc
    rw [score_eq_matchSum L voc (by rw [hS]; decide) v w hv hw]
    simp only [hS, finishScore, accumulateValues_eq_sum]
    have e1 : ((normalizeFor L .CHI_SQUARE v).map (fun e => e.value)).sum = 1 :=
      sum_Normalize_L1_eq_one L v hvne hvpos
    have e2 : ((normalizeFor L .CHI_SQUARE w).map (fun e => e.value)).sum = 1 :=
      sum_Normalize_L1_eq_one L w hwne hwpos
    rw [e1, e2]
    split
    · show -r0.Score / 2 = _
      rw [hsc]
      ring
    · show 2 + r0.Score = _
      rw [hsc]
      ring
  · intro hmax
    have hmem : k ∈ (accumulateRows (pairValue L .CHI_SQUARE)
          ((Database.create K voc).addAll L vs).m_index (normalizeFor L .CHI_SQUARE v)).map
          (fun r => r.Id) := by
      rw [mem_accumulateRows_fresh L voc vs hlen hW, hS]
      exact ⟨w, hk, (shares_normalizeFor L .CHI_SQUARE v w).mpr hshare⟩
    obtain ⟨r0, hr0, hid⟩ := List.mem_map.mp hmem
    have hcut : cut (L.sort Result.lt (accumulateRows (pairValue L .CHI_SQUARE)
          ((Database.create K voc).addAll L vs).m_index (normalizeFor L .CHI_SQUARE v)))
          max_results = L.sort Result.lt (accumulateRows (pairValue L .CHI_SQUARE)
          ((Database.create K voc).addAll L vs).m_index (normalizeFor L .CHI_SQUARE v)) := by
      apply cut_of_length_le
      rw [hperm.length_eq]
      exact le_trans (length_accumulateRows_fresh_le L voc vs hlen hW _ _) hmax
    rw [hQ, hcut]
    refine ⟨_, List.mem_map.mpr ⟨r0, hperm.mem_iff.mpr hr0, rfl⟩, hid⟩

/-- Witness for C37: the entries `[(0, 0.5), (1, 0.5)]` and `[(1, 1)]` under
chi-square over the rationals, query `[(0, 1)]`, entry 0: the chi-square
distance is `(1 - 0.5)^2 / 1.5 + 0.5 = 2/3`. -/
theorem query_ChiSquare_agrees_with_score_witness :
    SortSpec ratLib ∧ InOrder ([⟨0, 1⟩] : BowVector ℚ) ∧ InOrder (exampleHalves ℚ) ∧
    Shares ([⟨0, 1⟩] : BowVector ℚ) (exampleHalves ℚ) ∧
    (∀ r ∈ ((Database.create ℚ (exampleVoc 2 .CHI_SQUARE false)).addAll ratLib
        [exampleHalves ℚ, [⟨1, 1⟩]]).Query ratLib [⟨0, 1⟩] 2,
        r.Id = 0 → r.Score = (exampleVoc 2 .CHI_SQUARE false).Score ratLib [⟨0, 1⟩]
          (exampleHalves ℚ)) ∧
    (∃ r ∈ ((Database.create ℚ (exampleVoc 2 .CHI_SQUARE false)).addAll ratLib
        [exampleHalves ℚ, [⟨1, 1⟩]]).Query ratLib [⟨0, 1⟩] 2, r.Id = 0) ∧
    (exampleVoc 2 .CHI_SQUARE false).Score ratLib [⟨0, 1⟩] (exampleHalves ℚ) =
      chiSquareDistance 2 (Normalize ratLib .L1_NORM [⟨0, 1⟩])
        (Normalize ratLib .L1_NORM (exampleHalves ℚ)) ∧
    chiSquareDistance 2 (Normalize ratLib .L1_NORM ([⟨0, 1⟩] : BowVector ℚ))
        (Normalize ratLib .L1_NORM (exampleHalves ℚ)) = 2 / 3 := by
  have hsh : Shares ([⟨0, 1⟩] : BowVector ℚ) (exampleHalves ℚ) :=
    ⟨⟨0, 1⟩, by simp, ⟨0, 1 / 2⟩, by simp [exampleHalves], rfl⟩
  have hW : ∀ u ∈ [exampleHalves ℚ, [⟨1, 1⟩]], ∀ e ∈ u,
      e.id < (exampleVoc 2 .CHI_SQUARE false).NumberOfWords := by
    simp [exampleHalves, exampleVoc, Vocabulary.NumberOfWords]
  have h := query_ChiSquare_agrees_with_score ratLib ratLib_sortSpec
    (exampleVoc 2 .CHI_SQUARE false) rfl [exampleHalves ℚ, [⟨1, 1⟩]] (by simp) hW [⟨0, 1⟩]
    (inOrder_singleton _) (by simp) 0 (exampleHalves ℚ) rfl (inOrder_exampleHalves ℚ)
    (by simp [exampleHalves]) hsh 2 2 (by simp) (by simp [exampleHalves])
  refine ⟨ratLib_sortSpec, inOrder_singleton _, inOrder_exampleHalves ℚ, hsh, h.1,
    h.2.1 (by simp), h.2.2, ?_⟩
  norm_num [chiSquareDistance, valueOf, Normalize, normOf, exampleHalves, Finset.sum_range_succ,
    List.find?, abs_div]

end TrueDistances

section LoadDispatch
variable {K : Type} [LinearOrderedField K]

theorem firstByte_saveText (showReal : K → List Nat) (voc : HVocabulary K) (f : List (Token K))
    (h : voc.SaveText = some f) : firstByteOfText showReal f = some 48 := by
  unfold HVocabulary.SaveText at h
  split at h
  · exact absurd h (by simp)
  · split at h
    · exact absurd h (by simp)
    · have := Option.some.inj h
      rw [← this]
      rfl

theorem head_saveBinary (B : BinaryFile K) (voc : HVocabulary K) (f : List Nat)
    (h : voc.SaveBinary B = some f) : f.head? = some 0 := by
  unfold HVocabulary.SaveBinary at h
  split at h
  · exact absurd h (by simp)
  · split at h
    · exact absurd h (by simp)
    · have := Option.some.inj h
      rw [← this]
      rfl

/-- C31: for every vocabulary, every file `SaveText` writes begins with the
byte 48, the digit `0` of the vocabulary type, which is at least 32, and every
file `SaveBinary` writes begins with the byte 0; so `Load` takes the text
loader on the first and the binary loader on the second, whether or not a
`char` has a sign. `Load` takes the binary loader exactly when the first
byte, as a `char`, is below 32. -/
theorem load_selects_the_loader_by_first_byte (B : BinaryFile K) (showReal : K → List Nat)
    (signedChar : Bool) (voc : HVocabulary K) :
    (∀ f : List (Token K), voc.SaveText = some f →
      firstByteOfText showReal f = some 48 ∧
      Vocabulary.loaderFor signedChar (firstByteOfText showReal f) = some Loader.LoadText) ∧
    (∀ f : List Nat, voc.SaveBinary B = some f →
      f.head? = some 0 ∧ Vocabulary.loaderFor signedChar f.head? = some Loader.LoadBinary) ∧
    (48 = '0'.toNat ∧ 32 ≤ 48) ∧
    (∀ b : Nat, Vocabulary.loaderFor signedChar (some b) = some Loader.LoadBinary ↔
      charOfByte signedChar b < 32) := by
  refine ⟨fun f h => ?_, fun f h => ?_, ⟨rfl, by decide⟩, fun b => ?_⟩
  · rw [firstByte_saveText showReal voc f h]
    refine ⟨rfl, ?_⟩
    cases signedChar <;> rfl
  · rw [head_saveBinary B voc f h]
    refine ⟨rfl, ?_⟩
    cases signedChar <;> rfl
  · unfold Vocabulary.loaderFor
    simp only []
    by_cases hb : charOfByte signedChar b ≥ 32
    · rw [if_pos hb]
      simp only [reduceCtorEq, Option.some.injEq, false_iff, not_lt]
      exact hb
    · rw [if_neg hb]
      simp only [true_iff]
      omega

theorem example_saveBinary :
    (exampleHVocabulary .TF 1 1 : HVocabulary ℚ).SaveBinary ⟨fun _ => [], fun _ => []⟩ = some
      [0, 0, 0, 0, 0, 1, 0, 0, 0, 0, 0, 0, 0, 1, 0, 0, 0, 1, 0, 0, 0, 2, 0, 0, 0, 0, 0, 0, 0,
        0, 0, 0, 0, 2, 0, 0, 0, 1, 0, 0, 0, 3, 0, 0, 0, 1, 0, 0, 0, 0, 0, 0, 0, 2, 0, 0, 0,
        0, 0, 0, 0, 0, 0, 0, 0, 1, 0, 0, 0, 1, 0, 0, 0, 2, 0, 0, 0] := by
  rfl

/-- Witness for C31: the small vocabulary is saved by both routines, and
`Load` takes the text loader on the text file and the binary loader on the
binary file. -/
theorem load_selects_the_loader_by_first_byte_witness :
    (∃ f : List (Token ℚ), (exampleHVocabulary .TF 1 1 : HVocabulary ℚ).SaveText = some f ∧
      firstByteOfText (fun _ => [48]) f = some 48 ∧
      Vocabulary.loaderFor true (firstByteOfText (fun _ => [48]) f) = some Loader.LoadText) ∧
    (∃ f : List Nat,
      (exampleHVocabulary .TF 1 1 : HVocabulary ℚ).SaveBinary ⟨fun _ => [], fun _ => []⟩ =
        some f ∧
      f.head? = some 0 ∧ Vocabulary.loaderFor true f.head? = some Loader.LoadBinary) :=
  ⟨⟨_, example_saveText .TF 1 1,
    (load_selects_the_loader_by_first_byte ⟨fun _ => [], fun _ => []⟩ (fun _ => [48]) true
      (exampleHVocabulary .TF 1 1 : HVocabulary ℚ)).1 _ (example_saveText .TF 1 1)⟩,
   ⟨_, example_saveBinary,
    (load_selects_the_loader_by_first_byte ⟨fun _ => [], fun _ => []⟩ (fun _ => [48]) true
      (exampleHVocabulary .TF 1 1 : HVocabulary ℚ)).2.1 _
      (example_saveBinary)⟩⟩

end LoadDispatch

section EmptyTraining
variable {K : Type} [LinearOrderedField K]

theorem descend_leaf_root (nodes : List (Node K)) (D : Int) (pfeature : List K) (fuel : Nat)
    (root : Node K) (h0 : nodes[0]? = some root) (hc : root.Children = []) :
    descend nodes D pfeature fuel 0 = none := by
  cases fuel with
  | zero => rfl
  | succ fuel =>
    rw [descend, h0]
    simp only [hc]

theorem create_nil (rnd : RandomSource) (fuel : Nat) (L : StdLib K) (A : StdAlgorithm)
    (voc : HVocabulary K) : voc.Create rnd fuel L A [] = none := by
  unfold HVocabulary.Create
  split
  · rw [List.flatMap_nil, hkmeansStep_nil]
    simp only []
    unfold HVocabulary.CreateWith
    split
    · unfold HVocabulary.SetNodeWeights HVocabulary.GetWordWeightsAndCreateStopList
      simp
    · rfl
  · rfl

/-- On a training set that has groups but no descriptor, `Create` returns
with the creation flag set and the root, a leaf, as word 0, and the descent of
every descriptor is then undefined. -/
theorem create_without_descriptors (rnd : RandomSource) (fuel : Nat) (L : StdLib K)
    (A : StdAlgorithm) (voc : HVocabulary K) (training : List (List K))
    (hD : 0 < voc.base_m_params.DescriptorLength) (hD2 : 0 < voc.m_params.DescriptorLength)
    (hne : training ≠ []) (hall : ∀ features ∈ training, features = []) :
    ∃ voc' : HVocabulary K, voc.Create rnd fuel L A training = some voc' ∧
      voc'.isEmpty = false ∧ voc'.NumberOfWords = 1 ∧ voc'.m_words = [0] ∧
      (∃ root : Node K, voc'.m_nodes[0]? = some root ∧ root.isLeaf = true ∧ root.WId = 0) ∧
      voc'.base_m_params = voc.base_m_params ∧
      ∀ pfeature : List K, voc'.TransformFeature pfeature = none := by
  have hlen : ∀ features ∈ training,
      features.length % voc.m_params.DescriptorLength.toNat = 0 := by
    intro f hf
    rw [hall f hf]
    rfl
  have hflat : training.flatMap
      (fun features => featureSlots features voc.m_params.DescriptorLength.toNat) = [] := by
    rw [List.flatMap_eq_nil_iff]
    intro f hf
    rw [hall f hf]
    exact featureSlots_nil _ (by omega)
  have harena : ArenaOk [(Node.create 0 : Node K)] training := by
    refine ⟨by simp, ?_, ?_, ?_⟩
    · intro node hn
      rw [List.mem_singleton] at hn
      rw [hn]
      rfl
    · intro i node hi c hc
      cases i with
      | zero =>
        simp only [List.getElem?_cons_zero, Option.some.injEq] at hi
        rw [← hi] at hc
        simp [Node.create] at hc
      | succ i => simp at hi
    · rintro ⟨f, hf, hfne⟩
      exact absurd (hall f hf) hfne
  obtain ⟨docs, fr, voc', hC, _, _, hcr, _, hw, hbp, hsh, _⟩ :=
    createWith_spec L A voc [(Node.create 0 : Node K)] training harena hne hD hD2 hlen
  have hmp := createWith_m_params L A voc voc' _ training hC
  have hw' : voc'.m_words = [0] := by rw [hw]; rfl
  have hroot : ∃ root : Node K, voc'.m_nodes[0]? = some root ∧ root.isLeaf = true ∧
      root.WId = 0 := by
    have h0 := hsh 0
    have hr : ((CreateWords [(Node.create 0 : Node K)]).1[0]?).map Node.shape =
        some (0, [], [], 0) := rfl
    rw [hr] at h0
    obtain ⟨root, hroot, hshape⟩ := Option.map_eq_some'.mp h0
    simp only [Node.shape, Prod.mk.injEq] at hshape
    refine ⟨root, hroot, ?_, hshape.2.2.2⟩
    unfold Node.isLeaf
    rw [hshape.2.1]
    rfl
  refine ⟨voc', ?_, ?_, ?_, hw', hroot, hbp, ?_⟩
  · unfold HVocabulary.Create
    rw [if_pos ⟨hD2, List.all_eq_true.mpr (fun f hf => decide_eq_true (hlen f hf))⟩, hflat,
      hkmeansStep_nil]
    exact hC
  · unfold HVocabulary.isEmpty
    rw [hcr]
    rfl
  · unfold HVocabulary.NumberOfWords HVocabulary.GetNumberOfWords
    rw [hcr, hw']
    rfl
  · intro pfeature
    obtain ⟨root, hr0, hleaf, _⟩ := hroot
    unfold HVocabulary.TransformFeature HVocabulary.isEmpty
    rw [hcr]
    simp only [Bool.not_true, Bool.false_eq_true, if_false]
    apply descend_leaf_root _ _ _ _ root hr0
    unfold Node.isLeaf at hleaf
    exact List.isEmpty_iff.mp hleaf

/-- C32: with `k = 2`, `L = 1`, `D = 1`, `Create` on the training set without
groups fails the assertion `NDocs > 0`; on the training set of one group
without descriptors it returns, with the creation flag set and the root, left
without children, registered as word 0: `isEmpty()` is false and
`NumberOfWords()` is 1. On that vocabulary `Transform(pfeature)` passes the
test of `isEmpty()`, fails `assert(!m_nodes[0].isLeaf())` and reads the first
child of a node that has none, so it has no result, and neither has
`Transform` of the feature array `[1]`. -/
theorem create_on_empty_training_marks_created (rnd : RandomSource) (fuel : Nat)
    (L : StdLib K) (A : StdAlgorithm) (weighting : WeightingType) :
    (HVocabulary.init (exampleParams weighting) : HVocabulary K).Create rnd fuel L A [] = none ∧
    ∃ voc' : HVocabulary K,
      (HVocabulary.init (exampleParams weighting) : HVocabulary K).Create rnd fuel L A [[]] =
        some voc' ∧
      voc'.isEmpty = false ∧ voc'.NumberOfWords = 1 ∧ voc'.m_words = [0] ∧
      (∃ root : Node K, voc'.m_nodes[0]? = some root ∧ root.isLeaf = true ∧ root.WId = 0) ∧
      (∀ pfeature : List K, voc'.TransformFeature pfeature = none) ∧
      voc'.Transform A [1] true = none := by
  refine ⟨create_nil rnd fuel L A _, ?_⟩
  obtain ⟨voc', h1, h2, h3, h4, h5, h6, h7⟩ := create_without_descriptors rnd fuel L A
    (HVocabulary.init (exampleParams weighting) : HVocabulary K) [[]]
    (by show (0 : Int) < 1; decide) (by show (0 : Int) < 1; decide) (by simp)
    (by intro f hf; simpa using hf)
  refine ⟨voc', h1, h2, h3, h4, h5, h7, ?_⟩
  have hD : voc'.base_m_params.DescriptorLength = 1 := by
    rw [h6]
    rfl
  unfold HVocabulary.Transform
  rw [hD]
  simp only [Int.toNat_one, featureSlots_one]
  simp [wordIds, h7]

end EmptyTraining


section UnreachedWord
variable {K : Type} [LinearOrderedField K]

theorem example_descend_twin (pf : List K) :
    descend (exampleTwinNodes : List (Node K)) 1 pf 3 0 = some 0 := by
  have hn : nearestChild (exampleTwinNodes : List (Node K)) 1 pf 1 [2] = 1 := by
    show (if DescriptorSqDistance 1 pf [1] < DescriptorSqDistance 1 pf [1] then
          ((2 : Nat), DescriptorSqDistance 1 pf [1])
        else ((1 : Nat), DescriptorSqDistance 1 pf [1])).1 = 1
    rw [if_neg (lt_irrefl _)]
  rw [descend_succ (exampleTwinNodes : List (Node K)) 1 _ 2 0 _ 1 [2]
    { Id := 1, Children := [], Weight := 0, Descriptor := [1], WId := 0 } rfl rfl
    (by rw [hn]; rfl)]
  rfl

/-- C38: with `k = 2`, `L = 1`, `D = 1` and `TF_IDF` weighting, `Create` on the
single training group with the descriptors `1`, `1` returns, for every
generator, the root with two leaves of centre `1`, words 0 and 1. Every
descriptor descends to word 0, the first of the two children at the same
distance; the words of the training group are `0, 0`, so that word 1 is
reached by no training descriptor: `N_1 = 0`, its weight is set to `0` by the
branch for a word that no group reaches, and its frequency is `0`. -/
theorem create_leaves_a_word_unreached (rnd : RandomSource) (fuel : Nat) (L : StdLib K)
    (A : StdAlgorithm) :
    ∃ voc' : HVocabulary K,
      (HVocabulary.init (exampleParams .TF_IDF) : HVocabulary K).Create rnd fuel L A [[1, 1]] =
        some voc' ∧
      voc'.NumberOfWords = 2 ∧
      voc'.m_nodes.map Node.shape = (exampleTwinNodes : List (Node K)).map Node.shape ∧
      (∀ pfeature : List K, voc'.TransformFeature pfeature = some 0) ∧
      trainingWordIds voc'.TransformFeature 1 [[1, 1]] = some [[0, 0]] ∧
      voc'.GetWordWeight 1 = 0 ∧ voc'.GetWordFrequency 1 = 0 ∧ voc'.GetWordFrequency 0 = 1 := by
  have harena : ArenaOk (createChildNodes [(Node.create 0 : Node K)] 0 [[1], [1]])
      ([[1, 1]] : List (List K)) := fewTree_arenaOk [[1], [1]] (by simp) _
  have hcw : CreateWords (createChildNodes [(Node.create 0 : Node K)] 0 [[1], [1]]) =
      (exampleTwinNodes, [1, 2]) := rfl
  have hlen : ∀ features ∈ ([[1, 1]] : List (List K)),
      features.length % (HVocabulary.init (exampleParams .TF_IDF) :
        HVocabulary K).m_params.DescriptorLength.toNat = 0 := by
    intro f _
    exact Nat.mod_one _
  obtain ⟨docs, fr, voc', hC, hdocs, _, hcr, hfr, hw, hbase, hshape, _, hfreq, _⟩ :=
    createWith_spec L A (HVocabulary.init (exampleParams .TF_IDF) : HVocabulary K) _
      [[1, 1]] harena (by simp) (show (0 : Int) < 1 by decide) (show (0 : Int) < 1 by decide)
      hlen
  obtain ⟨docs2, voc2, hC2, hdocs2, _, hwt⟩ :=
    createWith_weights L A (HVocabulary.init (exampleParams .TF_IDF) : HVocabulary K) _
      [[1, 1]] harena (by simp) (show (0 : Int) < 1 by decide) (show (0 : Int) < 1 by decide)
      hlen
  rw [hC] at hC2
  have hv := Option.some.inj hC2
  subst hv
  have hp := createWith_m_params L A _ voc' _ _ hC
  rw [hcw] at hshape hw hfreq
  have hshape' : voc'.m_nodes.map Node.shape =
      (exampleTwinNodes : List (Node K)).map Node.shape := by
    apply List.ext_getElem?
    intro k
    rw [List.getElem?_map, List.getElem?_map]
    exact hshape k
  have hl : voc'.m_nodes.length = 3 := by
    rw [length_of_map_shape _ _ hshape]
    rfl
  have hD : voc'.base_m_params.DescriptorLength = 1 := by
    rw [hbase]
    rfl
  have hT : ∀ pfeature : List K, voc'.TransformFeature pfeature = some 0 := by
    intro pfeature
    unfold HVocabulary.TransformFeature HVocabulary.isEmpty
    rw [hcr, hp, hl]
    simp only [Bool.not_true, Bool.false_eq_true, if_false]
    rw [descend_congr voc'.m_nodes _ hshape]
    exact example_descend_twin pfeature
  have hids : trainingWordIds voc'.TransformFeature 1 [[1, 1]] = some [[0, 0]] := by
    simp [trainingWordIds, featureSlots_one, wordIds, hT, List.range_succ]
  have hN : voc'.NumberOfWords = 2 := by
    unfold HVocabulary.NumberOfWords HVocabulary.GetNumberOfWords
    rw [hcr, hw]
    rfl
  rw [hD] at hdocs hdocs2
  have hd1 : docs = [[0, 0]] := by
    have h := hdocs
    rw [show (1 : Int).toNat = 1 from rfl, hids] at h
    exact (Option.some.inj h).symm
  have hd2 : docs2 = [[0, 0]] := by
    have h := hdocs2
    rw [show (1 : Int).toNat = 1 from rfl, hids] at h
    exact (Option.some.inj h).symm
  subst hd1 hd2
  refine ⟨voc', ?_, hN, hshape', hT, hids, ?_, ?_, ?_⟩
  · unfold HVocabulary.Create
    rw [if_pos ⟨show (0 : Int) < 1 by decide,
      List.all_eq_true.mpr (fun f hf => decide_eq_true (hlen f hf))⟩]
    have hflat : ([[1, 1]] : List (List K)).flatMap
        (fun features => featureSlots features
          (HVocabulary.init (exampleParams .TF_IDF) :
            HVocabulary K).m_params.DescriptorLength.toNat) = [[1, 1], [1]] := by
      show ([[1, 1]] : List (List K)).flatMap (fun features => featureSlots features 1) = _
      simp [featureSlots_one, List.range_succ]
    rw [hflat, hkmeansStep_few rnd fuel _ _ _ 0 [[1, 1], [1]] (by simp)
      (by show ((2 : Nat) : Int) ≤ 2; decide)]
    exact hC
  · rw [hwt 1 (by rw [hN]; decide)]
    show specWordWeight L .TF_IDF [[0, 0]] 1 = 0
    simp [specWordWeight]
  · unfold HVocabulary.GetWordFrequency
    rw [hcr, hfr]
    simp only [Bool.not_true, Bool.false_eq_true, if_false]
    rw [hfreq 1 (by show 1 < 2; decide)]
    simp
  · unfold HVocabulary.GetWordFrequency
    rw [hcr, hfr]
    simp only [Bool.not_true, Bool.false_eq_true, if_false]
    rw [hfreq 0 (by show 0 < 2; decide)]
    simp

end UnreachedWord

section EmptyCluster
variable {K : Type} [LinearOrderedField K]

theorem example_six_nearest_seeds :
    (exampleSixFeatures : List (List K)).map (nearestCluster 1 [[0], [1], [9]]) =
      [0, 1, 1, 1, 2, 2] := by
  norm_num [exampleSixFeatures, nearestCluster, example_sqDistance]

theorem example_six_centres :
    (groupsOf 3 [0, 1, 1, 1, 2, 2]).map (clusterCentre 1 (exampleSixFeatures : List (List K))) =
      [[0], [7 / 3], [15 / 2]] := by
  show [[((0 : K) + 0) / ((1 : Nat) : K)], [((0 : K) + 1 + 1 + 5) / ((3 : Nat) : K)],
    [((0 : K) + 6 + 9) / ((2 : Nat) : K)]] = _
  norm_num

theorem example_six_nearest_centres :
    (exampleSixFeatures : List (List K)).map (nearestCluster 1 [[0], [7 / 3], [15 / 2]]) =
      [0, 0, 0, 2, 2, 2] := by
  norm_num [exampleSixFeatures, nearestCluster, example_sqDistance]

theorem example_six_seeding (fuel : Nat) :
    RandomClustersPlusPlus exampleSource (fuel + 1) exampleThreeParams
      (exampleSixFeatures : List (List K)) 0 = some ([[0], [1], [9]], 3) := by
  have hk : ¬ (exampleThreeParams.k < 1) := by
    show ¬ ((3 : Int) < 1)
    decide
  have hi : exampleSource.RandomInt 0 0 ((exampleSixFeatures : List (List K)).length - 1) = 0 := by
    show 100 * (5 - 0 + 1) / (32767 + 1) + 0 = 0
    decide
  unfold RandomClustersPlusPlus
  rw [if_neg hk]
  simp only [hi]
  show plusPlusLoop exampleSource (fuel + 1) 1 (exampleSixFeatures : List (List K)) 2
    ([[0]], [true, false, false, false, false, false], 1) = _
  have hc1 : drawCut exampleSource (144 : K) (fuel + 1) 1 = some (14400 / 32767, 2) := by
    rw [drawCut]
    simp only [RandomSource.RandomValue, exampleSource]
    norm_num
  have hc2 : drawCut exampleSource (105 : K) (fuel + 1) 2 = some (105, 3) := by
    rw [drawCut]
    simp only [RandomSource.RandomValue, exampleSource]
    norm_num
  have hs1 : ([1, 2, 3, 4, 5] : List Nat).map (fun i : Nat =>
      minSqDistance 1 ([[0]] : List (List K)) ((exampleSixFeatures : List (List K)).getD i [])) =
      [1, 1, 25, 36, 81] := by
    norm_num [exampleSixFeatures, minSqDistance, example_sqDistance]
  have hs2 : ([2, 3, 4, 5] : List Nat).map (fun i : Nat =>
      minSqDistance 1 ([[0], [1]] : List (List K))
        ((exampleSixFeatures : List (List K)).getD i [])) = [0, 16, 25, 64] := by
    norm_num [exampleSixFeatures, minSqDistance, example_sqDistance]
  have hf1 : (List.range (exampleSixFeatures : List (List K)).length).filter
      (fun i : Nat => !([true, false, false, false, false, false] : List Bool).getD i false) =
      [1, 2, 3, 4, 5] := by
    show (List.range 6).filter
      (fun i : Nat => !([true, false, false, false, false, false] : List Bool).getD i false) = _
    decide
  have hf2 : (List.range (exampleSixFeatures : List (List K)).length).filter
      (fun i : Nat => !([true, true, false, false, false, false] : List Bool).getD i false) =
      [2, 3, 4, 5] := by
    show (List.range 6).filter
      (fun i : Nat => !([true, true, false, false, false, false] : List Bool).getD i false) = _
    decide
  have hp1 : cutPosition (14400 / 32767 : K) [1, 1, 25, 36, 81] 0 0 = 0 := by
    rw [cutPosition, if_pos (by norm_num)]
  have hp2 : cutPosition (105 : K) [0, 16, 25, 64] 0 0 = 3 := by
    rw [cutPosition, if_neg (by norm_num), cutPosition, if_neg (by norm_num), cutPosition,
      if_neg (by norm_num), cutPosition, if_pos (by norm_num)]
  rw [plusPlusLoop]
  simp only [hf1, hs1]
  have hsum1 : ([1, 1, 25, 36, 81] : List K).foldl (fun s x => s + x) 0 = 144 := by
    norm_num
  rw [hsum1, if_pos (by norm_num), hc1]
  simp only [hp1]
  show plusPlusLoop exampleSource (fuel + 1) 1 (exampleSixFeatures : List (List K)) 1
    ([[0], [1]], [true, true, false, false, false, false], 2) = _
  rw [plusPlusLoop]
  simp only [hf2, hs2]
  have hsum2 : ([0, 16, 25, 64] : List K).foldl (fun s x => s + x) 0 = 105 := by
    norm_num
  rw [hsum2, if_pos (by norm_num), hc2]
  simp only [hp2]
  rfl

theorem example_six_groups :
    groupsOf 3 [0, 1, 1, 1, 2, 2] = [[0], [1, 2, 3], [4, 5]] ∧
    groupsOf 3 [0, 0, 0, 2, 2, 2] = [[0, 1, 2], [], [3, 4, 5]] := by
  constructor <;> decide

/-- C39: with `k = 3`, `L = 1`, `D = 1`, the six training descriptors `0`, `1`,
`1`, `5`, `6`, `9` and a generator whose calls return `100`, `100`, `32767`
(`RAND_MAX = 32767`), `RandomClustersPlusPlus` draws the seeds `0`, `1`, `9`,
each at a positive distance from the earlier ones. The first association is
`0, 1, 1, 1, 2, 2`, in which every cluster has a feature. The second iteration
computes the centres `0`, `7/3`, `15/2` and the association `0, 0, 0, 2, 2, 2`:
cluster 1 has no feature, the association has changed, and the loop goes on
to a third iteration, where the centre of cluster 1 is the sum `0` divided by
the size `0` of its group. -/
theorem kmeans_leaves_a_cluster_empty (fuel : Nat) :
    ([[0], [1], [1], [5], [6], [9]] : List (List K)).flatMap
      (fun features => featureSlots features 1) = exampleSixFeatures ∧
    RandomClustersPlusPlus exampleSource (fuel + 2) exampleThreeParams
      (exampleSixFeatures : List (List K)) 0 = some ([[0], [1], [9]], 3) ∧
    (exampleSixFeatures : List (List K)).map (nearestCluster 1 [[0], [1], [9]]) =
      [0, 1, 1, 1, 2, 2] ∧
    groupsOf 3 [0, 1, 1, 1, 2, 2] = [[0], [1, 2, 3], [4, 5]] ∧
    (groupsOf 3 [0, 1, 1, 1, 2, 2]).map (clusterCentre 1 (exampleSixFeatures : List (List K))) =
      [[0], [7 / 3], [15 / 2]] ∧
    (exampleSixFeatures : List (List K)).map (nearestCluster 1 [[0], [7 / 3], [15 / 2]]) =
      [0, 0, 0, 2, 2, 2] ∧
    groupsOf 3 [0, 0, 0, 2, 2, 2] = [[0, 1, 2], [], [3, 4, 5]] ∧
    clusterFeatures exampleSource (fuel + 2) exampleThreeParams
        (exampleSixFeatures : List (List K)) 0 =
      (kmeansLoop 1 (exampleSixFeatures : List (List K)) 3 (fuel + 1) [0, 0, 0, 2, 2, 2]).map
        (fun r => (r.1, r.2, 3)) ∧
    clusterCentre 1 (exampleSixFeatures : List (List K))
      ((groupsOf 3 [0, 0, 0, 2, 2, 2]).getD 1 [0]) = [(0 : K) / ((0 : Nat) : K)] := by
  refine ⟨?_, example_six_seeding (fuel + 1), example_six_nearest_seeds, example_six_groups.1,
    example_six_centres, example_six_nearest_centres, example_six_groups.2, ?_, ?_⟩
  · simp [featureSlots_one, exampleSixFeatures, List.range_succ]
  · unfold clusterFeatures
    have hk : ¬ (((exampleSixFeatures : List (List K)).length : Int) ≤ exampleThreeParams.k) := by
      show ¬ (((6 : Nat) : Int) ≤ 3)
      decide
    rw [if_neg hk, example_six_seeding (fuel + 1)]
    simp only []
    show (match kmeansLoop 1 (exampleSixFeatures : List (List K)) 3 (fuel + 1 + 1)
        ((exampleSixFeatures : List (List K)).map (nearestCluster 1 [[0], [1], [9]])) with
      | none => none
      | some (clusters, groups) => some (clusters, groups, 3)) = _
    rw [example_six_nearest_seeds, kmeansLoop_succ]
    have hn : nextAssociation 1 (exampleSixFeatures : List (List K)) 3 [0, 1, 1, 1, 2, 2] =
        [0, 0, 0, 2, 2, 2] := by
      show (exampleSixFeatures : List (List K)).map (nearestCluster 1
        ((groupsOf 3 [0, 1, 1, 1, 2, 2]).map
          (clusterCentre 1 (exampleSixFeatures : List (List K))))) = _
      rw [example_six_centres, example_six_nearest_centres]
    rw [hn, if_neg (by decide)]
    cases kmeansLoop 1 (exampleSixFeatures : List (List K)) 3 (fuel + 1) [0, 0, 0, 2, 2, 2] <;> rfl
  · rw [example_six_groups.2]
    rfl

end EmptyCluster

section Seeding
variable {K : Type} [LinearOrderedField K]

theorem descriptorSqDistance_nonneg (D : Int) (v w : List K) :
    0 ≤ DescriptorSqDistance D v w := by
  rw [descriptorSqDistance_eq_sum]
  apply Finset.sum_nonneg
  intro c _
  exact mul_self_nonneg _

theorem descriptorSqDistance_take (D : Int) (f : List K) :
    DescriptorSqDistance D f (f.take D.toNat) = 0 := by
  rw [descriptorSqDistance_eq_sum]
  apply Finset.sum_eq_zero
  intro c hc
  rw [Finset.mem_range] at hc
  unfold sqDiff
  rw [List.getD_eq_getElem?_getD (f.take D.toNat), List.getElem?_take_of_lt hc,
    ← List.getD_eq_getElem?_getD]
  ring

theorem foldl_min_le (g : List K → K) (rest : List (List K)) :
    ∀ (init : K),
      rest.foldl (fun (m : K) (c : List K) => if g c < m then g c else m) init ≤ init ∧
      ∀ c ∈ rest, rest.foldl (fun (m : K) (c : List K) => if g c < m then g c else m) init ≤
        g c := by
  induction rest with
  | nil =>
    intro init
    exact ⟨le_refl _, fun c hc => absurd hc (List.not_mem_nil _)⟩
  | cons c0 rest ih =>
    intro init
    rw [List.foldl_cons]
    obtain ⟨h1, h2⟩ := ih (if g c0 < init then g c0 else init)
    have hle : (if g c0 < init then g c0 else init) ≤ init ∧
        (if g c0 < init then g c0 else init) ≤ g c0 := by
      split
      · rename_i h
        exact ⟨le_of_lt h, le_refl _⟩
      · rename_i h
        exact ⟨le_refl _, not_lt.mp h⟩
    refine ⟨le_trans h1 hle.1, ?_⟩
    intro c hc
    rcases List.mem_cons.mp hc with h | h
    · rw [h]
      exact le_trans h1 hle.2
    · exact h2 c h

/-- The distance to the nearest centre is at most the distance to each
centre. -/
theorem minSqDistance_le (D : Int) (clusters : List (List K)) (f c : List K)
    (hc : c ∈ clusters) : minSqDistance D clusters f ≤ DescriptorSqDistance D f c := by
  cases clusters with
  | nil => exact absurd hc (List.not_mem_nil _)
  | cons c0 rest =>
    obtain ⟨h1, h2⟩ := foldl_min_le (fun c => DescriptorSqDistance D f c) rest
      (DescriptorSqDistance D f c0)
    rcases List.mem_cons.mp hc with h | h
    · rw [h]
      exact h1
    · exact h2 c h

/-- The scan for `cut_d` stops, when `0 < cut_d` is at most the sum of the
distances, at a position of the vector that holds a positive distance. -/
theorem cutPosition_pos (cut : K) :
    ∀ (l : List K) (acc : K) (i : Nat), acc < cut → cut ≤ acc + l.sum →
      i ≤ cutPosition cut l acc i ∧ cutPosition cut l acc i < i + l.length ∧
      0 < l.getD (cutPosition cut l acc i - i) 0 := by
  intro l
  induction l with
  | nil =>
    intro acc i h1 h2
    rw [List.sum_nil, add_zero] at h2
    exact absurd (lt_of_lt_of_le h1 h2) (lt_irrefl _)
  | cons d rest ih =>
    intro acc i h1 h2
    rw [cutPosition]
    split
    · rename_i hge
      refine ⟨le_refl _, by simp, ?_⟩
      rw [Nat.sub_self]
      show 0 < d
      have : cut ≤ acc + d := hge
      linarith
    · rename_i hge
      have hlt : acc + d < cut := not_le.mp hge
      obtain ⟨a1, a2, a3⟩ := ih (acc + d) (i + 1) hlt (by
        rw [List.sum_cons] at h2
        linarith)
      refine ⟨by omega, by simp only [List.length_cons]; omega, ?_⟩
      have hp : cutPosition cut rest (acc + d) (i + 1) - i =
          (cutPosition cut rest (acc + d) (i + 1) - (i + 1)) + 1 := by omega
      rw [hp, List.getD_cons_succ]
      exact a3

theorem drawCut_le (rnd : RandomSource) (hr : ∀ n : Nat, rnd.rand n ≤ rnd.RAND_MAX)
    (sqd_sum : K) (hs : 0 ≤ sqd_sum) :
    ∀ (fuel n : Nat) (cut : K) (n' : Nat), drawCut rnd sqd_sum fuel n = some (cut, n') →
      cut ≤ sqd_sum := by
  intro fuel
  induction fuel with
  | zero =>
    intro n cut n' h
    rw [drawCut] at h
    exact absurd h (by simp)
  | succ fuel ih =>
    intro n cut n' h
    rw [drawCut] at h
    split at h
    · exact ih _ _ _ h
    · have hc := (Prod.mk.inj (Option.some.inj h)).1
      rw [← hc]
      unfold RandomSource.RandomValue
      rw [sub_zero, add_zero]
      have h1 : (rnd.rand n : K) / (rnd.RAND_MAX : K) ≤ 1 := by
        apply div_le_one_of_le₀
        · exact_mod_cast hr n
        · exact Nat.cast_nonneg _
      calc (rnd.rand n : K) / (rnd.RAND_MAX : K) * sqd_sum ≤ 1 * sqd_sum :=
            mul_le_mul_of_nonneg_right h1 hs
        _ = sqd_sum := one_mul _

theorem getD_map_of_lt (l : List Nat) (g : Nat → K) (p : Nat) (hp : p < l.length) :
    (l.map g).getD p 0 = g (l.getD p 0) := by
  rw [List.getD_eq_getElem?_getD, List.getD_eq_getElem?_getD, List.getElem?_map,
    List.getElem?_eq_getElem hp]
  rfl

/-- Every centre chosen so far is a feature, cut to the descriptor length, at
a positive distance from the centres chosen before it. -/
theorem plusPlusLoop_seeds (rnd : RandomSource) (hr : ∀ n : Nat, rnd.rand n ≤ rnd.RAND_MAX)
    (fuel : Nat) (D : Int) (pf : List (List K)) :
    ∀ (remaining : Nat) (st : List (List K) × List Bool × Nat) (r : List (List K) × Nat),
      plusPlusLoop rnd fuel D pf remaining st = some r →
      (∀ j : Nat, j < st.1.length → ∃ i : Nat, i < pf.length ∧
        st.1.getD j [] = (pf.getD i []).take D.toNat ∧
        ∀ j' : Nat, j' < j → 0 < DescriptorSqDistance D (pf.getD i []) (st.1.getD j' [])) →
      ∀ j : Nat, j < r.1.length → ∃ i : Nat, i < pf.length ∧
        r.1.getD j [] = (pf.getD i []).take D.toNat ∧
        ∀ j' : Nat, j' < j → 0 < DescriptorSqDistance D (pf.getD i []) (r.1.getD j' []) := by
  intro remaining
  induction remaining with
  | zero =>
    intro st r h hinv
    rw [plusPlusLoop] at h
    rw [← Option.some.inj h]
    exact hinv
  | succ remaining ih =>
    intro st r h hinv
    rw [plusPlusLoop] at h
    simp only [] at h
    generalize hI : (List.range pf.length).filter (fun i : Nat => !st.2.1.getD i false) =
      ifeatures at h
    generalize hS : ifeatures.map (fun i : Nat => minSqDistance D st.1 (pf.getD i [])) =
      sq at h
    split at h
    · rename_i hpos
      split at h
      · exact absurd h (by simp)
      · rename_i cut n2 hd
        apply ih _ r h
        have hsum : sq.foldl (fun s x => s + x) 0 = sq.sum := by
          have := foldl_add_eq_sum (fun x : K => x) sq 0
          rw [List.map_id', zero_add] at this
          exact this
        have hcpos := drawCut_pos rnd _ hpos fuel st.2.2 cut n2 hd
        have hcle := drawCut_le rnd hr _ (le_of_lt hpos) fuel st.2.2 cut n2 hd
        rw [hsum] at hcle
        obtain ⟨_, p2, p3⟩ := cutPosition_pos cut sq 0 0 hcpos (by rw [zero_add]; exact hcle)
        rw [Nat.sub_zero] at p3
        rw [Nat.zero_add] at p2
        have p2' : cutPosition cut sq 0 0 < ifeatures.length := by
          have hl : sq.length = ifeatures.length := by rw [← hS, List.length_map]
          omega
        have hall : ∀ x ∈ ifeatures, x < pf.length := by
          intro x hx
          rw [← hI] at hx
          exact List.mem_range.mp (List.mem_filter.mp hx).1
        have hlt : ifeatures.getD (cutPosition cut sq 0 0) 0 < pf.length := by
          apply hall
          rw [List.getD_eq_getElem?_getD, List.getElem?_eq_getElem p2']
          exact List.getElem_mem _
        have hmin : 0 < minSqDistance D st.1
            (pf.getD (ifeatures.getD (cutPosition cut sq 0 0) 0) []) := by
          have hsq := getD_map_of_lt ifeatures
            (fun i : Nat => minSqDistance D st.1 (pf.getD i [])) (cutPosition cut sq 0 0) p2'
          rw [hS] at hsq
          rw [hsq] at p3
          exact p3
        have hleft : ∀ (x : List K) (m : Nat), m < st.1.length →
            (st.1 ++ [x]).getD m [] = st.1.getD m [] := by
          intro x m hm
          rw [List.getD_eq_getElem?_getD, List.getD_eq_getElem?_getD,
            List.getElem?_append_left hm]
        have hlast : ∀ x : List K, (st.1 ++ [x]).getD st.1.length [] = x := by
          intro x
          rw [List.getD_eq_getElem?_getD, List.getElem?_append_right (le_refl _)]
          simp
        intro j hj
        simp only [List.length_append, List.length_singleton] at hj
        by_cases hj2 : j < st.1.length
        · obtain ⟨i, hi1, hi2, hi3⟩ := hinv j hj2
          refine ⟨i, hi1, ?_, ?_⟩
          · rw [hleft _ j hj2]
            exact hi2
          · intro j' hj'
            rw [hleft _ j' (by omega)]
            exact hi3 j' hj'
        · have hje : j = st.1.length := by omega
          subst hje
          refine ⟨_, hlt, hlast _, ?_⟩
          intro j' hj'
          rw [hleft _ j' hj']
          apply lt_of_lt_of_le hmin (minSqDistance_le D st.1 _ _ _)
          rw [List.getD_eq_getElem?_getD, List.getElem?_eq_getElem hj']
          exact List.getElem_mem _
    · rw [← Option.some.inj h]
      exact hinv

theorem randomInt_lt (rnd : RandomSource) (hr : ∀ n : Nat, rnd.rand n ≤ rnd.RAND_MAX)
    (n len : Nat) (hlen : 0 < len) : rnd.RandomInt n 0 (len - 1) < len := by
  unfold RandomSource.RandomInt
  have h := hr n
  rw [Nat.add_zero, Nat.sub_zero, Nat.sub_add_cancel hlen]
  apply Nat.div_lt_of_lt_mul
  calc rnd.rand n * len < (rnd.RAND_MAX + 1) * len :=
        Nat.mul_lt_mul_of_lt_of_le (by omega) (le_refl _) hlen

/-- The seeds of `RandomClustersPlusPlus`, for a generator with
`rand() ≤ RAND_MAX`: every seed is a feature at a positive distance from the
seeds chosen before it, and the first association of `HKMeansStep` gives the
seed to its own cluster, so that no cluster is empty after it. -/
theorem first_association_nonempty (rnd : RandomSource)
    (hr : ∀ n : Nat, rnd.rand n ≤ rnd.RAND_MAX) (fuel : Nat) (params : HVocParams)
    (pf : List (List K)) (hne : pf ≠ []) (n : Nat) (r : List (List K) × Nat)
    (h : RandomClustersPlusPlus rnd fuel params pf n = some r) :
    (∀ j : Nat, j < r.1.length → ∃ i : Nat, i < pf.length ∧
      r.1.getD j [] = (pf.getD i []).take params.DescriptorLength.toNat ∧
      (∀ j' : Nat, j' < j →
        0 < DescriptorSqDistance params.DescriptorLength (pf.getD i []) (r.1.getD j' [])) ∧
      nearestCluster params.DescriptorLength r.1 (pf.getD i []) = j) ∧
    ∀ j : Nat, j < r.1.length →
      (groupsOf r.1.length (pf.map (nearestCluster params.DescriptorLength r.1))).getD j []
        ≠ [] := by
  have hlen : 0 < pf.length := List.length_pos.mpr hne
  unfold RandomClustersPlusPlus at h
  split at h
  · exact absurd h (by simp)
  · have hseeds := plusPlusLoop_seeds rnd hr fuel params.DescriptorLength pf _ _ r h (by
      intro j hj
      simp only [List.length_singleton] at hj
      have hj0 : j = 0 := by omega
      subst hj0
      exact ⟨_, randomInt_lt rnd hr n pf.length hlen, rfl, fun j' hj' => absurd hj' (by omega)⟩)
    have hnear : ∀ j : Nat, j < r.1.length → ∃ i : Nat, i < pf.length ∧
        r.1.getD j [] = (pf.getD i []).take params.DescriptorLength.toNat ∧
        (∀ j' : Nat, j' < j →
          0 < DescriptorSqDistance params.DescriptorLength (pf.getD i []) (r.1.getD j' [])) ∧
        nearestCluster params.DescriptorLength r.1 (pf.getD i []) = j := by
      intro j hj
      obtain ⟨i, hi1, hi2, hi3⟩ := hseeds j hj
      refine ⟨i, hi1, hi2, hi3, ?_⟩
      have hC : r.1 ≠ [] := by
        intro hnil
        rw [hnil] at hj
        exact absurd hj (by simp)
      obtain ⟨s1, s2, s3⟩ := nearestCluster_spec params.DescriptorLength r.1 hC (pf.getD i [])
      have hzero : DescriptorSqDistance params.DescriptorLength (pf.getD i []) (r.1.getD j []) =
          0 := by
        rw [hi2]
        exact descriptorSqDistance_take _ _
      have hm0 := s2 j hj
      rw [hzero] at hm0
      have hm : DescriptorSqDistance params.DescriptorLength (pf.getD i [])
          (r.1.getD (nearestCluster params.DescriptorLength r.1 (pf.getD i [])) []) = 0 :=
        le_antisymm hm0 (descriptorSqDistance_nonneg _ _ _)
      rcases Nat.lt_trichotomy (nearestCluster params.DescriptorLength r.1 (pf.getD i [])) j
        with hlt | heq | hgt
      · have := hi3 _ hlt
        rw [hm] at this
        exact absurd this (lt_irrefl _)
      · exact heq
      · have := s3 j hgt
        rw [hm, hzero] at this
        exact absurd this (lt_irrefl _)
    refine ⟨hnear, ?_⟩
    intro j hj
    obtain ⟨i, hi1, _, _, hi4⟩ := hnear j hj
    rw [getD_groupsOf _ _ j hj]
    apply List.ne_nil_of_mem (a := i)
    rw [List.mem_filter, List.mem_range, List.length_map]
    refine ⟨hi1, ?_⟩
    rw [List.getD_eq_getElem?_getD, List.getElem?_map, List.getElem?_eq_getElem hi1]
    simp only [Option.map_some', Option.getD_some, decide_eq_true_eq]
    rw [← hi4]
    congr 1
    rw [List.getD_eq_getElem?_getD, List.getElem?_eq_getElem hi1]
    rfl

end Seeding

/-! ## Double precision: the model, and the scores that are not numbers -/

section DoubleModel

theorem bitLengthLoop_spec : ∀ (fuel n : Nat), n ≤ fuel →
    n < 2 ^ bitLengthLoop fuel n ∧ (n ≠ 0 → 2 ^ (bitLengthLoop fuel n - 1) ≤ n) := by
  intro fuel
  induction fuel with
  | zero =>
    intro n h
    have : n = 0 := by omega
    subst this
    simp [bitLengthLoop]
  | succ fuel ih =>
    intro n h
    unfold bitLengthLoop
    by_cases h0 : n = 0
    · simp [h0]
    · rw [if_neg h0]
      obtain ⟨h1, h2⟩ := ih (n / 2) (by omega)
      constructor
      · rw [pow_succ]
        omega
      · intro _
        rw [Nat.add_sub_cancel]
        by_cases h3 : n / 2 = 0
        · have hb : bitLengthLoop fuel (n / 2) = 0 := by
            rw [h3]
            cases fuel <;> simp [bitLengthLoop]
          rw [hb]
          simp
          omega
        · have h4 := h2 h3
          have hpos : 0 < bitLengthLoop fuel (n / 2) := by
            by_contra hc
            have hz : bitLengthLoop fuel (n / 2) = 0 := by omega
            rw [hz] at h1
            simp at h1
            exact h3 h1
          have : bitLengthLoop fuel (n / 2) = (bitLengthLoop fuel (n / 2) - 1) + 1 := by omega
          rw [this, pow_succ]
          omega

/-- The number of digits: `2^(bitLength n - 1) ≤ n < 2^(bitLength n)` for `n > 0`. -/
theorem bitLength_spec (n : Nat) :
    n < 2 ^ bitLength n ∧ (n ≠ 0 → 2 ^ (bitLength n - 1) ≤ n) :=
  bitLengthLoop_spec n n (le_refl n)

theorem isqrtLoop_spec (n : Nat) : ∀ (i r : Nat), r * r ≤ n → n < (r + 2 ^ i) * (r + 2 ^ i) →
    isqrtLoop n i r * isqrtLoop n i r ≤ n ∧
    n < (isqrtLoop n i r + 1) * (isqrtLoop n i r + 1) := by
  intro i
  induction i with
  | zero =>
    intro r h1 h2
    simpa [isqrtLoop] using ⟨h1, h2⟩
  | succ i ih =>
    intro r h1 h2
    unfold isqrtLoop
    split
    · rename_i hle
      refine ih _ hle ?_
      have : r + 2 ^ i + 2 ^ i = r + 2 ^ (i + 1) := by rw [pow_succ]; omega
      rw [this]
      exact h2
    · rename_i hnle
      exact ih r h1 (by omega)

/-- The integer square root is the largest `r` with `r * r ≤ n`. -/
theorem isqrt_spec (n : Nat) :
    isqrt n * isqrt n ≤ n ∧ n < (isqrt n + 1) * (isqrt n + 1) := by
  unfold isqrt
  refine isqrtLoop_spec n _ 0 (Nat.zero_le _) ?_
  rw [Nat.zero_add, ← pow_add]
  have h := (bitLength_spec n).1
  refine lt_of_lt_of_le h (Nat.pow_le_pow_right (by norm_num) ?_)
  omega

/-- The search ends within its fuel: with at least `hi - lo + 1` units the
result is that of any larger fuel, and `Binary64.scoreStep` supplies one more
than the number of entries. -/
theorem binary64_binarySearch_fuel (b : BowVector Double) (id : Nat) :
    ∀ (fuel extra : Nat) (lo hi : Int), (hi - lo + 1).toNat ≤ fuel →
      Binary64.binarySearch b id (fuel + extra) lo hi = Binary64.binarySearch b id fuel lo hi := by
  intro fuel
  induction fuel with
  | zero =>
    intro extra lo hi h
    have hlt : ¬ lo ≤ hi := by omega
    cases extra with
    | zero => rfl
    | succ e =>
      rw [Nat.zero_add]
      unfold Binary64.binarySearch
      rw [if_neg hlt]
  | succ fuel ih =>
    intro extra lo hi h
    rw [show fuel + 1 + extra = (fuel + extra) + 1 by omega]
    unfold Binary64.binarySearch
    by_cases hle : lo ≤ hi
    · rw [if_pos hle, if_pos hle]
      simp only []
      cases b[((lo + hi) / 2).toNat]? with
      | none => rfl
      | some e =>
        simp only []
        split
        · rfl
        · split
          · exact ih extra lo ((lo + hi) / 2 - 1) (by omega)
          · exact ih extra ((lo + hi) / 2 + 1) hi (by omega)
    · rw [if_neg hle, if_neg hle]

end DoubleModel

section DoubleTraces

set_option maxRecDepth 8000

/-- Known values of binary64 arithmetic, computed by the model: `1/10` is
`0x1.999999999999ap-4`; `0.1 + 0.2` is `0.30000000000000004`, not the double
`0.3`; `0.1 * 0.1` is `0.010000000000000002`; `1 - 0.9` is
`0.09999999999999998`; `1/3` is `0x1.5555555555555p-2`; `sqrt(2)` is
`0x1.6a09e667f3bcdp+0`; `0/0` and `sqrt(-1)` are NaN; `1/0` is `+∞`; half of
the least positive double `2^-1074` rounds to zero. -/
theorem double_known_values :
    (1 / 10 : Double) = Double.finite false 3602879701896397 (-55) ∧
    (1 / 10 + 2 / 10 : Double) = Double.finite false 1351079888211149 (-52) ∧
    (3 / 10 : Double) = Double.finite false 5404319552844595 (-54) ∧
    (1 / 10 * (1 / 10) : Double) = Double.finite false 1441151880758559 (-57) ∧
    (1 - 9 / 10 : Double) = Double.finite false 900719925474099 (-53) ∧
    (1 / 3 : Double) = Double.finite false 6004799503160661 (-54) ∧
    Double.sqrt 2 = Double.finite false 6369051672525773 (-52) ∧
    (0 / 0 : Double) = Double.nan ∧
    Double.sqrt (-1) = Double.nan ∧
    (1 / 0 : Double) = Double.inf false ∧
    Double.finite false 1 (-1074) / 2 = Double.finite false 0 0 := by
  decide

theorem binary64_scoreStep_log (log log' : Double → Double) (scoring : ScoringType)
    (h : scoring ≠ .KL) (b : BowVector Double) :
    Binary64.scoreStep log scoring b = Binary64.scoreStep log' scoring b := by
  funext st ita
  cases scoring <;> first | exact absurd rfl h | rfl

theorem binary64_score_log (log log' : Double → Double) (voc : Vocabulary)
    (h : voc.m_params.Scoring ≠ .KL) (v w : BowVector Double) :
    Binary64.Score log voc v w = Binary64.Score log' voc v w := by
  unfold Binary64.Score Binary64.scoreLoop
  simp only [binary64_scoreStep_log log log' _ h]

/-- C6: in double precision the L2 self-score is not `1` or `0`. For
`a = [(0, 0.1), (1, 1.0)]` the sum of the squares of the normalised values is
rounded to `1 + 2^-52`, so `Vocabulary::Score(a, a)` takes the square root of
a negative number and is NaN, with `ScaleScore` on and off. For
`a = [(0, 0.5), (1, 0.5)]` the sum is rounded to `1 - 2^-52` and the score is
`67108863 * 2^-26 = 0.99999998...` scaled and
`6369051672525773 * 2^-78 = 2.1...e-8` unscaled. Whatever `log` is. -/
theorem score_L2_self_is_nan (log : Double → Double) :
    Binary64.Score log (exampleVoc 2 .L2_NORM true) exampleTenthOne exampleTenthOne
      = Double.nan ∧
    Binary64.Score log (exampleVoc 2 .L2_NORM false) exampleTenthOne exampleTenthOne
      = Double.nan ∧
    Binary64.Score log (exampleVoc 2 .L2_NORM true) exampleHalfHalf exampleHalfHalf
      = Double.finite false 67108863 (-26) ∧
    Binary64.Score log (exampleVoc 2 .L2_NORM false) exampleHalfHalf exampleHalfHalf
      = Double.finite false 6369051672525773 (-78) := by
  have h1 : (exampleVoc 2 .L2_NORM true).m_params.Scoring ≠ .KL := by decide
  have h2 : (exampleVoc 2 .L2_NORM false).m_params.Scoring ≠ .KL := by decide
  rw [binary64_score_log log Double.neg _ h1, binary64_score_log log Double.neg _ h2,
    binary64_score_log log Double.neg _ h1, binary64_score_log log Double.neg _ h2]
  decide

theorem double_le_nan_left (x : Double) : Double.le .nan x = false := by
  cases x <;> rfl

theorem double_le_nan_right (x : Double) : Double.le x .nan = false := by
  cases x <;> rfl

theorem double_add_nan_left (x : Double) : Double.nan + x = Double.nan := by
  cases x <;> rfl

theorem double_add_nan_right (x : Double) : x + Double.nan = Double.nan := by
  cases x <;> rfl

theorem double_mul_nan_right (x : Double) : x * Double.nan = Double.nan := by
  cases x <;> rfl

/-- A list of two or more results one of which has the score NaN is ordered
in neither direction. -/
theorem binary64_unordered_of_nan (l : List (Result Double)) (hlen : 2 ≤ l.length)
    (r : Result Double) (hr : r ∈ l) (hnan : r.Score = Double.nan) :
    ¬ Binary64.NonDecreasing l ∧ ¬ Binary64.NonIncreasing l := by
  obtain ⟨i, hi, rfl⟩ := List.getElem_of_mem hr
  have key : ∀ j : Nat, ∀ hj : j < l.length, j ≠ i →
      ¬ Binary64.NonDecreasing l ∧ ¬ Binary64.NonIncreasing l := by
    intro j hj hne
    rcases Nat.lt_or_gt_of_ne hne with hlt | hgt
    · constructor
      · intro h
        have := (List.pairwise_iff_getElem.mp h) j i hj hi hlt
        rw [hnan, double_le_nan_right] at this
        exact Bool.false_ne_true this
      · intro h
        have := (List.pairwise_iff_getElem.mp h) j i hj hi hlt
        rw [hnan, double_le_nan_left] at this
        exact Bool.false_ne_true this
    · constructor
      · intro h
        have := (List.pairwise_iff_getElem.mp h) i j hi hj hgt
        rw [hnan, double_le_nan_left] at this
        exact Bool.false_ne_true this
      · intro h
        have := (List.pairwise_iff_getElem.mp h) i j hi hj hgt
        rw [hnan, double_le_nan_right] at this
        exact Bool.false_ne_true this
  by_cases h0 : i = 0
  · exact key 1 (by omega) (by omega)
  · exact key 0 (by omega) (fun h => h0 h.symm)

theorem binary64_cut_of_length_le (l : List (Result Double)) (n : Nat) (h : l.length ≤ n) :
    Binary64.cut l n = l := by
  unfold Binary64.cut
  rw [if_neg (by omega)]

theorem binary64_length_mapScore (g : Double → Double) (l : List (Result Double)) :
    (Binary64.mapScore g l).length = l.length := by
  simp [Binary64.mapScore]

theorem binary64_mem_mapScore (g : Double → Double) (l : List (Result Double))
    (r : Result Double) (hr : r ∈ l) : ⟨r.Id, g r.Score⟩ ∈ Binary64.mapScore g l := by
  unfold Binary64.mapScore
  exact List.mem_map.mpr ⟨r, hr, rfl⟩

/-- What a sort that only rearranges leaves of an accumulated list of two
results, one of score NaN, is ordered in neither direction once the scores
are completed by a function that keeps NaN. -/
theorem binary64_query_unordered (sort : Binary64.Sort)
    (hsort : Binary64.Rearranges sort) (lt : Result Double → Result Double → Bool)
    (g : Double → Double) (acc : List (Result Double)) (hlen : acc.length = 2)
    (r : Result Double) (hr : r ∈ acc) (hnan : g r.Score = Double.nan) :
    ¬ Binary64.NonDecreasing (Binary64.mapScore g (Binary64.cut (sort lt acc) 2)) ∧
    ¬ Binary64.NonIncreasing (Binary64.mapScore g (Binary64.cut (sort lt acc) 2)) := by
  have hp := hsort lt acc
  have hl : (sort lt acc).length = 2 := by rw [hp.length_eq, hlen]
  rw [binary64_cut_of_length_le _ _ (by omega)]
  exact binary64_unordered_of_nan _ (by rw [binary64_length_mapScore, hl]) ⟨r.Id, g r.Score⟩
    (binary64_mem_mapScore g _ r (hp.mem_iff.mpr hr)) hnan


theorem example_tenthOne_accumulated (scale : Bool) :
    Binary64.accumulateRows (fun qvalue dvalue => -(qvalue * dvalue))
      (Binary64.filled (exampleVoc 2 .L2_NORM scale) [exampleTenthOne]).m_index
      (Binary64.normalizeFor .L2_NORM exampleTenthOne) =
      [⟨0, Double.finite true 4503599627370497 (-52)⟩] := by
  cases scale <;> decide

/-- C7: in double precision, under L2 scoring, the database that holds only
the entry added from `v = [(0, 0.1), (1, 1.0)]` answers `Query(v, 1)` with one
result of id `0` whose score is NaN, with `ScaleScore` on and off, not the
self-score `1` or `0`: the accumulated score is `-(1 + 2^-52)`, below `-1`, and
`doQueryL2` takes the square root of `1 + s`, or of `2 + 2s`. For every `log`
and every sort that rearranges its input. -/
theorem query_single_entry_L2_is_nan (log : Double → Double) (sort : Binary64.Sort)
    (hsort : Binary64.Rearranges sort) :
    Binary64._Query log sort (Binary64.filled (exampleVoc 2 .L2_NORM true) [exampleTenthOne])
      exampleTenthOne 1 = [⟨0, Double.nan⟩] ∧
    Binary64._Query log sort (Binary64.filled (exampleVoc 2 .L2_NORM false) [exampleTenthOne])
      exampleTenthOne 1 = [⟨0, Double.nan⟩] := by
  have hs : ∀ lt r, sort lt [r] = [r] := fun lt r => List.perm_singleton.mp (hsort lt [r])
  constructor
  · show Binary64.mapScore (fun s => 1 - Double.sqrt (1 + s)) (Binary64.cut (sort Binary64.lt
      (Binary64.accumulateRows (fun qvalue dvalue => -(qvalue * dvalue))
        (Binary64.filled (exampleVoc 2 .L2_NORM true) [exampleTenthOne]).m_index
        (Binary64.normalizeFor .L2_NORM exampleTenthOne))) 1) = _
    rw [example_tenthOne_accumulated, hs]
    decide
  · show Binary64.mapScore (fun s => Double.sqrt (2 + 2 * s)) (Binary64.cut (sort Binary64.lt
      (Binary64.accumulateRows (fun qvalue dvalue => -(qvalue * dvalue))
        (Binary64.filled (exampleVoc 2 .L2_NORM false) [exampleTenthOne]).m_index
        (Binary64.normalizeFor .L2_NORM exampleTenthOne))) 1) = _
    rw [example_tenthOne_accumulated, hs]
    decide

/-- Witness for C7: merge sort rearranges its input; `log`, which L2 scoring
does not call, is the identity here. -/
theorem query_single_entry_L2_is_nan_witness :
    Binary64.Rearranges (fun lt l => l.mergeSort (fun a b => !lt b a)) ∧
    Binary64._Query (fun x => x) (fun lt l => l.mergeSort (fun a b => !lt b a))
      (Binary64.filled (exampleVoc 2 .L2_NORM true) [exampleTenthOne])
      exampleTenthOne 1 = [⟨0, Double.nan⟩] :=
  ⟨fun _ _ => List.mergeSort_perm _ _,
    (query_single_entry_L2_is_nan (fun x => x) (fun lt l => l.mergeSort (fun a b => !lt b a))
      (fun _ _ => List.mergeSort_perm _ _)).1⟩


theorem binary64_sorted_unordered (sort : Binary64.Sort)
    (hsort : Binary64.Rearranges sort) (lt : Result Double → Result Double → Bool)
    (acc : List (Result Double)) (hlen : acc.length = 2)
    (r : Result Double) (hr : r ∈ acc) (hnan : r.Score = Double.nan) :
    ¬ Binary64.NonDecreasing (Binary64.cut (sort lt acc) 2) ∧
    ¬ Binary64.NonIncreasing (Binary64.cut (sort lt acc) 2) := by
  have hp := hsort lt acc
  have hl : (sort lt acc).length = 2 := by rw [hp.length_eq, hlen]
  rw [binary64_cut_of_length_le _ _ (by omega)]
  exact binary64_unordered_of_nan _ (by rw [hl]) r (hp.mem_iff.mpr hr) hnan

theorem example_chiSquare_accumulated (scale : Bool) :
    Binary64.accumulateRows (fun vi wi => (vi - wi) * (vi - wi) / (vi + wi) - vi - wi)
      (Binary64.filled (exampleVoc 2 .CHI_SQUARE scale) [exampleZeroOne, exampleSecondWord]).m_index
      (Binary64.normalizeFor .CHI_SQUARE exampleZeroOne) =
      [⟨0, Double.nan⟩, ⟨1, Double.finite true 1 1⟩] := by
  cases scale <;> decide

theorem example_L2_accumulated (scale : Bool) :
    Binary64.accumulateRows (fun qvalue dvalue => -(qvalue * dvalue))
      (Binary64.filled (exampleVoc 2 .L2_NORM scale) [exampleTenthOne, exampleSecondWord]).m_index
      (Binary64.normalizeFor .L2_NORM exampleTenthOne) =
      [⟨0, Double.finite true 4503599627370497 (-52)⟩,
        ⟨1, Double.finite true 4481249119049493 (-52)⟩] := by
  cases scale <;> decide

theorem example_bhattacharyya_accumulated :
    Binary64.accumulateRows (fun vi wi => Double.sqrt (vi * wi))
      (Binary64.filled (exampleVoc 2 .BHATTACHARYYA true)
        [exampleMinusOneTwo, exampleSecondWord]).m_index
      (Binary64.normalizeFor .BHATTACHARYYA exampleHalfHalf) =
      [⟨0, Double.nan⟩, ⟨1, Double.finite false 6369051672525773 (-53)⟩] := by
  decide

theorem example_KL_accumulated (log : Double → Double) (hlog : log Double.nan = Double.nan) :
    ∃ x y : Double,
    Binary64.accumulateRows (fun vi wi => vi * log (vi / wi))
      (Binary64.filled (exampleVoc 2 .KL false) [exampleZeroOne, exampleSecondWord]).m_index
      (Binary64.normalizeFor .KL exampleZeroOne) = [⟨0, Double.nan + x⟩, ⟨1, y⟩] := by
  have hidx : (Binary64.filled (exampleVoc 2 .KL false)
      [exampleZeroOne, exampleSecondWord]).m_index =
      [[⟨0, Double.finite false 0 0⟩],
        [⟨0, Double.finite false 1 0⟩, ⟨1, Double.finite false 1 0⟩]] := by decide
  have hq : Binary64.normalizeFor .KL exampleZeroOne =
      [⟨0, Double.finite false 0 0⟩, ⟨1, Double.finite false 1 0⟩] := by decide
  have h00 : Double.finite false 0 0 / Double.finite false 0 0 = Double.nan := by decide
  rw [hidx, hq]
  refine ⟨Double.finite false 1 0 * log (Double.finite false 1 0 / Double.finite false 1 0),
    Double.finite false 1 0 * log (Double.finite false 1 0 / Double.finite false 1 0), ?_⟩
  have : Binary64.accumulateRows (fun vi wi => vi * log (vi / wi))
      [[⟨0, Double.finite false 0 0⟩],
        [⟨0, Double.finite false 1 0⟩, ⟨1, Double.finite false 1 0⟩]]
      [⟨0, Double.finite false 0 0⟩, ⟨1, Double.finite false 1 0⟩] =
      [⟨0, Double.finite false 0 0 * log (Double.finite false 0 0 / Double.finite false 0 0) +
          Double.finite false 1 0 * log (Double.finite false 1 0 / Double.finite false 1 0)⟩,
        ⟨1, Double.finite false 1 0 * log (Double.finite false 1 0 / Double.finite false 1 0)⟩] :=
    rfl
  rw [this, h00, hlog, double_mul_nan_right]

end DoubleTraces

end DBow
